import Mathlib

/-!
# PL/0 front end: parser, constant folding and semantic analyzer

A shallow embedding of the C++ sources `Token.h`, `AST.h`, `AST.cpp`,
`TokenInterpreter.cpp`, `Parser.cpp` and `SemanticAnalyzer.cpp`, followed by
the properties proved about them.

Modelling conventions.

* `int64_t` values are `Int`; the results of `+`, `-`, `*` and unary `-` are
  reduced modulo `2^64` into the signed range (`wrap64`).  The one quotient that
  does not fit, `INT64_MIN / -1`, has no result at all (the division faults);
  it is the outcome `FoldResult.trap`.
* `size_t` counters (`current_level_`, `var_index_`) are `Nat`: they count
  nodes of the tree, which cannot reach `2^64`.
* A `std::unique_ptr<Statement>` may be null; the constructor
  `Statement.nullptr` is the null pointer.  Dereferencing it has no defined
  behaviour, so the analyzer's visits return `Option`: `none` is "no defined
  result".
* The parser reads its tokenizer only through `peekToken`, `nextToken`, `line`
  and `column`; it is given the tokenizer as the sequence of tokens those calls
  deliver (`TokenStream`), which `TokenInterpreter.stream` computes from a text.
* C++ exceptions are the `thrown` outcome of `Result`.
* Recursive descent is structural recursion on a fuel argument; `outOfFuel`
  is the outcome of a run that was given too little.
-/

namespace pl0

/-! ## Token.h -/

/-- The enumeration `TokenType`, in declaration order. -/
inductive TokenType where
  | CONST | VAR | PROCEDURE | CALL | BEGIN | END | IF | THEN | WHILE | DO | ODD
  | PLUS | MINUS | MULTIPLY | DIVIDE | POWER | EQ | NEQ | LT | LTE | GT | GTE
  | LPAREN | RPAREN | COMMA | SEMICOLON | PERIOD | ASSIGN
  | IDENTIFIER | NUMBER | END_OF_FILE | ERROR
deriving DecidableEq, Repr

/-- The value of `static_cast<int>(type)`: the position in the enumeration. -/
def TokenType.toInt : TokenType → Nat
  | .CONST => 0 | .VAR => 1 | .PROCEDURE => 2 | .CALL => 3 | .BEGIN => 4
  | .END => 5 | .IF => 6 | .THEN => 7 | .WHILE => 8 | .DO => 9 | .ODD => 10
  | .PLUS => 11 | .MINUS => 12 | .MULTIPLY => 13 | .DIVIDE => 14 | .POWER => 15
  | .EQ => 16 | .NEQ => 17 | .LT => 18 | .LTE => 19 | .GT => 20 | .GTE => 21
  | .LPAREN => 22 | .RPAREN => 23 | .COMMA => 24 | .SEMICOLON => 25
  | .PERIOD => 26 | .ASSIGN => 27
  | .IDENTIFIER => 28 | .NUMBER => 29 | .END_OF_FILE => 30 | .ERROR => 31

/-- The payload `std::variant<std::monostate, std::string_view, int64_t>`. -/
inductive TokenValue where
  | monostate
  | text (s : String)
  | int (v : Int)
deriving DecidableEq, Repr

/-- The class `Token`: a type and a payload. -/
structure Token where
  type : TokenType
  value : TokenValue
deriving DecidableEq, Repr

/-- The constructor `Token(TokenType type)`: no payload. -/
def Token.ofType (t : TokenType) : Token := ⟨t, .monostate⟩

/-- The accessor `value<int64_t>()`; `none` is `throw std::bad_variant_access()`. -/
def Token.valueInt (t : Token) : Option Int :=
  match t.value with
  | .int v => some v
  | _ => none

/-- The accessor `value<std::string_view>()`; `none` is `throw std::bad_variant_access()`. -/
def Token.valueText (t : Token) : Option String :=
  match t.value with
  | .text s => some s
  | _ => none

/-! ## AST.h, AST.cpp -/

/-- The enumeration `BinaryExpression::Op`. -/
inductive BinaryOp where
  | Add | Sub | Mul | Div | Pow | Eq | Neq | Lt | Lte | Gt | Gte
deriving DecidableEq, Repr

/-- The enumeration `UnaryExpression::Op`. -/
inductive UnaryOp where
  | Neg | Not
deriving DecidableEq, Repr

/-- The classes derived from `Expression`. -/
inductive Expression where
  | BinaryExpression (left : Expression) (op : BinaryOp) (right : Expression)
  | UnaryExpression (op : UnaryOp) (operand : Expression)
  | NumberExpression (value : Int)
  | IdentifierExpression (name : String)
deriving DecidableEq, Repr

/-- A `std::unique_ptr<Statement>`: null, or one of the classes derived from `Statement`. -/
inductive Statement where
  | nullptr
  | AssignStatement (name : String) (expr : Expression)
  | CallStatement (proc_name : String)
  | BeginStatement (statements : List Statement)
  | IfStatement (condition : Expression) (then_stmt : Statement)
  | WhileStatement (condition : Expression) (body : Statement)
deriving Repr

/-- The class `ConstDeclaration`. -/
structure ConstDeclaration where
  name : String
  value : Int
deriving DecidableEq, Repr

/-- The class `VarDeclaration`. -/
structure VarDeclaration where
  name : String
deriving DecidableEq, Repr

mutual
/-- The class `Block`. -/
inductive Block where
  | mk (consts : List ConstDeclaration) (vars : List VarDeclaration)
      (procedures : List ProcedureDeclaration) (statement : Statement)
/-- The class `ProcedureDeclaration`. -/
inductive ProcedureDeclaration where
  | mk (name : String) (block : Block)
end

/-- The class `Program`. -/
structure Program where
  block : Block

/-- The test `dynamic_cast<BeginStatement *>(stmt.get())`. -/
def Statement.isBegin : Statement → Bool
  | .BeginStatement _ => true
  | _ => false

/-- The test `if (stmt)` on a `unique_ptr`: is the pointer non-null. -/
def Statement.isPresent : Statement → Bool
  | .nullptr => false
  | _ => true

/-- The smallest `int64_t`. -/
def INT64_MIN : Int := -(2 ^ 63)

/-- The largest `int64_t`. -/
def INT64_MAX : Int := 2 ^ 63 - 1

/-- Reduction of an integer into the `int64_t` range modulo `2^64`. -/
def wrap64 (x : Int) : Int := (x + 2 ^ 63) % 2 ^ 64 - 2 ^ 63

/-- Outcome of `evaluateConstant`: a `std::optional<int64_t>`, or no defined result. -/
inductive FoldResult where
  | trap
  | nullopt
  | value (v : Int)
deriving DecidableEq, Repr

/-- The loop `for (i = 0; i < right_val; ++i) result *= left_val`, run `n` times. -/
def powLoop (left_val : Int) : Nat → Int → Int
  | 0, result => result
  | n + 1, result => powLoop left_val n (wrap64 (result * left_val))

/-- Conversion of a `bool` to `int64_t`. -/
def boolToInt (b : Bool) : Int := if b then 1 else 0

/-- The `switch (op_)` of `BinaryExpression::evaluateConstant` on two folded operands. -/
def evalBinaryOp (op : BinaryOp) (left_val right_val : Int) : FoldResult :=
  match op with
  | .Add => .value (wrap64 (left_val + right_val))
  | .Sub => .value (wrap64 (left_val - right_val))
  | .Mul => .value (wrap64 (left_val * right_val))
  | .Div =>
    if right_val = 0 then .nullopt
    else if left_val = INT64_MIN ∧ right_val = -1 then .trap
    else .value (Int.tdiv left_val right_val)
  | .Pow =>
    if right_val < 0 then .nullopt
    else .value (powLoop left_val right_val.toNat 1)
  | .Eq => .value (boolToInt (decide (left_val = right_val)))
  | .Neq => .value (boolToInt (decide (left_val ≠ right_val)))
  | .Lt => .value (boolToInt (decide (left_val < right_val)))
  | .Lte => .value (boolToInt (decide (left_val ≤ right_val)))
  | .Gt => .value (boolToInt (decide (left_val > right_val)))
  | .Gte => .value (boolToInt (decide (left_val ≥ right_val)))

/-- The `switch (op_)` of `UnaryExpression::evaluateConstant`. -/
def evalUnaryOp (op : UnaryOp) (val : Int) : FoldResult :=
  match op with
  | .Neg => .value (wrap64 (-val))
  | .Not => .value (boolToInt (decide (val = 0)))

/-- The virtual method `Expression::evaluateConstant`. -/
def Expression.evaluateConstant : Expression → FoldResult
  | .BinaryExpression left op right =>
    match left.evaluateConstant, right.evaluateConstant with
    | .trap, _ => .trap
    | _, .trap => .trap
    | .value left_val, .value right_val => evalBinaryOp op left_val right_val
    | _, _ => .nullopt
  | .UnaryExpression op operand =>
    match operand.evaluateConstant with
    | .trap => .trap
    | .nullopt => .nullopt
    | .value val => evalUnaryOp op val
  | .NumberExpression value => .value value
  | .IdentifierExpression _ => .nullopt

/-- The virtual method `Expression::isConstant`. -/
def Expression.isConstant : Expression → Bool
  | .BinaryExpression left _ right => left.isConstant && right.isConstant
  | .UnaryExpression _ operand => operand.isConstant
  | .NumberExpression _ => true
  | .IdentifierExpression _ => false

/-! ## SemanticAnalyzer.h, SemanticAnalyzer.cpp -/

/-- The enumeration `SymbolType`. -/
inductive SymbolType where
  | Constant | Variable | Procedure
deriving DecidableEq, Repr

/-- The struct `Symbol`. -/
structure Symbol where
  type : SymbolType
  value : Option Int
  level : Nat
  index : Nat
deriving DecidableEq, Repr

/-- One scope table, a `std::unordered_map<std::string_view, Symbol>`, as an
association list with at most one entry per key. -/
abbrev SymbolTable := List (String × Symbol)

/-- The member `find` of the map: the entry stored under `name`, if any. -/
def SymbolTable.find (t : SymbolTable) (name : String) : Option Symbol :=
  match t with
  | [] => none
  | (k, v) :: rest => if k = name then some v else SymbolTable.find rest name

/-- The member `contains` of the map. -/
def SymbolTable.contains (t : SymbolTable) (name : String) : Bool :=
  (SymbolTable.find t name).isSome

/-- The member `emplace` of the map: a key already present is left alone. -/
def SymbolTable.emplace (t : SymbolTable) (name : String) (symbol : Symbol) : SymbolTable :=
  if SymbolTable.contains t name then t else (name, symbol) :: t

/-- The data members of the class `SemanticAnalyzer`.  The vector
`symbol_tables_` is kept as a stack: the head of the list is `back()`, the
innermost scope. -/
structure SemanticAnalyzer where
  symbol_tables_ : List SymbolTable
  current_level_ : Nat
  errors_ : List String
  info_ : List String
  last_expression_value_ : Option Int
  in_procedure_ : Bool
  var_index_ : Nat
  had_error_ : Bool
deriving DecidableEq, Repr

namespace SemanticAnalyzer

/-- The default-constructed analyzer. -/
def fresh : SemanticAnalyzer :=
  ⟨[], 0, [], [], none, false, 0, false⟩

/-- The helper `makeError` of the anonymous namespace. -/
def makeError (message name : String) : String :=
  message ++ ": " ++ name

/-- The method `addError`. -/
def addError (sa : SemanticAnalyzer) (message : String) : SemanticAnalyzer :=
  { sa with errors_ := sa.errors_ ++ [message], had_error_ := true }

/-- The statement `info_.push_back(message)`. -/
def addInfo (sa : SemanticAnalyzer) (message : String) : SemanticAnalyzer :=
  { sa with info_ := sa.info_ ++ [message] }

/-- The method `enterScope`. -/
def enterScope (sa : SemanticAnalyzer) : SemanticAnalyzer :=
  { sa with symbol_tables_ := [] :: sa.symbol_tables_,
            current_level_ := sa.current_level_ + 1,
            var_index_ := 0 }

/-- The method `leaveScope`. -/
def leaveScope (sa : SemanticAnalyzer) : SemanticAnalyzer :=
  { sa with symbol_tables_ := sa.symbol_tables_.tail,
            current_level_ := sa.current_level_ - 1 }

/-- The method `declareSymbol`: the returned flag and the analyzer afterwards. -/
def declareSymbol (sa : SemanticAnalyzer) (name : String) (symbol : Symbol) :
    Bool × SemanticAnalyzer :=
  let sa1 : SemanticAnalyzer :=
    if sa.symbol_tables_.isEmpty then { sa with symbol_tables_ := [[]] } else sa
  match sa1.symbol_tables_ with
  | [] => (false, sa1)
  | current_scope :: outer =>
    if SymbolTable.contains current_scope name then (false, sa1)
    else (true, { sa1 with symbol_tables_ := SymbolTable.emplace current_scope name symbol :: outer })

/-- The loop of `lookupSymbol` over the tables, innermost first. -/
def lookupIn : List SymbolTable → String → Option Symbol
  | [], _ => none
  | t :: rest, name =>
    match SymbolTable.find t name with
    | some s => some s
    | none => lookupIn rest name

/-- The method `lookupSymbol`. -/
def lookupSymbol (sa : SemanticAnalyzer) (name : String) : Option Symbol :=
  lookupIn sa.symbol_tables_ name

/-- The method `visit(const ConstDeclaration &)`. -/
def visitConstDeclaration (sa : SemanticAnalyzer) (node : ConstDeclaration) : SemanticAnalyzer :=
  let sa1 := sa.addInfo ("Declaring constant: " ++ node.name ++ " = " ++ toString node.value)
  let symbol : Symbol := ⟨.Constant, some node.value, sa.current_level_, 0⟩
  let r := sa1.declareSymbol node.name symbol
  if r.1 then r.2 else r.2.addError ("Duplicate constant declaration: " ++ node.name)

/-- The method `visit(const VarDeclaration &)`. -/
def visitVarDeclaration (sa : SemanticAnalyzer) (node : VarDeclaration) : SemanticAnalyzer :=
  let sa1 := sa.addInfo
    ("Declaring variable: " ++ node.name ++ " at level " ++ toString sa.current_level_)
  let symbol : Symbol := ⟨.Variable, none, sa.current_level_, sa.var_index_⟩
  let sa2 := { sa1 with var_index_ := sa.var_index_ + 1 }
  let r := sa2.declareSymbol node.name symbol
  if r.1 then r.2 else r.2.addError ("Duplicate variable declaration: " ++ node.name)

/-- The method `visit(const NumberExpression &)`. -/
def visitNumberExpression (sa : SemanticAnalyzer) (value : Int) : SemanticAnalyzer :=
  { sa with last_expression_value_ := some value }

/-- The method `visit(const IdentifierExpression &)`. -/
def visitIdentifierExpression (sa : SemanticAnalyzer) (name : String) : SemanticAnalyzer :=
  match sa.lookupSymbol name with
  | none => sa.addError (makeError "未声明的标识符" name)
  | some symbol =>
    if symbol.type = .Procedure then sa.addError (makeError "过程不能用作表达式" name)
    else if symbol.type = .Constant then { sa with last_expression_value_ := symbol.value }
    else sa

/-- The division check at the end of `visit(const BinaryExpression &)`; `none`
when folding the right operand has no defined result. -/
def checkDivision (sa : SemanticAnalyzer) (op : BinaryOp) (right : Expression) :
    Option SemanticAnalyzer :=
  if op = .Div then
    match right.evaluateConstant with
    | .trap => none
    | .nullopt => some sa
    | .value right_val => if right_val = 0 then some (sa.addError "除数不能为零") else some sa
  else some sa

/-- The methods `visit` for the expression classes, dispatched by `accept`. -/
def visitExpression (sa : SemanticAnalyzer) : Expression → Option SemanticAnalyzer
  | .BinaryExpression left op right =>
    match visitExpression sa left with
    | none => none
    | some sa1 =>
      match visitExpression sa1 right with
      | none => none
      | some sa2 => checkDivision sa2 op right
  | .UnaryExpression _ operand => visitExpression sa operand
  | .NumberExpression value => some (sa.visitNumberExpression value)
  | .IdentifierExpression name => some (sa.visitIdentifierExpression name)

/-- The method `visit(const CallStatement &)`. -/
def visitCallStatement (sa : SemanticAnalyzer) (proc_name : String) : SemanticAnalyzer :=
  match sa.lookupSymbol proc_name with
  | none => sa.addError (makeError "未声明的过程" proc_name)
  | some symbol =>
    if symbol.type ≠ .Procedure then sa.addError (makeError "只能调用过程" proc_name)
    else sa

/-- The method `visit(const AssignStatement &)`. -/
def visitAssignStatement (sa : SemanticAnalyzer) (name : String) (expr : Expression) :
    Option SemanticAnalyzer :=
  match sa.lookupSymbol name with
  | none => some (sa.addError (makeError "未声明的标识符" name))
  | some symbol =>
    if symbol.type ≠ .Variable then some (sa.addError (makeError "只能给变量赋值" name))
    else visitExpression sa expr

mutual
/-- The methods `visit` for the statement classes, dispatched by `accept`;
a null pointer has no `accept` to dispatch to. -/
def visitStatement (sa : SemanticAnalyzer) : Statement → Option SemanticAnalyzer
  | .nullptr => none
  | .AssignStatement name expr => visitAssignStatement sa name expr
  | .CallStatement proc_name => some (sa.visitCallStatement proc_name)
  | .BeginStatement statements => visitStatements sa statements
  | .IfStatement condition then_stmt =>
    match visitExpression sa condition with
    | none => none
    | some sa1 => visitStatement sa1 then_stmt
  | .WhileStatement condition body =>
    match visitExpression sa condition with
    | none => none
    | some sa1 => visitStatement sa1 body
/-- The loop `for (const auto &stmt : node.statements()) stmt->accept(*this)`. -/
def visitStatements (sa : SemanticAnalyzer) : List Statement → Option SemanticAnalyzer
  | [] => some sa
  | stmt :: rest =>
    match visitStatement sa stmt with
    | none => none
    | some sa1 => visitStatements sa1 rest
end

mutual
/-- The method `visit(const Block &)`. -/
def visitBlock (sa : SemanticAnalyzer) : Block → Option SemanticAnalyzer
  | .mk consts vars procedures statement =>
    let sa1 := consts.foldl visitConstDeclaration sa
    let sa2 := vars.foldl visitVarDeclaration sa1
    match visitProcedures sa2 procedures with
    | none => none
    | some sa3 => visitStatement sa3 statement
/-- The method `visit(const ProcedureDeclaration &)`. -/
def visitProcedureDeclaration (sa : SemanticAnalyzer) :
    ProcedureDeclaration → Option SemanticAnalyzer
  | .mk name block =>
    let sa1 := sa.addInfo
      ("Declaring procedure: " ++ name ++ " at level " ++ toString sa.current_level_)
    let symbol : Symbol := ⟨.Procedure, none, sa.current_level_, 0⟩
    let r := sa1.declareSymbol name symbol
    if r.1 then
      match visitBlock r.2.enterScope block with
      | none => none
      | some sa2 => some sa2.leaveScope
    else some (r.2.addError ("Duplicate procedure declaration: " ++ name))
/-- The loop `for (const auto &procDecl : node.procedures()) procDecl->accept(*this)`. -/
def visitProcedures (sa : SemanticAnalyzer) :
    List ProcedureDeclaration → Option SemanticAnalyzer
  | [] => some sa
  | procDecl :: rest =>
    match visitProcedureDeclaration sa procDecl with
    | none => none
    | some sa1 => visitProcedures sa1 rest
end

/-- The method `visit(const Program &)`. -/
def visitProgram (sa : SemanticAnalyzer) (node : Program) : Option SemanticAnalyzer :=
  match visitBlock (sa.addInfo "Analyzing program...").enterScope node.block with
  | none => none
  | some sa1 => some sa1.leaveScope

/-- The method `analyze`: the returned flag and the analyzer afterwards.  No
visit throws, so the `catch` branch is never taken. -/
def analyze (sa : SemanticAnalyzer) (program : Program) : Option (Bool × SemanticAnalyzer) :=
  match visitProgram sa program with
  | none => none
  | some sa1 => some (!sa1.had_error_, sa1)

/-- The accessor `getErrors`. -/
def getErrors (sa : SemanticAnalyzer) : List String := sa.errors_

end SemanticAnalyzer

/-! ## The token source of the parser -/

/-- One token as the parser receives it from `TokenInterpreter`, with the
values `line()` and `column()` of the tokenizer once that token has been
scanned (the parser asks for them only while the token is the cached
lookahead). -/
structure Lexeme where
  token : Token
  line : Nat
  column : Nat
deriving DecidableEq, Repr

/-- The token source seen through `peekToken` and `nextToken`: the tokens still
to come, then `END_OF_FILE` for ever, with the tokenizer position at the end. -/
structure TokenStream where
  items : List Lexeme
  eofLine : Nat
  eofColumn : Nat
deriving DecidableEq, Repr

/-- The lookahead with its position. -/
def TokenStream.head (s : TokenStream) : Lexeme :=
  match s.items with
  | [] => ⟨Token.ofType .END_OF_FILE, s.eofLine, s.eofColumn⟩
  | x :: _ => x

/-- The method `peekToken`. -/
def TokenStream.peekToken (s : TokenStream) : Token := s.head.token

/-- The method `nextToken`: the token returned and the source afterwards. -/
def TokenStream.nextToken (s : TokenStream) : Token × TokenStream :=
  (s.head.token, { s with items := s.items.tail })

/-! ## TokenInterpreter.h, TokenInterpreter.cpp

The source text is a list of `char`; on ASCII text these are its characters. -/

/-- The helper `isDigit`. -/
def isDigit (c : Char) : Bool := decide ('0' ≤ c) && decide (c ≤ '9')

/-- The helper `isAlpha`. -/
def isAlpha (c : Char) : Bool :=
  (decide ('a' ≤ c) && decide (c ≤ 'z')) || (decide ('A' ≤ c) && decide (c ≤ 'Z'))

/-- The helper `isAlphaNum`. -/
def isAlphaNum (c : Char) : Bool := isAlpha c || isDigit c

/-- The library function `std::isspace` in the default locale: space, `\t`, `\n`, `\v`,
`\f`, `\r`. -/
def isSpace (c : Char) : Bool :=
  c.toNat = 32 || (decide (9 ≤ c.toNat) && decide (c.toNat ≤ 13))

/-- The table `KEYWORDS`. -/
def KEYWORDS : List (String × TokenType) :=
  [("const", .CONST), ("var", .VAR), ("procedure", .PROCEDURE), ("call", .CALL),
   ("begin", .BEGIN), ("end", .END), ("if", .IF), ("then", .THEN), ("while", .WHILE),
   ("do", .DO), ("odd", .ODD)]

/-- The data members of the class `TokenInterpreter`. -/
structure TokenInterpreter where
  source_ : List Char
  current_ : Nat
  line_ : Nat
  column_ : Nat
  peeked_token_ : Token
  has_peeked_ : Bool
deriving DecidableEq, Repr

namespace TokenInterpreter

/-- The constructor `TokenInterpreter(std::string_view source)`. -/
def ofSource (source : String) : TokenInterpreter :=
  ⟨source.toList, 0, 1, 1, Token.ofType .ERROR, false⟩

/-- The method `peek`. -/
def peek (t : TokenInterpreter) : Char :=
  if t.current_ ≥ t.source_.length then Char.ofNat 0 else t.source_.getD t.current_ (Char.ofNat 0)

/-- The method `peekNext`. -/
def peekNext (t : TokenInterpreter) : Char :=
  if t.current_ + 1 ≥ t.source_.length then Char.ofNat 0
  else t.source_.getD (t.current_ + 1) (Char.ofNat 0)

/-- The method `advance`. -/
def advance (t : TokenInterpreter) : TokenInterpreter :=
  if t.current_ < t.source_.length then
    { t with current_ := t.current_ + 1, column_ := t.column_ + 1 }
  else t

/-- The loop of `skipWhitespace`, run at most `fuel` times. -/
def skipWhitespaceLoop : Nat → TokenInterpreter → TokenInterpreter
  | 0, t => t
  | fuel + 1, t =>
    if t.current_ < t.source_.length && isSpace (t.source_.getD t.current_ (Char.ofNat 0)) then
      let t1 : TokenInterpreter :=
        if (t.source_.getD t.current_ (Char.ofNat 0)).toNat = 10 then
          { t with line_ := t.line_ + 1, column_ := 0 }
        else { t with column_ := t.column_ + 1 }
      skipWhitespaceLoop fuel { t1 with current_ := t1.current_ + 1 }
    else t

/-- The method `skipWhitespace`; its loop ends within `length - current_` rounds. -/
def skipWhitespace (t : TokenInterpreter) : TokenInterpreter :=
  skipWhitespaceLoop (t.source_.length - t.current_) t

/-- The loop of `tryReadNumber`, run at most `fuel` times, with the value read so far. -/
def tryReadNumberLoop : Nat → TokenInterpreter → Int → Token × TokenInterpreter
  | 0, t, value => (⟨.NUMBER, .int value⟩, t)
  | fuel + 1, t, value =>
    if isDigit t.peek then
      let digit : Int := (t.peek.toNat : Int) - 48
      if value > (INT64_MAX - digit) / 10 then (Token.ofType .ERROR, t)
      else tryReadNumberLoop fuel t.advance (value * 10 + digit)
    else (⟨.NUMBER, .int value⟩, t)

/-- The method `tryReadNumber`: the optional token and the tokenizer afterwards. -/
def tryReadNumber (t : TokenInterpreter) : Option Token × TokenInterpreter :=
  if !isDigit t.peek then (none, t)
  else
    let r := tryReadNumberLoop (t.source_.length - t.current_ + 1) t 0
    (some r.1, r.2)

/-- The loop `while (isAlphaNum(peek())) advance()`, run at most `fuel` times. -/
def readAlphaNum : Nat → TokenInterpreter → TokenInterpreter
  | 0, t => t
  | fuel + 1, t => if isAlphaNum t.peek then readAlphaNum fuel t.advance else t

/-- The method `tryReadIdentifier`: the optional token and the tokenizer afterwards. -/
def tryReadIdentifier (t : TokenInterpreter) : Option Token × TokenInterpreter :=
  if !isAlpha t.peek then (none, t)
  else
    let start := t.current_
    let t1 := readAlphaNum (t.source_.length - t.current_ + 1) t
    let identifier := (t.source_.drop start).take (t1.current_ - start)
    if identifier.isEmpty || identifier.all isSpace then (none, t1)
    else
      match KEYWORDS.find? fun pair => pair.1 = String.mk identifier with
      | some pair => (some (Token.ofType pair.2), t1)
      | none => (some ⟨.IDENTIFIER, .text (String.mk identifier)⟩, t1)

/-- The method `tryReadOperator`: the optional token and the tokenizer afterwards. -/
def tryReadOperator (t : TokenInterpreter) : Option Token × TokenInterpreter :=
  let c := t.peek
  let next := t.peekNext
  if c = '+' then (some (Token.ofType .PLUS), t.advance)
  else if c = '-' then (some (Token.ofType .MINUS), t.advance)
  else if c = '*' then (some (Token.ofType .MULTIPLY), t.advance)
  else if c = '/' then (some (Token.ofType .DIVIDE), t.advance)
  else if c = '(' then (some (Token.ofType .LPAREN), t.advance)
  else if c = ')' then (some (Token.ofType .RPAREN), t.advance)
  else if c = ',' then (some (Token.ofType .COMMA), t.advance)
  else if c = ';' then (some (Token.ofType .SEMICOLON), t.advance)
  else if c = '.' then (some (Token.ofType .PERIOD), t.advance)
  else if c = ':' then
    if next = '=' then (some (Token.ofType .ASSIGN), t.advance.advance) else (none, t)
  else if c = '=' then (some (Token.ofType .EQ), t.advance)
  else if c = '#' then (some (Token.ofType .NEQ), t.advance)
  else if c = '<' then
    if t.advance.peek = '=' then (some (Token.ofType .LTE), t.advance.advance)
    else (some (Token.ofType .LT), t.advance)
  else if c = '>' then
    if t.advance.peek = '=' then (some (Token.ofType .GTE), t.advance.advance)
    else (some (Token.ofType .GT), t.advance)
  else if c = '^' then (some (Token.ofType .POWER), t.advance)
  else (none, t)

/-- The method `nextToken`: the token returned and the tokenizer afterwards. -/
def nextToken (t : TokenInterpreter) : Token × TokenInterpreter :=
  if t.has_peeked_ then (t.peeked_token_, { t with has_peeked_ := false })
  else
    let t1 := t.skipWhitespace
    if t1.current_ ≥ t1.source_.length then (Token.ofType .END_OF_FILE, t1)
    else
      match t1.tryReadNumber with
      | (some number, t2) => (number, t2)
      | (none, t2) =>
        match t2.tryReadIdentifier with
        | (some identifier, t3) => (identifier, t3)
        | (none, t3) =>
          match t3.tryReadOperator with
          | (some op, t4) => (op, t4)
          | (none, t4) => (Token.ofType .ERROR, t4.advance)

/-- The method `peekToken`: the token returned and the tokenizer afterwards. -/
def peekToken (t : TokenInterpreter) : Token × TokenInterpreter :=
  if !t.has_peeked_ then
    let r := t.nextToken
    (r.1, { r.2 with peeked_token_ := r.1, has_peeked_ := true })
  else (t.peeked_token_, t)

/-- The tokens that successive calls of `nextToken` return before the first `END_OF_FILE`,
each with `line()` and `column()` as they are once it has been scanned, and the tokenizer
after the call that returned `END_OF_FILE`; at most `fuel` calls are made. -/
def scan : Nat → TokenInterpreter → List Lexeme × TokenInterpreter
  | 0, t => ([], t)
  | fuel + 1, t =>
    let r := t.nextToken
    if r.1.type = .END_OF_FILE then ([], r.2)
    else
      let rest := scan fuel r.2
      (⟨r.1, r.2.line_, r.2.column_⟩ :: rest.1, rest.2)

/-- The token source that a parser constructed on this tokenizer reads; every token takes at
least one character, so `length + 1` calls reach the end of the text. -/
def stream (t : TokenInterpreter) : TokenStream :=
  let r := scan (t.source_.length + 1) t
  ⟨r.1, r.2.line_, r.2.column_⟩

end TokenInterpreter

/-! ## Parser.h, Parser.cpp -/

/-- Exceptions raised inside the parser. -/
inductive Exception where
  | runtime_error (what : String)
  | bad_variant_access
deriving DecidableEq, Repr

/-- The method `what()`. -/
def Exception.what : Exception → String
  | .runtime_error w => w
  | .bad_variant_access => "bad variant access"

/-- The data members of the class `Parser`. -/
structure Parser where
  lexer_ : TokenStream
  errors_ : List String
  had_error_ : Bool
deriving DecidableEq, Repr

/-- Outcome of a parsing method: a returned value, a thrown exception, or a
run that was cut short by the fuel bound; the first two carry the parser
afterwards. -/
inductive Result (α : Type) where
  | ok (a : α) (p : Parser)
  | thrown (e : Exception) (p : Parser)
  | outOfFuel

/-- A parsing method: a function of the parser object. -/
def ParserM (α : Type) : Type := Parser → Result α

/-- Return a value, leaving the parser as it is. -/
def ParserM.pure {α : Type} (a : α) : ParserM α := fun p => .ok a p

/-- Sequencing: an exception or a fuel cut in the first step ends the run. -/
def ParserM.bind {α β : Type} (x : ParserM α) (f : α → ParserM β) : ParserM β := fun p =>
  match x p with
  | .ok a p1 => f a p1
  | .thrown e p1 => .thrown e p1
  | .outOfFuel => .outOfFuel

instance : Monad ParserM where
  pure := ParserM.pure
  bind := ParserM.bind

namespace Parser

/-- The constructor `Parser(TokenInterpreter lexer)`. -/
def fresh (lexer : TokenStream) : Parser := ⟨lexer, [], false⟩

/-- The method `addError`. -/
def addError (p : Parser) (message : String) : Parser :=
  { p with errors_ := p.errors_ ++ [message], had_error_ := true }

/-- The accessor `getErrors`. -/
def getErrors (p : Parser) : List String := p.errors_

/-- The method `peek`. -/
def peek : ParserM Token := fun p => .ok p.lexer_.peekToken p

/-- The method `advance`. -/
def advance : ParserM Token := fun p =>
  .ok p.lexer_.nextToken.1 { p with lexer_ := p.lexer_.nextToken.2 }

/-- The method `check`. -/
def check (type : TokenType) : ParserM Bool := fun p =>
  .ok (decide (p.lexer_.peekToken.type = type)) p

/-- The method `match`. -/
def match_ (type : TokenType) : ParserM Bool := do
  if !(← check type) then
    return false
  let _ ← advance
  return true

/-- Raise an exception. -/
def throw_ {α : Type} (e : Exception) : ParserM α := fun p => .thrown e p

/-- The value `value<int64_t>()` of a token, or the exception it throws. -/
def valueInt (t : Token) : ParserM Int :=
  match t.valueInt with
  | some v => pure v
  | none => throw_ .bad_variant_access

/-- The value `value<std::string_view>()` of a token, or the exception it throws. -/
def valueText (t : Token) : ParserM String :=
  match t.valueText with
  | some v => pure v
  | none => throw_ .bad_variant_access

/-- The text that `error` appends for the payload of the lookahead token. -/
def describeValue (t : Token) : ParserM String :=
  if t.type = .NUMBER then do
    let v ← valueInt t
    return " (数字: " ++ toString v ++ ")"
  else if t.type = .IDENTIFIER then do
    let v ← valueText t
    return " (标识符: " ++ v ++ ")"
  else pure ""

/-- The values `lexer_.line()` and `lexer_.column()` while the lookahead token is cached:
the tokenizer stands right behind that token. -/
def position : ParserM (Nat × Nat) := fun p =>
  .ok (p.lexer_.head.line, p.lexer_.head.column) p

/-- The body of the method `error`, with the values that `lexer_.line()` and
`lexer_.column()` have when it is entered: it records the formatted message and throws it.
The lookahead token it describes is obtained by `peek()` after the position has been read. -/
def errorAt {α : Type} (pos : Nat × Nat) (message : String) : ParserM α := fun p =>
  let p1 : Parser := { p with had_error_ := true }
  let token := p1.lexer_.peekToken
  let ss := "行" ++ toString pos.1 ++ "列" ++ toString pos.2 ++ ": " ++ message
    ++ "\n当前token: " ++ toString token.type.toInt
  match describeValue token p1 with
  | .ok d p2 =>
    let ss2 := ss ++ d ++ "\n上下文: "
    .thrown (.runtime_error ss2) { p2 with errors_ := p2.errors_ ++ [ss2] }
  | .thrown e p2 => .thrown e p2
  | .outOfFuel => .outOfFuel

/-- The method `error`, called while the lookahead token is cached (every call but the two
in the `catch` blocks of `parseFactor`). -/
def error {α : Type} (message : String) : ParserM α := do
  let pos ← position
  errorAt pos message

/-- The method `consume`. -/
def consume (type : TokenType) (message : String) : ParserM Token := do
  if !(← check type) then
    error message
  else
    advance

/-- The method `tokenTypeToBinaryOp`. -/
def tokenTypeToBinaryOp (type : TokenType) : ParserM BinaryOp :=
  match type with
  | .PLUS => pure .Add
  | .MINUS => pure .Sub
  | .MULTIPLY => pure .Mul
  | .DIVIDE => pure .Div
  | .POWER => pure .Pow
  | .EQ => pure .Eq
  | .NEQ => pure .Neq
  | .LT => pure .Lt
  | .LTE => pure .Lte
  | .GT => pure .Gt
  | .GTE => pure .Gte
  | _ => throw_ (.runtime_error ("无效的运算符: " ++ toString type.toInt))

/-- Running out of fuel. -/
def outOfFuel {α : Type} : ParserM α := fun _ => .outOfFuel

mutual
/-- The method `parseExpression`. -/
def parseExpression : Nat → ParserM Expression
  | 0 => outOfFuel
  | fuel + 1 => do
    let expr ← parseTerm fuel
    parseExpressionLoop fuel expr
/-- The `while` loop of `parseExpression`, entered with the tree built so far. -/
def parseExpressionLoop : Nat → Expression → ParserM Expression
  | 0, _ => outOfFuel
  | fuel + 1, expr => do
    if (← check .PLUS) || (← check .MINUS) then
      let op ← tokenTypeToBinaryOp (← peek).type
      let _ ← advance
      let right ← parseTerm fuel
      parseExpressionLoop fuel (.BinaryExpression expr op right)
    else
      return expr
/-- The method `parseTerm`. -/
def parseTerm : Nat → ParserM Expression
  | 0 => outOfFuel
  | fuel + 1 => do
    let expr ← parsePower fuel
    parseTermLoop fuel expr
/-- The `while` loop of `parseTerm`, entered with the tree built so far. -/
def parseTermLoop : Nat → Expression → ParserM Expression
  | 0, _ => outOfFuel
  | fuel + 1, expr => do
    if (← check .MULTIPLY) || (← check .DIVIDE) then
      let op ← tokenTypeToBinaryOp (← peek).type
      let _ ← advance
      let right ← parsePower fuel
      parseTermLoop fuel (.BinaryExpression expr op right)
    else
      return expr
/-- The method `parsePower`. -/
def parsePower : Nat → ParserM Expression
  | 0 => outOfFuel
  | fuel + 1 => do
    let expr ← parseFactor fuel
    parsePowerLoop fuel expr
/-- The `while` loop of `parsePower`, entered with the tree built so far. -/
def parsePowerLoop : Nat → Expression → ParserM Expression
  | 0, _ => outOfFuel
  | fuel + 1, expr => do
    if ← check .POWER then
      let _ ← advance
      let right ← parsePower fuel
      parsePowerLoop fuel (.BinaryExpression expr .Pow right)
    else
      return expr
/-- The method `parseFactor`. -/
def parseFactor : Nat → ParserM Expression
  | 0 => outOfFuel
  | fuel + 1 => do
    if ← check .NUMBER then
      let pos ← position
      let token ← advance
      match token.valueInt with
      | some v => return .NumberExpression v
      | none => errorAt pos "无效的数字"
    else if ← check .IDENTIFIER then
      let pos ← position
      let token ← advance
      match token.valueText with
      | some v => return .IdentifierExpression v
      | none => errorAt pos "无效的标识符"
    else if ← check .LPAREN then
      let _ ← advance
      let expr ← parseExpression fuel
      let _ ← consume .RPAREN "表达式需要右括号')'"
      return expr
    else
      error "预期表达式"
end

/-- The `do ... while (match(COMMA))` loop of `parseConstDeclarations`. -/
def parseConstDeclarationsLoop : Nat → List ConstDeclaration → ParserM (List ConstDeclaration)
  | 0, _ => outOfFuel
  | fuel + 1, decls => do
    let name ← consume .IDENTIFIER "常量声明需要标识符"
    let _ ← consume .EQ "常量声明需要'='"
    let value ← consume .NUMBER "常量声明需要数字"
    let n ← valueText name
    let v ← valueInt value
    let decls := decls ++ [⟨n, v⟩]
    if ← match_ .COMMA then
      parseConstDeclarationsLoop fuel decls
    else
      return decls

/-- The method `parseConstDeclarations`. -/
def parseConstDeclarations (fuel : Nat) : ParserM (List ConstDeclaration) := do
  if ← match_ .CONST then
    let decls ← parseConstDeclarationsLoop fuel []
    let _ ← consume .SEMICOLON "常量声明需要以';'结束"
    return decls
  else
    return []

/-- The `do ... while (match(COMMA))` loop of `parseVarDeclarations`. -/
def parseVarDeclarationsLoop : Nat → List VarDeclaration → ParserM (List VarDeclaration)
  | 0, _ => outOfFuel
  | fuel + 1, decls => do
    let name ← consume .IDENTIFIER "变量声明需要标识符"
    let n ← valueText name
    let decls := decls ++ [⟨n⟩]
    if ← match_ .COMMA then
      parseVarDeclarationsLoop fuel decls
    else
      return decls

/-- The method `parseVarDeclarations`. -/
def parseVarDeclarations (fuel : Nat) : ParserM (List VarDeclaration) := do
  if ← match_ .VAR then
    let decls ← parseVarDeclarationsLoop fuel []
    let _ ← consume .SEMICOLON "变量声明需要以';'结束"
    return decls
  else
    return []

/-- The method `parseCallStatement`. -/
def parseCallStatement : ParserM Statement := do
  let _ ← advance
  let name ← consume .IDENTIFIER "CALL语句需要过程名"
  let n ← valueText name
  return .CallStatement n

/-- The method `parseAssignStatement`. -/
def parseAssignStatement (fuel : Nat) : ParserM Statement := do
  let name ← consume .IDENTIFIER "赋值语句需要标识符"
  let n ← valueText name
  let _ ← consume .ASSIGN "赋值语句需要':='"
  let expr ← parseExpression fuel
  return .AssignStatement n expr

/-- Is the token type one of the six comparison operators. -/
def isComparison (op : TokenType) : Bool :=
  op = .EQ || op = .NEQ || op = .LT || op = .LTE || op = .GT || op = .GTE

/-- The method `parseCondition`. -/
def parseCondition (fuel : Nat) : ParserM Expression := do
  if ← check .ODD then
    let _ ← advance
    parseExpression fuel
  else
    let left ← parseExpression fuel
    let op := (← peek).type
    if !isComparison op then
      error "预期比较运算符"
    else
      let _ ← advance
      let right ← parseExpression fuel
      let bop ← tokenTypeToBinaryOp op
      return .BinaryExpression left bop right

/-- The statement `if (stmt) statements.push_back(std::move(stmt))`. -/
def pushIfPresent (statements : List Statement) (stmt : Statement) : List Statement :=
  if stmt.isPresent then statements ++ [stmt] else statements

mutual
/-- The method `parseStatement`. The trace it writes to `std::cerr` is left out; the trace
reads the text of the lookahead when that is an identifier token, as `parseAssignStatement`
does next. -/
def parseStatement : Nat → ParserM Statement
  | 0 => outOfFuel
  | fuel + 1 => do
    let token ← peek
    match token.type with
    | .IDENTIFIER => parseAssignStatement fuel
    | .CALL => parseCallStatement
    | .BEGIN => parseBeginStatement fuel
    | .IF => parseIfStatement fuel
    | .WHILE => parseWhileStatement fuel
    | .END => return .nullptr
    | .SEMICOLON => return .nullptr
    | .ERROR => error "词法错误"
    | _ => error ("预期语句，但得到: " ++ toString token.type.toInt)
/-- The method `parseBeginStatement`. -/
def parseBeginStatement : Nat → ParserM Statement
  | 0 => outOfFuel
  | fuel + 1 => do
    let _ ← advance
    let statements ← parseBeginLoop fuel []
    let _ ← consume .END "BEGIN语句需要以END结束"
    return .BeginStatement statements
/-- The loop `while (!check(END))` of `parseBeginStatement`. -/
def parseBeginLoop : Nat → List Statement → ParserM (List Statement)
  | 0, _ => outOfFuel
  | fuel + 1, statements => do
    if !(← check .END) then
      let stmt ← parseStatement fuel
      let statements := pushIfPresent statements stmt
      if !(← match_ .SEMICOLON) && !(← check .END) then
        error "语句之间需要分号"
      else
        parseBeginLoop fuel statements
    else
      return statements
/-- The method `parseIfStatement`. -/
def parseIfStatement : Nat → ParserM Statement
  | 0 => outOfFuel
  | fuel + 1 => do
    let _ ← advance
    let condition ← parseCondition fuel
    let _ ← consume .THEN "IF语句需要THEN"
    let then_stmt ← parseStatement fuel
    if then_stmt.isPresent && !then_stmt.isBegin && !(← check .END) && !(← check .SEMICOLON) then
      let statements ← parseIfLoop fuel [then_stmt]
      return .IfStatement condition (.BeginStatement statements)
    else
      return .IfStatement condition then_stmt
/-- The loop `while (!check(END) && !check(SEMICOLON))` of `parseIfStatement`. -/
def parseIfLoop : Nat → List Statement → ParserM (List Statement)
  | 0, _ => outOfFuel
  | fuel + 1, statements => do
    if !(← check .END) && !(← check .SEMICOLON) then
      let stmt ← parseStatement fuel
      let statements := pushIfPresent statements stmt
      let _ ← match_ .SEMICOLON
      parseIfLoop fuel statements
    else
      return statements
/-- The method `parseWhileStatement`. -/
def parseWhileStatement : Nat → ParserM Statement
  | 0 => outOfFuel
  | fuel + 1 => do
    let _ ← advance
    let condition ← parseCondition fuel
    let _ ← consume .DO "WHILE语句需要DO"
    let body ← parseStatement fuel
    return .WhileStatement condition body
end

mutual
/-- The method `parseBlock`. -/
def parseBlock : Nat → ParserM Block
  | 0 => outOfFuel
  | fuel + 1 => do
    let constDecls ← parseConstDeclarations fuel
    let varDecls ← parseVarDeclarations fuel
    let procedures ← parseProcedures fuel []
    let statement ← parseStatement fuel
    return .mk constDecls varDecls procedures statement
/-- The method `parseProcedures`: its loop `while (match(PROCEDURE))`, entered
with the declarations collected so far. -/
def parseProcedures : Nat → List ProcedureDeclaration → ParserM (List ProcedureDeclaration)
  | 0, _ => outOfFuel
  | fuel + 1, procs => do
    if ← match_ .PROCEDURE then
      let name ← consume .IDENTIFIER "过程声明需要标识符"
      let _ ← consume .SEMICOLON "过程声明头部需要以';'结束"
      let block ← parseBlock fuel
      let _ ← consume .SEMICOLON "过程声明需要以';'结束"
      let n ← valueText name
      parseProcedures fuel (procs ++ [.mk n block])
    else
      return procs
end

/-- The method `parseProgram`. -/
def parseProgram (fuel : Nat) : ParserM Program := do
  let block ← parseBlock fuel
  let _ ← consume .PERIOD "程序必须以'.'结束"
  return ⟨block⟩

/-- Fuel that suffices for a token source with `n` tokens before the end of file. -/
def fuelFor (n : Nat) : Nat := 16 * (n + 2)

/-- The method `parse`: the returned pointer (`none` for `nullptr`) and the
parser afterwards; the outer `none` stands for a run cut short by the fuel
bound, which does not occur (`parse_isSome`). -/
def parse (p : Parser) : Option (Option Program × Parser) :=
  match parseProgram (fuelFor p.lexer_.items.length) p with
  | .ok program p1 => some (some program, p1)
  | .thrown e p1 => some (none, p1.addError e.what)
  | .outOfFuel => none

end Parser

/-- The parser object of `Parser parser{TokenInterpreter{source}}`. -/
def Parser.ofSource (source : String) : Parser :=
  Parser.fresh (TokenInterpreter.ofSource source).stream

/-- The flag "an AST was returned" and the diagnostics after `parse` on a source text. -/
def parseErrors (source : String) : Option (Bool × List String) :=
  (Parser.parse (Parser.ofSource source)).map fun r => (r.1.isSome, r.2.getErrors)

/-- The result of `analyze` on a fresh analyzer for the AST parsed from a source text: its
flag and its error list; `none` when no AST was returned or the analysis has no defined result. -/
def analyzeSource (source : String) : Option (Bool × List String) :=
  match Parser.parse (Parser.ofSource source) with
  | some (some program, _) =>
    (SemanticAnalyzer.analyze SemanticAnalyzer.fresh program).map fun r => (r.1, r.2.getErrors)
  | _ => none

/-! ## The grammar of the specification

Derivation trees of the grammar, one type per nonterminal; a repetition `( ... )*` is the
list of its iterations.

```
program    := block '.'
block      := constDecls varDecls procDecls statement
constDecls := ('const' ident '=' number (',' ident '=' number)* ';')?
varDecls   := ('var' ident (',' ident)* ';')?
procDecls  := ('procedure' ident ';' block ';')*
statement  := assign | call | begin | if | while | ε
assign     := ident ':=' expression
call       := 'call' ident
begin      := 'begin' statement (';' statement)* 'end'
if         := 'if' condition 'then' statement
while      := 'while' condition 'do' statement
condition  := 'odd' expression | expression relOp expression
expression := term (('+'|'-') term)*
term       := power (('*'|'/') power)*
power      := factor ('^' power)?
factor     := number | ident | '(' expression ')'
```
-/
namespace Grammar

/-- The token of a keyword, operator or punctuation mark. -/
def sym (t : TokenType) : Token := Token.ofType t

/-- The token of the identifier `name`. -/
def ident (name : String) : Token := ⟨.IDENTIFIER, .text name⟩

/-- The token of the numeric literal `v`. -/
def number (v : Int) : Token := ⟨.NUMBER, .int v⟩

/-- The operators `'+' | '-'`. -/
inductive AddOp where
  | plus | minus
deriving DecidableEq, Repr

/-- The operators `'*' | '/'`. -/
inductive MulOp where
  | times | divide
deriving DecidableEq, Repr

/-- The operators `relOp`. -/
inductive RelOp where
  | eq | neq | lt | lte | gt | gte
deriving DecidableEq, Repr

/-- The token type of an additive operator. -/
def AddOp.type : AddOp → TokenType
  | .plus => .PLUS
  | .minus => .MINUS

/-- The token type of a multiplicative operator. -/
def MulOp.type : MulOp → TokenType
  | .times => .MULTIPLY
  | .divide => .DIVIDE

/-- The token type of a comparison operator. -/
def RelOp.type : RelOp → TokenType
  | .eq => .EQ | .neq => .NEQ | .lt => .LT | .lte => .LTE | .gt => .GT | .gte => .GTE

/-- The tree operator of an additive operator. -/
def AddOp.op : AddOp → BinaryOp
  | .plus => .Add
  | .minus => .Sub

/-- The tree operator of a multiplicative operator. -/
def MulOp.op : MulOp → BinaryOp
  | .times => .Mul
  | .divide => .Div

/-- The tree operator of a comparison operator. -/
def RelOp.op : RelOp → BinaryOp
  | .eq => .Eq | .neq => .Neq | .lt => .Lt | .lte => .Lte | .gt => .Gt | .gte => .Gte

mutual
/-- Derivations of `factor`. -/
inductive Factor where
  | number (v : Int)
  | ident (name : String)
  | paren (e : Expr)
/-- Derivations of `power`. -/
inductive Power where
  | single (f : Factor)
  | pow (f : Factor) (p : Power)
/-- Derivations of `(('*'|'/') power)*`. -/
inductive TermRest where
  | nil
  | cons (op : MulOp) (p : Power) (rest : TermRest)
/-- Derivations of `term`. -/
inductive Term where
  | mk (first : Power) (rest : TermRest)
/-- Derivations of `(('+'|'-') term)*`. -/
inductive ExprRest where
  | nil
  | cons (op : AddOp) (t : Term) (rest : ExprRest)
/-- Derivations of `expression`. -/
inductive Expr where
  | mk (first : Term) (rest : ExprRest)
end

/-- Derivations of `condition`. -/
inductive Cond where
  | odd (e : Expr)
  | rel (left : Expr) (op : RelOp) (right : Expr)

mutual
/-- Derivations of `statement`. -/
inductive Stmt where
  | empty
  | assign (name : String) (e : Expr)
  | call (name : String)
  | begin_ (first : Stmt) (rest : StmtRest)
  | ifThen (c : Cond) (s : Stmt)
  | while_ (c : Cond) (s : Stmt)
/-- Derivations of `(';' statement)*`. -/
inductive StmtRest where
  | nil
  | cons (s : Stmt) (rest : StmtRest)
end

mutual
/-- Derivations of `block`; an empty list of constants or variables is the absent section. -/
inductive Blk where
  | mk (consts : List (String × Int)) (vars : List String) (procs : Procs) (body : Stmt)
/-- Derivations of `procDecls`. -/
inductive Procs where
  | nil
  | cons (name : String) (block : Blk) (rest : Procs)
end

/-- Derivations of `program`. -/
structure Prog where
  block : Blk

mutual
/-- The tokens derived by a `factor`. -/
def Factor.tokens : Factor → List Token
  | .number v => [number v]
  | .ident name => [ident name]
  | .paren e => sym .LPAREN :: (e.tokens ++ [sym .RPAREN])
/-- The tokens derived by a `power`. -/
def Power.tokens : Power → List Token
  | .single f => f.tokens
  | .pow f p => f.tokens ++ sym .POWER :: p.tokens
/-- The tokens derived by the repetition of a `term`. -/
def TermRest.tokens : TermRest → List Token
  | .nil => []
  | .cons op p rest => sym op.type :: (p.tokens ++ rest.tokens)
/-- The tokens derived by a `term`. -/
def Term.tokens : Term → List Token
  | .mk first rest => first.tokens ++ rest.tokens
/-- The tokens derived by the repetition of an `expression`. -/
def ExprRest.tokens : ExprRest → List Token
  | .nil => []
  | .cons op t rest => sym op.type :: (t.tokens ++ rest.tokens)
/-- The tokens derived by an `expression`. -/
def Expr.tokens : Expr → List Token
  | .mk first rest => first.tokens ++ rest.tokens
end

/-- The tokens derived by a `condition`. -/
def Cond.tokens : Cond → List Token
  | .odd e => sym .ODD :: e.tokens
  | .rel left op right => left.tokens ++ sym op.type :: right.tokens

mutual
/-- The tokens derived by a `statement`. -/
def Stmt.tokens : Stmt → List Token
  | .empty => []
  | .assign name e => ident name :: sym .ASSIGN :: e.tokens
  | .call name => [sym .CALL, ident name]
  | .begin_ first rest => sym .BEGIN :: (first.tokens ++ (rest.tokens ++ [sym .END]))
  | .ifThen c s => sym .IF :: (c.tokens ++ sym .THEN :: s.tokens)
  | .while_ c s => sym .WHILE :: (c.tokens ++ sym .DO :: s.tokens)
/-- The tokens derived by `(';' statement)*`. -/
def StmtRest.tokens : StmtRest → List Token
  | .nil => []
  | .cons s rest => sym .SEMICOLON :: (s.tokens ++ rest.tokens)
end

/-- The tokens of `ident '=' number (',' ident '=' number)*`. -/
def constItems : List (String × Int) → List Token
  | [] => []
  | [(n, v)] => [ident n, sym .EQ, number v]
  | (n, v) :: rest => ident n :: sym .EQ :: number v :: sym .COMMA :: constItems rest

/-- The tokens derived by `constDecls`. -/
def constTokens (consts : List (String × Int)) : List Token :=
  match consts with
  | [] => []
  | _ => sym .CONST :: (constItems consts ++ [sym .SEMICOLON])

/-- The tokens of `ident (',' ident)*`. -/
def varItems : List String → List Token
  | [] => []
  | [n] => [ident n]
  | n :: rest => ident n :: sym .COMMA :: varItems rest

/-- The tokens derived by `varDecls`. -/
def varTokens (vars : List String) : List Token :=
  match vars with
  | [] => []
  | _ => sym .VAR :: (varItems vars ++ [sym .SEMICOLON])

mutual
/-- The tokens derived by a `block`. -/
def Blk.tokens : Blk → List Token
  | .mk consts vars procs body =>
    constTokens consts ++ (varTokens vars ++ (procs.tokens ++ body.tokens))
/-- The tokens derived by `procDecls`. -/
def Procs.tokens : Procs → List Token
  | .nil => []
  | .cons name block rest =>
    sym .PROCEDURE :: ident name :: sym .SEMICOLON :: (block.tokens ++ sym .SEMICOLON :: rest.tokens)
end

/-- The tokens derived by a `program`. -/
def Prog.tokens (g : Prog) : List Token := g.block.tokens ++ [sym .PERIOD]

mutual
/-- The tree the parser builds for a `factor`. -/
def Factor.toAST : Factor → Expression
  | .number v => .NumberExpression v
  | .ident name => .IdentifierExpression name
  | .paren e => e.toAST
/-- The tree the parser builds for a `power`. -/
def Power.toAST : Power → Expression
  | .single f => f.toAST
  | .pow f p => .BinaryExpression f.toAST .Pow p.toAST
/-- The tree the parser builds for the repetition of a `term`, from the tree built so far. -/
def TermRest.toAST : TermRest → Expression → Expression
  | .nil, acc => acc
  | .cons op p rest, acc => rest.toAST (.BinaryExpression acc op.op p.toAST)
/-- The tree the parser builds for a `term`. -/
def Term.toAST : Term → Expression
  | .mk first rest => rest.toAST first.toAST
/-- The tree the parser builds for the repetition of an `expression`, from the tree built so far. -/
def ExprRest.toAST : ExprRest → Expression → Expression
  | .nil, acc => acc
  | .cons op t rest, acc => rest.toAST (.BinaryExpression acc op.op t.toAST)
/-- The tree the parser builds for an `expression`. -/
def Expr.toAST : Expr → Expression
  | .mk first rest => rest.toAST first.toAST
end

/-- The tree the parser builds for a `condition`. -/
def Cond.toAST : Cond → Expression
  | .odd e => e.toAST
  | .rel left op right => .BinaryExpression left.toAST op.op right.toAST

mutual
/-- The tree the parser builds for a `statement` that it reads without absorbing what follows. -/
def Stmt.toAST : Stmt → Statement
  | .empty => .nullptr
  | .assign name e => .AssignStatement name e.toAST
  | .call name => .CallStatement name
  | .begin_ first rest => .BeginStatement (rest.toAST (Parser.pushIfPresent [] first.toAST))
  | .ifThen c s => .IfStatement c.toAST s.toAST
  | .while_ c s => .WhileStatement c.toAST s.toAST
/-- The statement list the parser builds for `(';' statement)*`, from the list built so far. -/
def StmtRest.toAST : StmtRest → List Statement → List Statement
  | .nil, acc => acc
  | .cons s rest, acc => rest.toAST (Parser.pushIfPresent acc s.toAST)
end

mutual
/-- The tree the parser builds for a `block`. -/
def Blk.toAST : Blk → Block
  | .mk consts vars procs body =>
    .mk (consts.map fun c => ⟨c.1, c.2⟩) (vars.map fun v => ⟨v⟩) (procs.toAST []) body.toAST
/-- The declarations the parser builds for `procDecls`, from the list built so far. -/
def Procs.toAST : Procs → List ProcedureDeclaration → List ProcedureDeclaration
  | .nil, acc => acc
  | .cons name block rest, acc => rest.toAST (acc ++ [.mk name block.toAST])
end

/-- The tree the parser builds for a `program`. -/
def Prog.toAST (g : Prog) : Program := ⟨g.block.toAST⟩

/-- Is the statement a `begin ... end`. -/
def Stmt.isBegin : Stmt → Bool
  | .begin_ _ _ => true
  | _ => false

/-- The statements the parser accepts directly before the closing `'.'`: an assignment, a call,
a `begin ... end`, an `if` whose then-part is a `begin ... end`, or a `while` whose body is
such a statement. -/
def Stmt.closed : Stmt → Bool
  | .empty => false
  | .assign _ _ => true
  | .call _ => true
  | .begin_ _ _ => true
  | .ifThen _ s => s.isBegin
  | .while_ _ s => s.closed

/-- The body statement of a block. -/
def Blk.body : Blk → Stmt
  | .mk _ _ _ body => body

/-- The body of the program's block ends in a statement accepted before `'.'`. -/
def Prog.closed (g : Prog) : Bool := g.block.body.closed

end Grammar

/-- The token source that delivers the given tokens, each with the tokenizer position
attached to it by `pos`, and ends at position `eof`. -/
def TokenStream.ofTokens (ts : List Token) (pos : Nat → Nat × Nat) (eof : Nat × Nat) :
    TokenStream :=
  ⟨ts.enum.map fun it => ⟨it.2, (pos it.1).1, (pos it.1).2⟩, eof.1, eof.2⟩

/-! ## Auxiliary notions used in the statements and proofs -/

/-- No division inside the expression has a right operand whose folding faults. -/
def Expression.foldsSafely : Expression → Bool
  | .BinaryExpression left op right =>
    left.foldsSafely && right.foldsSafely &&
      !(decide (op = .Div) && decide (right.evaluateConstant = .trap))
  | .UnaryExpression _ operand => operand.foldsSafely
  | .NumberExpression _ => true
  | .IdentifierExpression _ => true

mutual
/-- No statement pointer in the tree is null and every expression folds safely. -/
def Statement.wellFormed : Statement → Bool
  | .nullptr => false
  | .AssignStatement _ expr => expr.foldsSafely
  | .CallStatement _ => true
  | .BeginStatement statements => Statement.wellFormedList statements
  | .IfStatement condition then_stmt => condition.foldsSafely && then_stmt.wellFormed
  | .WhileStatement condition body => condition.foldsSafely && body.wellFormed
/-- Every statement of the list is well formed. -/
def Statement.wellFormedList : List Statement → Bool
  | [] => true
  | s :: rest => s.wellFormed && Statement.wellFormedList rest
end

mutual
/-- The body of the block and of every procedure declared in it is well formed. -/
def Block.wellFormed : Block → Bool
  | .mk _ _ procedures statement =>
    ProcedureDeclaration.wellFormedList procedures && statement.wellFormed
/-- The block of the procedure is well formed. -/
def ProcedureDeclaration.wellFormed : ProcedureDeclaration → Bool
  | .mk _ block => block.wellFormed
/-- Every procedure of the list is well formed. -/
def ProcedureDeclaration.wellFormedList : List ProcedureDeclaration → Bool
  | [] => true
  | d :: rest => d.wellFormed && ProcedureDeclaration.wellFormedList rest
end

/-- The accessor `name()` of `ProcedureDeclaration`. -/
def ProcedureDeclaration.name : ProcedureDeclaration → String
  | .mk name _ => name

namespace SemanticAnalyzer

/-- `sa1` differs from `sa` in its diagnostics only by appended errors, with the flag following. -/
def Extends (sa sa1 : SemanticAnalyzer) : Prop :=
  ∃ extra, sa1.errors_ = sa.errors_ ++ extra ∧ sa1.had_error_ = (sa.had_error_ || !extra.isEmpty)

/-- The scope stack and the nesting level of `sa1` are those of `sa`. -/
def SameScopes (sa sa1 : SemanticAnalyzer) : Prop :=
  sa1.symbol_tables_ = sa.symbol_tables_ ∧ sa1.current_level_ = sa.current_level_

/-- The scope stack of `sa1` is that of `sa` except for its innermost table, in which the
entries of all names outside `names` are as before; the nesting level is the same. -/
def TopChanged (names : List String) (sa sa1 : SemanticAnalyzer) : Prop :=
  ∃ t t1 outer, sa.symbol_tables_ = t :: outer ∧ sa1.symbol_tables_ = t1 :: outer ∧
    sa1.current_level_ = sa.current_level_ ∧
    ∀ n, n ∉ names → SymbolTable.find t1 n = SymbolTable.find t n

/-- The analyzer in which the body block of procedure `name` is visited, when the declaration
of `name` succeeds: the symbol is declared, then the new scope is entered. -/
def bodyEntry (sa : SemanticAnalyzer) (name : String) : SemanticAnalyzer :=
  ((sa.addInfo ("Declaring procedure: " ++ name ++ " at level " ++
    toString sa.current_level_)).declareSymbol name
      ⟨.Procedure, none, sa.current_level_, 0⟩).2.enterScope

/-- The name is not in the innermost table (or there is no table yet). -/
def topFree (sa : SemanticAnalyzer) (name : String) : Bool :=
  match sa.symbol_tables_ with
  | [] => true
  | t :: _ => !SymbolTable.contains t name

end SemanticAnalyzer

namespace Parser

/-- The tokens still to come. -/
def tokens (p : Parser) : List Token := p.lexer_.items.map Lexeme.token

/-- The parser after `k` more tokens have been taken from the source. -/
def drop (p : Parser) (k : Nat) : Parser :=
  { p with lexer_ := { p.lexer_ with items := p.lexer_.items.drop k } }

/-- The type of the first token of a list, `END_OF_FILE` when the list is empty. -/
def nextType (ts : List Token) : TokenType :=
  match ts with
  | [] => .END_OF_FILE
  | t :: _ => t.type

/-- The number of tokens still to come before the end of file. -/
def len (p : Parser) : Nat := p.lexer_.items.length

/-- A number token carries a number and an identifier token a text, as the tokens that
`TokenInterpreter` returns do. -/
def wellValuedToken (t : Token) : Bool :=
  (t.type != .NUMBER || t.valueInt.isSome) && (t.type != .IDENTIFIER || t.valueText.isSome)

/-- Every token still to come is well valued. -/
def wellValued (p : Parser) : Bool := p.lexer_.items.all fun x => wellValuedToken x.token

/-- How a thrown exception relates the parser before and after: either the exception is the
message that `error` has just appended to `errors_`, or it is `bad_variant_access`, nothing
was appended, and `W` (that the tokens are well valued) fails. -/
def Threw (W : Prop) (p : Parser) (e : Exception) (p1 : Parser) : Prop :=
  (∃ m, e = .runtime_error m ∧ p1.errors_ = p.errors_ ++ [m]) ∨
  (e = .bad_variant_access ∧ p1.errors_ = p.errors_ ∧ ¬ W)

/-- The outcome of running `x` on `p` is not a fuel cut; a returned value leaves the parser
`k ≥ m` tokens further in the same source and otherwise unchanged; a thrown exception is as in
`Threw`. -/
def Sound {α : Type} (W : Prop) (m : Nat) (x : ParserM α) (p : Parser) : Prop :=
  match x p with
  | .ok _ p1 => ∃ k, p1 = p.drop k ∧ k ≤ p.len ∧ m ≤ k
  | .thrown e p1 => Threw W p e p1
  | .outOfFuel => False

/-- The bounds on the fuel under which the expression parsers are sound. -/
structure ExprSound (W : Prop) (fuel : Nat) : Prop where
  factor : ∀ p : Parser, (W → p.wellValued = true) → 8 * p.len + 1 ≤ fuel →
    Sound W 1 (parseFactor fuel) p
  powerLoop : ∀ (p : Parser) (acc : Expression), (W → p.wellValued = true) →
    8 * p.len + 1 ≤ fuel →
    Sound W 0 (parsePowerLoop fuel acc) p
  power : ∀ p : Parser, (W → p.wellValued = true) → 8 * p.len + 2 ≤ fuel →
    Sound W 1 (parsePower fuel) p
  termLoop : ∀ (p : Parser) (acc : Expression), (W → p.wellValued = true) →
    8 * p.len + 1 ≤ fuel →
    Sound W 0 (parseTermLoop fuel acc) p
  term : ∀ p : Parser, (W → p.wellValued = true) → 8 * p.len + 3 ≤ fuel →
    Sound W 1 (parseTerm fuel) p
  expressionLoop : ∀ (p : Parser) (acc : Expression), (W → p.wellValued = true) →
    8 * p.len + 1 ≤ fuel →
    Sound W 0 (parseExpressionLoop fuel acc) p
  expression : ∀ p : Parser, (W → p.wellValued = true) → 8 * p.len + 4 ≤ fuel →
    Sound W 1 (parseExpression fuel) p

/-- The least number of tokens a returning `parseStatement` consumes: none before `end` and
`;`, where it returns the null pointer, and at least one elsewhere. -/
def stmtMin (p : Parser) : Nat :=
  if nextType p.tokens = .END ∨ nextType p.tokens = .SEMICOLON then 0 else 1

/-- The bounds on the fuel under which the statement parsers are sound. -/
structure StmtSound (W : Prop) (fuel : Nat) : Prop where
  statement : ∀ p : Parser, (W → p.wellValued = true) → 8 * p.len + 2 ≤ fuel →
    Sound W (stmtMin p) (parseStatement fuel) p
  beginStatement : ∀ p : Parser, (W → p.wellValued = true) → nextType p.tokens = .BEGIN →
    8 * p.len + 1 ≤ fuel →
    Sound W 1 (parseBeginStatement fuel) p
  beginLoop : ∀ (p : Parser) (acc : List Statement), (W → p.wellValued = true) →
    8 * p.len + 3 ≤ fuel →
    Sound W 0 (parseBeginLoop fuel acc) p
  ifStatement : ∀ p : Parser, (W → p.wellValued = true) → nextType p.tokens = .IF →
    8 * p.len + 1 ≤ fuel →
    Sound W 1 (parseIfStatement fuel) p
  ifLoop : ∀ (p : Parser) (acc : List Statement), (W → p.wellValued = true) →
    8 * p.len + 3 ≤ fuel →
    Sound W 0 (parseIfLoop fuel acc) p
  whileStatement : ∀ p : Parser, (W → p.wellValued = true) → nextType p.tokens = .WHILE →
    8 * p.len + 1 ≤ fuel →
    Sound W 1 (parseWhileStatement fuel) p

/-- The bounds on the fuel under which the block parsers are sound. -/
structure BlockSound (W : Prop) (fuel : Nat) : Prop where
  block : ∀ p : Parser, (W → p.wellValued = true) → 8 * p.len + 3 ≤ fuel →
    Sound W 0 (parseBlock fuel) p
  procedures : ∀ (p : Parser) (procs : List ProcedureDeclaration),
    (W → p.wellValued = true) → 8 * p.len + 1 ≤ fuel →
    Sound W 0 (parseProcedures fuel procs) p

end Parser

namespace TokenInterpreter

/-- A result of one of the `tryRead` methods on `t`: its token, if any, is well valued and the
lookahead cache is as in `t`. -/
def ReadOK (t : TokenInterpreter) (r : Option Token × TokenInterpreter) : Prop :=
  (∀ tok, r.1 = some tok → Parser.wellValuedToken tok = true) ∧ r.2.has_peeked_ = t.has_peeked_

end TokenInterpreter

namespace Grammar
open Parser

/-- A token type that cannot continue a `power`. -/
def endsPower (t : TokenType) : Prop := t ≠ .POWER

/-- A token type that cannot continue a `term`. -/
def endsTerm (t : TokenType) : Prop := t ≠ .MULTIPLY ∧ t ≠ .DIVIDE ∧ t ≠ .POWER

/-- A token type that cannot continue an `expression`. -/
def endsExpr (t : TokenType) : Prop := t ≠ .PLUS ∧ t ≠ .MINUS ∧ endsTerm t

/-- A token type that starts a non-empty statement. -/
def startsStmt (t : TokenType) : Prop :=
  t = .IDENTIFIER ∨ t = .CALL ∨ t = .BEGIN ∨ t = .IF ∨ t = .WHILE

/-- What may follow statement `s` for the parser to read exactly `s`: `end`, `;`, or the
closing `'.'` when `s` is closed. -/
def followOK (s : Stmt) (t : TokenType) : Prop :=
  t = .END ∨ t = .SEMICOLON ∨ (t = .PERIOD ∧ s.closed = true)

/-- What may follow block `b` for the parser to read exactly `b`: the `;` that closes a
procedure, or the closing `'.'` when the body of `b` is closed. -/
def blockFollowOK (b : Blk) (t : TokenType) : Prop :=
  t = .SEMICOLON ∨ (t = .PERIOD ∧ b.body.closed = true)

end Grammar

/-! ## Notions used in the statements on constant folding and on parsed trees -/

/-- The value lies in the range of `int64_t`. -/
def inInt64 (x : Int) : Prop := INT64_MIN ≤ x ∧ x ≤ INT64_MAX

instance (x : Int) : Decidable (inInt64 x) :=
  inferInstanceAs (Decidable (INT64_MIN ≤ x ∧ x ≤ INT64_MAX))

/-- The power `a ^ n` of the specification: the product of `n` copies of `a`, each
multiplication a 64-bit one; `pow64 a 0 = 1` and `pow64 a (n + 1) = pow64 a n * a`. -/
def pow64 (a : Int) : Nat → Int
  | 0 => 1
  | n + 1 => wrap64 (pow64 a n * a)

/-- The trees of the specification built only from Number, Unary and Binary nodes whose
binary operators are Add, Sub or Mul. -/
def Expression.arith : Expression → Bool
  | .BinaryExpression left op right =>
    (decide (op = .Add) || decide (op = .Sub) || decide (op = .Mul)) && left.arith && right.arith
  | .UnaryExpression _ operand => operand.arith
  | .NumberExpression _ => true
  | .IdentifierExpression _ => false

/-- The tree contains an Identifier leaf. -/
def Expression.hasIdentifier : Expression → Bool
  | .BinaryExpression left _ right => left.hasIdentifier || right.hasIdentifier
  | .UnaryExpression _ operand => operand.hasIdentifier
  | .NumberExpression _ => false
  | .IdentifierExpression _ => true

mutual
/-- Equality of two statement trees is decidable (the comparison `==` the derived instance
would give; the derivation does not cover a class that holds a list of itself). -/
def Statement.decEq : (a b : Statement) → Decidable (a = b)
  | .nullptr, .nullptr => isTrue rfl
  | .AssignStatement n1 e1, .AssignStatement n2 e2 =>
    if h : n1 = n2 ∧ e1 = e2 then isTrue (by rw [h.1, h.2])
    else isFalse (fun e => h (by injection e with a b; exact ⟨a, b⟩))
  | .CallStatement n1, .CallStatement n2 =>
    if h : n1 = n2 then isTrue (by rw [h])
    else isFalse (fun e => h (by injection e))
  | .BeginStatement s1, .BeginStatement s2 =>
    match Statement.decEqList s1 s2 with
    | isTrue h => isTrue (by rw [h])
    | isFalse h => isFalse (fun e => h (by injection e))
  | .IfStatement c1 t1, .IfStatement c2 t2 =>
    if hc : c1 = c2 then
      match Statement.decEq t1 t2 with
      | isTrue h => isTrue (by rw [hc, h])
      | isFalse h => isFalse (fun e => h (by injection e))
    else isFalse (fun e => hc (by injection e))
  | .WhileStatement c1 t1, .WhileStatement c2 t2 =>
    if hc : c1 = c2 then
      match Statement.decEq t1 t2 with
      | isTrue h => isTrue (by rw [hc, h])
      | isFalse h => isFalse (fun e => h (by injection e))
    else isFalse (fun e => hc (by injection e))
  | .nullptr, .AssignStatement _ _ => isFalse (fun e => Statement.noConfusion e)
  | .nullptr, .CallStatement _ => isFalse (fun e => Statement.noConfusion e)
  | .nullptr, .BeginStatement _ => isFalse (fun e => Statement.noConfusion e)
  | .nullptr, .IfStatement _ _ => isFalse (fun e => Statement.noConfusion e)
  | .nullptr, .WhileStatement _ _ => isFalse (fun e => Statement.noConfusion e)
  | .AssignStatement _ _, .nullptr => isFalse (fun e => Statement.noConfusion e)
  | .AssignStatement _ _, .CallStatement _ => isFalse (fun e => Statement.noConfusion e)
  | .AssignStatement _ _, .BeginStatement _ => isFalse (fun e => Statement.noConfusion e)
  | .AssignStatement _ _, .IfStatement _ _ => isFalse (fun e => Statement.noConfusion e)
  | .AssignStatement _ _, .WhileStatement _ _ => isFalse (fun e => Statement.noConfusion e)
  | .CallStatement _, .nullptr => isFalse (fun e => Statement.noConfusion e)
  | .CallStatement _, .AssignStatement _ _ => isFalse (fun e => Statement.noConfusion e)
  | .CallStatement _, .BeginStatement _ => isFalse (fun e => Statement.noConfusion e)
  | .CallStatement _, .IfStatement _ _ => isFalse (fun e => Statement.noConfusion e)
  | .CallStatement _, .WhileStatement _ _ => isFalse (fun e => Statement.noConfusion e)
  | .BeginStatement _, .nullptr => isFalse (fun e => Statement.noConfusion e)
  | .BeginStatement _, .AssignStatement _ _ => isFalse (fun e => Statement.noConfusion e)
  | .BeginStatement _, .CallStatement _ => isFalse (fun e => Statement.noConfusion e)
  | .BeginStatement _, .IfStatement _ _ => isFalse (fun e => Statement.noConfusion e)
  | .BeginStatement _, .WhileStatement _ _ => isFalse (fun e => Statement.noConfusion e)
  | .IfStatement _ _, .nullptr => isFalse (fun e => Statement.noConfusion e)
  | .IfStatement _ _, .AssignStatement _ _ => isFalse (fun e => Statement.noConfusion e)
  | .IfStatement _ _, .CallStatement _ => isFalse (fun e => Statement.noConfusion e)
  | .IfStatement _ _, .BeginStatement _ => isFalse (fun e => Statement.noConfusion e)
  | .IfStatement _ _, .WhileStatement _ _ => isFalse (fun e => Statement.noConfusion e)
  | .WhileStatement _ _, .nullptr => isFalse (fun e => Statement.noConfusion e)
  | .WhileStatement _ _, .AssignStatement _ _ => isFalse (fun e => Statement.noConfusion e)
  | .WhileStatement _ _, .CallStatement _ => isFalse (fun e => Statement.noConfusion e)
  | .WhileStatement _ _, .BeginStatement _ => isFalse (fun e => Statement.noConfusion e)
  | .WhileStatement _ _, .IfStatement _ _ => isFalse (fun e => Statement.noConfusion e)
/-- Equality of two statement lists is decidable. -/
def Statement.decEqList : (as bs : List Statement) → Decidable (as = bs)
  | [], [] => isTrue rfl
  | [], _ :: _ => isFalse (fun e => List.noConfusion e)
  | _ :: _, [] => isFalse (fun e => List.noConfusion e)
  | a :: as, b :: bs =>
    match Statement.decEq a b with
    | isTrue h =>
      match Statement.decEqList as bs with
      | isTrue hs => isTrue (by rw [h, hs])
      | isFalse hs => isFalse (fun e => hs (by injection e))
    | isFalse h => isFalse (fun e => h (by injection e))
end

instance : DecidableEq Statement := Statement.decEq

mutual
/-- Equality of two blocks is decidable. -/
def Block.decEq : (a b : Block) → Decidable (a = b)
  | .mk c1 v1 p1 s1, .mk c2 v2 p2 s2 =>
    if h : c1 = c2 ∧ v1 = v2 ∧ s1 = s2 then
      match ProcedureDeclaration.decEqList p1 p2 with
      | isTrue hp => isTrue (by rw [h.1, h.2.1, h.2.2, hp])
      | isFalse hp => isFalse (fun e => hp (by injection e))
    else isFalse (fun e => h (by injection e with a b c d; exact ⟨a, b, d⟩))
/-- Equality of two procedure declarations is decidable. -/
def ProcedureDeclaration.decEq : (a b : ProcedureDeclaration) → Decidable (a = b)
  | .mk n1 b1, .mk n2 b2 =>
    if hn : n1 = n2 then
      match Block.decEq b1 b2 with
      | isTrue h => isTrue (by rw [hn, h])
      | isFalse h => isFalse (fun e => h (by injection e))
    else isFalse (fun e => hn (by injection e))
/-- Equality of two lists of procedure declarations is decidable. -/
def ProcedureDeclaration.decEqList :
    (as bs : List ProcedureDeclaration) → Decidable (as = bs)
  | [], [] => isTrue rfl
  | [], _ :: _ => isFalse (fun e => List.noConfusion e)
  | _ :: _, [] => isFalse (fun e => List.noConfusion e)
  | a :: as, b :: bs =>
    match ProcedureDeclaration.decEq a b with
    | isTrue h =>
      match ProcedureDeclaration.decEqList as bs with
      | isTrue hs => isTrue (by rw [h, hs])
      | isFalse hs => isFalse (fun e => hs (by injection e))
    | isFalse h => isFalse (fun e => h (by injection e))
end

instance : DecidableEq Block := Block.decEq

instance : DecidableEq ProcedureDeclaration := ProcedureDeclaration.decEq

instance : DecidableEq Program := fun a b =>
  match a, b with
  | ⟨b1⟩, ⟨b2⟩ =>
    if h : b1 = b2 then isTrue (by rw [h]) else isFalse (fun e => h (by injection e))

/-- The AST that `parse` returns on a source text (`none` for `nullptr`) and the diagnostics
afterwards. -/
def parseSource (source : String) : Option (Option Program × List String) :=
  (Parser.parse (Parser.ofSource source)).map fun r => (r.1, r.2.getErrors)

namespace Parser

/-- Whenever `x` returns on `p` it leaves the parser some `k` tokens further in the same
source, and none of the `k` tokens it has consumed is an Error token. -/
def Clean {α : Type} (x : ParserM α) (p : Parser) : Prop :=
  ∀ a p1, x p = .ok a p1 →
    ∃ k, p1 = p.drop k ∧ k ≤ p.len ∧ ∀ t ∈ p.tokens.take k, t.type ≠ .ERROR

/-- The expression parsers are clean on every parser, with the given fuel. -/
structure ExprClean (fuel : Nat) : Prop where
  factor : ∀ p : Parser, Clean (parseFactor fuel) p
  powerLoop : ∀ (p : Parser) (acc : Expression), Clean (parsePowerLoop fuel acc) p
  power : ∀ p : Parser, Clean (parsePower fuel) p
  termLoop : ∀ (p : Parser) (acc : Expression), Clean (parseTermLoop fuel acc) p
  term : ∀ p : Parser, Clean (parseTerm fuel) p
  expressionLoop : ∀ (p : Parser) (acc : Expression), Clean (parseExpressionLoop fuel acc) p
  expression : ∀ p : Parser, Clean (parseExpression fuel) p

/-- The statement parsers are clean on every parser, with the given fuel. -/
structure StmtClean (fuel : Nat) : Prop where
  statement : ∀ p : Parser, Clean (parseStatement fuel) p
  beginStatement : ∀ p : Parser, nextType p.tokens = .BEGIN →
    Clean (parseBeginStatement fuel) p
  beginLoop : ∀ (p : Parser) (acc : List Statement), Clean (parseBeginLoop fuel acc) p
  ifStatement : ∀ p : Parser, nextType p.tokens = .IF → Clean (parseIfStatement fuel) p
  ifLoop : ∀ (p : Parser) (acc : List Statement), Clean (parseIfLoop fuel acc) p
  whileStatement : ∀ p : Parser, nextType p.tokens = .WHILE →
    Clean (parseWhileStatement fuel) p

/-- The block parsers are clean on every parser, with the given fuel. -/
structure BlockClean (fuel : Nat) : Prop where
  block : ∀ p : Parser, Clean (parseBlock fuel) p
  procedures : ∀ (p : Parser) (procs : List ProcedureDeclaration),
    Clean (parseProcedures fuel procs) p

end Parser

/-! ## Notions used in the statements on associativity, the tokenizer and the driver -/

deriving instance DecidableEq for Result

namespace Grammar

/-- The derivation of the chain `f ^ g1 ^ ... ^ gn`. -/
def powerChain : Factor → List Factor → Power
  | f, [] => .single f
  | f, g :: gs => .pow f (powerChain g gs)

/-- The tokens of the chain `f ^ g1 ^ ... ^ gn`. -/
def powerChainTokens (f : Factor) (gs : List Factor) : List Token :=
  f.tokens ++ gs.flatMap fun g => sym .POWER :: g.tokens

/-- The derivation of the repetition `op1 p1 ... opn pn` of a `term`. -/
def termRestOf : List (MulOp × Power) → TermRest
  | [] => .nil
  | (op, p) :: rest => .cons op p (termRestOf rest)

/-- The derivation of the repetition `op1 t1 ... opn tn` of an `expression`. -/
def exprRestOf : List (AddOp × Term) → ExprRest
  | [] => .nil
  | (op, t) :: rest => .cons op t (exprRestOf rest)

/-- The tokens of `p0 op1 p1 ... opn pn` with operators `*` and `/`. -/
def termSequenceTokens (first : Power) (rest : List (MulOp × Power)) : List Token :=
  first.tokens ++ rest.flatMap fun x => sym x.1.type :: x.2.tokens

/-- The tokens of `t0 op1 t1 ... opn tn` with operators `+` and `-`. -/
def exprSequenceTokens (first : Term) (rest : List (AddOp × Term)) : List Token :=
  first.tokens ++ rest.flatMap fun x => sym x.1.type :: x.2.tokens

end Grammar

/-- The tree `Pow(e, Pow(e1, ... Pow(e(n-1), en)))` of the specification. -/
def rightPow : Expression → List Expression → Expression
  | e, [] => e
  | e, e1 :: es => .BinaryExpression e .Pow (rightPow e1 es)

/-- The left fold `((e op1 e1) op2 e2) ... opn en` of the specification. -/
def leftFold (e : Expression) (rest : List (BinaryOp × Expression)) : Expression :=
  rest.foldl (fun acc x => .BinaryExpression acc x.1 x.2) e

namespace TokenInterpreter

/-- The tokenizer with the lookahead cache replaced: the members `peeked_token_` and
`has_peeked_` set, the others as in `t`. -/
def withPeek (peeked : Token) (has : Bool) (t : TokenInterpreter) : TokenInterpreter :=
  { t with peeked_token_ := peeked, has_peeked_ := has }

/-- A call of one of the two public reading methods. -/
inductive Call where
  | next
  | peek
deriving DecidableEq, Repr

/-- The tokens that a sequence of calls of `nextToken` and `peekToken` returns, in order. -/
def returned : List Call → TokenInterpreter → List Token
  | [], _ => []
  | .next :: calls, t => t.nextToken.1 :: returned calls t.nextToken.2
  | .peek :: calls, t => t.peekToken.1 :: returned calls t.peekToken.2

/-- The tokenizer after `n` calls of `nextToken`. -/
def skip : Nat → TokenInterpreter → TokenInterpreter
  | 0, t => t
  | n + 1, t => skip n t.nextToken.2

/-- The tokenizer `k` characters further on the same line. -/
def moved (k : Nat) (t : TokenInterpreter) : TokenInterpreter :=
  { t with current_ := t.current_ + k, column_ := t.column_ + k }

/-- The maximal run of decimal digits that starts at the current position. -/
def digitsAt (t : TokenInterpreter) : List Char :=
  (t.source_.drop t.current_).takeWhile isDigit

/-- The number that the digits `ds` denote after the digits already read denote `value`. -/
def digitsFrom (value : Nat) (ds : List Char) : Nat :=
  ds.foldl (fun acc c => acc * 10 + (c.toNat - 48)) value

/-- The number that a run of decimal digits denotes. -/
def decimalValue (ds : List Char) : Nat := digitsFrom 0 ds

end TokenInterpreter

/-- The accessor `getInfo`. -/
def SemanticAnalyzer.getInfo (sa : SemanticAnalyzer) : List String := sa.info_

/-! ## Compiler.h, Compiler.cpp -/

namespace Compiler

/-- The struct `Compiler::Result`; `ast` is `none` for the null pointer. -/
structure Result where
  success : Bool
  errors : List String
  tokens : List Token
  ast : Option Program
  semanticInfo : List String
deriving DecidableEq

/-- The loop of the lexical pass of `compileString`, run at most `fuel` times: `some none` when
an `ERROR` token is met, `some (some tokens)` when `END_OF_FILE` ends it, `none` when the rounds
are used up. -/
def lexLoop : Nat → TokenInterpreter → List Token → Option (Option (List Token))
  | 0, _, _ => none
  | fuel + 1, lexer, tokens =>
    let r := lexer.nextToken
    if r.1.type = .ERROR then some none
    else
      let tokens := tokens ++ [r.1]
      if r.1.type = .END_OF_FILE then some (some tokens)
      else lexLoop fuel r.2 tokens

/-- The method `compileString`; `none` when a stage has no defined result.  Every token but
the last takes at least one character, so the lexical pass ends within `length + 1` rounds;
`parse` and `analyze` catch what is thrown inside them, so the outer `catch` is not taken. -/
def compileString (source : String) : Option Result :=
  match lexLoop (source.length + 1) (TokenInterpreter.ofSource source) [] with
  | none => none
  | some none => some ⟨false, ["词法分析错误"], [], none, []⟩
  | some (some tokens) =>
    match Parser.parse (Parser.ofSource source) with
    | none => none
    | some (none, parser) => some ⟨false, parser.getErrors, tokens, none, []⟩
    | some (some ast, _) =>
      match SemanticAnalyzer.analyze SemanticAnalyzer.fresh ast with
      | none => none
      | some (true, analyzer) => some ⟨true, [], tokens, some ast, analyzer.getInfo⟩
      | some (false, analyzer) =>
        some ⟨false, analyzer.getErrors, tokens, some ast, analyzer.getInfo⟩

end Compiler

namespace TokenInterpreter

/-- The result `r1` of a `tryRead` method on the tokenizer with another lookahead cache is the
result `r` on the tokenizer itself, with that cache. -/
def Framed (tok : Token) (b : Bool) (r1 r : Option Token × TokenInterpreter) : Prop :=
  r1 = (r.1, withPeek tok b r.2)

/-- The tokenizer `t2` reads the same text as `t` and is not before it. -/
def Step (t t2 : TokenInterpreter) : Prop :=
  t2.source_ = t.source_ ∧ t.current_ ≤ t2.current_

/-- A result of `tryReadOperator` on `t`: without a token the tokenizer is `t`, with one it is
one or two calls of `advance` further. -/
def OperatorStep (t : TokenInterpreter) (r : Option Token × TokenInterpreter) : Prop :=
  (r.1 = none ∧ r.2 = t) ∨ (r.1 ≠ none ∧ (r.2 = t.advance ∨ r.2 = t.advance.advance))

end TokenInterpreter

/-! ## Notions used in the statements on slot indices, parsed trees and loop progress -/

namespace SemanticAnalyzer

/-- The Variable symbols of a scope table have pairwise distinct slot indices. -/
def DistinctSlots (t : SymbolTable) : Prop :=
  ∀ (n1 n2 : String) (s1 s2 : Symbol), SymbolTable.find t n1 = some s1 →
    SymbolTable.find t n2 = some s2 → s1.type = .Variable → s2.type = .Variable →
    s1.index = s2.index → n1 = n2

/-- The slot indices of the Variable symbols of a scope table are below `c`. -/
def SlotsBelow (c : Nat) (t : SymbolTable) : Prop :=
  ∀ (n : String) (s : Symbol), SymbolTable.find t n = some s → s.type = .Variable → s.index < c

end SemanticAnalyzer

namespace SemanticAnalyzer

/-- The innermost table has distinct slots, all below the counter `var_index_`. -/
def SlotsOK (sa : SemanticAnalyzer) : Prop :=
  ∃ t outer, sa.symbol_tables_ = t :: outer ∧ DistinctSlots t ∧ SlotsBelow sa.var_index_ t

/-- The innermost table has distinct slots. -/
def TopDistinct (sa : SemanticAnalyzer) : Prop :=
  ∃ t outer, sa.symbol_tables_ = t :: outer ∧ DistinctSlots t

end SemanticAnalyzer

/-- No node of the expression is a Unary node. -/
def Expression.noUnary : Expression → Bool
  | .BinaryExpression left _ right => left.noUnary && right.noUnary
  | .UnaryExpression _ _ => false
  | .NumberExpression _ => true
  | .IdentifierExpression _ => true

mutual
/-- No expression in the statement holds a Unary node. -/
def Statement.noUnary : Statement → Bool
  | .nullptr => true
  | .AssignStatement _ expr => expr.noUnary
  | .CallStatement _ => true
  | .BeginStatement statements => Statement.noUnaryList statements
  | .IfStatement condition then_stmt => condition.noUnary && then_stmt.noUnary
  | .WhileStatement condition body => condition.noUnary && body.noUnary
/-- No expression in the statements of the list holds a Unary node. -/
def Statement.noUnaryList : List Statement → Bool
  | [] => true
  | s :: rest => s.noUnary && Statement.noUnaryList rest
end

mutual
/-- No expression in the block holds a Unary node. -/
def Block.noUnary : Block → Bool
  | .mk _ _ procedures statement =>
    ProcedureDeclaration.noUnaryList procedures && statement.noUnary
/-- No expression in the procedure holds a Unary node. -/
def ProcedureDeclaration.noUnary : ProcedureDeclaration → Bool
  | .mk _ block => block.noUnary
/-- No expression in the procedures of the list holds a Unary node. -/
def ProcedureDeclaration.noUnaryList : List ProcedureDeclaration → Bool
  | [] => true
  | d :: rest => d.noUnary && ProcedureDeclaration.noUnaryList rest
end

mutual
/-- Every element of the statement list of every Begin node in the statement is present. -/
def Statement.beginsPresent : Statement → Bool
  | .nullptr => true
  | .AssignStatement _ _ => true
  | .CallStatement _ => true
  | .BeginStatement statements => Statement.beginsPresentList statements
  | .IfStatement _ then_stmt => then_stmt.beginsPresent
  | .WhileStatement _ body => body.beginsPresent
/-- Every statement of the list is present, and so are the elements of the Begin nodes in it. -/
def Statement.beginsPresentList : List Statement → Bool
  | [] => true
  | s :: rest => s.isPresent && s.beginsPresent && Statement.beginsPresentList rest
end

mutual
/-- Every element of the statement list of every Begin node in the block is present. -/
def Block.beginsPresent : Block → Bool
  | .mk _ _ procedures statement =>
    ProcedureDeclaration.beginsPresentList procedures && statement.beginsPresent
/-- Every element of the statement list of every Begin node in the procedure is present. -/
def ProcedureDeclaration.beginsPresent : ProcedureDeclaration → Bool
  | .mk _ block => block.beginsPresent
/-- Every element of the statement list of every Begin node in the procedures is present. -/
def ProcedureDeclaration.beginsPresentList : List ProcedureDeclaration → Bool
  | [] => true
  | d :: rest => d.beginsPresent && ProcedureDeclaration.beginsPresentList rest
end

namespace Parser

/-- Whenever `x` returns a value on `p`, the value satisfies `P`, the parser is left some `k`
tokens further, and `y` returns the same value, `k` tokens further, on every parser whose
source begins with the same `k + 1` tokens (the consumed ones and the lookahead). -/
def Good {α : Type} (P : α → Prop) (x y : ParserM α) (p : Parser) : Prop :=
  ∀ a p1, x p = .ok a p1 → P a ∧ ∃ k, p1 = p.drop k ∧
    ∀ q : Parser, q.lexer_.items.take (k + 1) = p.lexer_.items.take (k + 1) →
      y q = .ok a (q.drop k)

/-- The trees that the statement parsers return: no Unary node, no absent element in a Begin. -/
def Tidy (s : Statement) : Prop := s.noUnary = true ∧ s.beginsPresent = true

/-- The lists that the statement loops collect. -/
def TidyList (ss : List Statement) : Prop :=
  Statement.noUnaryList ss = true ∧ Statement.beginsPresentList ss = true

/-- The expression parsers with fuel `n` and with fuel `m`. -/
structure ExprGood (n m : Nat) : Prop where
  factor : ∀ p : Parser, Good (fun e => e.noUnary = true) (parseFactor n) (parseFactor m) p
  powerLoop : ∀ (p : Parser) (acc : Expression), acc.noUnary = true →
    Good (fun e => e.noUnary = true) (parsePowerLoop n acc) (parsePowerLoop m acc) p
  power : ∀ p : Parser, Good (fun e => e.noUnary = true) (parsePower n) (parsePower m) p
  termLoop : ∀ (p : Parser) (acc : Expression), acc.noUnary = true →
    Good (fun e => e.noUnary = true) (parseTermLoop n acc) (parseTermLoop m acc) p
  term : ∀ p : Parser, Good (fun e => e.noUnary = true) (parseTerm n) (parseTerm m) p
  expressionLoop : ∀ (p : Parser) (acc : Expression), acc.noUnary = true →
    Good (fun e => e.noUnary = true) (parseExpressionLoop n acc) (parseExpressionLoop m acc) p
  expression : ∀ p : Parser,
    Good (fun e => e.noUnary = true) (parseExpression n) (parseExpression m) p

/-- The statement parsers with fuel `n` and with fuel `m`. -/
structure StmtGood (n m : Nat) : Prop where
  statement : ∀ p : Parser, Good Tidy (parseStatement n) (parseStatement m) p
  beginStatement : ∀ p : Parser, Good Tidy (parseBeginStatement n) (parseBeginStatement m) p
  beginLoop : ∀ (p : Parser) (acc : List Statement), TidyList acc →
    Good TidyList (parseBeginLoop n acc) (parseBeginLoop m acc) p
  ifStatement : ∀ p : Parser, Good Tidy (parseIfStatement n) (parseIfStatement m) p
  ifLoop : ∀ (p : Parser) (acc : List Statement), TidyList acc →
    Good TidyList (parseIfLoop n acc) (parseIfLoop m acc) p
  whileStatement : ∀ p : Parser, Good Tidy (parseWhileStatement n) (parseWhileStatement m) p

/-- The blocks that `parseBlock` returns. -/
def TidyBlock (b : Block) : Prop := b.noUnary = true ∧ b.beginsPresent = true

/-- The lists that `parseProcedures` collects. -/
def TidyProcedures (ds : List ProcedureDeclaration) : Prop :=
  ProcedureDeclaration.noUnaryList ds = true ∧ ProcedureDeclaration.beginsPresentList ds = true

/-- The block parsers with fuel `n` and with fuel `m`. -/
structure BlockGood (n m : Nat) : Prop where
  block : ∀ p : Parser, Good TidyBlock (parseBlock n) (parseBlock m) p
  procedures : ∀ (p : Parser) (procs : List ProcedureDeclaration), TidyProcedures procs →
    Good TidyProcedures (parseProcedures n procs) (parseProcedures m procs) p

/-- One round of a loop: `y` on `p` throws, or it has taken at least `m` tokens and either goes
on as `next a` or returns `a`. -/
def Round {α : Type} (m : Nat) (y : ParserM α) (next : α → ParserM α) (p : Parser) : Prop :=
  (∃ e p1, y p = .thrown e p1) ∨
  ∃ a k, m ≤ k ∧ k ≤ p.len ∧ (y p = next a (p.drop k) ∨ y p = .ok a (p.drop k))

end Parser

/-! ## Example inputs -/

/-- The tree of `var x; begin x := y end.` -/
def programUndeclaredUse : Program :=
  ⟨.mk [] [⟨"x"⟩] [] (.BeginStatement [.AssignStatement "x" (.IdentifierExpression "y")])⟩

/-- The analyzer after `analyze` on `programUndeclaredUse`. -/
def afterUndeclaredUse : SemanticAnalyzer :=
  ⟨[], 0, ["未声明的标识符: y"], ["Analyzing program...", "Declaring variable: x at level 1"],
    none, false, 1, true⟩

namespace Grammar

/-- The derivation of the program `.`: a block whose statement is empty. -/
def emptyBodyProgram : Prog := ⟨.mk [] [] .nil .empty⟩

/-- The expression `x` as a derivation. -/
def identExpr (name : String) : Expr := .mk (.mk (.single (.ident name)) .nil) .nil

/-- The expression `v` as a derivation. -/
def numberExpr (v : Int) : Expr := .mk (.mk (.single (.number v)) .nil) .nil

/-- The derivation of `var x; if x = 1 then x := 2.` -/
def ifBeforePeriodProgram : Prog :=
  ⟨.mk [] ["x"] .nil (.ifThen (.rel (identExpr "x") .eq (numberExpr 1))
    (.assign "x" (numberExpr 2)))⟩

/-- The derivation of `const a = 5; var b; begin b := a + 1 end.` -/
def constVarProgram : Prog :=
  ⟨.mk [("a", 5)] ["b"] .nil (.begin_ (.assign "b"
    (.mk (.mk (.single (.ident "a")) .nil)
      (.cons .plus (.mk (.single (.number 1)) .nil) .nil))) .nil)⟩

end Grammar

/-- The tree of `x / 5`. -/
def identifierByFive : Expression :=
  .BinaryExpression (.IdentifierExpression "x") .Div (.NumberExpression 5)

/-- The tree of `(0 - 9223372036854775807 - 1) / (0 - 1)`, whose operands fold to `INT64_MIN`
and `-1`. -/
def minByMinusOne : Expression :=
  .BinaryExpression
    (.BinaryExpression
      (.BinaryExpression (.NumberExpression 0) .Sub (.NumberExpression 9223372036854775807))
      .Sub (.NumberExpression 1))
    .Div
    (.BinaryExpression (.NumberExpression 0) .Sub (.NumberExpression 1))

/-- The program of `var p; procedure p; begin q := 1 end; begin p := 1 end.` -/
def programDuplicateProcedure : Program :=
  ⟨.mk [] [⟨"p"⟩]
    [.mk "p" (.mk [] [] [] (.BeginStatement [.AssignStatement "q" (.NumberExpression 1)]))]
    (.BeginStatement [.AssignStatement "p" (.NumberExpression 1)])⟩

/-- The program of `const a = 5; var b; begin b := a + 1 end.` -/
def programConstVar : Program :=
  ⟨.mk [⟨"a", 5⟩] [⟨"b"⟩] []
    (.BeginStatement [.AssignStatement "b"
      (.BinaryExpression (.IdentifierExpression "a") .Add (.NumberExpression 1))])⟩

/-- The program of `procedure p; ; begin end.`: the block of `p` has no statement. -/
def programNullBody : Program :=
  ⟨.mk [] [] [.mk "p" (.mk [] [] [] .nullptr)] (.BeginStatement [])⟩

/-- The program of `var x; begin if x = 1 then ; x := 2 end.`: the `if` has no then-part. -/
def programNullThen : Program :=
  ⟨.mk [] [⟨"x"⟩] []
    (.BeginStatement
      [.IfStatement (.BinaryExpression (.IdentifierExpression "x") .Eq (.NumberExpression 1))
        .nullptr,
       .AssignStatement "x" (.NumberExpression 2)])⟩

/-- The program of `var x; begin while x = 1 do ; x := 2 end.`: the `while` has no body. -/
def programNullWhileBody : Program :=
  ⟨.mk [] [⟨"x"⟩] []
    (.BeginStatement
      [.WhileStatement (.BinaryExpression (.IdentifierExpression "x") .Eq (.NumberExpression 1))
        .nullptr,
       .AssignStatement "x" (.NumberExpression 2)])⟩

end pl0

/-! # Lemmas -/

namespace pl0
namespace SemanticAnalyzer

/-! ## Properties of the analyzer -/

theorem Extends.extends_refl (sa : SemanticAnalyzer) : Extends sa sa := ⟨[], by simp⟩

theorem Extends.extends_trans {a b c : SemanticAnalyzer} (h1 : Extends a b) (h2 : Extends b c) :
    Extends a c := by
  obtain ⟨e1, h1e, h1f⟩ := h1
  obtain ⟨e2, h2e, h2f⟩ := h2
  refine ⟨e1 ++ e2, by rw [h2e, h1e, List.append_assoc], ?_⟩
  rw [h2f, h1f]
  cases e1 <;> cases e2 <;> simp

theorem Extends.of_eq {a b : SemanticAnalyzer} (he : b.errors_ = a.errors_)
    (hf : b.had_error_ = a.had_error_) : Extends a b := ⟨[], by simp [he], by simp [hf]⟩

theorem extends_addError (sa : SemanticAnalyzer) (m : String) : Extends sa (sa.addError m) :=
  ⟨[m], by simp [addError], by simp [addError]⟩

theorem declareSymbol_errors (sa : SemanticAnalyzer) (name : String) (symbol : Symbol) :
    (sa.declareSymbol name symbol).2.errors_ = sa.errors_ ∧
    (sa.declareSymbol name symbol).2.had_error_ = sa.had_error_ := by
  unfold declareSymbol
  cases h : sa.symbol_tables_ with
  | nil => simp [SymbolTable.contains, SymbolTable.find]
  | cons t rest =>
    simp [h]
    split <;> simp

theorem extends_declareSymbol (sa : SemanticAnalyzer) (name : String) (symbol : Symbol) :
    Extends sa (sa.declareSymbol name symbol).2 :=
  Extends.of_eq (declareSymbol_errors sa name symbol).1 (declareSymbol_errors sa name symbol).2

theorem extends_visitConstDeclaration (sa : SemanticAnalyzer) (node : ConstDeclaration) :
    Extends sa (sa.visitConstDeclaration node) := by
  unfold visitConstDeclaration
  have h0 : Extends sa (sa.addInfo ("Declaring constant: " ++ node.name ++ " = " ++ toString node.value)) :=
    Extends.of_eq rfl rfl
  simp only []
  split
  · exact h0.extends_trans (extends_declareSymbol _ _ _)
  · exact (h0.extends_trans (extends_declareSymbol _ _ _)).extends_trans (extends_addError _ _)

theorem extends_visitVarDeclaration (sa : SemanticAnalyzer) (node : VarDeclaration) :
    Extends sa (sa.visitVarDeclaration node) := by
  unfold visitVarDeclaration
  have h0 : Extends sa { sa.addInfo ("Declaring variable: " ++ node.name ++ " at level " ++ toString sa.current_level_) with
      var_index_ := sa.var_index_ + 1 } := Extends.of_eq rfl rfl
  simp only []
  split
  · exact h0.extends_trans (extends_declareSymbol _ _ _)
  · exact (h0.extends_trans (extends_declareSymbol _ _ _)).extends_trans (extends_addError _ _)

theorem extends_foldl {α : Type} (f : SemanticAnalyzer → α → SemanticAnalyzer)
    (hf : ∀ sa a, Extends sa (f sa a)) (l : List α) (sa : SemanticAnalyzer) :
    Extends sa (l.foldl f sa) := by
  induction l generalizing sa with
  | nil => exact Extends.extends_refl sa
  | cons a l ih => exact (hf sa a).extends_trans (ih (f sa a))

theorem extends_visitIdentifierExpression (sa : SemanticAnalyzer) (name : String) :
    Extends sa (sa.visitIdentifierExpression name) := by
  unfold visitIdentifierExpression
  split
  · exact extends_addError _ _
  · split
    · exact extends_addError _ _
    · split
      · exact Extends.of_eq rfl rfl
      · exact Extends.extends_refl _

theorem extends_checkDivision {sa sa1 : SemanticAnalyzer} {op : BinaryOp} {right : Expression}
    (h : checkDivision sa op right = some sa1) : Extends sa sa1 := by
  unfold checkDivision at h
  split at h
  · split at h
    · exact absurd h (by simp)
    · cases h; exact Extends.extends_refl _
    · split at h <;> cases h
      · exact extends_addError _ _
      · exact Extends.extends_refl _
  · cases h; exact Extends.extends_refl _

theorem extends_visitExpression (e : Expression) :
    ∀ (sa sa1 : SemanticAnalyzer), visitExpression sa e = some sa1 → Extends sa sa1 := by
  induction e with
  | BinaryExpression left op right ihl ihr =>
    intro sa sa1 h
    simp only [visitExpression] at h
    cases hl : visitExpression sa left with
    | none => simp [hl] at h
    | some sa2 =>
      simp only [hl] at h
      cases hr : visitExpression sa2 right with
      | none => simp [hr] at h
      | some sa3 =>
        simp only [hr] at h
        exact ((ihl _ _ hl).extends_trans (ihr _ _ hr)).extends_trans (extends_checkDivision h)
  | UnaryExpression op operand ih =>
    intro sa sa1 h
    simp only [visitExpression] at h
    exact ih _ _ h
  | NumberExpression v =>
    intro sa sa1 h
    simp only [visitExpression, Option.some.injEq] at h
    subst h
    exact Extends.of_eq rfl rfl
  | IdentifierExpression name =>
    intro sa sa1 h
    simp only [visitExpression, Option.some.injEq] at h
    subst h
    exact extends_visitIdentifierExpression _ _

theorem extends_visitCallStatement (sa : SemanticAnalyzer) (name : String) :
    Extends sa (sa.visitCallStatement name) := by
  unfold visitCallStatement
  split
  · exact extends_addError _ _
  · split
    · exact extends_addError _ _
    · exact Extends.extends_refl _

theorem extends_visitAssignStatement {sa sa1 : SemanticAnalyzer} {name : String}
    {expr : Expression} (h : visitAssignStatement sa name expr = some sa1) : Extends sa sa1 := by
  unfold visitAssignStatement at h
  split at h
  · cases h; exact extends_addError _ _
  · split at h
    · cases h; exact extends_addError _ _
    · exact extends_visitExpression _ _ _ h

mutual
theorem extends_visitStatement : ∀ (s : Statement) (sa sa1 : SemanticAnalyzer),
    visitStatement sa s = some sa1 → Extends sa sa1
  | .nullptr, sa, sa1, h => by simp [visitStatement] at h
  | .AssignStatement name expr, sa, sa1, h => by
    simp only [visitStatement] at h
    exact extends_visitAssignStatement h
  | .CallStatement name, sa, sa1, h => by
    simp only [visitStatement, Option.some.injEq] at h
    subst h
    exact extends_visitCallStatement _ _
  | .BeginStatement ss, sa, sa1, h => by
    simp only [visitStatement] at h
    exact extends_visitStatements ss sa sa1 h
  | .IfStatement c t, sa, sa1, h => by
    simp only [visitStatement] at h
    cases hc : visitExpression sa c with
    | none => simp [hc] at h
    | some sa2 =>
      simp only [hc] at h
      exact (extends_visitExpression _ _ _ hc).extends_trans (extends_visitStatement t _ _ h)
  | .WhileStatement c t, sa, sa1, h => by
    simp only [visitStatement] at h
    cases hc : visitExpression sa c with
    | none => simp [hc] at h
    | some sa2 =>
      simp only [hc] at h
      exact (extends_visitExpression _ _ _ hc).extends_trans (extends_visitStatement t _ _ h)
theorem extends_visitStatements : ∀ (ss : List Statement) (sa sa1 : SemanticAnalyzer),
    visitStatements sa ss = some sa1 → Extends sa sa1
  | [], sa, sa1, h => by
    simp only [visitStatements, Option.some.injEq] at h
    subst h
    exact Extends.extends_refl _
  | s :: ss, sa, sa1, h => by
    simp only [visitStatements] at h
    cases hs : visitStatement sa s with
    | none => simp [hs] at h
    | some sa2 =>
      simp only [hs] at h
      exact (extends_visitStatement s _ _ hs).extends_trans (extends_visitStatements ss _ _ h)
end

theorem extends_enterScope (sa : SemanticAnalyzer) : Extends sa sa.enterScope :=
  Extends.of_eq rfl rfl

theorem extends_leaveScope (sa : SemanticAnalyzer) : Extends sa sa.leaveScope :=
  Extends.of_eq rfl rfl

mutual
theorem extends_visitBlock : ∀ (b : Block) (sa sa1 : SemanticAnalyzer),
    visitBlock sa b = some sa1 → Extends sa sa1
  | .mk consts vars procs stmt, sa, sa1, h => by
    simp only [visitBlock] at h
    cases hp : visitProcedures (List.foldl visitVarDeclaration
        (List.foldl visitConstDeclaration sa consts) vars) procs with
    | none => simp [hp] at h
    | some sa2 =>
      simp only [hp] at h
      exact (((extends_foldl _ extends_visitConstDeclaration consts sa).extends_trans
        (extends_foldl _ extends_visitVarDeclaration vars _)).extends_trans
        (extends_visitProcedures procs _ _ hp)).extends_trans (extends_visitStatement stmt _ _ h)
theorem extends_visitProcedureDeclaration : ∀ (d : ProcedureDeclaration)
    (sa sa1 : SemanticAnalyzer), visitProcedureDeclaration sa d = some sa1 → Extends sa sa1
  | .mk name block, sa, sa1, h => by
    simp only [visitProcedureDeclaration] at h
    have h0 : Extends sa (sa.addInfo ("Declaring procedure: " ++ name ++ " at level "
        ++ toString sa.current_level_)) := Extends.of_eq rfl rfl
    split at h
    · split at h
      · exact absurd h (by simp)
      · rename_i sa2 hb
        cases h
        exact (((h0.extends_trans (extends_declareSymbol _ _ _)).extends_trans (extends_enterScope _)).extends_trans
          (extends_visitBlock block _ _ hb)).extends_trans (extends_leaveScope _)
    · cases h
      exact (h0.extends_trans (extends_declareSymbol _ _ _)).extends_trans (extends_addError _ _)
theorem extends_visitProcedures : ∀ (ds : List ProcedureDeclaration)
    (sa sa1 : SemanticAnalyzer), visitProcedures sa ds = some sa1 → Extends sa sa1
  | [], sa, sa1, h => by
    simp only [visitProcedures, Option.some.injEq] at h
    subst h
    exact Extends.extends_refl _
  | d :: ds, sa, sa1, h => by
    simp only [visitProcedures] at h
    cases hs : visitProcedureDeclaration sa d with
    | none => simp [hs] at h
    | some sa2 =>
      simp only [hs] at h
      exact (extends_visitProcedureDeclaration d _ _ hs).extends_trans (extends_visitProcedures ds _ _ h)
end

theorem extends_visitProgram {sa sa1 : SemanticAnalyzer} {program : Program}
    (h : visitProgram sa program = some sa1) : Extends sa sa1 := by
  unfold visitProgram at h
  split at h
  · exact absurd h (by simp)
  · rename_i sa2 hb
    cases h
    have h0 : Extends sa (sa.addInfo "Analyzing program...") := Extends.of_eq rfl rfl
    exact ((h0.extends_trans (extends_enterScope _)).extends_trans (extends_visitBlock _ _ _ hb)).extends_trans
      (extends_leaveScope _)

end SemanticAnalyzer
end pl0

namespace pl0

namespace SemanticAnalyzer

theorem visitExpression_isSome (e : Expression) :
    ∀ sa : SemanticAnalyzer, e.foldsSafely = true → (visitExpression sa e).isSome = true := by
  induction e with
  | BinaryExpression left op right ihl ihr =>
    intro sa h
    simp only [Expression.foldsSafely, Bool.and_eq_true, Bool.not_eq_true', Bool.and_eq_false_iff,
      decide_eq_false_iff_not, decide_eq_true_eq] at h
    obtain ⟨⟨hl, hr⟩, hd⟩ := h
    obtain ⟨sa1, h1⟩ := Option.isSome_iff_exists.mp (ihl sa hl)
    obtain ⟨sa2, h2⟩ := Option.isSome_iff_exists.mp (ihr sa1 hr)
    simp only [visitExpression, h1, h2, checkDivision]
    split
    · rename_i hop
      split
      · rename_i ht
        rcases hd with hd | hd
        · exact absurd hop hd
        · exact absurd ht hd
      · rfl
      · split <;> rfl
    · rfl
  | UnaryExpression op operand ih =>
    intro sa h
    simp only [Expression.foldsSafely] at h
    simpa only [visitExpression] using ih sa h
  | NumberExpression v => intro sa _; rfl
  | IdentifierExpression name => intro sa _; rfl

theorem visitAssignStatement_isSome (sa : SemanticAnalyzer) (name : String) (expr : Expression)
    (h : expr.foldsSafely = true) : (visitAssignStatement sa name expr).isSome = true := by
  unfold visitAssignStatement
  split
  · rfl
  · split
    · rfl
    · exact visitExpression_isSome _ _ h

mutual
theorem visitStatement_isSome : ∀ (s : Statement) (sa : SemanticAnalyzer),
    s.wellFormed = true → (visitStatement sa s).isSome = true
  | .nullptr, sa, h => by simp [Statement.wellFormed] at h
  | .AssignStatement name expr, sa, h => by
    simp only [Statement.wellFormed] at h
    simpa only [visitStatement] using visitAssignStatement_isSome sa name expr h
  | .CallStatement name, sa, h => by simp [visitStatement]
  | .BeginStatement ss, sa, h => by
    simp only [Statement.wellFormed] at h
    simpa only [visitStatement] using visitStatements_isSome ss sa h
  | .IfStatement c t, sa, h => by
    simp only [Statement.wellFormed, Bool.and_eq_true] at h
    obtain ⟨sa1, h1⟩ := Option.isSome_iff_exists.mp (visitExpression_isSome c sa h.1)
    simpa only [visitStatement, h1] using visitStatement_isSome t sa1 h.2
  | .WhileStatement c t, sa, h => by
    simp only [Statement.wellFormed, Bool.and_eq_true] at h
    obtain ⟨sa1, h1⟩ := Option.isSome_iff_exists.mp (visitExpression_isSome c sa h.1)
    simpa only [visitStatement, h1] using visitStatement_isSome t sa1 h.2
theorem visitStatements_isSome : ∀ (ss : List Statement) (sa : SemanticAnalyzer),
    Statement.wellFormedList ss = true → (visitStatements sa ss).isSome = true
  | [], sa, h => by simp [visitStatements]
  | s :: ss, sa, h => by
    simp only [Statement.wellFormedList, Bool.and_eq_true] at h
    obtain ⟨sa1, h1⟩ := Option.isSome_iff_exists.mp (visitStatement_isSome s sa h.1)
    simpa only [visitStatements, h1] using visitStatements_isSome ss sa1 h.2
end

mutual
theorem visitBlock_isSome : ∀ (b : Block) (sa : SemanticAnalyzer),
    b.wellFormed = true → (visitBlock sa b).isSome = true
  | .mk consts vars procs stmt, sa, h => by
    simp only [Block.wellFormed, Bool.and_eq_true] at h
    obtain ⟨sa1, h1⟩ := Option.isSome_iff_exists.mp (visitProcedures_isSome procs
      (List.foldl visitVarDeclaration (List.foldl visitConstDeclaration sa consts) vars) h.1)
    simpa only [visitBlock, h1] using visitStatement_isSome stmt sa1 h.2
theorem visitProcedureDeclaration_isSome : ∀ (d : ProcedureDeclaration) (sa : SemanticAnalyzer),
    d.wellFormed = true → (visitProcedureDeclaration sa d).isSome = true
  | .mk name block, sa, h => by
    simp only [ProcedureDeclaration.wellFormed] at h
    simp only [visitProcedureDeclaration]
    split
    · rename_i hd
      obtain ⟨sa1, h1⟩ := Option.isSome_iff_exists.mp (visitBlock_isSome block
        ((sa.addInfo ("Declaring procedure: " ++ name ++ " at level " ++
          toString sa.current_level_)).declareSymbol name
          ⟨.Procedure, none, sa.current_level_, 0⟩).2.enterScope h)
      simp only [addInfo] at h1
      simp [addInfo, h1]
    · rfl
theorem visitProcedures_isSome : ∀ (ds : List ProcedureDeclaration) (sa : SemanticAnalyzer),
    ProcedureDeclaration.wellFormedList ds = true → (visitProcedures sa ds).isSome = true
  | [], sa, h => by simp [visitProcedures]
  | d :: ds, sa, h => by
    simp only [ProcedureDeclaration.wellFormedList, Bool.and_eq_true] at h
    obtain ⟨sa1, h1⟩ := Option.isSome_iff_exists.mp (visitProcedureDeclaration_isSome d sa h.1)
    simpa only [visitProcedures, h1] using visitProcedures_isSome ds sa1 h.2
end

theorem analyze_isSome (sa : SemanticAnalyzer) (program : Program)
    (h : program.block.wellFormed = true) : (analyze sa program).isSome = true := by
  obtain ⟨sa1, h1⟩ := Option.isSome_iff_exists.mp
    (visitBlock_isSome program.block (sa.addInfo "Analyzing program...").enterScope h)
  simp [analyze, visitProgram, h1]

end SemanticAnalyzer
end pl0

namespace pl0
namespace SemanticAnalyzer

theorem SymbolTable_contains_iff (t : SymbolTable) (name : String) :
    SymbolTable.contains t name = false ↔ SymbolTable.find t name = none := by
  simp [SymbolTable.contains]

theorem lookupIn_append_of_absent (inner : List SymbolTable) (rest : List SymbolTable)
    (name : String) (h : ∀ u ∈ inner, SymbolTable.contains u name = false) :
    lookupIn (inner ++ rest) name = lookupIn rest name := by
  induction inner with
  | nil => rfl
  | cons u inner ih =>
    have hu : SymbolTable.find u name = none :=
      (SymbolTable_contains_iff u name).mp (h u (List.mem_cons_self _ _))
    simp only [List.cons_append, lookupIn, hu]
    exact ih (fun v hv => h v (List.mem_cons_of_mem _ hv))

theorem lookupIn_none_of_absent (tables : List SymbolTable) (name : String)
    (h : ∀ u ∈ tables, SymbolTable.contains u name = false) : lookupIn tables name = none := by
  have := lookupIn_append_of_absent tables [] name h
  simpa [lookupIn] using this

theorem lookupIn_cons_of_present (t : SymbolTable) (outer : List SymbolTable) (name : String)
    (h : SymbolTable.contains t name = true) :
    lookupIn (t :: outer) name = SymbolTable.find t name := by
  simp only [SymbolTable.contains, Option.isSome_iff_exists] at h
  obtain ⟨s, hs⟩ := h
  simp [lookupIn, hs]

theorem declareSymbol_cons (sa : SemanticAnalyzer) (name : String) (symbol : Symbol)
    (t : SymbolTable) (outer : List SymbolTable) (h : sa.symbol_tables_ = t :: outer) :
    sa.declareSymbol name symbol =
      if SymbolTable.contains t name then (false, sa)
      else (true, { sa with symbol_tables_ := ((name, symbol) :: t) :: outer }) := by
  unfold declareSymbol
  simp only [h, List.isEmpty_cons, Bool.false_eq_true, ↓reduceIte]
  split
  · rfl
  · rename_i hc
    simp [SymbolTable.emplace, hc]

theorem declareSymbol_nil (sa : SemanticAnalyzer) (name : String) (symbol : Symbol)
    (h : sa.symbol_tables_ = []) :
    sa.declareSymbol name symbol = (true, { sa with symbol_tables_ := [[(name, symbol)]] }) := by
  unfold declareSymbol
  simp [h, SymbolTable.contains, SymbolTable.find, SymbolTable.emplace]

end SemanticAnalyzer
end pl0

namespace pl0
namespace SemanticAnalyzer

theorem SameScopes.same_refl (sa : SemanticAnalyzer) : SameScopes sa sa := ⟨rfl, rfl⟩

theorem SameScopes.same_trans {a b c : SemanticAnalyzer} (h1 : SameScopes a b) (h2 : SameScopes b c) :
    SameScopes a c := ⟨h2.1.trans h1.1, h2.2.trans h1.2⟩

theorem sameScopes_addError (sa : SemanticAnalyzer) (m : String) : SameScopes sa (sa.addError m) :=
  ⟨rfl, rfl⟩

theorem sameScopes_visitIdentifierExpression (sa : SemanticAnalyzer) (name : String) :
    SameScopes sa (sa.visitIdentifierExpression name) := by
  unfold visitIdentifierExpression
  split
  · exact ⟨rfl, rfl⟩
  · split
    · exact ⟨rfl, rfl⟩
    · split <;> exact ⟨rfl, rfl⟩

theorem sameScopes_checkDivision {sa sa1 : SemanticAnalyzer} {op : BinaryOp} {right : Expression}
    (h : checkDivision sa op right = some sa1) : SameScopes sa sa1 := by
  unfold checkDivision at h
  split at h
  · split at h
    · exact absurd h (by simp)
    · cases h; exact SameScopes.same_refl _
    · split at h <;> cases h
      · exact sameScopes_addError _ _
      · exact SameScopes.same_refl _
  · cases h; exact SameScopes.same_refl _

theorem sameScopes_visitExpression (e : Expression) :
    ∀ (sa sa1 : SemanticAnalyzer), visitExpression sa e = some sa1 → SameScopes sa sa1 := by
  induction e with
  | BinaryExpression left op right ihl ihr =>
    intro sa sa1 h
    simp only [visitExpression] at h
    cases hl : visitExpression sa left with
    | none => simp [hl] at h
    | some sa2 =>
      simp only [hl] at h
      cases hr : visitExpression sa2 right with
      | none => simp [hr] at h
      | some sa3 =>
        simp only [hr] at h
        exact ((ihl _ _ hl).same_trans (ihr _ _ hr)).same_trans (sameScopes_checkDivision h)
  | UnaryExpression op operand ih =>
    intro sa sa1 h
    simp only [visitExpression] at h
    exact ih _ _ h
  | NumberExpression v =>
    intro sa sa1 h
    simp only [visitExpression, Option.some.injEq] at h
    subst h
    exact ⟨rfl, rfl⟩
  | IdentifierExpression name =>
    intro sa sa1 h
    simp only [visitExpression, Option.some.injEq] at h
    subst h
    exact sameScopes_visitIdentifierExpression _ _

theorem sameScopes_visitCallStatement (sa : SemanticAnalyzer) (name : String) :
    SameScopes sa (sa.visitCallStatement name) := by
  unfold visitCallStatement
  split
  · exact ⟨rfl, rfl⟩
  · split <;> exact ⟨rfl, rfl⟩

theorem sameScopes_visitAssignStatement {sa sa1 : SemanticAnalyzer} {name : String}
    {expr : Expression} (h : visitAssignStatement sa name expr = some sa1) :
    SameScopes sa sa1 := by
  unfold visitAssignStatement at h
  split at h
  · cases h; exact ⟨rfl, rfl⟩
  · split at h
    · cases h; exact ⟨rfl, rfl⟩
    · exact sameScopes_visitExpression _ _ _ h

mutual
theorem sameScopes_visitStatement : ∀ (s : Statement) (sa sa1 : SemanticAnalyzer),
    visitStatement sa s = some sa1 → SameScopes sa sa1
  | .nullptr, sa, sa1, h => by simp [visitStatement] at h
  | .AssignStatement name expr, sa, sa1, h => by
    simp only [visitStatement] at h
    exact sameScopes_visitAssignStatement h
  | .CallStatement name, sa, sa1, h => by
    simp only [visitStatement, Option.some.injEq] at h
    subst h
    exact sameScopes_visitCallStatement _ _
  | .BeginStatement ss, sa, sa1, h => by
    simp only [visitStatement] at h
    exact sameScopes_visitStatements ss sa sa1 h
  | .IfStatement c t, sa, sa1, h => by
    simp only [visitStatement] at h
    cases hc : visitExpression sa c with
    | none => simp [hc] at h
    | some sa2 =>
      simp only [hc] at h
      exact (sameScopes_visitExpression _ _ _ hc).same_trans (sameScopes_visitStatement t _ _ h)
  | .WhileStatement c t, sa, sa1, h => by
    simp only [visitStatement] at h
    cases hc : visitExpression sa c with
    | none => simp [hc] at h
    | some sa2 =>
      simp only [hc] at h
      exact (sameScopes_visitExpression _ _ _ hc).same_trans (sameScopes_visitStatement t _ _ h)
theorem sameScopes_visitStatements : ∀ (ss : List Statement) (sa sa1 : SemanticAnalyzer),
    visitStatements sa ss = some sa1 → SameScopes sa sa1
  | [], sa, sa1, h => by
    simp only [visitStatements, Option.some.injEq] at h
    subst h
    exact SameScopes.same_refl _
  | s :: ss, sa, sa1, h => by
    simp only [visitStatements] at h
    cases hs : visitStatement sa s with
    | none => simp [hs] at h
    | some sa2 =>
      simp only [hs] at h
      exact (sameScopes_visitStatement s _ _ hs).same_trans (sameScopes_visitStatements ss _ _ h)
end

theorem TopChanged.top_refl (names : List String) (sa : SemanticAnalyzer) (t : SymbolTable)
    (outer : List SymbolTable) (h : sa.symbol_tables_ = t :: outer) : TopChanged names sa sa :=
  ⟨t, t, outer, h, h, rfl, fun _ _ => rfl⟩

theorem TopChanged.top_trans {xs ys : List String} {a b c : SemanticAnalyzer}
    (h1 : TopChanged xs a b) (h2 : TopChanged ys b c) : TopChanged (xs ++ ys) a c := by
  obtain ⟨t, t1, outer, ha, hb, hl, hf⟩ := h1
  obtain ⟨t1', t2, outer', hb', hc, hl', hf'⟩ := h2
  rw [hb] at hb'
  cases hb'
  refine ⟨t, t2, outer, ha, hc, hl'.trans hl, ?_⟩
  intro n hn
  simp only [List.mem_append, not_or] at hn
  rw [hf' n hn.2, hf n hn.1]

theorem TopChanged.mono {xs ys : List String} {a b : SemanticAnalyzer}
    (h : TopChanged xs a b) (hsub : ∀ n, n ∈ xs → n ∈ ys) : TopChanged ys a b := by
  obtain ⟨t, t1, outer, ha, hb, hl, hf⟩ := h
  exact ⟨t, t1, outer, ha, hb, hl, fun n hn => hf n (fun hx => hn (hsub n hx))⟩

theorem TopChanged.of_sameScopes {a b : SemanticAnalyzer} (t : SymbolTable)
    (outer : List SymbolTable) (ha : a.symbol_tables_ = t :: outer) (h : SameScopes a b) :
    TopChanged [] a b :=
  ⟨t, t, outer, ha, h.1.trans ha, h.2, fun _ _ => rfl⟩

theorem TopChanged.nonempty {xs : List String} {a b : SemanticAnalyzer}
    (h : TopChanged xs a b) : ∃ t outer, b.symbol_tables_ = t :: outer := by
  obtain ⟨t, t1, outer, _, hb, _, _⟩ := h
  exact ⟨t1, outer, hb⟩

theorem topChanged_declareSymbol (sa : SemanticAnalyzer) (name : String) (symbol : Symbol)
    (t : SymbolTable) (outer : List SymbolTable) (h : sa.symbol_tables_ = t :: outer) :
    TopChanged [name] sa (sa.declareSymbol name symbol).2 := by
  rw [declareSymbol_cons sa name symbol t outer h]
  split
  · exact TopChanged.top_refl _ _ t outer h
  · refine ⟨t, (name, symbol) :: t, outer, h, rfl, rfl, ?_⟩
    intro n hn
    have hne : ¬ name = n := fun e => hn (by simp [e])
    simp [SymbolTable.find, hne]

theorem topChanged_visitConstDeclaration (sa : SemanticAnalyzer) (node : ConstDeclaration)
    (t : SymbolTable) (outer : List SymbolTable) (h : sa.symbol_tables_ = t :: outer) :
    TopChanged [node.name] sa (sa.visitConstDeclaration node) := by
  unfold visitConstDeclaration
  have h1 := topChanged_declareSymbol
    (sa.addInfo ("Declaring constant: " ++ node.name ++ " = " ++ toString node.value)) node.name
    ⟨.Constant, some node.value, sa.current_level_, 0⟩ t outer h
  simp only []
  split
  · exact h1
  · obtain ⟨a, b, c, h2, h3, h4, h5⟩ := h1
    exact ⟨a, b, c, h2, h3, h4, h5⟩

theorem topChanged_visitVarDeclaration (sa : SemanticAnalyzer) (node : VarDeclaration)
    (t : SymbolTable) (outer : List SymbolTable) (h : sa.symbol_tables_ = t :: outer) :
    TopChanged [node.name] sa (sa.visitVarDeclaration node) := by
  unfold visitVarDeclaration
  have h1 := topChanged_declareSymbol
    { sa.addInfo ("Declaring variable: " ++ node.name ++ " at level " ++
      toString sa.current_level_) with var_index_ := sa.var_index_ + 1 } node.name
    ⟨.Variable, none, sa.current_level_, sa.var_index_⟩ t outer h
  simp only []
  split
  · exact h1
  · obtain ⟨a, b, c, h2, h3, h4, h5⟩ := h1
    exact ⟨a, b, c, h2, h3, h4, h5⟩

theorem topChanged_foldl {α : Type} (f : SemanticAnalyzer → α → SemanticAnalyzer)
    (key : α → String)
    (hf : ∀ sa a t outer, sa.symbol_tables_ = t :: outer → TopChanged [key a] sa (f sa a))
    (l : List α) (sa : SemanticAnalyzer) (t : SymbolTable) (outer : List SymbolTable)
    (h : sa.symbol_tables_ = t :: outer) : TopChanged (l.map key) sa (l.foldl f sa) := by
  induction l generalizing sa t with
  | nil => exact TopChanged.top_refl _ _ t outer h
  | cons a l ih =>
    have h1 := hf sa a t outer h
    obtain ⟨t1, outer1, hb⟩ := h1.nonempty
    have houter : outer1 = outer := by
      obtain ⟨_, _, _, ha', hb', _, _⟩ := h1
      rw [h] at ha'; rw [hb] at hb'
      cases ha'; cases hb'; rfl
    subst houter
    exact h1.top_trans (ih (f sa a) t1 hb)

end SemanticAnalyzer
end pl0

namespace pl0

namespace SemanticAnalyzer

mutual
theorem topChanged_visitBlock : ∀ (b : Block) (sa sa1 : SemanticAnalyzer) (t : SymbolTable)
    (outer : List SymbolTable), sa.symbol_tables_ = t :: outer → visitBlock sa b = some sa1 →
    ∃ names, TopChanged names sa sa1
  | .mk consts vars procs stmt, sa, sa1, t, outer, ht, h => by
    simp only [visitBlock] at h
    have h1 := topChanged_foldl visitConstDeclaration ConstDeclaration.name
      topChanged_visitConstDeclaration consts sa t outer ht
    obtain ⟨t1, o1, ht1⟩ := h1.nonempty
    have h2 := topChanged_foldl visitVarDeclaration VarDeclaration.name
      topChanged_visitVarDeclaration vars _ t1 o1 ht1
    obtain ⟨t2, o2, ht2⟩ := h2.nonempty
    cases hp : visitProcedures (List.foldl visitVarDeclaration
        (List.foldl visitConstDeclaration sa consts) vars) procs with
    | none => simp [hp] at h
    | some sa2 =>
      simp only [hp] at h
      have h3 := topChanged_visitProcedures procs _ sa2 t2 o2 ht2 hp
      obtain ⟨t3, o3, ht3⟩ := h3.nonempty
      have h4 := TopChanged.of_sameScopes t3 o3 ht3 (sameScopes_visitStatement stmt _ _ h)
      exact ⟨_, ((h1.top_trans h2).top_trans h3).top_trans h4⟩
theorem topChanged_visitProcedureDeclaration : ∀ (d : ProcedureDeclaration)
    (sa sa1 : SemanticAnalyzer) (t : SymbolTable) (outer : List SymbolTable),
    sa.symbol_tables_ = t :: outer → visitProcedureDeclaration sa d = some sa1 →
    TopChanged [d.name] sa sa1
  | .mk name block, sa, sa1, t, outer, ht, h => by
    simp only [visitProcedureDeclaration] at h
    have h1 := topChanged_declareSymbol (sa.addInfo ("Declaring procedure: " ++ name ++
      " at level " ++ toString sa.current_level_)) name
      ⟨.Procedure, none, sa.current_level_, 0⟩ t outer ht
    simp only [ProcedureDeclaration.name]
    split at h
    · split at h
      · exact absurd h (by simp)
      · rename_i sa2 hb
        cases h
        obtain ⟨a, b, c, h2, h3, h4, h5⟩ := h1
        obtain ⟨names, u, u1, o, hu, hu1, hl, _⟩ :=
          topChanged_visitBlock block _ sa2 [] (b :: c) (by simp [enterScope, h3]) hb
        simp only [enterScope, h3, List.cons.injEq] at hu
        obtain ⟨_, ho⟩ := hu
        subst ho
        refine ⟨a, b, c, h2, by simp [leaveScope, hu1], ?_, h5⟩
        have hlv : sa2.leaveScope.current_level_ = sa2.current_level_ - 1 := rfl
        rw [hlv, hl]
        simp only [enterScope, Nat.add_sub_cancel]
        exact h4
    · cases h
      obtain ⟨a, b, c, h2, h3, h4, h5⟩ := h1
      exact ⟨a, b, c, h2, h3, h4, h5⟩
theorem topChanged_visitProcedures : ∀ (ds : List ProcedureDeclaration)
    (sa sa1 : SemanticAnalyzer) (t : SymbolTable) (outer : List SymbolTable),
    sa.symbol_tables_ = t :: outer → visitProcedures sa ds = some sa1 →
    TopChanged (ds.map ProcedureDeclaration.name) sa sa1
  | [], sa, sa1, t, outer, ht, h => by
    simp only [visitProcedures, Option.some.injEq] at h
    subst h
    exact TopChanged.top_refl _ _ t outer ht
  | d :: ds, sa, sa1, t, outer, ht, h => by
    simp only [visitProcedures] at h
    cases hs : visitProcedureDeclaration sa d with
    | none => simp [hs] at h
    | some sa2 =>
      simp only [hs] at h
      have h1 := topChanged_visitProcedureDeclaration d sa sa2 t outer ht hs
      obtain ⟨t1, o1, ht1⟩ := h1.nonempty
      exact h1.top_trans (topChanged_visitProcedures ds sa2 sa1 t1 o1 ht1 h)
end

theorem bodyEntry_spec (sa : SemanticAnalyzer) (name : String) (h : topFree sa name = true) :
    ((sa.addInfo ("Declaring procedure: " ++ name ++ " at level " ++
      toString sa.current_level_)).declareSymbol name
        ⟨.Procedure, none, sa.current_level_, 0⟩).1 = true ∧
    ∃ t outer, (bodyEntry sa name).symbol_tables_ = [] :: t :: outer ∧
      SymbolTable.find t name = some ⟨.Procedure, none, sa.current_level_, 0⟩ := by
  unfold bodyEntry
  cases hs : sa.symbol_tables_ with
  | nil =>
    rw [declareSymbol_nil _ _ _ (by simpa [addInfo] using hs)]
    exact ⟨rfl, _, _, rfl, by simp [SymbolTable.find]⟩
  | cons t outer =>
    have hc : SymbolTable.contains t name = false := by simpa [topFree, hs] using h
    rw [declareSymbol_cons _ _ _ t outer (by simpa [addInfo] using hs)]
    simp only [hc, Bool.false_eq_true, ↓reduceIte, enterScope, true_and]
    exact ⟨_, _, rfl, by simp [SymbolTable.find]⟩

end SemanticAnalyzer
end pl0

namespace pl0
namespace Parser

@[simp] theorem bind_apply {α β : Type} (x : ParserM α) (f : α → ParserM β) (p : Parser) :
    (x >>= f) p = match x p with
      | .ok a p1 => f a p1
      | .thrown e p1 => .thrown e p1
      | .outOfFuel => .outOfFuel := rfl

@[simp] theorem pure_apply {α : Type} (a : α) (p : Parser) :
    (pure a : ParserM α) p = .ok a p := rfl

@[simp] theorem position_apply (p : Parser) :
    position p = .ok (p.lexer_.head.line, p.lexer_.head.column) p := rfl

theorem peekToken_type (p : Parser) : p.lexer_.peekToken.type = nextType p.tokens := by
  unfold TokenStream.peekToken TokenStream.head tokens
  cases p.lexer_.items <;> rfl

@[simp] theorem check_apply (ty : TokenType) (p : Parser) :
    check ty p = .ok (decide (nextType p.tokens = ty)) p := by
  simp [check, peekToken_type]

@[simp] theorem tokens_drop (p : Parser) (k : Nat) : (p.drop k).tokens = p.tokens.drop k := by
  simp [tokens, drop, List.map_drop]

@[simp] theorem drop_drop (p : Parser) (j k : Nat) : (p.drop j).drop k = p.drop (j + k) := by
  simp [drop, List.drop_drop, Nat.add_comm]

@[simp] theorem drop_zero (p : Parser) : p.drop 0 = p := by
  simp [drop]

@[simp] theorem drop_errors (p : Parser) (k : Nat) : (p.drop k).errors_ = p.errors_ := rfl

@[simp] theorem drop_had_error (p : Parser) (k : Nat) : (p.drop k).had_error_ = p.had_error_ := rfl

theorem advance_cons {p : Parser} {t : Token} {rest : List Token} (h : p.tokens = t :: rest) :
    advance p = .ok t (p.drop 1) := by
  unfold advance TokenStream.nextToken TokenStream.head drop
  unfold tokens at h
  cases hi : p.lexer_.items with
  | nil => simp [hi] at h
  | cons x xs =>
    simp only [hi, List.map_cons, List.cons.injEq] at h
    simp [h.1]

theorem peek_cons {p : Parser} {t : Token} {rest : List Token} (h : p.tokens = t :: rest) :
    peek p = .ok t p := by
  unfold peek TokenStream.peekToken TokenStream.head
  unfold tokens at h
  cases hi : p.lexer_.items with
  | nil => simp [hi] at h
  | cons x xs =>
    simp only [hi, List.map_cons, List.cons.injEq] at h
    simp [h.1]

theorem consume_cons {p : Parser} {t : Token} {rest : List Token} (h : p.tokens = t :: rest)
    (message : String) : consume t.type message p = .ok t (p.drop 1) := by
  simp [consume, h, nextType, advance_cons h]

theorem match_cons {p : Parser} {t : Token} {rest : List Token} (h : p.tokens = t :: rest) :
    match_ t.type p = .ok true (p.drop 1) := by
  simp [match_, h, nextType, advance_cons h]

theorem match_other {p : Parser} {ty : TokenType} (h : nextType p.tokens ≠ ty) :
    match_ ty p = .ok false p := by
  simp [match_, h]

/-- The tokens after a derived prefix of known length. -/
theorem tokens_drop_append {p : Parser} {xs rest : List Token} (h : p.tokens = xs ++ rest) :
    (p.drop xs.length).tokens = rest := by
  simp [h]

theorem bind_ok {α β : Type} {x : ParserM α} {f : α → ParserM β} {p p1 : Parser} {a : α}
    (h : x p = .ok a p1) : (x >>= f) p = f a p1 := by
  simp [h]

theorem ok_drop_congr {α : Type} (a : α) (p : Parser) {j k : Nat} (h : j = k) :
    (Result.ok a (p.drop j) : Result α) = .ok a (p.drop k) := by rw [h]

theorem parsePower_eq (n : Nat) (p : Parser) :
    parsePower (n + 1) p = (parseFactor n >>= fun expr => parsePowerLoop n expr) p := by
  simp [parsePower]

theorem parseTerm_eq (n : Nat) (p : Parser) :
    parseTerm (n + 1) p = (parsePower n >>= fun expr => parseTermLoop n expr) p := by
  simp [parseTerm]

theorem parseExpression_eq (n : Nat) (p : Parser) :
    parseExpression (n + 1) p = (parseTerm n >>= fun expr => parseExpressionLoop n expr) p := by
  simp [parseExpression]

theorem parsePowerLoop_stop {p : Parser} {fuel : Nat} (acc : Expression)
    (h : nextType p.tokens ≠ .POWER) (hf : 1 ≤ fuel) : parsePowerLoop fuel acc p = .ok acc p := by
  obtain ⟨n, rfl⟩ : ∃ n, fuel = n + 1 := ⟨fuel - 1, by omega⟩
  simp [parsePowerLoop, h]

theorem parsePowerLoop_step {p : Parser} {rest : List Token} (n : Nat) (acc : Expression)
    (h : p.tokens = Grammar.sym .POWER :: rest) :
    parsePowerLoop (n + 1) acc p =
      (parsePower n >>= fun right => parsePowerLoop n (.BinaryExpression acc .Pow right))
        (p.drop 1) := by
  simp [parsePowerLoop, h, nextType, Grammar.sym, Token.ofType, advance_cons h]

theorem parseTermLoop_stop {p : Parser} {fuel : Nat} (acc : Expression)
    (h1 : nextType p.tokens ≠ .MULTIPLY) (h2 : nextType p.tokens ≠ .DIVIDE) (hf : 1 ≤ fuel) :
    parseTermLoop fuel acc p = .ok acc p := by
  obtain ⟨n, rfl⟩ : ∃ n, fuel = n + 1 := ⟨fuel - 1, by omega⟩
  simp [parseTermLoop, h1, h2]

theorem parseTermLoop_step {p : Parser} {rest : List Token} (n : Nat) (acc : Expression)
    (op : Grammar.MulOp) (h : p.tokens = Grammar.sym op.type :: rest) :
    parseTermLoop (n + 1) acc p =
      (parsePower n >>= fun right => parseTermLoop n (.BinaryExpression acc op.op right))
        (p.drop 1) := by
  cases op <;>
  simp [parseTermLoop, h, nextType, Grammar.sym, Token.ofType, Grammar.MulOp.type,
    Grammar.MulOp.op, peek_cons h, tokenTypeToBinaryOp, advance_cons h]

theorem parseExpressionLoop_stop {p : Parser} {fuel : Nat} (acc : Expression)
    (h1 : nextType p.tokens ≠ .PLUS) (h2 : nextType p.tokens ≠ .MINUS) (hf : 1 ≤ fuel) :
    parseExpressionLoop fuel acc p = .ok acc p := by
  obtain ⟨n, rfl⟩ : ∃ n, fuel = n + 1 := ⟨fuel - 1, by omega⟩
  simp [parseExpressionLoop, h1, h2]

theorem parseExpressionLoop_step {p : Parser} {rest : List Token} (n : Nat) (acc : Expression)
    (op : Grammar.AddOp) (h : p.tokens = Grammar.sym op.type :: rest) :
    parseExpressionLoop (n + 1) acc p =
      (parseTerm n >>= fun right => parseExpressionLoop n (.BinaryExpression acc op.op right))
        (p.drop 1) := by
  cases op <;>
  simp [parseExpressionLoop, h, nextType, Grammar.sym, Token.ofType, Grammar.AddOp.type,
    Grammar.AddOp.op, peek_cons h, tokenTypeToBinaryOp, advance_cons h]

theorem parseFactor_number {p : Parser} {rest : List Token} (n : Nat) (v : Int)
    (h : p.tokens = Grammar.number v :: rest) :
    parseFactor (n + 1) p = .ok (.NumberExpression v) (p.drop 1) := by
  simp [parseFactor, h, nextType, Grammar.number, advance_cons h, Token.valueInt]

theorem parseFactor_ident {p : Parser} {rest : List Token} (n : Nat) (name : String)
    (h : p.tokens = Grammar.ident name :: rest) :
    parseFactor (n + 1) p = .ok (.IdentifierExpression name) (p.drop 1) := by
  simp [parseFactor, h, nextType, Grammar.ident, advance_cons h, Token.valueText]

theorem parseFactor_paren {p : Parser} {rest : List Token} (n : Nat)
    (h : p.tokens = Grammar.sym .LPAREN :: rest) :
    parseFactor (n + 1) p =
      (parseExpression n >>= fun expr =>
        consume .RPAREN "表达式需要右括号')'" >>= fun _ => pure expr) (p.drop 1) := by
  simp [parseFactor, h, nextType, Grammar.sym, Token.ofType, advance_cons h]

theorem consume_sym {p : Parser} {rest : List Token} (ty : TokenType) (message : String)
    (h : p.tokens = Grammar.sym ty :: rest) :
    consume ty message p = .ok (Grammar.sym ty) (p.drop 1) :=
  consume_cons h message

theorem nextType_termRest (r : Grammar.TermRest) (rest : List Token)
    (h : nextType rest ≠ .POWER) : nextType (r.tokens ++ rest) ≠ .POWER := by
  cases r with
  | nil => exact h
  | cons op _ _ => cases op <;> simp [Grammar.TermRest.tokens, nextType, Grammar.sym,
      Token.ofType, Grammar.MulOp.type]

theorem nextType_exprRest (r : Grammar.ExprRest) (rest : List Token)
    (h1 : nextType rest ≠ .MULTIPLY) (h2 : nextType rest ≠ .DIVIDE) (h3 : nextType rest ≠ .POWER) :
    nextType (r.tokens ++ rest) ≠ .MULTIPLY ∧ nextType (r.tokens ++ rest) ≠ .DIVIDE ∧
      nextType (r.tokens ++ rest) ≠ .POWER := by
  cases r with
  | nil => exact ⟨h1, h2, h3⟩
  | cons op _ _ => cases op <;> simp [Grammar.ExprRest.tokens, nextType, Grammar.sym,
      Token.ofType, Grammar.AddOp.type]

end Parser

namespace Grammar
open Parser

mutual
theorem parseFactor_complete : ∀ (g : Factor) (fuel : Nat) (p : Parser) (rest : List Token),
    p.tokens = g.tokens ++ rest → 8 * g.tokens.length + 1 ≤ fuel →
    parseFactor fuel p = .ok g.toAST (p.drop g.tokens.length)
  | .number v, fuel, p, rest, h, hf => by
    obtain ⟨n, rfl⟩ : ∃ n, fuel = n + 1 := ⟨fuel - 1, by omega⟩
    exact parseFactor_number n v h
  | .ident name, fuel, p, rest, h, hf => by
    obtain ⟨n, rfl⟩ : ∃ n, fuel = n + 1 := ⟨fuel - 1, by omega⟩
    exact parseFactor_ident n name h
  | .paren e, fuel, p, rest, h, hf => by
    obtain ⟨n, rfl⟩ : ∃ n, fuel = n + 1 := ⟨fuel - 1, by omega⟩
    simp only [Factor.tokens, List.cons_append, List.append_assoc, List.singleton_append] at h
    simp only [Factor.tokens, List.length_cons, List.length_append, List.length_nil] at hf
    have h1 : (p.drop 1).tokens = e.tokens ++ sym .RPAREN :: rest := by simp [h]
    have ih := parseExpr_complete e n (p.drop 1) (sym .RPAREN :: rest) h1
      (by simp [nextType, sym, Token.ofType, endsExpr, endsTerm]) (by omega)
    have h2 := tokens_drop_append h1
    rw [parseFactor_paren n h, bind_ok ih, bind_ok (consume_sym _ _ h2)]
    simp only [pure_apply, Factor.toAST, drop_drop]
    exact ok_drop_congr _ _ (by simp only [Factor.tokens, List.length_cons, List.length_append, List.length_nil]; omega)
theorem parsePower_complete : ∀ (g : Power) (fuel : Nat) (p : Parser) (rest : List Token),
    p.tokens = g.tokens ++ rest → endsPower (nextType rest) → 8 * g.tokens.length + 2 ≤ fuel →
    parsePower fuel p = .ok g.toAST (p.drop g.tokens.length)
  | .single f, fuel, p, rest, h, hn, hf => by
    obtain ⟨n, rfl⟩ : ∃ n, fuel = n + 1 := ⟨fuel - 1, by omega⟩
    simp only [Power.tokens] at h hf
    have ih := parseFactor_complete f n p rest h (by omega)
    have h1 := tokens_drop_append h
    rw [parsePower_eq, bind_ok ih, parsePowerLoop_stop _ (by rw [h1]; exact hn) (by omega)]
    rfl
  | .pow f g, fuel, p, rest, h, hn, hf => by
    obtain ⟨n, rfl⟩ : ∃ n, fuel = n + 2 := ⟨fuel - 2, by omega⟩
    simp only [Power.tokens, List.append_assoc, List.cons_append] at h
    simp only [Power.tokens, List.length_append, List.length_cons] at hf
    have ih := parseFactor_complete f (n + 1) p _ h (by omega)
    have h1 := tokens_drop_append h
    have h2 : ((p.drop f.tokens.length).drop 1).tokens = g.tokens ++ rest := by
      rw [tokens_drop, h1]; rfl
    have ih2 := parsePower_complete g n _ rest h2 hn (by omega)
    have h3 := tokens_drop_append h2
    rw [parsePower_eq, bind_ok ih, parsePowerLoop_step n _ h1, bind_ok ih2,
      parsePowerLoop_stop _ (by rw [h3]; exact hn) (by omega)]
    simp only [Power.toAST, drop_drop]
    exact ok_drop_congr _ _ (by simp only [Power.tokens, List.length_cons, List.length_append]; omega)
theorem parseTermLoop_complete : ∀ (g : TermRest) (fuel : Nat) (p : Parser) (rest : List Token)
    (acc : Expression),
    p.tokens = g.tokens ++ rest → endsTerm (nextType rest) → 8 * g.tokens.length + 1 ≤ fuel →
    parseTermLoop fuel acc p = .ok (g.toAST acc) (p.drop g.tokens.length)
  | .nil, fuel, p, rest, acc, h, hn, hf => by
    simp only [TermRest.tokens, List.nil_append] at h
    rw [parseTermLoop_stop _ (by rw [h]; exact hn.1) (by rw [h]; exact hn.2.1) (by omega)]
    simp [TermRest.toAST, TermRest.tokens]
  | .cons op g r, fuel, p, rest, acc, h, hn, hf => by
    obtain ⟨n, rfl⟩ : ∃ n, fuel = n + 1 := ⟨fuel - 1, by omega⟩
    simp only [TermRest.tokens, List.cons_append, List.append_assoc] at h
    simp only [TermRest.tokens, List.length_append, List.length_cons] at hf
    have h1 : (p.drop 1).tokens = g.tokens ++ (r.tokens ++ rest) := by simp [h]
    have ih := parsePower_complete g n (p.drop 1) _ h1 (nextType_termRest r rest hn.2.2)
      (by omega)
    have h2 := tokens_drop_append h1
    have ih2 := parseTermLoop_complete r n _ rest (.BinaryExpression acc op.op g.toAST) h2 hn
      (by omega)
    rw [parseTermLoop_step n acc op h, bind_ok ih, ih2]
    simp only [TermRest.toAST, drop_drop]
    exact ok_drop_congr _ _ (by simp only [TermRest.tokens, List.length_cons, List.length_append]; omega)
theorem parseTerm_complete : ∀ (g : Term) (fuel : Nat) (p : Parser) (rest : List Token),
    p.tokens = g.tokens ++ rest → endsTerm (nextType rest) → 8 * g.tokens.length + 3 ≤ fuel →
    parseTerm fuel p = .ok g.toAST (p.drop g.tokens.length)
  | .mk first r, fuel, p, rest, h, hn, hf => by
    obtain ⟨n, rfl⟩ : ∃ n, fuel = n + 1 := ⟨fuel - 1, by omega⟩
    simp only [Term.tokens, List.append_assoc] at h
    simp only [Term.tokens, List.length_append] at hf
    have ih := parsePower_complete first n p _ h (nextType_termRest r rest hn.2.2) (by omega)
    have h1 := tokens_drop_append h
    have ih2 := parseTermLoop_complete r n _ rest first.toAST h1 hn (by omega)
    rw [parseTerm_eq, bind_ok ih, ih2]
    simp only [Term.toAST, drop_drop]
    exact ok_drop_congr _ _ (by simp only [Term.tokens, List.length_append])
theorem parseExprLoop_complete : ∀ (g : ExprRest) (fuel : Nat) (p : Parser) (rest : List Token)
    (acc : Expression),
    p.tokens = g.tokens ++ rest → endsExpr (nextType rest) → 8 * g.tokens.length + 1 ≤ fuel →
    parseExpressionLoop fuel acc p = .ok (g.toAST acc) (p.drop g.tokens.length)
  | .nil, fuel, p, rest, acc, h, hn, hf => by
    simp only [ExprRest.tokens, List.nil_append] at h
    rw [parseExpressionLoop_stop _ (by rw [h]; exact hn.1) (by rw [h]; exact hn.2.1) (by omega)]
    simp [ExprRest.toAST, ExprRest.tokens]
  | .cons op g r, fuel, p, rest, acc, h, hn, hf => by
    obtain ⟨n, rfl⟩ : ∃ n, fuel = n + 1 := ⟨fuel - 1, by omega⟩
    simp only [ExprRest.tokens, List.cons_append, List.append_assoc] at h
    simp only [ExprRest.tokens, List.length_append, List.length_cons] at hf
    have h1 : (p.drop 1).tokens = g.tokens ++ (r.tokens ++ rest) := by simp [h]
    have ih := parseTerm_complete g n (p.drop 1) _ h1
      (nextType_exprRest r rest hn.2.2.1 hn.2.2.2.1 hn.2.2.2.2) (by omega)
    have h2 := tokens_drop_append h1
    have ih2 := parseExprLoop_complete r n _ rest (.BinaryExpression acc op.op g.toAST) h2 hn
      (by omega)
    rw [parseExpressionLoop_step n acc op h, bind_ok ih, ih2]
    simp only [ExprRest.toAST, drop_drop]
    exact ok_drop_congr _ _ (by simp only [ExprRest.tokens, List.length_cons, List.length_append]; omega)
theorem parseExpr_complete : ∀ (g : Expr) (fuel : Nat) (p : Parser) (rest : List Token),
    p.tokens = g.tokens ++ rest → endsExpr (nextType rest) → 8 * g.tokens.length + 4 ≤ fuel →
    parseExpression fuel p = .ok g.toAST (p.drop g.tokens.length)
  | .mk first r, fuel, p, rest, h, hn, hf => by
    obtain ⟨n, rfl⟩ : ∃ n, fuel = n + 1 := ⟨fuel - 1, by omega⟩
    simp only [Expr.tokens, List.append_assoc] at h
    simp only [Expr.tokens, List.length_append] at hf
    have ih := parseTerm_complete first n p _ h
      (nextType_exprRest r rest hn.2.2.1 hn.2.2.2.1 hn.2.2.2.2) (by omega)
    have h1 := tokens_drop_append h
    have ih2 := parseExprLoop_complete r n _ rest first.toAST h1 hn (by omega)
    rw [parseExpression_eq, bind_ok ih, ih2]
    simp only [Expr.toAST, drop_drop]
    exact ok_drop_congr _ _ (by simp only [Expr.tokens, List.length_append])
end

end Grammar
end pl0

namespace pl0
namespace Parser
open Grammar

theorem peek_apply (p : Parser) : peek p = .ok p.lexer_.peekToken p := rfl

mutual
theorem nextType_factor : ∀ (g : Factor) (rest : List Token),
    nextType (g.tokens ++ rest) = .NUMBER ∨ nextType (g.tokens ++ rest) = .IDENTIFIER ∨
      nextType (g.tokens ++ rest) = .LPAREN
  | .number v, rest => by simp [Factor.tokens, nextType, number]
  | .ident n, rest => by simp [Factor.tokens, nextType, ident]
  | .paren e, rest => by simp [Factor.tokens, nextType, sym, Token.ofType]
end

theorem nextType_power (g : Power) (rest : List Token) :
    nextType (g.tokens ++ rest) = .NUMBER ∨ nextType (g.tokens ++ rest) = .IDENTIFIER ∨
      nextType (g.tokens ++ rest) = .LPAREN := by
  cases g with
  | single f => exact nextType_factor f rest
  | pow f g =>
    simp only [Power.tokens, List.append_assoc]
    exact nextType_factor f _

theorem nextType_term (g : Term) (rest : List Token) :
    nextType (g.tokens ++ rest) = .NUMBER ∨ nextType (g.tokens ++ rest) = .IDENTIFIER ∨
      nextType (g.tokens ++ rest) = .LPAREN := by
  cases g with
  | mk first r =>
    simp only [Term.tokens, List.append_assoc]
    exact nextType_power first _

theorem nextType_expr (g : Expr) (rest : List Token) :
    nextType (g.tokens ++ rest) = .NUMBER ∨ nextType (g.tokens ++ rest) = .IDENTIFIER ∨
      nextType (g.tokens ++ rest) = .LPAREN := by
  cases g with
  | mk first r =>
    simp only [Expr.tokens, List.append_assoc]
    exact nextType_term first _

theorem tokenTypeToBinaryOp_rel (op : RelOp) (p : Parser) :
    tokenTypeToBinaryOp op.type p = .ok op.op p := by
  cases op <;> rfl

theorem isComparison_rel (op : RelOp) : isComparison op.type = true := by
  cases op <;> rfl

theorem endsExpr_rel (op : RelOp) (rest : List Token) :
    endsExpr (nextType (sym op.type :: rest)) := by
  cases op <;> simp [endsExpr, endsTerm, nextType, sym, Token.ofType, RelOp.type]

theorem parseCondition_complete (g : Cond) (fuel : Nat) (p : Parser) (rest : List Token)
    (h : p.tokens = g.tokens ++ rest) (hn : endsExpr (nextType rest))
    (hf : 8 * g.tokens.length + 4 ≤ fuel) :
    parseCondition fuel p = .ok g.toAST (p.drop g.tokens.length) := by
  cases g with
  | odd e =>
    simp only [Cond.tokens, List.cons_append] at h
    simp only [Cond.tokens, List.length_cons] at hf
    have h1 : (p.drop 1).tokens = e.tokens ++ rest := by simp [h]
    have ih := parseExpr_complete e fuel (p.drop 1) rest h1 hn (by omega)
    simp only [parseCondition, bind_apply, check_apply, h, nextType, sym, Token.ofType,
      decide_True, ↓reduceIte, advance_cons h, ih, drop_drop, Cond.toAST]
    exact ok_drop_congr _ _ (by simp only [Cond.tokens, List.length_cons]; omega)
  | rel left op right =>
    simp only [Cond.tokens, List.append_assoc, List.cons_append] at h
    simp only [Cond.tokens, List.length_append, List.length_cons] at hf
    have hodd : nextType p.tokens ≠ .ODD := by
      rw [h]
      rcases nextType_expr left (sym op.type :: (right.tokens ++ rest)) with e | e | e <;>
        simp [e]
    have ih := parseExpr_complete left fuel p _ h (endsExpr_rel op _) (by omega)
    have h1 := tokens_drop_append h
    have h2 : ((p.drop left.tokens.length).drop 1).tokens = right.tokens ++ rest := by
      rw [tokens_drop, h1]; rfl
    have ih2 := parseExpr_complete right fuel _ rest h2 hn (by omega)
    simp only [drop_drop] at ih2
    have hpk : (p.drop left.tokens.length).lexer_.peekToken.type = op.type := by
      rw [peekToken_type, h1]; rfl
    simp only [parseCondition, bind_apply, check_apply, hodd, decide_False, Bool.false_eq_true,
      ↓reduceIte, ih, peek_apply, hpk, isComparison_rel, Bool.not_true, advance_cons h1, ih2,
      tokenTypeToBinaryOp_rel, pure_apply, drop_drop, Cond.toAST]
    exact ok_drop_congr _ _ (by simp only [Cond.tokens, List.length_append, List.length_cons]; omega)

end Parser
end pl0

namespace pl0

namespace Parser
open Grammar

theorem nextType_stmt (s : Stmt) (rest : List Token) :
    s = .empty ∨ startsStmt (nextType (s.tokens ++ rest)) := by
  cases s <;> simp [Stmt.tokens, nextType, ident, sym, Token.ofType, startsStmt]

theorem followOK_endsExpr {s : Stmt} {t : TokenType} (h : followOK s t) : endsExpr t := by
  rcases h with h | h | ⟨h, _⟩ <;> simp [h, endsExpr, endsTerm]

theorem isBegin_closed {s : Stmt} (h : s.isBegin = true) : s.closed = true := by
  cases s <;> simp_all [Stmt.isBegin, Stmt.closed]

theorem isBegin_toAST {s : Stmt} (h : s.isBegin = true) : s.toAST.isBegin = true := by
  cases s <;> simp_all [Stmt.isBegin, Stmt.toAST, Statement.isBegin]

theorem consume_ident {p : Parser} {rest : List Token} (name : String) (message : String)
    (h : p.tokens = ident name :: rest) :
    consume .IDENTIFIER message p = .ok (ident name) (p.drop 1) :=
  consume_cons h message

theorem consume_number {p : Parser} {rest : List Token} (v : Int) (message : String)
    (h : p.tokens = number v :: rest) :
    consume .NUMBER message p = .ok (number v) (p.drop 1) :=
  consume_cons h message

theorem valueText_ident (name : String) (p : Parser) :
    valueText (ident name) p = .ok name p := rfl

theorem valueInt_number (v : Int) (p : Parser) :
    valueInt (number v) p = .ok v p := rfl

theorem parseStatement_stop {p : Parser} (n : Nat)
    (h : nextType p.tokens = .END ∨ nextType p.tokens = .SEMICOLON) :
    parseStatement (n + 1) p = .ok .nullptr p := by
  rcases h with h | h <;>
  simp [parseStatement, peek_apply, peekToken_type, h]

theorem parseStatement_assign {p : Parser} (n : Nat) (h : nextType p.tokens = .IDENTIFIER) :
    parseStatement (n + 1) p = parseAssignStatement n p := by
  simp [parseStatement, peek_apply, peekToken_type, h]

theorem parseStatement_call {p : Parser} (n : Nat) (h : nextType p.tokens = .CALL) :
    parseStatement (n + 1) p = parseCallStatement p := by
  simp [parseStatement, peek_apply, peekToken_type, h]

theorem parseStatement_begin {p : Parser} (n : Nat) (h : nextType p.tokens = .BEGIN) :
    parseStatement (n + 1) p = parseBeginStatement n p := by
  simp [parseStatement, peek_apply, peekToken_type, h]

theorem parseStatement_if {p : Parser} (n : Nat) (h : nextType p.tokens = .IF) :
    parseStatement (n + 1) p = parseIfStatement n p := by
  simp [parseStatement, peek_apply, peekToken_type, h]

theorem parseStatement_while {p : Parser} (n : Nat) (h : nextType p.tokens = .WHILE) :
    parseStatement (n + 1) p = parseWhileStatement n p := by
  simp [parseStatement, peek_apply, peekToken_type, h]

theorem parseBeginLoop_stop {p : Parser} {fuel : Nat} (acc : List Statement)
    (h : nextType p.tokens = .END) (hf : 1 ≤ fuel) : parseBeginLoop fuel acc p = .ok acc p := by
  obtain ⟨n, rfl⟩ : ∃ n, fuel = n + 1 := ⟨fuel - 1, by omega⟩
  simp [parseBeginLoop, h]

theorem parseBeginLoop_step {p p1 : Parser} {rest : List Token} (n : Nat) (acc : List Statement)
    (stmt : Statement) (h : nextType p.tokens ≠ .END) (hs : parseStatement n p = .ok stmt p1)
    (h1 : p1.tokens = sym .SEMICOLON :: rest) :
    parseBeginLoop (n + 1) acc p = parseBeginLoop n (pushIfPresent acc stmt) (p1.drop 1) := by
  have hm := match_cons h1
  simp only [sym, Token.ofType] at hm
  simp [parseBeginLoop, h, hs, hm]

theorem parseBeginLoop_last {p p1 : Parser} (n : Nat) (acc : List Statement)
    (stmt : Statement) (h : nextType p.tokens ≠ .END) (hs : parseStatement n p = .ok stmt p1)
    (h1 : nextType p1.tokens = .END) :
    parseBeginLoop (n + 1) acc p = parseBeginLoop n (pushIfPresent acc stmt) p1 := by
  have hm : match_ .SEMICOLON p1 = .ok false p1 := match_other (by simp [h1])
  simp [parseBeginLoop, h, hs, hm, h1]

end Parser
end pl0

namespace pl0
namespace Parser
open Grammar

theorem parseAssignStatement_complete (name : String) (e : Expr) (fuel : Nat) (p : Parser)
    (rest : List Token) (h : p.tokens = ident name :: sym .ASSIGN :: (e.tokens ++ rest))
    (hn : endsExpr (nextType rest)) (hf : 8 * e.tokens.length + 4 ≤ fuel) :
    parseAssignStatement fuel p =
      .ok (.AssignStatement name e.toAST) (p.drop (e.tokens.length + 2)) := by
  have h1 : (p.drop 1).tokens = sym .ASSIGN :: (e.tokens ++ rest) := by simp [h]
  have h2 : ((p.drop 1).drop 1).tokens = e.tokens ++ rest := by
    rw [tokens_drop, h1]; rfl
  have ih := parseExpr_complete e fuel _ rest h2 hn hf
  simp only [parseAssignStatement, bind_apply, consume_ident name _ h, valueText_ident,
    consume_sym _ _ h1, ih, pure_apply]
  simp only [drop_drop]
  exact ok_drop_congr _ _ (by omega)

theorem parseCallStatement_complete (name : String) (p : Parser) (rest : List Token)
    (h : p.tokens = sym .CALL :: ident name :: rest) :
    parseCallStatement p = .ok (.CallStatement name) (p.drop 2) := by
  have h1 : (p.drop 1).tokens = ident name :: rest := by simp [h]
  simp only [parseCallStatement, bind_apply, advance_cons h, consume_ident name _ h1,
    valueText_ident, pure_apply]
  simp only [drop_drop]

mutual
theorem parseStatement_complete : ∀ (s : Stmt) (fuel : Nat) (p : Parser) (rest : List Token),
    p.tokens = s.tokens ++ rest → followOK s (nextType rest) → 8 * s.tokens.length + 6 ≤ fuel →
    parseStatement fuel p = .ok s.toAST (p.drop s.tokens.length)
  | .empty, fuel, p, rest, h, hn, hf => by
    obtain ⟨n, rfl⟩ : ∃ n, fuel = n + 1 := ⟨fuel - 1, by omega⟩
    simp only [Stmt.tokens, List.nil_append] at h
    have hn1 : nextType p.tokens = .END ∨ nextType p.tokens = .SEMICOLON := by
      rw [h]
      rcases hn with hn | hn | ⟨_, hc⟩
      · exact Or.inl hn
      · exact Or.inr hn
      · simp [Stmt.closed] at hc
    rw [parseStatement_stop n hn1]
    simp [Stmt.toAST, Stmt.tokens]
  | .assign name e, fuel, p, rest, h, hn, hf => by
    obtain ⟨n, rfl⟩ : ∃ n, fuel = n + 1 := ⟨fuel - 1, by omega⟩
    simp only [Stmt.tokens, List.cons_append] at h
    simp only [Stmt.tokens, List.length_cons] at hf
    rw [parseStatement_assign n (by rw [h]; rfl),
      parseAssignStatement_complete name e n p rest h (followOK_endsExpr hn) (by omega)]
    rfl
  | .call name, fuel, p, rest, h, hn, hf => by
    obtain ⟨n, rfl⟩ : ∃ n, fuel = n + 1 := ⟨fuel - 1, by omega⟩
    simp only [Stmt.tokens, List.cons_append, List.nil_append] at h
    rw [parseStatement_call n (by rw [h]; rfl), parseCallStatement_complete name p rest h]
    rfl
  | .begin_ first r, fuel, p, rest, h, hn, hf => by
    obtain ⟨n, rfl⟩ : ∃ n, fuel = n + 2 := ⟨fuel - 2, by omega⟩
    simp only [Stmt.tokens, List.cons_append, List.append_assoc, List.singleton_append] at h
    simp only [Stmt.tokens, List.length_cons, List.length_append, List.length_nil] at hf
    have h1 : (p.drop 1).tokens = first.tokens ++ (r.tokens ++ sym .END :: rest) := by simp [h]
    have ih := parseBeginLoop_complete r first (parseStatement_complete first) n (p.drop 1)
      rest [] h1 (by omega)
    have h2 : ((p.drop 1).drop (first.tokens.length + r.tokens.length)).tokens =
        sym .END :: rest := by
      rw [tokens_drop, h1, ← List.append_assoc, ← List.length_append]
      exact List.drop_left _ _
    rw [parseStatement_begin (n + 1) (by rw [h]; rfl)]
    simp only [parseBeginStatement, bind_apply, advance_cons h, ih, consume_sym _ _ h2,
      pure_apply, Stmt.toAST]
    simp only [drop_drop]
    exact ok_drop_congr _ _ (by
      simp only [Stmt.tokens, List.length_cons, List.length_append, List.length_nil]; omega)
  | .ifThen c s, fuel, p, rest, h, hn, hf => by
    obtain ⟨n, rfl⟩ : ∃ n, fuel = n + 2 := ⟨fuel - 2, by omega⟩
    simp only [Stmt.tokens, List.cons_append, List.append_assoc] at h
    simp only [Stmt.tokens, List.length_cons, List.length_append] at hf
    have h1 : (p.drop 1).tokens = c.tokens ++ sym .THEN :: (s.tokens ++ rest) := by simp [h]
    have ihc := parseCondition_complete c n (p.drop 1) _ h1
      (by simp [nextType, sym, Token.ofType, endsExpr, endsTerm]) (by omega)
    have h2 := tokens_drop_append h1
    have h3 : (((p.drop 1).drop c.tokens.length).drop 1).tokens = s.tokens ++ rest := by
      rw [tokens_drop, h2]; rfl
    have hn1 : followOK s (nextType rest) := by
      rcases hn with hn | hn | ⟨hn, hc⟩
      · exact Or.inl hn
      · exact Or.inr (Or.inl hn)
      · exact Or.inr (Or.inr ⟨hn, isBegin_closed (by simpa [Stmt.closed] using hc)⟩)
    have ihs := parseStatement_complete s n _ rest h3 hn1 (by omega)
    have h4 := tokens_drop_append h3
    have hcond : (s.toAST.isPresent && !s.toAST.isBegin && !decide (nextType rest = .END) &&
        !decide (nextType rest = .SEMICOLON)) = false := by
      rcases hn with hn | hn | ⟨hn, hc⟩
      · simp [hn]
      · simp [hn]
      · simp [isBegin_toAST (by simpa [Stmt.closed] using hc)]
    rw [parseStatement_if (n + 1) (by rw [h]; rfl)]
    simp only [parseIfStatement, bind_apply, advance_cons h, ihc, consume_sym _ _ h2, ihs,
      check_apply, h4, hcond, Bool.false_eq_true, ↓reduceIte, pure_apply, Stmt.toAST]
    simp only [drop_drop]
    exact ok_drop_congr _ _ (by
      simp only [Stmt.tokens, List.length_cons, List.length_append]; omega)
  | .while_ c s, fuel, p, rest, h, hn, hf => by
    obtain ⟨n, rfl⟩ : ∃ n, fuel = n + 2 := ⟨fuel - 2, by omega⟩
    simp only [Stmt.tokens, List.cons_append, List.append_assoc] at h
    simp only [Stmt.tokens, List.length_cons, List.length_append] at hf
    have h1 : (p.drop 1).tokens = c.tokens ++ sym .DO :: (s.tokens ++ rest) := by simp [h]
    have ihc := parseCondition_complete c n (p.drop 1) _ h1
      (by simp [nextType, sym, Token.ofType, endsExpr, endsTerm]) (by omega)
    have h2 := tokens_drop_append h1
    have h3 : (((p.drop 1).drop c.tokens.length).drop 1).tokens = s.tokens ++ rest := by
      rw [tokens_drop, h2]; rfl
    have hn1 : followOK s (nextType rest) := by
      rcases hn with hn | hn | ⟨hn, hc⟩
      · exact Or.inl hn
      · exact Or.inr (Or.inl hn)
      · exact Or.inr (Or.inr ⟨hn, by simpa [Stmt.closed] using hc⟩)
    have ihs := parseStatement_complete s n _ rest h3 hn1 (by omega)
    rw [parseStatement_while (n + 1) (by rw [h]; rfl)]
    simp only [parseWhileStatement, bind_apply, advance_cons h, ihc, consume_sym _ _ h2, ihs,
      pure_apply, Stmt.toAST]
    simp only [drop_drop]
    exact ok_drop_congr _ _ (by
      simp only [Stmt.tokens, List.length_cons, List.length_append]; omega)
theorem parseBeginLoop_complete : ∀ (r : StmtRest) (s : Stmt)
    (_ : ∀ (fuel : Nat) (p : Parser) (rest : List Token),
      p.tokens = s.tokens ++ rest → followOK s (nextType rest) → 8 * s.tokens.length + 6 ≤ fuel →
      parseStatement fuel p = .ok s.toAST (p.drop s.tokens.length))
    (fuel : Nat) (p : Parser) (rest : List Token) (acc : List Statement),
    p.tokens = s.tokens ++ (r.tokens ++ sym .END :: rest) →
    8 * (s.tokens.length + r.tokens.length) + 8 ≤ fuel →
    parseBeginLoop fuel acc p =
      .ok (r.toAST (pushIfPresent acc s.toAST)) (p.drop (s.tokens.length + r.tokens.length))
  | .nil, s, hs, fuel, p, rest, acc, h, hf => by
    obtain ⟨n, rfl⟩ : ∃ n, fuel = n + 1 := ⟨fuel - 1, by omega⟩
    simp only [StmtRest.tokens, List.nil_append, List.length_nil, Nat.add_zero] at h hf ⊢
    rcases nextType_stmt s (sym .END :: rest) with he | hst
    · subst he
      simp only [Stmt.tokens, List.nil_append] at h
      rw [parseBeginLoop_stop acc (by rw [h]; rfl) (by omega)]
      simp [StmtRest.toAST, Stmt.toAST, pushIfPresent, Statement.isPresent, Stmt.tokens]
    · have hne : nextType p.tokens ≠ .END := by
        rw [h]; rcases hst with e | e | e | e | e <;> simp [e]
      have ih := hs n p _ h (Or.inl rfl) (by omega)
      have h1 := tokens_drop_append h
      rw [parseBeginLoop_last n acc _ hne ih (by rw [h1]; rfl),
        parseBeginLoop_stop _ (by rw [h1]; rfl) (by omega)]
      rfl
  | .cons s1 r1, s, hs, fuel, p, rest, acc, h, hf => by
    obtain ⟨n, rfl⟩ : ∃ n, fuel = n + 1 := ⟨fuel - 1, by omega⟩
    simp only [StmtRest.tokens, List.cons_append, List.append_assoc] at h
    simp only [StmtRest.tokens, List.length_cons, List.length_append] at hf
    have hne : nextType p.tokens ≠ .END := by
      rw [h]
      rcases nextType_stmt s (sym .SEMICOLON :: (s1.tokens ++ (r1.tokens ++ sym .END :: rest)))
        with he | hst
      · subst he; simp [Stmt.tokens, nextType, sym, Token.ofType]
      · rcases hst with e | e | e | e | e <;> simp [e]
    have ih := hs n p _ h (Or.inr (Or.inl rfl)) (by omega)
    have h1 := tokens_drop_append h
    have h2 : ((p.drop s.tokens.length).drop 1).tokens =
        s1.tokens ++ (r1.tokens ++ sym .END :: rest) := by
      rw [tokens_drop, h1]; rfl
    have ih2 := parseBeginLoop_complete r1 s1 (parseStatement_complete s1) n _ rest
      (pushIfPresent acc s.toAST) h2 (by omega)
    rw [parseBeginLoop_step n acc _ hne ih h1, ih2]
    simp only [StmtRest.toAST, drop_drop]
    exact ok_drop_congr _ _ (by
      simp only [StmtRest.tokens, List.length_cons, List.length_append]; omega)
end

end Parser
end pl0

namespace pl0
namespace Parser
open Grammar

theorem match_sym {p : Parser} {rest : List Token} (ty : TokenType)
    (h : p.tokens = sym ty :: rest) : match_ ty p = .ok true (p.drop 1) :=
  match_cons h

theorem parseConstDeclarationsLoop_complete : ∀ (cs : List (String × Int)) (c : String × Int)
    (fuel : Nat) (p : Parser) (rest : List Token) (acc : List ConstDeclaration),
    p.tokens = constItems (c :: cs) ++ rest → nextType rest ≠ .COMMA →
    (constItems (c :: cs)).length + 1 ≤ fuel →
    parseConstDeclarationsLoop fuel acc p =
      .ok (acc ++ (c :: cs).map fun c => ⟨c.1, c.2⟩) (p.drop (constItems (c :: cs)).length)
  | [], (name, v), fuel, p, rest, acc, h, hn, hf => by
    obtain ⟨n, rfl⟩ : ∃ n, fuel = n + 1 := ⟨fuel - 1, by omega⟩
    simp only [constItems, List.cons_append, List.nil_append] at h
    have h1 : (p.drop 1).tokens = sym .EQ :: number v :: rest := by simp [h]
    have h2 : ((p.drop 1).drop 1).tokens = number v :: rest := by rw [tokens_drop, h1]; rfl
    have h3 : (((p.drop 1).drop 1).drop 1).tokens = rest := by rw [tokens_drop, h2]; rfl
    have hm : match_ .COMMA (((p.drop 1).drop 1).drop 1) = .ok false _ :=
      match_other (by rw [h3]; exact hn)
    simp only [parseConstDeclarationsLoop, bind_apply, consume_ident name _ h,
      consume_sym _ _ h1, consume_number v _ h2, valueText_ident, valueInt_number, hm,
      Bool.false_eq_true, ↓reduceIte, pure_apply]
    simp only [drop_drop, constItems, List.map_cons, List.map_nil, List.length_cons,
      List.length_nil]
  | c2 :: cs, (name, v), fuel, p, rest, acc, h, hn, hf => by
    obtain ⟨n, rfl⟩ : ∃ n, fuel = n + 1 := ⟨fuel - 1, by omega⟩
    simp only [constItems, List.cons_append] at h
    simp only [constItems, List.length_cons] at hf
    have h1 : (p.drop 1).tokens = sym .EQ :: number v :: sym .COMMA ::
        (constItems (c2 :: cs) ++ rest) := by simp [h]
    have h2 : ((p.drop 1).drop 1).tokens = number v :: sym .COMMA ::
        (constItems (c2 :: cs) ++ rest) := by rw [tokens_drop, h1]; rfl
    have h3 : (((p.drop 1).drop 1).drop 1).tokens = sym .COMMA ::
        (constItems (c2 :: cs) ++ rest) := by rw [tokens_drop, h2]; rfl
    have h4 : ((((p.drop 1).drop 1).drop 1).drop 1).tokens = constItems (c2 :: cs) ++ rest := by
      rw [tokens_drop, h3]; rfl
    have ih := parseConstDeclarationsLoop_complete cs c2 n _ rest (acc ++ [⟨name, v⟩]) h4 hn
      (by omega)
    simp only [parseConstDeclarationsLoop, bind_apply, consume_ident name _ h,
      consume_sym _ _ h1, consume_number v _ h2, valueText_ident, valueInt_number,
      match_sym _ h3, ↓reduceIte, ih]
    simp only [drop_drop, constItems, List.map_cons, List.length_cons, List.append_assoc,
      List.singleton_append]
    exact ok_drop_congr _ _ (by omega)

theorem parseConstDeclarations_complete (consts : List (String × Int)) (fuel : Nat)
    (p : Parser) (rest : List Token) (h : p.tokens = constTokens consts ++ rest)
    (hn : nextType rest ≠ .CONST) (hf : (constTokens consts).length + 1 ≤ fuel) :
    parseConstDeclarations fuel p =
      .ok (consts.map fun c => ⟨c.1, c.2⟩) (p.drop (constTokens consts).length) := by
  cases consts with
  | nil =>
    simp only [constTokens, List.nil_append] at h
    have hm : match_ .CONST p = .ok false p := match_other (by rw [h]; exact hn)
    simp [parseConstDeclarations, hm, constTokens]
  | cons c cs =>
    simp only [constTokens, List.cons_append, List.append_assoc, List.singleton_append] at h
    simp only [constTokens, List.length_cons, List.length_append, List.length_nil] at hf
    have h1 : (p.drop 1).tokens = constItems (c :: cs) ++ sym .SEMICOLON :: rest := by simp [h]
    have ih := parseConstDeclarationsLoop_complete cs c fuel (p.drop 1) _ [] h1
      (by simp [nextType, sym, Token.ofType]) (by omega)
    have h2 := tokens_drop_append h1
    simp only [parseConstDeclarations, bind_apply, match_sym _ h, ↓reduceIte, ih,
      consume_sym _ _ h2, pure_apply, List.nil_append]
    simp only [drop_drop]
    exact ok_drop_congr _ _ (by
      simp only [constTokens, List.length_cons, List.length_append, List.length_nil]; omega)

theorem parseVarDeclarationsLoop_complete : ∀ (vs : List String) (v : String)
    (fuel : Nat) (p : Parser) (rest : List Token) (acc : List VarDeclaration),
    p.tokens = varItems (v :: vs) ++ rest → nextType rest ≠ .COMMA →
    (varItems (v :: vs)).length + 1 ≤ fuel →
    parseVarDeclarationsLoop fuel acc p =
      .ok (acc ++ (v :: vs).map fun v => ⟨v⟩) (p.drop (varItems (v :: vs)).length)
  | [], name, fuel, p, rest, acc, h, hn, hf => by
    obtain ⟨n, rfl⟩ : ∃ n, fuel = n + 1 := ⟨fuel - 1, by omega⟩
    simp only [varItems, List.cons_append, List.nil_append] at h
    have h1 : (p.drop 1).tokens = rest := by simp [h]
    have hm : match_ .COMMA (p.drop 1) = .ok false _ := match_other (by rw [h1]; exact hn)
    simp only [parseVarDeclarationsLoop, bind_apply, consume_ident name _ h,
      valueText_ident, hm, Bool.false_eq_true, ↓reduceIte, pure_apply]
    simp only [varItems, List.map_cons, List.map_nil, List.length_cons, List.length_nil]
  | v2 :: vs, name, fuel, p, rest, acc, h, hn, hf => by
    obtain ⟨n, rfl⟩ : ∃ n, fuel = n + 1 := ⟨fuel - 1, by omega⟩
    simp only [varItems, List.cons_append] at h
    simp only [varItems, List.length_cons] at hf
    have h1 : (p.drop 1).tokens = sym .COMMA :: (varItems (v2 :: vs) ++ rest) := by simp [h]
    have h2 : ((p.drop 1).drop 1).tokens = varItems (v2 :: vs) ++ rest := by
      rw [tokens_drop, h1]; rfl
    have ih := parseVarDeclarationsLoop_complete vs v2 n _ rest (acc ++ [⟨name⟩]) h2 hn
      (by omega)
    simp only [parseVarDeclarationsLoop, bind_apply, consume_ident name _ h,
      valueText_ident, match_sym _ h1, ↓reduceIte, ih]
    simp only [drop_drop, varItems, List.map_cons, List.length_cons, List.append_assoc,
      List.singleton_append]
    exact ok_drop_congr _ _ (by omega)

theorem parseVarDeclarations_complete (vars : List String) (fuel : Nat)
    (p : Parser) (rest : List Token) (h : p.tokens = varTokens vars ++ rest)
    (hn : nextType rest ≠ .VAR) (hf : (varTokens vars).length + 1 ≤ fuel) :
    parseVarDeclarations fuel p =
      .ok (vars.map fun v => ⟨v⟩) (p.drop (varTokens vars).length) := by
  cases vars with
  | nil =>
    simp only [varTokens, List.nil_append] at h
    have hm : match_ .VAR p = .ok false p := match_other (by rw [h]; exact hn)
    simp [parseVarDeclarations, hm, varTokens]
  | cons c cs =>
    simp only [varTokens, List.cons_append, List.append_assoc, List.singleton_append] at h
    simp only [varTokens, List.length_cons, List.length_append, List.length_nil] at hf
    have h1 : (p.drop 1).tokens = varItems (c :: cs) ++ sym .SEMICOLON :: rest := by simp [h]
    have ih := parseVarDeclarationsLoop_complete cs c fuel (p.drop 1) _ [] h1
      (by simp [nextType, sym, Token.ofType]) (by omega)
    have h2 := tokens_drop_append h1
    simp only [parseVarDeclarations, bind_apply, match_sym _ h, ↓reduceIte, ih,
      consume_sym _ _ h2, pure_apply, List.nil_append]
    simp only [drop_drop]
    exact ok_drop_congr _ _ (by
      simp only [varTokens, List.length_cons, List.length_append, List.length_nil]; omega)

end Parser
end pl0

namespace pl0

namespace Parser
open Grammar

theorem nextType_body (body : Stmt) (rest : List Token)
    (hr : nextType rest = .SEMICOLON ∨ nextType rest = .PERIOD) :
    nextType (body.tokens ++ rest) ≠ .CONST ∧ nextType (body.tokens ++ rest) ≠ .VAR ∧
      nextType (body.tokens ++ rest) ≠ .PROCEDURE := by
  rcases nextType_stmt body rest with he | hst
  · subst he
    rcases hr with e | e <;> simp [Stmt.tokens, e]
  · rcases hst with e | e | e | e | e <;> simp [e]

theorem nextType_procs (ps : Procs) (rest : List Token)
    (h : nextType rest ≠ .CONST ∧ nextType rest ≠ .VAR) :
    nextType (ps.tokens ++ rest) ≠ .CONST ∧ nextType (ps.tokens ++ rest) ≠ .VAR := by
  cases ps with
  | nil => exact h
  | cons _ _ _ => simp [Procs.tokens, nextType, sym, Token.ofType]

theorem nextType_vars (vars : List String) (rest : List Token) (h : nextType rest ≠ .CONST) :
    nextType (varTokens vars ++ rest) ≠ .CONST := by
  cases vars with
  | nil => exact h
  | cons _ _ => simp [varTokens, nextType, sym, Token.ofType]

theorem parseProcedures_stop {p : Parser} {fuel : Nat} (acc : List ProcedureDeclaration)
    (h : nextType p.tokens ≠ .PROCEDURE) (hf : 1 ≤ fuel) :
    parseProcedures fuel acc p = .ok acc p := by
  obtain ⟨n, rfl⟩ : ∃ n, fuel = n + 1 := ⟨fuel - 1, by omega⟩
  simp [parseProcedures, match_other h]

mutual
theorem parseBlock_complete : ∀ (b : Blk) (fuel : Nat) (p : Parser) (rest : List Token),
    p.tokens = b.tokens ++ rest → blockFollowOK b (nextType rest) →
    8 * b.tokens.length + 8 ≤ fuel →
    parseBlock fuel p = .ok b.toAST (p.drop b.tokens.length)
  | .mk consts vars procs body, fuel, p, rest, h, hn, hf => by
    obtain ⟨n, rfl⟩ : ∃ n, fuel = n + 1 := ⟨fuel - 1, by omega⟩
    simp only [Blk.tokens, List.append_assoc] at h
    simp only [Blk.tokens, List.length_append] at hf
    have hr : nextType rest = .SEMICOLON ∨ nextType rest = .PERIOD := by
      rcases hn with hn | ⟨hn, _⟩
      · exact Or.inl hn
      · exact Or.inr hn
    have hbody := nextType_body body rest hr
    have hprocs := nextType_procs procs (body.tokens ++ rest) ⟨hbody.1, hbody.2.1⟩
    have hvars := nextType_vars vars (procs.tokens ++ (body.tokens ++ rest)) hprocs.1
    have ihc := parseConstDeclarations_complete consts n p _ h hvars (by omega)
    have h1 := tokens_drop_append h
    have ihv := parseVarDeclarations_complete vars n _ _ h1 hprocs.2 (by omega)
    have h2 := tokens_drop_append h1
    have ihp := parseProcedures_complete procs n _ (body.tokens ++ rest) [] h2 hbody.2.2
      (by omega)
    have h3 := tokens_drop_append h2
    have hfol : followOK body (nextType rest) := by
      rcases hn with hn | ⟨hn, hc⟩
      · exact Or.inr (Or.inl hn)
      · exact Or.inr (Or.inr ⟨hn, hc⟩)
    have ihs := parseStatement_complete body n _ rest h3 hfol (by omega)
    simp only [parseBlock, bind_apply, ihc, ihv, ihp, ihs, pure_apply, Blk.toAST]
    simp only [drop_drop]
    exact ok_drop_congr _ _ (by simp only [Blk.tokens, List.length_append]; omega)
theorem parseProcedures_complete : ∀ (ps : Procs) (fuel : Nat) (p : Parser) (rest : List Token)
    (acc : List ProcedureDeclaration),
    p.tokens = ps.tokens ++ rest → nextType rest ≠ .PROCEDURE →
    8 * ps.tokens.length + 1 ≤ fuel →
    parseProcedures fuel acc p = .ok (ps.toAST acc) (p.drop ps.tokens.length)
  | .nil, fuel, p, rest, acc, h, hn, hf => by
    simp only [Procs.tokens, List.nil_append] at h
    rw [parseProcedures_stop acc (by rw [h]; exact hn) (by omega)]
    simp [Procs.toAST, Procs.tokens]
  | .cons name b r, fuel, p, rest, acc, h, hn, hf => by
    obtain ⟨n, rfl⟩ : ∃ n, fuel = n + 1 := ⟨fuel - 1, by omega⟩
    simp only [Procs.tokens, List.cons_append, List.append_assoc] at h
    simp only [Procs.tokens, List.length_cons, List.length_append] at hf
    have h1 : (p.drop 1).tokens = ident name :: sym .SEMICOLON ::
        (b.tokens ++ sym .SEMICOLON :: (r.tokens ++ rest)) := by simp [h]
    have h2 : ((p.drop 1).drop 1).tokens = sym .SEMICOLON ::
        (b.tokens ++ sym .SEMICOLON :: (r.tokens ++ rest)) := by rw [tokens_drop, h1]; rfl
    have h3 : (((p.drop 1).drop 1).drop 1).tokens =
        b.tokens ++ sym .SEMICOLON :: (r.tokens ++ rest) := by rw [tokens_drop, h2]; rfl
    have ihb := parseBlock_complete b n _ _ h3 (Or.inl rfl) (by omega)
    have h4 := tokens_drop_append h3
    have h5 : (((((p.drop 1).drop 1).drop 1).drop b.tokens.length).drop 1).tokens =
        r.tokens ++ rest := by rw [tokens_drop, h4]; rfl
    have ihr := parseProcedures_complete r n _ rest (acc ++ [.mk name b.toAST]) h5 hn (by omega)
    simp only [parseProcedures, bind_apply, match_sym _ h, ↓reduceIte, consume_ident name _ h1,
      consume_sym _ _ h2, ihb, consume_sym _ _ h4, valueText_ident, ihr, Procs.toAST]
    simp only [drop_drop]
    exact ok_drop_congr _ _ (by
      simp only [Procs.tokens, List.length_cons, List.length_append]; omega)
end

theorem parseProgram_complete (g : Prog) (fuel : Nat) (p : Parser) (rest : List Token)
    (h : p.tokens = g.tokens ++ rest) (hc : g.closed = true)
    (hf : 8 * g.tokens.length + 8 ≤ fuel) :
    parseProgram fuel p = .ok g.toAST (p.drop g.tokens.length) := by
  simp only [Prog.tokens, List.append_assoc, List.singleton_append] at h
  simp only [Prog.tokens, List.length_append, List.length_singleton] at hf
  have ihb := parseBlock_complete g.block fuel p _ h (Or.inr ⟨rfl, hc⟩) (by omega)
  have h1 := tokens_drop_append h
  simp only [parseProgram, bind_apply, ihb, consume_sym _ _ h1, pure_apply, Prog.toAST]
  simp only [drop_drop]
  exact ok_drop_congr _ _ (by simp only [Prog.tokens, List.length_append,
    List.length_singleton])

theorem parse_complete (g : Prog) (s : TokenStream) (rest : List Token)
    (h : s.items.map Lexeme.token = g.tokens ++ rest) (hc : g.closed = true) :
    parse (fresh s) = some (some g.toAST, (fresh s).drop g.tokens.length) := by
  have hlen : g.tokens.length ≤ s.items.length := by
    have := congrArg List.length h
    simp only [List.length_map, List.length_append] at this
    omega
  have hp := parseProgram_complete g (fuelFor (fresh s).lexer_.items.length) (fresh s) rest h hc
    (by simp only [fuelFor, fresh]; omega)
  simp only [parse, hp]

end Parser
end pl0

namespace pl0
namespace Parser
open Grammar

theorem bind_thrown {α β : Type} {x : ParserM α} {f : α → ParserM β} {p p1 : Parser}
    {e : Exception} (h : x p = .thrown e p1) : (x >>= f) p = .thrown e p1 := by
  simp [h]

theorem describeValue_not_outOfFuel (t : Token) (p : Parser) :
    describeValue t p ≠ .outOfFuel := by
  unfold describeValue
  split
  · simp only [bind_apply, valueInt]
    cases t.valueInt <;> simp [throw_]
  · split
    · simp only [bind_apply, valueText]
      cases t.valueText <;> simp [throw_]
    · simp

theorem errorAt_thrown {α : Type} (pos : Nat × Nat) (message : String) (p : Parser) :
    ∃ e p1, (errorAt pos message : ParserM α) p = .thrown e p1 := by
  unfold errorAt
  simp only []
  split
  · exact ⟨_, _, rfl⟩
  · exact ⟨_, _, rfl⟩
  · rename_i h
    exact absurd h (describeValue_not_outOfFuel _ _)

theorem error_thrown {α : Type} (message : String) (p : Parser) :
    ∃ e p1, (error message : ParserM α) p = .thrown e p1 := by
  simp only [error, bind_apply, position_apply]
  exact errorAt_thrown _ _ _

theorem parseStatement_period {p : Parser} (n : Nat) (h : nextType p.tokens = .PERIOD) :
    ∃ e p1, parseStatement (n + 1) p = .thrown e p1 := by
  simp only [parseStatement, bind_apply, peek_apply, peekToken_type, h]
  exact error_thrown _ _

theorem parseIfLoop_period {p : Parser} (n : Nat) (acc : List Statement)
    (h : nextType p.tokens = .PERIOD) : ∃ e p1, parseIfLoop (n + 2) acc p = .thrown e p1 := by
  obtain ⟨e, p1, hs⟩ := parseStatement_period n h
  refine ⟨e, p1, ?_⟩
  rw [parseIfLoop]
  simp [h, hs]

theorem closed_toAST_isPresent {s : Stmt} (h : s.closed = true) : s.toAST.isPresent = true := by
  cases s <;> simp_all [Stmt.closed, Stmt.toAST, Statement.isPresent]

theorem not_isBegin_toAST {s : Stmt} (h : s.isBegin = false) : s.toAST.isBegin = false := by
  cases s <;> simp_all [Stmt.isBegin, Stmt.toAST, Statement.isBegin]

theorem parseStatement_open : ∀ (s : Stmt) (fuel : Nat) (p : Parser) (rest : List Token),
    p.tokens = s.tokens ++ sym .PERIOD :: rest → s.closed = false →
    8 * s.tokens.length + 6 ≤ fuel →
    ∃ e p1, parseStatement fuel p = .thrown e p1
  | .empty, fuel, p, rest, h, _, hf => by
    obtain ⟨n, rfl⟩ : ∃ n, fuel = n + 1 := ⟨fuel - 1, by omega⟩
    simp only [Stmt.tokens, List.nil_append] at h
    exact parseStatement_period n (by rw [h]; rfl)
  | .assign _ _, _, _, _, _, hc, _ => by simp [Stmt.closed] at hc
  | .call _, _, _, _, _, hc, _ => by simp [Stmt.closed] at hc
  | .begin_ _ _, _, _, _, _, hc, _ => by simp [Stmt.closed] at hc
  | .ifThen c s, fuel, p, rest, h, hc, hf => by
    obtain ⟨n, rfl⟩ : ∃ n, fuel = n + 4 := ⟨fuel - 4, by omega⟩
    simp only [Stmt.tokens, List.cons_append, List.append_assoc] at h
    simp only [Stmt.tokens, List.length_cons, List.length_append] at hf
    simp only [Stmt.closed] at hc
    have h1 : (p.drop 1).tokens = c.tokens ++ sym .THEN :: (s.tokens ++ sym .PERIOD :: rest) := by
      simp [h]
    have ihc := parseCondition_complete c (n + 2) (p.drop 1) _ h1
      (by simp [nextType, sym, Token.ofType, endsExpr, endsTerm]) (by omega)
    have h2 := tokens_drop_append h1
    have h3 : (((p.drop 1).drop c.tokens.length).drop 1).tokens =
        s.tokens ++ sym .PERIOD :: rest := by
      rw [tokens_drop, h2]; rfl
    rw [parseStatement_if (n + 3) (by rw [h]; rfl)]
    simp only [parseIfStatement, bind_apply, advance_cons h, ihc, consume_sym _ _ h2]
    cases hcl : s.closed with
    | false =>
      obtain ⟨e, p1, hs⟩ := parseStatement_open s (n + 2) _ rest h3 hcl (by omega)
      exact ⟨e, p1, by simp only [hs]⟩
    | true =>
      have ihs := parseStatement_complete s (n + 2) _ (sym .PERIOD :: rest) h3
        (Or.inr (Or.inr ⟨rfl, hcl⟩)) (by omega)
      have h4 := tokens_drop_append h3
      have hnext : nextType ((((p.drop 1).drop c.tokens.length).drop 1).drop
          s.tokens.length).tokens = .PERIOD := by rw [h4]; rfl
      obtain ⟨e, p1, hs⟩ := parseIfLoop_period n [s.toAST] hnext
      refine ⟨e, p1, ?_⟩
      simp only [ihs, check_apply, hnext, closed_toAST_isPresent hcl, not_isBegin_toAST hc,
        bind_apply]
      have hcond : (true && !false && !decide (TokenType.PERIOD = TokenType.END) &&
          !decide (TokenType.PERIOD = TokenType.SEMICOLON)) = true := by decide
      simp only [hcond, ↓reduceIte, bind_apply, hs]
  | .while_ c s, fuel, p, rest, h, hc, hf => by
    obtain ⟨n, rfl⟩ : ∃ n, fuel = n + 2 := ⟨fuel - 2, by omega⟩
    simp only [Stmt.tokens, List.cons_append, List.append_assoc] at h
    simp only [Stmt.tokens, List.length_cons, List.length_append] at hf
    simp only [Stmt.closed] at hc
    have h1 : (p.drop 1).tokens = c.tokens ++ sym .DO :: (s.tokens ++ sym .PERIOD :: rest) := by
      simp [h]
    have ihc := parseCondition_complete c n (p.drop 1) _ h1
      (by simp [nextType, sym, Token.ofType, endsExpr, endsTerm]) (by omega)
    have h2 := tokens_drop_append h1
    have h3 : (((p.drop 1).drop c.tokens.length).drop 1).tokens =
        s.tokens ++ sym .PERIOD :: rest := by
      rw [tokens_drop, h2]; rfl
    obtain ⟨e, p1, hs⟩ := parseStatement_open s n _ rest h3 hc (by omega)
    rw [parseStatement_while (n + 1) (by rw [h]; rfl)]
    exact ⟨e, p1, by simp only [parseWhileStatement, bind_apply, advance_cons h, ihc,
      consume_sym _ _ h2, hs]⟩

theorem parseBlock_open (b : Blk) (fuel : Nat) (p : Parser) (rest : List Token)
    (h : p.tokens = b.tokens ++ sym .PERIOD :: rest) (hc : b.body.closed = false)
    (hf : 8 * b.tokens.length + 8 ≤ fuel) :
    ∃ e p1, parseBlock fuel p = .thrown e p1 := by
  cases b with
  | mk consts vars procs body =>
    obtain ⟨n, rfl⟩ : ∃ n, fuel = n + 1 := ⟨fuel - 1, by omega⟩
    simp only [Blk.tokens, List.append_assoc] at h
    simp only [Blk.tokens, List.length_append] at hf
    simp only [Blk.body] at hc
    have hbody := nextType_body body (sym .PERIOD :: rest) (Or.inr rfl)
    have hprocs := nextType_procs procs (body.tokens ++ sym .PERIOD :: rest)
      ⟨hbody.1, hbody.2.1⟩
    have hvars := nextType_vars vars (procs.tokens ++ (body.tokens ++ sym .PERIOD :: rest))
      hprocs.1
    have ihc := parseConstDeclarations_complete consts n p _ h hvars (by omega)
    have h1 := tokens_drop_append h
    have ihv := parseVarDeclarations_complete vars n _ _ h1 hprocs.2 (by omega)
    have h2 := tokens_drop_append h1
    have ihp := parseProcedures_complete procs n _ (body.tokens ++ sym .PERIOD :: rest) [] h2
      hbody.2.2 (by omega)
    have h3 := tokens_drop_append h2
    obtain ⟨e, p1, hs⟩ := parseStatement_open body n _ rest h3 hc (by omega)
    exact ⟨e, p1, by simp only [parseBlock, bind_apply, ihc, ihv, ihp, hs]⟩

theorem parse_open (g : Prog) (s : TokenStream) (rest : List Token)
    (h : s.items.map Lexeme.token = g.tokens ++ rest) (hc : g.closed = false) :
    ∃ p, parse (fresh s) = some (none, p) := by
  have hlen : g.tokens.length ≤ s.items.length := by
    have := congrArg List.length h
    simp only [List.length_map, List.length_append] at this
    omega
  simp only [Prog.tokens, List.append_assoc, List.singleton_append] at h
  simp only [Prog.tokens, List.length_append, List.length_singleton] at hlen
  obtain ⟨e, p1, hb⟩ := parseBlock_open g.block (fuelFor (fresh s).lexer_.items.length)
    (fresh s) rest h hc (by simp only [fuelFor, fresh]; omega)
  exact ⟨p1.addError e.what, by simp only [parse, parseProgram, bind_apply, hb]⟩

end Parser
end pl0

namespace pl0
namespace Parser

@[simp] theorem len_drop (p : Parser) (k : Nat) : (p.drop k).len = p.len - k := by
  simp [len, drop]

theorem wellValued_drop {p : Parser} (h : p.wellValued = true) (k : Nat) :
    (p.drop k).wellValued = true := by
  unfold wellValued at h ⊢
  simp only [List.all_eq_true] at h ⊢
  intro x hx
  exact h x (List.mem_of_mem_drop hx)

theorem wv_drop {W : Prop} {p : Parser} (hw : W → p.wellValued = true) (k : Nat) :
    W → (p.drop k).wellValued = true := fun w => wellValued_drop (hw w) k

theorem wellValued_peekToken {p : Parser} (h : p.wellValued = true) :
    wellValuedToken p.lexer_.peekToken = true := by
  unfold wellValued at h
  unfold TokenStream.peekToken TokenStream.head
  cases hi : p.lexer_.items with
  | nil => rfl
  | cons x xs =>
    rw [hi] at h
    simp only [List.all_cons, Bool.and_eq_true] at h
    exact h.1

theorem valueInt_of_wellValued {t : Token} (h : wellValuedToken t = true)
    (ht : t.type = .NUMBER) : ∃ v, t.valueInt = some v := by
  unfold wellValuedToken at h
  simp only [ht, bne_self_eq_false, Bool.false_or, Bool.and_eq_true] at h
  exact Option.isSome_iff_exists.mp h.1

theorem valueText_of_wellValued {t : Token} (h : wellValuedToken t = true)
    (ht : t.type = .IDENTIFIER) : ∃ v, t.valueText = some v := by
  unfold wellValuedToken at h
  simp only [ht, bne_self_eq_false, Bool.false_or, Bool.and_eq_true] at h
  exact Option.isSome_iff_exists.mp h.2

theorem sound_pure {W : Prop} {α : Type} (a : α) (p : Parser) : Sound W 0 (pure a : ParserM α) p :=
  ⟨0, by simp, Nat.zero_le _, Nat.le_refl _⟩

theorem sound_mono {W : Prop} {α : Type} {m n : Nat} {x : ParserM α} {p : Parser}
    (h : Sound W n x p)
    (hmn : m ≤ n) : Sound W m x p := by
  unfold Sound at h ⊢
  split
  · rename_i a p1 hx
    rw [hx] at h
    obtain ⟨k, h1, h2, h3⟩ := h
    exact ⟨k, h1, h2, by omega⟩
  · rename_i e p1 hx
    rw [hx] at h
    exact h
  · rename_i hx
    rw [hx] at h
    exact h

theorem sound_bind {W : Prop} {α β : Type} {m1 m2 : Nat} {x : ParserM α} {f : α → ParserM β}
    {p : Parser}
    (hx : Sound W m1 x p)
    (hf : ∀ a k, k ≤ p.len → m1 ≤ k → x p = .ok a (p.drop k) → Sound W m2 (f a) (p.drop k)) :
    Sound W (m1 + m2) (x >>= f) p := by
  unfold Sound at hx
  cases hxp : x p with
  | ok a p1 =>
    rw [hxp] at hx
    obtain ⟨k, h1, h2, h3⟩ := hx
    subst h1
    have hfa := hf a k h2 h3 hxp
    unfold Sound at hfa ⊢
    rw [bind_ok hxp]
    cases hfp : f a (p.drop k) with
    | ok b p2 =>
      rw [hfp] at hfa
      obtain ⟨j, g1, g2, g3⟩ := hfa
      subst g1
      simp only [len_drop] at g2
      exact ⟨k + j, by simp, by omega, by omega⟩
    | thrown e p2 =>
      rw [hfp] at hfa
      exact hfa
    | outOfFuel =>
      rw [hfp] at hfa
      exact hfa
  | thrown e p1 =>
    rw [hxp] at hx
    unfold Sound
    rw [bind_thrown hxp]
    exact hx
  | outOfFuel =>
    rw [hxp] at hx
    exact hx.elim

theorem sound_check {W : Prop} (ty : TokenType) (p : Parser) : Sound W 0 (check ty) p := by
  unfold Sound
  rw [check_apply]
  exact ⟨0, by simp, Nat.zero_le _, Nat.le_refl _⟩

theorem sound_peek {W : Prop} (p : Parser) : Sound W 0 peek p :=
  ⟨0, by simp, Nat.zero_le _, Nat.le_refl _⟩

theorem sound_position {W : Prop} (p : Parser) : Sound W 0 position p :=
  ⟨0, by simp, Nat.zero_le _, Nat.le_refl _⟩

theorem nextType_eof_of_len {p : Parser} (h : p.len = 0) : nextType p.tokens = .END_OF_FILE := by
  unfold len at h
  unfold tokens
  cases hi : p.lexer_.items with
  | nil => rfl
  | cons x xs => simp [hi] at h

theorem len_pos_of_nextType {p : Parser} (h : nextType p.tokens ≠ .END_OF_FILE) : 1 ≤ p.len := by
  by_contra hc
  exact h (nextType_eof_of_len (by omega))

theorem advance_apply (p : Parser) : advance p = .ok p.lexer_.peekToken (p.drop 1) := by
  unfold advance TokenStream.nextToken TokenStream.peekToken drop
  cases hi : p.lexer_.items <;> simp

theorem drop_one_of_len_zero {p : Parser} (h : p.len = 0) : p.drop 1 = p := by
  unfold len at h
  have h0 : p.lexer_.items = [] := List.eq_nil_of_length_eq_zero h
  obtain ⟨⟨items, l, c⟩, errs, he⟩ := p
  simp only at h0
  subst h0
  rfl

theorem sound_advance {W : Prop} (p : Parser) : Sound W 0 advance p := by
  unfold Sound
  rw [advance_apply]
  by_cases h : p.len = 0
  · exact ⟨0, by simp [drop_one_of_len_zero h], Nat.zero_le _, Nat.le_refl _⟩
  · exact ⟨1, rfl, by omega, by omega⟩

theorem sound_advance_of_next {W : Prop} {p : Parser} (h : nextType p.tokens ≠ .END_OF_FILE) :
    Sound W 1 advance p := by
  unfold Sound
  rw [advance_apply]
  exact ⟨1, rfl, len_pos_of_nextType h, Nat.le_refl _⟩

theorem describeValue_cases (t : Token) (q : Parser) :
    (∃ d, describeValue t q = .ok d q) ∨
    (describeValue t q = .thrown .bad_variant_access q ∧ wellValuedToken t = false) := by
  unfold describeValue
  by_cases h1 : t.type = .NUMBER
  · simp only [h1, ↓reduceIte, bind_apply, valueInt]
    cases hv : t.valueInt with
    | none => exact Or.inr ⟨rfl, by simp [wellValuedToken, h1, hv]⟩
    | some v => exact Or.inl ⟨_, rfl⟩
  · by_cases h2 : t.type = .IDENTIFIER
    · simp only [h1, h2, ↓reduceIte, bind_apply, valueText]
      cases hv : t.valueText with
      | none => exact Or.inr ⟨rfl, by simp [wellValuedToken, h2, hv]⟩
      | some v => exact Or.inl ⟨_, rfl⟩
    · simp only [h1, h2, ↓reduceIte]
      exact Or.inl ⟨_, rfl⟩

theorem sound_errorAt {W : Prop} {α : Type} {p : Parser} (hw : W → p.wellValued = true)
    (m : Nat) (pos : Nat × Nat) (message : String) :
    Sound W m (errorAt pos message : ParserM α) p := by
  unfold Sound errorAt
  simp only []
  rcases describeValue_cases p.lexer_.peekToken { p with had_error_ := true } with
    ⟨d, h⟩ | ⟨h, hv⟩
  · rw [h]
    exact Or.inl ⟨_, rfl, rfl⟩
  · rw [h]
    refine Or.inr ⟨rfl, rfl, fun w => ?_⟩
    rw [wellValued_peekToken (hw w)] at hv
    exact Bool.noConfusion hv

theorem sound_error {W : Prop} {α : Type} {p : Parser} (hw : W → p.wellValued = true)
    (m : Nat) (message : String) : Sound W m (error message : ParserM α) p := by
  have h : Sound W m (errorAt (p.lexer_.head.line, p.lexer_.head.column) message : ParserM α) p :=
    sound_errorAt hw m _ message
  unfold Sound at h ⊢
  simp only [error, bind_apply, position_apply]
  exact h

theorem sound_consume {W : Prop} {p : Parser} (hw : W → p.wellValued = true)
    {ty : TokenType} (hty : ty ≠ .END_OF_FILE) (message : String) :
    Sound W 1 (consume ty message) p := by
  by_cases h : nextType p.tokens = ty
  · have hs : Sound W 1 advance p := sound_advance_of_next (by rw [h]; exact hty)
    unfold Sound at hs ⊢
    simp only [consume, bind_apply, check_apply, h, decide_True, Bool.not_true,
      Bool.false_eq_true, ↓reduceIte]
    exact hs
  · have hs : Sound W 1 (error message : ParserM Token) p := sound_error hw 1 message
    unfold Sound at hs ⊢
    simp only [consume, bind_apply, check_apply, h, decide_False, Bool.not_false, ↓reduceIte]
    exact hs

/-- What a returning `consume` returns: the lookahead, which has the type asked for. -/
theorem consume_ok {ty : TokenType} {message : String} {p p1 : Parser} {a : Token}
    (h : consume ty message p = .ok a p1) :
    a = p.lexer_.peekToken ∧ nextType p.tokens = ty := by
  by_cases hn : nextType p.tokens = ty
  · simp only [consume, bind_apply, check_apply, hn, decide_True, Bool.not_true,
      Bool.false_eq_true, ↓reduceIte, advance_apply] at h
    injection h with h1 h2
    exact ⟨h1.symm, hn⟩
  · have ht : ∃ e p1, (error message : ParserM Token) p = .thrown e p1 :=
      error_thrown message p
    obtain ⟨e, p2, he⟩ := ht
    simp only [consume, bind_apply, check_apply, hn, decide_False, Bool.not_false,
      ↓reduceIte, he] at h
    cases h

theorem sound_valueText {W : Prop} {t : Token} (ht : W → ∃ v, t.valueText = some v)
    (p : Parser) : Sound W 0 (valueText t) p := by
  unfold Sound valueText
  cases hv : t.valueText with
  | none =>
    refine Or.inr ⟨rfl, rfl, fun w => ?_⟩
    obtain ⟨v, h⟩ := ht w
    rw [hv] at h
    cases h
  | some v => exact ⟨0, by simp, Nat.zero_le _, Nat.le_refl _⟩

theorem sound_valueInt {W : Prop} {t : Token} (ht : W → ∃ v, t.valueInt = some v)
    (p : Parser) : Sound W 0 (valueInt t) p := by
  unfold Sound valueInt
  cases hv : t.valueInt with
  | none =>
    refine Or.inr ⟨rfl, rfl, fun w => ?_⟩
    obtain ⟨v, h⟩ := ht w
    rw [hv] at h
    cases h
  | some v => exact ⟨0, by simp, Nat.zero_le _, Nat.le_refl _⟩

/-- The identifier that `consume` has returned carries a text. -/
theorem text_of_consume {W : Prop} {p p1 : Parser} (hw : W → p.wellValued = true)
    {message : String} {a : Token} (h : consume .IDENTIFIER message p = .ok a p1) :
    W → ∃ v, a.valueText = some v := fun w => by
  obtain ⟨h1, h2⟩ := consume_ok h
  rw [h1]
  exact valueText_of_wellValued (wellValued_peekToken (hw w)) (by rw [peekToken_type, h2])

/-- The number that `consume` has returned carries a number. -/
theorem int_of_consume {W : Prop} {p p1 : Parser} (hw : W → p.wellValued = true)
    {message : String} {a : Token} (h : consume .NUMBER message p = .ok a p1) :
    W → ∃ v, a.valueInt = some v := fun w => by
  obtain ⟨h1, h2⟩ := consume_ok h
  rw [h1]
  exact valueInt_of_wellValued (wellValued_peekToken (hw w)) (by rw [peekToken_type, h2])

theorem match_same {p : Parser} {ty : TokenType} (h : nextType p.tokens = ty) :
    match_ ty p = .ok true (p.drop 1) := by
  simp [match_, h, advance_apply]

theorem match_cases (ty : TokenType) (p : Parser) :
    (nextType p.tokens = ty ∧ match_ ty p = .ok true (p.drop 1)) ∨
    (nextType p.tokens ≠ ty ∧ match_ ty p = .ok false p) := by
  by_cases h : nextType p.tokens = ty
  · exact Or.inl ⟨h, match_same h⟩
  · exact Or.inr ⟨h, match_other h⟩

theorem sound_match {W : Prop} (ty : TokenType) (p : Parser) : Sound W 0 (match_ ty) p := by
  by_cases h : nextType p.tokens = ty
  · have hs : Sound W 0 advance p := sound_advance p
    unfold Sound at hs ⊢
    rw [advance_apply] at hs
    rw [match_same h]
    exact hs
  · unfold Sound
    rw [match_other h]
    exact ⟨0, by simp, Nat.zero_le _, Nat.le_refl _⟩

/-- A call that returns tells where it left the parser. -/
theorem Sound.ok {W : Prop} {α : Type} {m : Nat} {x : ParserM α} {p p1 : Parser} {a : α}
    (h : Sound W m x p) (hx : x p = .ok a p1) : ∃ k, p1 = p.drop k ∧ k ≤ p.len ∧ m ≤ k := by
  unfold Sound at h
  rw [hx] at h
  exact h

theorem Sound.thrown {W : Prop} {α : Type} {m : Nat} {x : ParserM α} {p p1 : Parser} {e : Exception}
    (h : Sound W m x p) (hx : x p = .thrown e p1) : Threw W p e p1 := by
  unfold Sound at h
  rw [hx] at h
  exact h

theorem Sound.not_outOfFuel {W : Prop} {α : Type} {m : Nat} {x : ParserM α} {p : Parser}
    (h : Sound W m x p) : x p ≠ .outOfFuel := by
  intro hx
  unfold Sound at h
  rw [hx] at h
  exact h

end Parser
end pl0

namespace pl0
namespace Parser

theorem parsePowerLoop_go {p : Parser} (n : Nat) (acc : Expression)
    (h : nextType p.tokens = .POWER) :
    parsePowerLoop (n + 1) acc p =
      (parsePower n >>= fun right => parsePowerLoop n (.BinaryExpression acc .Pow right))
        (p.drop 1) := by
  simp [parsePowerLoop, h, advance_apply]

theorem parseTermLoop_go {p : Parser} (n : Nat) (acc : Expression)
    (h : nextType p.tokens = .MULTIPLY ∨ nextType p.tokens = .DIVIDE) :
    ∃ op, parseTermLoop (n + 1) acc p =
      (parsePower n >>= fun right => parseTermLoop n (.BinaryExpression acc op right))
        (p.drop 1) := by
  rcases h with h | h
  · exact ⟨.Mul, by simp [parseTermLoop, h, peek_apply, peekToken_type, tokenTypeToBinaryOp,
      advance_apply]⟩
  · exact ⟨.Div, by simp [parseTermLoop, h, peek_apply, peekToken_type, tokenTypeToBinaryOp,
      advance_apply]⟩

theorem parseExpressionLoop_go {p : Parser} (n : Nat) (acc : Expression)
    (h : nextType p.tokens = .PLUS ∨ nextType p.tokens = .MINUS) :
    ∃ op, parseExpressionLoop (n + 1) acc p =
      (parseTerm n >>= fun right => parseExpressionLoop n (.BinaryExpression acc op right))
        (p.drop 1) := by
  rcases h with h | h
  · exact ⟨.Add, by simp [parseExpressionLoop, h, peek_apply, peekToken_type,
      tokenTypeToBinaryOp, advance_apply]⟩
  · exact ⟨.Sub, by simp [parseExpressionLoop, h, peek_apply, peekToken_type,
      tokenTypeToBinaryOp, advance_apply]⟩

/-- A computation started one token further on, seen from the parser before that token. -/
theorem Sound.after {W : Prop} {α : Type} {m : Nat} {x : ParserM α} {p : Parser} {j : Nat}
    (h : Sound W m x (p.drop j)) (hj : j ≤ p.len) : Sound W (j + m) (fun _ => x (p.drop j)) p := by
  unfold Sound at h ⊢
  simp only []
  cases hx : x (p.drop j) with
  | ok a p1 =>
    rw [hx] at h
    obtain ⟨k, h1, h2, h3⟩ := h
    subst h1
    simp only [len_drop] at h2
    exact ⟨j + k, by simp, by omega, by omega⟩
  | thrown e p1 =>
    rw [hx] at h
    exact h
  | outOfFuel =>
    rw [hx] at h
    exact h

theorem Sound.congr {W : Prop} {α : Type} {m : Nat} {x y : ParserM α} {p : Parser}
    (h : Sound W m x p) (hxy : y p = x p) : Sound W m y p := by
  unfold Sound at h ⊢
  rw [hxy]
  exact h

theorem sound_ok_drop {W : Prop} {α : Type} (a : α) (p : Parser) (x : ParserM α) (k : Nat)
    (hx : x p = .ok a (p.drop k)) (hk : k ≤ p.len) : Sound W k x p := by
  unfold Sound
  rw [hx]
  exact ⟨k, rfl, hk, Nat.le_refl _⟩

theorem sound_of_thrown {W : Prop} {α : Type} {m n : Nat} {β : Type} {x : ParserM α} {y : ParserM β}
    {p : Parser} (h : Sound W n y p) (hy : ∃ e p1, y p = .thrown e p1)
    (hxy : ∀ e p1, y p = .thrown e p1 → x p = .thrown e p1) : Sound W m x p := by
  obtain ⟨e, p1, he⟩ := hy
  have ht := h.thrown he
  unfold Sound
  rw [hxy e p1 he]
  exact ht

theorem sound_loop_step {W : Prop} {α β : Type} {x : ParserM α} {f : α → ParserM β} {y : ParserM β}
    {p : Parser}
    (hy : y p = (x >>= f) (p.drop 1)) (hp : 1 ≤ p.len) (hx : Sound W 1 x (p.drop 1))
    (hf : ∀ a k, k ≤ p.len → 2 ≤ k → Sound W 0 (f a) (p.drop k)) : Sound W 0 y p := by
  have hb : Sound W (1 + 0) (x >>= f) (p.drop 1) := by
    refine sound_bind hx ?_
    intro a k hk h1 _
    rw [drop_drop]
    simp only [len_drop] at hk
    exact hf a (1 + k) (by omega) (by omega)
  have h := Sound.after hb hp
  exact sound_mono (Sound.congr h hy) (Nat.zero_le _)

theorem exprSound_zero {W : Prop} : ExprSound W 0 where
  factor := fun p _ h => by omega
  powerLoop := fun p _ _ h => by omega
  power := fun p _ h => by omega
  termLoop := fun p _ _ h => by omega
  term := fun p _ h => by omega
  expressionLoop := fun p _ _ h => by omega
  expression := fun p _ h => by omega

theorem parseFactor_sound {W : Prop} {n : Nat} (ih : ExprSound W n) (p : Parser)
    (hw : W → p.wellValued = true) (h : 8 * p.len + 1 ≤ n + 1) :
    Sound W 1 (parseFactor (n + 1)) p := by
  by_cases h1 : nextType p.tokens = .NUMBER
  · have hp : 1 ≤ p.len := len_pos_of_nextType (by rw [h1]; decide)
    cases hv : p.lexer_.peekToken.valueInt with
    | some v =>
      exact sound_ok_drop (.NumberExpression v) p _ 1
        (by simp [parseFactor, h1, advance_apply, hv]) hp
    | none =>
      have he : Sound W 1 (errorAt (p.lexer_.head.line, p.lexer_.head.column) "无效的数字" :
          ParserM Expression) (p.drop 1) := sound_errorAt (wv_drop hw 1) 1 _ _
      have h2 := Sound.after he hp
      exact sound_mono (Sound.congr h2 (by simp [parseFactor, h1, advance_apply, hv]))
        (by omega)
  · by_cases h2 : nextType p.tokens = .IDENTIFIER
    · have hp : 1 ≤ p.len := len_pos_of_nextType (by rw [h2]; decide)
      cases hv : p.lexer_.peekToken.valueText with
      | some v =>
        exact sound_ok_drop (.IdentifierExpression v) p _ 1
          (by simp [parseFactor, h2, advance_apply, hv]) hp
      | none =>
        have he : Sound W 1 (errorAt (p.lexer_.head.line, p.lexer_.head.column)
            "无效的标识符" : ParserM Expression) (p.drop 1) := sound_errorAt (wv_drop hw 1) 1 _ _
        have h3 := Sound.after he hp
        exact sound_mono (Sound.congr h3 (by simp [parseFactor, h2, advance_apply, hv]))
          (by omega)
    · by_cases h3 : nextType p.tokens = .LPAREN
      · have hp : 1 ≤ p.len := len_pos_of_nextType (by rw [h3]; decide)
        have hb : Sound W (1 + (1 + 0)) (parseExpression n >>= fun expr =>
            consume .RPAREN "表达式需要右括号')'" >>= fun _ => pure expr) (p.drop 1) := by
          refine sound_bind (ih.expression _ (wv_drop hw _) (by simp only [len_drop]; omega)) ?_
          intro a k _ _ _
          refine sound_bind (sound_consume (wv_drop (wv_drop hw 1) _) (by decide) _) ?_
          intro _ j _ _ _
          exact sound_pure _ _
        have h4 := Sound.after hb hp
        exact sound_mono (Sound.congr h4 (by simp [parseFactor, h3, advance_apply]))
          (by omega)
      · exact Sound.congr (sound_error hw 1 "预期表达式") (by simp [parseFactor, h1, h2, h3])

theorem parsePowerLoop_sound {W : Prop} {n : Nat} (ih : ExprSound W n) (p : Parser)
    (acc : Expression) (hw : W → p.wellValued = true) (h : 8 * p.len + 1 ≤ n + 1) :
    Sound W 0 (parsePowerLoop (n + 1) acc) p := by
  by_cases h1 : nextType p.tokens = .POWER
  · have hp : 1 ≤ p.len := len_pos_of_nextType (by rw [h1]; decide)
    exact sound_loop_step (parsePowerLoop_go n acc h1) hp
      (ih.power _ (wv_drop hw _) (by simp only [len_drop]; omega))
      (fun a k hk h2 => ih.powerLoop _ _ (wv_drop hw _) (by simp only [len_drop]; omega))
  · exact sound_ok_drop acc p _ 0 (by simp [parsePowerLoop_stop acc h1]) (Nat.zero_le _)

theorem parseTermLoop_sound {W : Prop} {n : Nat} (ih : ExprSound W n) (p : Parser)
    (acc : Expression) (hw : W → p.wellValued = true) (h : 8 * p.len + 1 ≤ n + 1) :
    Sound W 0 (parseTermLoop (n + 1) acc) p := by
  by_cases h1 : nextType p.tokens = .MULTIPLY ∨ nextType p.tokens = .DIVIDE
  · have hp : 1 ≤ p.len :=
      len_pos_of_nextType (by rcases h1 with h1 | h1 <;> rw [h1] <;> decide)
    obtain ⟨op, hgo⟩ := parseTermLoop_go n acc h1
    exact sound_loop_step hgo hp
      (ih.power _ (wv_drop hw _) (by simp only [len_drop]; omega))
      (fun a k hk h2 => ih.termLoop _ _ (wv_drop hw _) (by simp only [len_drop]; omega))
  · simp only [not_or] at h1
    exact sound_ok_drop acc p _ 0 (by simp [parseTermLoop_stop acc h1.1 h1.2]) (Nat.zero_le _)

theorem parseExpressionLoop_sound {W : Prop} {n : Nat} (ih : ExprSound W n) (p : Parser)
    (acc : Expression) (hw : W → p.wellValued = true) (h : 8 * p.len + 1 ≤ n + 1) :
    Sound W 0 (parseExpressionLoop (n + 1) acc) p := by
  by_cases h1 : nextType p.tokens = .PLUS ∨ nextType p.tokens = .MINUS
  · have hp : 1 ≤ p.len :=
      len_pos_of_nextType (by rcases h1 with h1 | h1 <;> rw [h1] <;> decide)
    obtain ⟨op, hgo⟩ := parseExpressionLoop_go n acc h1
    exact sound_loop_step hgo hp
      (ih.term _ (wv_drop hw _) (by simp only [len_drop]; omega))
      (fun a k hk h2 => ih.expressionLoop _ _ (wv_drop hw _) (by simp only [len_drop]; omega))
  · simp only [not_or] at h1
    exact sound_ok_drop acc p _ 0 (by simp [parseExpressionLoop_stop acc h1.1 h1.2])
      (Nat.zero_le _)

theorem sound_then_loop {W : Prop} {α β : Type} {x : ParserM α} {f : α → ParserM β} {y : ParserM β}
    {p : Parser} (hy : y p = (x >>= f) p) (hx : Sound W 1 x p)
    (hf : ∀ a k, k ≤ p.len → 1 ≤ k → Sound W 0 (f a) (p.drop k)) : Sound W 1 y p := by
  have hb : Sound W (1 + 0) (x >>= f) p := sound_bind hx (fun a k hk h1 _ => hf a k hk h1)
  exact Sound.congr hb hy

theorem parsePower_sound {W : Prop} {n : Nat} (ih : ExprSound W n) (p : Parser)
    (hw : W → p.wellValued = true) (h : 8 * p.len + 2 ≤ n + 1) :
    Sound W 1 (parsePower (n + 1)) p :=
  sound_then_loop (parsePower_eq n p) (ih.factor p hw (by omega))
    (fun a k hk h1 => ih.powerLoop _ _ (wv_drop hw _) (by simp only [len_drop]; omega))

theorem parseTerm_sound {W : Prop} {n : Nat} (ih : ExprSound W n) (p : Parser)
    (hw : W → p.wellValued = true) (h : 8 * p.len + 3 ≤ n + 1) :
    Sound W 1 (parseTerm (n + 1)) p :=
  sound_then_loop (parseTerm_eq n p) (ih.power p hw (by omega))
    (fun a k hk h1 => ih.termLoop _ _ (wv_drop hw _) (by simp only [len_drop]; omega))

theorem parseExpression_sound_step {W : Prop} {n : Nat} (ih : ExprSound W n) (p : Parser)
    (hw : W → p.wellValued = true) (h : 8 * p.len + 4 ≤ n + 1) :
    Sound W 1 (parseExpression (n + 1)) p :=
  sound_then_loop (parseExpression_eq n p) (ih.term p hw (by omega))
    (fun a k hk h1 => ih.expressionLoop _ _ (wv_drop hw _) (by simp only [len_drop]; omega))

theorem exprSound {W : Prop} : ∀ fuel : Nat, ExprSound W fuel
  | 0 => exprSound_zero
  | n + 1 =>
    have ih : ExprSound W n := exprSound n
    { factor := parseFactor_sound ih
      powerLoop := parsePowerLoop_sound ih
      power := parsePower_sound ih
      termLoop := parseTermLoop_sound ih
      term := parseTerm_sound ih
      expressionLoop := parseExpressionLoop_sound ih
      expression := parseExpression_sound_step ih }

end Parser
end pl0

namespace pl0
namespace Parser

theorem parseExpression_sound {W : Prop} (fuel : Nat) (p : Parser)
    (hw : W → p.wellValued = true) (h : 8 * p.len + 4 ≤ fuel) :
    Sound W 1 (parseExpression fuel) p := (exprSound fuel).expression p hw h

theorem sound_bind_le {W : Prop} {α β : Type} {m : Nat} (m1 m2 : Nat) {x : ParserM α}
    {f : α → ParserM β}
    {p : Parser} (hx : Sound W m1 x p)
    (hf : ∀ a k, k ≤ p.len → m1 ≤ k → x p = .ok a (p.drop k) → Sound W m2 (f a) (p.drop k))
    (hm : m ≤ m1 + m2) : Sound W m (x >>= f) p :=
  sound_mono (sound_bind hx hf) hm

theorem parseCallStatement_sound {W : Prop} (p : Parser) (hw : W → p.wellValued = true) :
    Sound W 1 parseCallStatement p := by
  unfold parseCallStatement
  refine sound_bind_le 0 1 (sound_advance p) ?_ (Nat.le_refl 1)
  intro _ k _ _ _
  refine sound_bind_le 1 0 (sound_consume (wv_drop hw k) (by decide) _) ?_ (Nat.le_refl 1)
  intro name j _ _ hname
  refine sound_bind_le 0 0 (sound_valueText (text_of_consume (wv_drop hw k) hname) _) ?_
    (Nat.le_refl 0)
  intro n i _ _ _
  exact sound_pure _ _

theorem parseAssignStatement_sound {W : Prop} (fuel : Nat) (p : Parser)
    (hw : W → p.wellValued = true) (h : 8 * p.len ≤ fuel + 12) :
    Sound W 1 (parseAssignStatement fuel) p := by
  unfold parseAssignStatement
  refine sound_bind_le 1 0 (sound_consume hw (by decide) _) ?_ (Nat.le_refl 1)
  intro name k hk hk1 hname
  refine sound_bind_le 0 0 (sound_valueText (text_of_consume hw hname) _) ?_ (Nat.le_refl 0)
  intro n i hi _ _
  have hw2 := wv_drop (wv_drop hw k) i
  refine sound_bind_le 1 0 (sound_consume hw2 (by decide) _) ?_ (Nat.zero_le _)
  intro _ j hj hj1 _
  simp only [len_drop] at hi hj
  refine sound_bind_le 1 0 (parseExpression_sound fuel _ (wv_drop hw2 j) ?_) ?_ (Nat.zero_le _)
  · simp only [len_drop]; omega
  · intro expr l _ _ _
    exact sound_pure _ _

theorem tokenTypeToBinaryOp_comparison {op : TokenType} (h : isComparison op = true)
    (p : Parser) : ∃ b, tokenTypeToBinaryOp op p = .ok b p := by
  cases op <;> simp [isComparison] at h <;> exact ⟨_, rfl⟩

theorem sound_tokenTypeToBinaryOp {W : Prop} {op : TokenType} (h : isComparison op = true)
    (p : Parser) :
    Sound W 0 (tokenTypeToBinaryOp op) p := by
  obtain ⟨b, hb⟩ := tokenTypeToBinaryOp_comparison h p
  exact sound_ok_drop b p _ 0 (by simpa using hb) (Nat.zero_le _)

theorem parseCondition_sound {W : Prop} (fuel : Nat) (p : Parser)
    (hw : W → p.wellValued = true) (h : 8 * p.len + 4 ≤ fuel) :
    Sound W 1 (parseCondition fuel) p := by
  by_cases h1 : nextType p.tokens = .ODD
  · have hp : 1 ≤ p.len := len_pos_of_nextType (by rw [h1]; decide)
    have he : Sound W 1 (parseExpression fuel) (p.drop 1) :=
      parseExpression_sound fuel (p.drop 1) (wv_drop hw 1) (by simp only [len_drop]; omega)
    exact sound_mono (Sound.congr (Sound.after he hp)
      (by simp [parseCondition, h1, advance_apply])) (by omega)
  · have hb : Sound W (1 + 0) (parseExpression fuel >>= fun left =>
        peek >>= fun t =>
          if (!isComparison t.type) = true then error "预期比较运算符"
          else advance >>= fun _ => parseExpression fuel >>= fun right =>
            tokenTypeToBinaryOp t.type >>= fun bop =>
              pure (Expression.BinaryExpression left bop right)) p := by
      refine sound_bind (parseExpression_sound fuel p hw h) ?_
      intro left k hk _ _
      refine sound_bind_le 0 0 (sound_peek _) ?_ (Nat.le_refl 0)
      intro t i hi _ ht
      by_cases hc : isComparison t.type = true
      · simp only [hc, Bool.not_true, Bool.false_eq_true, ↓reduceIte]
        refine sound_bind_le 0 0 (sound_advance _) ?_ (Nat.le_refl 0)
        intro _ j hj _ _
        simp only [len_drop] at hi hj
        refine sound_bind_le 1 0 (parseExpression_sound fuel _
          (wv_drop (wv_drop (wv_drop hw k) i) j) ?_) ?_ (Nat.zero_le _)
        · simp only [len_drop]; omega
        · intro right l _ _ _
          refine sound_bind_le 0 0 (sound_tokenTypeToBinaryOp hc _) ?_ (Nat.le_refl 0)
          intro bop _ _ _ _
          exact sound_pure _ _
      · simp only [hc, Bool.not_false, ↓reduceIte]
        exact sound_error (wv_drop (wv_drop hw k) i) 0 _
    exact Sound.congr hb (by simp [parseCondition, h1])

end Parser
end pl0

namespace pl0
namespace Parser

theorem parseConstDeclarationsLoop_sound {W : Prop} : ∀ (fuel : Nat) (p : Parser)
    (decls : List ConstDeclaration), (W → p.wellValued = true) → 8 * p.len + 1 ≤ fuel →
    Sound W 1 (parseConstDeclarationsLoop fuel decls) p
  | 0, p, decls, _, h => by omega
  | n + 1, p, decls, hw, h => by
    rw [parseConstDeclarationsLoop]
    refine sound_bind_le 1 0 (sound_consume hw (by decide) _) ?_ (Nat.le_refl 1)
    intro name k hk hk1 hname
    have hw1 := wv_drop hw k
    refine sound_bind_le 1 0 (sound_consume hw1 (by decide) _) ?_ (Nat.zero_le _)
    intro _ j hj hj1 _
    have hw2 := wv_drop hw1 j
    refine sound_bind_le 1 0 (sound_consume hw2 (by decide) _) ?_ (Nat.zero_le _)
    intro value i hi hi1 hvalue
    refine sound_bind_le 0 0 (sound_valueText (text_of_consume hw hname) _) ?_ (Nat.le_refl 0)
    intro nm i1 _ _ _
    refine sound_bind_le 0 0 (sound_valueInt (int_of_consume hw2 hvalue) _) ?_ (Nat.le_refl 0)
    intro v i2 _ _ _
    refine sound_bind_le 0 0 (sound_match .COMMA _) ?_ (Nat.le_refl 0)
    intro b l hl _ _
    simp only [len_drop] at *
    cases b with
    | true =>
      exact sound_mono (parseConstDeclarationsLoop_sound n _ _
        (wv_drop (wv_drop (wv_drop (wv_drop hw2 i) i1) i2) l)
        (by simp only [len_drop]; omega)) (Nat.zero_le _)
    | false => exact sound_pure _ _

theorem parseConstDeclarations_sound {W : Prop} (fuel : Nat) (p : Parser)
    (hw : W → p.wellValued = true) (h : 8 * p.len ≤ fuel + 7) :
    Sound W 0 (parseConstDeclarations fuel) p := by
  unfold parseConstDeclarations
  rcases match_cases .CONST p with ⟨hn, hm⟩ | ⟨hn, hm⟩
  · have hp : 1 ≤ p.len := len_pos_of_nextType (by rw [hn]; decide)
    have hb : Sound W (1 + 0) (parseConstDeclarationsLoop fuel [] >>= fun decls =>
        consume .SEMICOLON "常量声明需要以';'结束" >>= fun _ => pure decls) (p.drop 1) := by
      refine sound_bind (parseConstDeclarationsLoop_sound fuel _ _ (wv_drop hw 1)
        (by simp only [len_drop]; omega)) ?_
      intro decls k _ _ _
      refine sound_bind_le 1 0 (sound_consume (wv_drop (wv_drop hw 1) k) (by decide) _) ?_
        (Nat.zero_le _)
      intro _ _ _ _ _
      exact sound_pure _ _
    exact sound_mono (Sound.congr (Sound.after hb hp) (by simp [hm])) (Nat.zero_le _)
  · exact sound_ok_drop [] p _ 0 (by simp [hm]) (Nat.zero_le _)

theorem parseVarDeclarationsLoop_sound {W : Prop} : ∀ (fuel : Nat) (p : Parser)
    (decls : List VarDeclaration), (W → p.wellValued = true) → 8 * p.len + 1 ≤ fuel →
    Sound W 1 (parseVarDeclarationsLoop fuel decls) p
  | 0, p, decls, _, h => by omega
  | n + 1, p, decls, hw, h => by
    rw [parseVarDeclarationsLoop]
    refine sound_bind_le 1 0 (sound_consume hw (by decide) _) ?_ (Nat.le_refl 1)
    intro name k hk hk1 hname
    refine sound_bind_le 0 0 (sound_valueText (text_of_consume hw hname) _) ?_ (Nat.le_refl 0)
    intro nm i _ _ _
    refine sound_bind_le 0 0 (sound_match .COMMA _) ?_ (Nat.le_refl 0)
    intro b l hl _ _
    simp only [len_drop] at *
    cases b with
    | true =>
      exact sound_mono (parseVarDeclarationsLoop_sound n _ _
        (wv_drop (wv_drop (wv_drop hw k) i) l) (by simp only [len_drop]; omega))
        (Nat.zero_le _)
    | false => exact sound_pure _ _

theorem parseVarDeclarations_sound {W : Prop} (fuel : Nat) (p : Parser)
    (hw : W → p.wellValued = true) (h : 8 * p.len ≤ fuel + 7) :
    Sound W 0 (parseVarDeclarations fuel) p := by
  unfold parseVarDeclarations
  rcases match_cases .VAR p with ⟨hn, hm⟩ | ⟨hn, hm⟩
  · have hp : 1 ≤ p.len := len_pos_of_nextType (by rw [hn]; decide)
    have hb : Sound W (1 + 0) (parseVarDeclarationsLoop fuel [] >>= fun decls =>
        consume .SEMICOLON "变量声明需要以';'结束" >>= fun _ => pure decls) (p.drop 1) := by
      refine sound_bind (parseVarDeclarationsLoop_sound fuel _ _ (wv_drop hw 1)
        (by simp only [len_drop]; omega)) ?_
      intro decls k _ _ _
      refine sound_bind_le 1 0 (sound_consume (wv_drop (wv_drop hw 1) k) (by decide) _) ?_
        (Nat.zero_le _)
      intro _ _ _ _ _
      exact sound_pure _ _
    exact sound_mono (Sound.congr (Sound.after hb hp) (by simp [hm])) (Nat.zero_le _)
  · exact sound_ok_drop [] p _ 0 (by simp [hm]) (Nat.zero_le _)

end Parser
end pl0

namespace pl0
namespace Parser

theorem stmtSound_zero {W : Prop} : StmtSound W 0 where
  statement := fun p _ h => by omega
  beginStatement := fun p _ _ h => by omega
  beginLoop := fun p _ _ h => by omega
  ifStatement := fun p _ _ h => by omega
  ifLoop := fun p _ _ h => by omega
  whileStatement := fun p _ _ h => by omega

theorem stmtMin_le_one (p : Parser) : stmtMin p ≤ 1 := by
  unfold stmtMin; split <;> omega

theorem stmtMin_of_stop {p : Parser}
    (h : nextType p.tokens = .END ∨ nextType p.tokens = .SEMICOLON) : stmtMin p = 0 := by
  simp [stmtMin, h]

theorem parseStatement_sound_step {W : Prop} {n : Nat} (ih : StmtSound W n) (p : Parser)
    (hw : W → p.wellValued = true) (h : 8 * p.len + 2 ≤ n + 1) :
    Sound W (stmtMin p) (parseStatement (n + 1)) p := by
  by_cases h1 : nextType p.tokens = .END ∨ nextType p.tokens = .SEMICOLON
  · rw [stmtMin_of_stop h1]
    exact sound_ok_drop .nullptr p _ 0 (by simp [parseStatement_stop n h1]) (Nat.zero_le _)
  · by_cases h2 : nextType p.tokens = .IDENTIFIER
    · exact sound_mono (Sound.congr (parseAssignStatement_sound n p hw (by omega))
        (parseStatement_assign n h2)) (stmtMin_le_one p)
    · by_cases h3 : nextType p.tokens = .CALL
      · exact sound_mono (Sound.congr (parseCallStatement_sound p hw)
          (parseStatement_call n h3)) (stmtMin_le_one p)
      · by_cases h4 : nextType p.tokens = .BEGIN
        · exact sound_mono (Sound.congr (ih.beginStatement p hw h4 (by omega))
            (parseStatement_begin n h4)) (stmtMin_le_one p)
        · by_cases h5 : nextType p.tokens = .IF
          · exact sound_mono (Sound.congr (ih.ifStatement p hw h5 (by omega))
              (parseStatement_if n h5)) (stmtMin_le_one p)
          · by_cases h6 : nextType p.tokens = .WHILE
            · exact sound_mono (Sound.congr (ih.whileStatement p hw h6 (by omega))
                (parseStatement_while n h6)) (stmtMin_le_one p)
            · simp only [not_or] at h1
              by_cases h7 : nextType p.tokens = .ERROR
              · exact Sound.congr (sound_error hw _ "词法错误")
                  (by simp [parseStatement, peek_apply, peekToken_type, h7])
              · have hx : parseStatement (n + 1) p =
                    (error ("预期语句，但得到: " ++ toString (nextType p.tokens).toInt) :
                      ParserM Statement) p := by
                  simp only [parseStatement, bind_apply, peek_apply, peekToken_type]
                  generalize nextType p.tokens = ty at *
                  cases ty <;> simp_all
                exact Sound.congr (sound_error hw _ _) hx

theorem parseBeginStatement_sound {W : Prop} {n : Nat} (ih : StmtSound W n) (p : Parser)
    (hw : W → p.wellValued = true) (hb : nextType p.tokens = .BEGIN) (h : 8 * p.len + 1 ≤ n + 1) :
    Sound W 1 (parseBeginStatement (n + 1)) p := by
  have hp : 1 ≤ p.len := len_pos_of_nextType (by rw [hb]; decide)
  have hs : Sound W (0 + (1 + 0)) (parseBeginLoop n [] >>= fun statements =>
      consume .END "BEGIN语句需要以END结束" >>= fun _ =>
        pure (Statement.BeginStatement statements)) (p.drop 1) := by
    refine sound_bind (ih.beginLoop _ _ (wv_drop hw 1) (by simp only [len_drop]; omega)) ?_
    intro statements k _ _ _
    refine sound_bind (sound_consume (wv_drop (wv_drop hw 1) k) (by decide) _) ?_
    intro _ _ _ _ _
    exact sound_pure _ _
  exact sound_mono (Sound.congr (Sound.after hs hp)
    (by simp [parseBeginStatement, advance_apply])) (by omega)

theorem parseWhileStatement_sound {W : Prop} {n : Nat} (ih : StmtSound W n) (p : Parser)
    (hw : W → p.wellValued = true) (hw_ : nextType p.tokens = .WHILE) (h : 8 * p.len + 1 ≤ n + 1) :
    Sound W 1 (parseWhileStatement (n + 1)) p := by
  have hp : 1 ≤ p.len := len_pos_of_nextType (by rw [hw_]; decide)
  have hs : Sound W (1 + 0) (parseCondition n >>= fun condition =>
      consume .DO "WHILE语句需要DO" >>= fun _ =>
        parseStatement n >>= fun body =>
          pure (Statement.WhileStatement condition body)) (p.drop 1) := by
    refine sound_bind (parseCondition_sound n _ (wv_drop hw 1)
      (by simp only [len_drop]; omega)) ?_
    intro condition k hk hk1 _
    have hw2 := wv_drop (wv_drop hw 1) k
    refine sound_bind_le 1 0 (sound_consume hw2 (by decide) _) ?_ (Nat.zero_le _)
    intro _ j hj hj1 _
    simp only [len_drop] at hk hj
    refine sound_bind_le _ 0 (ih.statement _ (wv_drop hw2 j)
      (by simp only [len_drop]; omega)) ?_ (Nat.zero_le _)
    intro body _ _ _ _
    exact sound_pure _ _
  exact sound_mono (Sound.congr (Sound.after hs hp)
    (by simp [parseWhileStatement, advance_apply])) (by omega)

theorem parseBeginLoop_sound {W : Prop} {n : Nat} (ih : StmtSound W n) (p : Parser)
    (acc : List Statement) (hw : W → p.wellValued = true) (h : 8 * p.len + 3 ≤ n + 1) :
    Sound W 0 (parseBeginLoop (n + 1) acc) p := by
  by_cases h1 : nextType p.tokens = .END
  · exact sound_ok_drop acc p _ 0 (by simp [parseBeginLoop_stop acc h1]) (Nat.zero_le _)
  · have hs : Sound W (stmtMin p + 0) (parseStatement n >>= fun stmt =>
        match_ .SEMICOLON >>= fun a => check .END >>= fun b =>
          if (!a && !b) = true then error "语句之间需要分号"
          else parseBeginLoop n (pushIfPresent acc stmt)) p := by
      refine sound_bind (ih.statement p hw (by omega)) ?_
      intro stmt k hk hk1 _
      rcases match_cases .SEMICOLON (p.drop k) with ⟨hn, hm⟩ | ⟨hn, hm⟩
      · have hp : 1 ≤ (p.drop k).len := len_pos_of_nextType (by rw [hn]; decide)
        have hr := ih.beginLoop ((p.drop k).drop 1) (pushIfPresent acc stmt)
          (wv_drop (wv_drop hw k) 1) (by simp only [len_drop] at hp ⊢; omega)
        exact sound_mono (Sound.congr (Sound.after hr hp) (by simp [hm])) (Nat.zero_le _)
      · by_cases he : nextType (p.drop k).tokens = .END
        · have hk0 : 1 ≤ k := by
            by_contra hc
            have hk0 : k = 0 := by omega
            subst hk0
            simp only [drop_zero] at he
            exact h1 he
          have hr := ih.beginLoop (p.drop k) (pushIfPresent acc stmt) (wv_drop hw k)
            (by simp only [len_drop]; omega)
          simp only [tokens_drop] at he
          exact Sound.congr hr (by simp [hm, he])
        · simp only [tokens_drop] at he
          exact Sound.congr (sound_error (wv_drop hw k) 0 "语句之间需要分号") (by simp [hm, he])
    exact sound_mono (Sound.congr hs (by simp [parseBeginLoop, h1])) (Nat.zero_le _)

theorem parseIfLoop_sound {W : Prop} {n : Nat} (ih : StmtSound W n) (p : Parser)
    (acc : List Statement) (hw : W → p.wellValued = true) (h : 8 * p.len + 3 ≤ n + 1) :
    Sound W 0 (parseIfLoop (n + 1) acc) p := by
  by_cases h1 : nextType p.tokens = .END ∨ nextType p.tokens = .SEMICOLON
  · refine sound_ok_drop acc p _ 0 ?_ (Nat.zero_le _)
    rw [parseIfLoop]
    rcases h1 with h1 | h1 <;> simp [h1]
  · have hmin : stmtMin p = 1 := by simp [stmtMin, h1]
    have hs : Sound W (1 + 0) (parseStatement n >>= fun stmt =>
        match_ .SEMICOLON >>= fun _ => parseIfLoop n (pushIfPresent acc stmt)) p := by
      refine sound_bind (hmin ▸ ih.statement p hw (by omega)) ?_
      intro stmt k hk hk1 _
      refine sound_bind_le 0 0 (sound_match _ _) ?_ (Nat.le_refl 0)
      intro _ j hj _ _
      simp only [len_drop] at hj
      exact ih.ifLoop _ _ (wv_drop (wv_drop hw k) j) (by simp only [len_drop]; omega)
    simp only [not_or] at h1
    refine sound_mono (Sound.congr hs ?_) (Nat.zero_le _)
    rw [parseIfLoop]
    simp [h1.1, h1.2]

theorem parseIfStatement_sound {W : Prop} {n : Nat} (ih : StmtSound W n) (p : Parser)
    (hw : W → p.wellValued = true) (hi : nextType p.tokens = .IF) (h : 8 * p.len + 1 ≤ n + 1) :
    Sound W 1 (parseIfStatement (n + 1)) p := by
  have hp : 1 ≤ p.len := len_pos_of_nextType (by rw [hi]; decide)
  have hs : Sound W (1 + 0) (parseCondition n >>= fun condition =>
      consume .THEN "IF语句需要THEN" >>= fun _ =>
        parseStatement n >>= fun then_stmt =>
          check .END >>= fun a => check .SEMICOLON >>= fun b =>
            if (then_stmt.isPresent && !then_stmt.isBegin && !a && !b) = true then
              parseIfLoop n [then_stmt] >>= fun statements =>
                pure (Statement.IfStatement condition (.BeginStatement statements))
            else pure (Statement.IfStatement condition then_stmt)) (p.drop 1) := by
    refine sound_bind (parseCondition_sound n _ (wv_drop hw 1)
      (by simp only [len_drop]; omega)) ?_
    intro condition k hk hk1 _
    have hw2 := wv_drop (wv_drop hw 1) k
    refine sound_bind_le 1 0 (sound_consume hw2 (by decide) _) ?_ (Nat.zero_le _)
    intro _ j hj hj1 _
    simp only [len_drop] at hk hj
    refine sound_bind_le _ 0 (ih.statement _ (wv_drop hw2 j)
      (by simp only [len_drop]; omega)) ?_ (Nat.zero_le _)
    intro then_stmt i hi2 _ _
    simp only [len_drop] at hi2
    refine sound_bind_le 0 0 (sound_check _ _) ?_ (Nat.le_refl 0)
    intro a i3 _ _ _
    refine sound_bind_le 0 0 (sound_check _ _) ?_ (Nat.le_refl 0)
    intro b i4 _ _ _
    split
    · refine sound_bind_le 0 0 (ih.ifLoop _ _
        (wv_drop (wv_drop (wv_drop (wv_drop hw2 j) i) i3) i4)
        (by simp only [len_drop]; omega)) ?_ (Nat.le_refl 0)
      intro _ _ _ _ _
      exact sound_pure _ _
    · exact sound_pure _ _
  refine sound_mono (Sound.congr (Sound.after hs hp) ?_) (by omega)
  rw [parseIfStatement]
  simp [advance_apply]

theorem stmtSound {W : Prop} : ∀ fuel : Nat, StmtSound W fuel
  | 0 => stmtSound_zero
  | n + 1 =>
    have ih : StmtSound W n := stmtSound n
    { statement := parseStatement_sound_step ih
      beginStatement := parseBeginStatement_sound ih
      beginLoop := parseBeginLoop_sound ih
      ifStatement := parseIfStatement_sound ih
      ifLoop := parseIfLoop_sound ih
      whileStatement := parseWhileStatement_sound ih }

end Parser
end pl0

namespace pl0
namespace Parser

theorem parseStatement_sound {W : Prop} (fuel : Nat) (p : Parser)
    (hw : W → p.wellValued = true) (h : 8 * p.len + 2 ≤ fuel) :
    Sound W (stmtMin p) (parseStatement fuel) p := (stmtSound fuel).statement p hw h

theorem parseBlock_sound_step {W : Prop} {n : Nat} (ih : BlockSound W n) (p : Parser)
    (hw : W → p.wellValued = true) (h : 8 * p.len + 3 ≤ n + 1) :
    Sound W 0 (parseBlock (n + 1)) p := by
  rw [parseBlock]
  refine sound_bind_le 0 0 (parseConstDeclarations_sound n p hw (by omega)) ?_ (Nat.le_refl 0)
  intro constDecls k hk _ _
  have hw1 := wv_drop hw k
  refine sound_bind_le 0 0 (parseVarDeclarations_sound n _ hw1
    (by simp only [len_drop]; omega)) ?_ (Nat.le_refl 0)
  intro varDecls j hj _ _
  have hw2 := wv_drop hw1 j
  refine sound_bind_le 0 0 (ih.procedures _ _ hw2 (by simp only [len_drop]; omega)) ?_
    (Nat.le_refl 0)
  intro procedures i hi _ _
  refine sound_bind_le _ 0 (parseStatement_sound n _ (wv_drop hw2 i)
    (by simp only [len_drop]; omega)) ?_ (Nat.zero_le _)
  intro statement _ _ _ _
  exact sound_pure _ _

theorem parseProcedures_sound {W : Prop} {n : Nat} (ih : BlockSound W n) (p : Parser)
    (procs : List ProcedureDeclaration) (hw : W → p.wellValued = true)
    (h : 8 * p.len + 1 ≤ n + 1) : Sound W 0 (parseProcedures (n + 1) procs) p := by
  rcases match_cases .PROCEDURE p with ⟨hn, hm⟩ | ⟨hn, hm⟩
  · have hp : 1 ≤ p.len := len_pos_of_nextType (by rw [hn]; decide)
    have hw1 := wv_drop hw 1
    have hs : Sound W (1 + 0) (consume .IDENTIFIER "过程声明需要标识符" >>= fun name =>
        consume .SEMICOLON "过程声明头部需要以';'结束" >>= fun _ =>
          parseBlock n >>= fun block =>
            consume .SEMICOLON "过程声明需要以';'结束" >>= fun _ =>
              valueText name >>= fun nm =>
                parseProcedures n (procs ++ [.mk nm block])) (p.drop 1) := by
      refine sound_bind (sound_consume hw1 (by decide) _) ?_
      intro name k hk hk1 hname
      have hw2 := wv_drop hw1 k
      refine sound_bind_le 1 0 (sound_consume hw2 (by decide) _) ?_ (Nat.zero_le _)
      intro _ j hj hj1 _
      have hw3 := wv_drop hw2 j
      simp only [len_drop] at hk hj
      refine sound_bind_le 0 0 (ih.block _ hw3 (by simp only [len_drop]; omega)) ?_
        (Nat.le_refl 0)
      intro block i hi _ _
      have hw4 := wv_drop hw3 i
      refine sound_bind_le 1 0 (sound_consume hw4 (by decide) _) ?_ (Nat.zero_le _)
      intro _ l hl _ _
      refine sound_bind_le 0 0 (sound_valueText (text_of_consume hw1 hname) _) ?_
        (Nat.le_refl 0)
      intro nm l2 _ _ _
      exact ih.procedures _ _ (wv_drop (wv_drop hw4 l) l2) (by simp only [len_drop]; omega)
    refine sound_mono (Sound.congr (Sound.after hs hp) ?_) (Nat.zero_le _)
    rw [parseProcedures]
    simp [hm]
  · refine sound_ok_drop procs p _ 0 ?_ (Nat.zero_le _)
    rw [parseProcedures]
    simp [hm]

theorem blockSound {W : Prop} : ∀ fuel : Nat, BlockSound W fuel
  | 0 => ⟨fun p _ h => by omega, fun p _ _ h => by omega⟩
  | n + 1 =>
    have ih : BlockSound W n := blockSound n
    ⟨parseBlock_sound_step ih, parseProcedures_sound ih⟩

theorem parseBlock_sound {W : Prop} (fuel : Nat) (p : Parser) (hw : W → p.wellValued = true)
    (h : 8 * p.len + 3 ≤ fuel) : Sound W 0 (parseBlock fuel) p :=
  (blockSound fuel).block p hw h

theorem parseProgram_sound {W : Prop} (fuel : Nat) (p : Parser)
    (hw : W → p.wellValued = true) (h : 8 * p.len + 3 ≤ fuel) :
    Sound W 1 (parseProgram fuel) p := by
  unfold parseProgram
  refine sound_bind_le 0 1 (parseBlock_sound fuel p hw h) ?_ (Nat.le_refl 1)
  intro block k _ _ _
  refine sound_bind_le 1 0 (sound_consume (wv_drop hw k) (by decide) _) ?_ (Nat.le_refl 1)
  intro _ _ _ _ _
  exact sound_pure _ _

theorem parseProgram_fuelFor_sound (p : Parser) :
    Sound (p.wellValued = true) 1 (parseProgram (fuelFor p.lexer_.items.length)) p :=
  parseProgram_sound _ p id (by unfold fuelFor len; omega)

/-- The fuel of `parse` is never used up: `parse` has a result on every parser. -/
theorem parse_isSome (p : Parser) : (parse p).isSome = true := by
  have h := parseProgram_fuelFor_sound p
  unfold parse
  cases hx : parseProgram (fuelFor p.lexer_.items.length) p with
  | ok program p1 => rfl
  | thrown e p1 => rfl
  | outOfFuel => exact absurd hx h.not_outOfFuel

/-- The two ways `parse` ends on well-valued tokens: with an AST, no diagnostic added and the
parser somewhere further in its source; or with the null pointer, and then the diagnostics
have grown by the same message twice. -/
theorem parse_cases (p : Parser) (hw : p.wellValued = true) :
    (∃ program k, 1 ≤ k ∧ k ≤ p.len ∧ parse p = some (some program, p.drop k)) ∨
    (∃ m p1, parse p = some (none, p1) ∧ p1.errors_ = p.errors_ ++ [m, m]) := by
  have h := parseProgram_fuelFor_sound p
  unfold parse
  cases hx : parseProgram (fuelFor p.lexer_.items.length) p with
  | ok program p1 =>
    obtain ⟨k, h1, h2, h3⟩ := h.ok hx
    exact Or.inl ⟨program, k, h3, h2, by rw [h1]⟩
  | thrown e p1 =>
    rcases h.thrown hx with ⟨m, he, hm⟩ | ⟨_, _, hn⟩
    · exact Or.inr ⟨m, _, rfl, by simp [addError, hm, he, Exception.what]⟩
    · exact absurd hw hn
  | outOfFuel => exact absurd hx h.not_outOfFuel

end Parser
end pl0

namespace pl0
namespace TokenInterpreter

theorem advance_has_peeked (t : TokenInterpreter) : t.advance.has_peeked_ = t.has_peeked_ := by
  unfold advance
  split <;> rfl

theorem skipWhitespaceLoop_has_peeked : ∀ (n : Nat) (t : TokenInterpreter),
    (skipWhitespaceLoop n t).has_peeked_ = t.has_peeked_
  | 0, t => rfl
  | n + 1, t => by
    unfold skipWhitespaceLoop
    split
    · rw [skipWhitespaceLoop_has_peeked n]
      simp only []
      split <;> rfl
    · rfl

theorem wellValuedToken_ofType {ty : TokenType} (h1 : ty ≠ .NUMBER) (h2 : ty ≠ .IDENTIFIER) :
    Parser.wellValuedToken (Token.ofType ty) = true := by
  simp [Parser.wellValuedToken, Token.ofType, h1, h2]

theorem tryReadNumberLoop_spec : ∀ (n : Nat) (t : TokenInterpreter) (v : Int),
    Parser.wellValuedToken (tryReadNumberLoop n t v).1 = true ∧
    (tryReadNumberLoop n t v).2.has_peeked_ = t.has_peeked_
  | 0, t, v => ⟨rfl, rfl⟩
  | n + 1, t, v => by
    unfold tryReadNumberLoop
    split
    · simp only []
      split
      · exact ⟨rfl, rfl⟩
      · obtain ⟨h1, h2⟩ := tryReadNumberLoop_spec n t.advance
          (v * 10 + ((t.peek.toNat : Int) - 48))
        exact ⟨h1, by rw [h2, advance_has_peeked]⟩
    · exact ⟨rfl, rfl⟩

theorem tryReadNumber_spec (t : TokenInterpreter) :
    (∀ tok, t.tryReadNumber.1 = some tok → Parser.wellValuedToken tok = true) ∧
    t.tryReadNumber.2.has_peeked_ = t.has_peeked_ := by
  unfold tryReadNumber
  split
  · exact ⟨fun tok h => (by cases h), rfl⟩
  · obtain ⟨h1, h2⟩ := tryReadNumberLoop_spec (t.source_.length - t.current_ + 1) t 0
    refine ⟨fun tok h => ?_, h2⟩
    simp only [Option.some.injEq] at h
    rw [← h]
    exact h1

theorem readAlphaNum_has_peeked : ∀ (n : Nat) (t : TokenInterpreter),
    (readAlphaNum n t).has_peeked_ = t.has_peeked_
  | 0, t => rfl
  | n + 1, t => by
    unfold readAlphaNum
    split
    · rw [readAlphaNum_has_peeked n, advance_has_peeked]
    · rfl

theorem keywords_wellValued : ∀ pair ∈ KEYWORDS,
    Parser.wellValuedToken (Token.ofType pair.2) = true := by
  intro pair h
  simp only [KEYWORDS, List.mem_cons, List.mem_singleton, List.not_mem_nil, or_false] at h
  rcases h with h | h | h | h | h | h | h | h | h | h | h <;> subst h <;> rfl

theorem tryReadIdentifier_spec (t : TokenInterpreter) :
    (∀ tok, t.tryReadIdentifier.1 = some tok → Parser.wellValuedToken tok = true) ∧
    t.tryReadIdentifier.2.has_peeked_ = t.has_peeked_ := by
  unfold tryReadIdentifier
  split
  · exact ⟨fun tok h => (by cases h), rfl⟩
  · simp only []
    split
    · exact ⟨fun tok h => (by cases h), readAlphaNum_has_peeked _ _⟩
    · split
      · rename_i pair hf
        refine ⟨fun tok h => ?_, readAlphaNum_has_peeked _ _⟩
        simp only [Option.some.injEq] at h
        rw [← h]
        exact keywords_wellValued pair (List.mem_of_find?_eq_some hf)
      · refine ⟨fun tok h => ?_, readAlphaNum_has_peeked _ _⟩
        simp only [Option.some.injEq] at h
        rw [← h]
        rfl

theorem readOK_ite (t : TokenInterpreter) (c : Prop) [Decidable c]
    (a b : Option Token × TokenInterpreter) (ha : ReadOK t a) (hb : ReadOK t b) :
    ReadOK t (if c then a else b) := by
  split
  · exact ha
  · exact hb

theorem readOK_none (t : TokenInterpreter) : ReadOK t (none, t) :=
  ⟨fun tok h => (by cases h), rfl⟩

theorem readOK_one (t : TokenInterpreter) (ty : TokenType) (h1 : ty ≠ .NUMBER)
    (h2 : ty ≠ .IDENTIFIER) : ReadOK t (some (Token.ofType ty), t.advance) := by
  refine ⟨fun tok h => ?_, advance_has_peeked t⟩
  simp only [Option.some.injEq] at h
  rw [← h]
  exact wellValuedToken_ofType h1 h2

theorem readOK_two (t : TokenInterpreter) (ty : TokenType) (h1 : ty ≠ .NUMBER)
    (h2 : ty ≠ .IDENTIFIER) : ReadOK t (some (Token.ofType ty), t.advance.advance) := by
  refine ⟨fun tok h => ?_, by rw [advance_has_peeked, advance_has_peeked]⟩
  simp only [Option.some.injEq] at h
  rw [← h]
  exact wellValuedToken_ofType h1 h2

theorem tryReadOperator_readOK (t : TokenInterpreter) : ReadOK t t.tryReadOperator := by
  unfold tryReadOperator
  repeat' first
    | exact readOK_none t
    | exact readOK_one t _ (by decide) (by decide)
    | exact readOK_two t _ (by decide) (by decide)
    | apply readOK_ite

theorem tryReadOperator_spec (t : TokenInterpreter) :
    (∀ tok, t.tryReadOperator.1 = some tok → Parser.wellValuedToken tok = true) ∧
    t.tryReadOperator.2.has_peeked_ = t.has_peeked_ := tryReadOperator_readOK t

theorem nextToken_spec (t : TokenInterpreter) (h : t.has_peeked_ = false) :
    Parser.wellValuedToken t.nextToken.1 = true ∧ t.nextToken.2.has_peeked_ = false := by
  have hs : t.skipWhitespace.has_peeked_ = false := by
    unfold skipWhitespace
    rw [skipWhitespaceLoop_has_peeked, h]
  unfold nextToken
  simp only [h, Bool.false_eq_true, ↓reduceIte]
  split
  · exact ⟨rfl, hs⟩
  · obtain ⟨n1, n2⟩ := tryReadNumber_spec t.skipWhitespace
    split
    · rename_i number t2 hn
      rw [hn] at n1 n2
      exact ⟨n1 number rfl, by simpa [hs] using n2⟩
    · rename_i t2 hn
      rw [hn] at n2
      simp only at n2
      obtain ⟨i1, i2⟩ := tryReadIdentifier_spec t2
      split
      · rename_i identifier t3 hi
        rw [hi] at i1 i2
        exact ⟨i1 identifier rfl, by simp only at i2; rw [i2, n2, hs]⟩
      · rename_i t3 hi
        rw [hi] at i2
        simp only at i2
        obtain ⟨o1, o2⟩ := tryReadOperator_spec t3
        split
        · rename_i op t4 ho
          rw [ho] at o1 o2
          exact ⟨o1 op rfl, by simp only at o2; rw [o2, i2, n2, hs]⟩
        · rename_i t4 ho
          rw [ho] at o2
          simp only at o2
          exact ⟨rfl, by rw [advance_has_peeked, o2, i2, n2, hs]⟩

theorem scan_wellValued : ∀ (n : Nat) (t : TokenInterpreter), t.has_peeked_ = false →
    ((scan n t).1.all fun x => Parser.wellValuedToken x.token) = true
  | 0, t, _ => rfl
  | n + 1, t, h => by
    obtain ⟨h1, h2⟩ := nextToken_spec t h
    unfold scan
    simp only []
    split
    · rfl
    · simp only [List.all_cons, h1, Bool.true_and]
      exact scan_wellValued n _ h2

end TokenInterpreter

/-- The tokens of every source text are well valued. -/
theorem Parser.ofSource_wellValued (source : String) :
    (Parser.ofSource source).wellValued = true :=
  TokenInterpreter.scan_wellValued _ _ rfl

end pl0

namespace pl0

theorem evaluateConstant_binary {left right : Expression} {a b : Int} (op : BinaryOp)
    (hl : left.evaluateConstant = .value a) (hr : right.evaluateConstant = .value b) :
    (Expression.BinaryExpression left op right).evaluateConstant = evalBinaryOp op a b := by
  simp [Expression.evaluateConstant, hl, hr]

theorem evaluateConstant_unary {operand : Expression} {v : Int} (op : UnaryOp)
    (h : operand.evaluateConstant = .value v) :
    (Expression.UnaryExpression op operand).evaluateConstant = evalUnaryOp op v := by
  simp [Expression.evaluateConstant, h]

theorem evaluateConstant_binary_nullopt_left {left right : Expression} (op : BinaryOp)
    (hl : left.evaluateConstant = .nullopt) (hr : right.evaluateConstant ≠ .trap) :
    (Expression.BinaryExpression left op right).evaluateConstant = .nullopt := by
  cases h : right.evaluateConstant with
  | trap => exact absurd h hr
  | nullopt => simp [Expression.evaluateConstant, hl, h]
  | value v => simp [Expression.evaluateConstant, hl, h]

theorem evaluateConstant_binary_nullopt_right {left right : Expression} (op : BinaryOp)
    (hl : left.evaluateConstant ≠ .trap) (hr : right.evaluateConstant = .nullopt) :
    (Expression.BinaryExpression left op right).evaluateConstant = .nullopt := by
  cases h : left.evaluateConstant with
  | trap => exact absurd h hl
  | nullopt => simp [Expression.evaluateConstant, hr, h]
  | value v => simp [Expression.evaluateConstant, hr, h]

theorem evalBinaryOp_div_zero (a : Int) : evalBinaryOp .Div a 0 = .nullopt := by
  simp [evalBinaryOp]

theorem evalBinaryOp_div {a b : Int} (hb : b ≠ 0) (h : ¬ (a = INT64_MIN ∧ b = -1)) :
    evalBinaryOp .Div a b = .value (Int.tdiv a b) := by
  simp only [evalBinaryOp, hb, ↓reduceIte, h]

theorem evalBinaryOp_div_trap : evalBinaryOp .Div INT64_MIN (-1) = .trap := by
  decide

/-- The quotient of two `int64_t` values, truncated toward zero, is an `int64_t` value unless
it is `INT64_MIN / -1`. -/
theorem tdiv_inInt64 {a b : Int} (ha : inInt64 a) (hb : b ≠ 0)
    (h : ¬ (a = INT64_MIN ∧ b = -1)) : inInt64 (Int.tdiv a b) := by
  unfold inInt64 INT64_MIN INT64_MAX at *
  have hq := Int.natAbs_tdiv a b
  have hdiv : (Int.tdiv a b).natAbs = a.natAbs / b.natAbs := hq
  by_cases h1 : b = 1
  · subst h1
    rw [Int.tdiv_one]
    exact ha
  · by_cases h2 : b = -1
    · subst h2
      have : Int.tdiv a (-1) = -a := by
        rw [Int.tdiv_neg, Int.tdiv_one]
      rw [this]
      have hne : a ≠ -(2 ^ 63) := fun hc => h ⟨hc, rfl⟩
      omega
    · have hb2 : 2 ≤ b.natAbs := by omega
      have hle : a.natAbs / b.natAbs ≤ a.natAbs / 2 :=
        Nat.div_le_div_left hb2 (by decide)
      have ha2 : a.natAbs ≤ 2 ^ 63 := by omega
      have : (Int.tdiv a b).natAbs ≤ 2 ^ 62 := by
        rw [hdiv]
        omega
      omega

theorem wrap64_of_inInt64 {x : Int} (h : inInt64 x) : wrap64 x = x := by
  unfold inInt64 INT64_MIN INT64_MAX at h
  unfold wrap64
  omega

theorem wrap64_mul_left (x a : Int) : wrap64 (wrap64 x * a) = wrap64 (x * a) := by
  unfold wrap64
  have h : (((x + 2 ^ 63) % 2 ^ 64 - 2 ^ 63) * a + 2 ^ 63) % 2 ^ 64 =
      (x * a + 2 ^ 63) % 2 ^ 64 := by
    have e : ((x + 2 ^ 63) % 2 ^ 64 - 2 ^ 63) * a + 2 ^ 63 =
        (x * a + 2 ^ 63) + (-((x + 2 ^ 63) / 2 ^ 64) * a) * 2 ^ 64 := by
      have hm := Int.emod_add_ediv (x + 2 ^ 63) (2 ^ 64)
      have hmod : (x + 2 ^ 63) % 2 ^ 64 = x + 2 ^ 63 - 2 ^ 64 * ((x + 2 ^ 63) / 2 ^ 64) := by
        omega
      rw [hmod]
      ring
    rw [e, Int.add_mul_emod_self]
  rw [h]

/-- The loop of the code started from `result` computes `result * a ^ n` in 64-bit
arithmetic. -/
theorem powLoop_eq (a : Int) : ∀ (n : Nat) (result : Int),
    powLoop a n (wrap64 result) = wrap64 (result * a ^ n)
  | 0, result => by simp [powLoop]
  | n + 1, result => by
    rw [powLoop, wrap64_mul_left, powLoop_eq a n (result * a)]
    congr 1
    ring

theorem wrap64_one : wrap64 1 = 1 := by decide

theorem powLoop_one_eq (a : Int) (n : Nat) : powLoop a n 1 = wrap64 (a ^ n) := by
  have h := powLoop_eq a n 1
  rw [wrap64_one, one_mul] at h
  exact h

theorem pow64_eq (a : Int) : ∀ n : Nat, pow64 a n = wrap64 (a ^ n)
  | 0 => by simp [pow64, wrap64_one]
  | n + 1 => by
    rw [pow64, pow64_eq a n, wrap64_mul_left, pow_succ]

theorem powLoop_eq_pow64 (a : Int) (n : Nat) : powLoop a n 1 = pow64 a n := by
  rw [powLoop_one_eq, pow64_eq]

theorem arith_evaluateConstant : ∀ e : Expression, e.arith = true →
    ∃ v, e.evaluateConstant = .value v
  | .BinaryExpression left op right, h => by
    simp only [Expression.arith, Bool.and_eq_true, Bool.or_eq_true, decide_eq_true_eq] at h
    obtain ⟨⟨hop, hl⟩, hr⟩ := h
    obtain ⟨a, ha⟩ := arith_evaluateConstant left hl
    obtain ⟨b, hb⟩ := arith_evaluateConstant right hr
    rw [evaluateConstant_binary op ha hb]
    rcases hop with (hop | hop) | hop <;> subst hop <;> exact ⟨_, rfl⟩
  | .UnaryExpression op operand, h => by
    simp only [Expression.arith] at h
    obtain ⟨v, hv⟩ := arith_evaluateConstant operand h
    rw [evaluateConstant_unary op hv]
    cases op <;> exact ⟨_, rfl⟩
  | .NumberExpression value, _ => ⟨value, rfl⟩
  | .IdentifierExpression _, h => by simp [Expression.arith] at h

theorem isConstant_iff_no_identifier : ∀ e : Expression,
    e.isConstant = !e.hasIdentifier
  | .BinaryExpression left _ right => by
    simp [Expression.isConstant, Expression.hasIdentifier,
      isConstant_iff_no_identifier left, isConstant_iff_no_identifier right]
  | .UnaryExpression _ operand => by
    simp [Expression.isConstant, Expression.hasIdentifier,
      isConstant_iff_no_identifier operand]
  | .NumberExpression _ => rfl
  | .IdentifierExpression _ => rfl

end pl0

namespace pl0
namespace Parser

theorem clean_of_not_ok {α : Type} {x : ParserM α} {p : Parser}
    (h : ∀ a p1, x p ≠ .ok a p1) : Clean x p :=
  fun a p1 hx => absurd hx (h a p1)

theorem clean_of_thrown {α : Type} {x : ParserM α} {p : Parser}
    (h : ∃ e p1, x p = .thrown e p1) : Clean x p := by
  obtain ⟨e, p1, he⟩ := h
  intro a p2 hx
  rw [he] at hx
  cases hx

theorem clean_outOfFuel {α : Type} {x : ParserM α} {p : Parser} (h : x p = .outOfFuel) :
    Clean x p := by
  intro a p2 hx
  rw [h] at hx
  cases hx

theorem clean_of_ok_same {α : Type} {x : ParserM α} {p : Parser}
    (h : ∀ a p1, x p = .ok a p1 → p1 = p) : Clean x p := by
  intro a p1 hx
  exact ⟨0, by rw [h a p1 hx, drop_zero], Nat.zero_le _, by simp⟩

theorem clean_pure {α : Type} (a : α) (p : Parser) : Clean (pure a : ParserM α) p :=
  clean_of_ok_same (fun b p1 h => by
    simp only [pure_apply] at h
    injection h with _ h2
    exact h2.symm)

theorem clean_check (ty : TokenType) (p : Parser) : Clean (check ty) p :=
  clean_of_ok_same (fun b p1 h => by
    rw [check_apply] at h
    injection h with _ h2
    exact h2.symm)

theorem clean_peek (p : Parser) : Clean peek p :=
  clean_of_ok_same (fun b p1 h => by
    rw [peek_apply] at h
    injection h with _ h2
    exact h2.symm)

theorem clean_error {α : Type} (message : String) (p : Parser) :
    Clean (error message : ParserM α) p :=
  clean_of_thrown (error_thrown message p)

theorem clean_errorAt {α : Type} (pos : Nat × Nat) (message : String) (p : Parser) :
    Clean (errorAt pos message : ParserM α) p :=
  clean_of_thrown (errorAt_thrown pos message p)

theorem clean_valueText (t : Token) (p : Parser) : Clean (valueText t) p :=
  clean_of_ok_same (fun b p1 h => by
    unfold valueText at h
    cases hv : t.valueText with
    | none =>
      rw [hv] at h
      cases h
    | some v =>
      rw [hv] at h
      simp only [pure_apply] at h
      injection h with _ h2
      exact h2.symm)

theorem clean_valueInt (t : Token) (p : Parser) : Clean (valueInt t) p :=
  clean_of_ok_same (fun b p1 h => by
    unfold valueInt at h
    cases hv : t.valueInt with
    | none =>
      rw [hv] at h
      cases h
    | some v =>
      rw [hv] at h
      simp only [pure_apply] at h
      injection h with _ h2
      exact h2.symm)

theorem clean_tokenTypeToBinaryOp (ty : TokenType) (p : Parser) :
    Clean (tokenTypeToBinaryOp ty) p :=
  clean_of_ok_same (fun b p1 h => by
    cases ty <;> simp only [tokenTypeToBinaryOp, pure_apply, throw_] at h <;>
      first
      | (injection h with _ h2; exact h2.symm)
      | cases h)

/-- The first token of the source, when there is one, has the type of the lookahead. -/
theorem take_one_type {p : Parser} {t : Token} (h : t ∈ p.tokens.take 1) :
    t.type = nextType p.tokens := by
  cases hp : p.tokens with
  | nil =>
    rw [hp] at h
    simp at h
  | cons x xs =>
    rw [hp] at h
    simp only [List.take_succ_cons, List.take_zero, List.mem_singleton] at h
    rw [h]
    rfl

theorem clean_drop_one {p : Parser} (h : nextType p.tokens ≠ .ERROR) :
    ∃ k, p.drop 1 = p.drop k ∧ k ≤ p.len ∧ ∀ t ∈ p.tokens.take k, t.type ≠ .ERROR := by
  by_cases h0 : p.len = 0
  · exact ⟨0, by rw [drop_one_of_len_zero h0, drop_zero], Nat.zero_le _, by simp⟩
  · exact ⟨1, rfl, by omega, fun t ht => by rw [take_one_type ht]; exact h⟩

theorem clean_advance {p : Parser} (h : nextType p.tokens ≠ .ERROR) : Clean advance p := by
  intro a p1 hx
  rw [advance_apply] at hx
  injection hx with _ h2
  rw [← h2]
  exact clean_drop_one h

theorem clean_consume {p : Parser} {ty : TokenType} (hty : ty ≠ .ERROR) (message : String) :
    Clean (consume ty message) p := by
  intro a p1 hx
  obtain ⟨_, hn⟩ := consume_ok hx
  simp only [consume, bind_apply, check_apply, hn, decide_True, Bool.not_true,
    Bool.false_eq_true, ↓reduceIte] at hx
  exact clean_advance (by rw [hn]; exact hty) a p1 hx

theorem clean_match {p : Parser} {ty : TokenType} (hty : ty ≠ .ERROR) :
    Clean (match_ ty) p := by
  intro a p1 hx
  rcases match_cases ty p with ⟨hn, hm⟩ | ⟨hn, hm⟩
  · rw [hm] at hx
    injection hx with _ h2
    rw [← h2]
    exact clean_drop_one (by rw [hn]; exact hty)
  · rw [hm] at hx
    injection hx with _ h2
    exact ⟨0, by rw [← h2, drop_zero], Nat.zero_le _, by simp⟩

theorem clean_bind {α β : Type} {x : ParserM α} {f : α → ParserM β} {p : Parser}
    (hx : Clean x p)
    (hf : ∀ a k, k ≤ p.len → x p = .ok a (p.drop k) → Clean (f a) (p.drop k)) :
    Clean (x >>= f) p := by
  intro b p2 h
  cases hxp : x p with
  | ok a p1 =>
    obtain ⟨k, h1, h2, h3⟩ := hx a p1 hxp
    subst h1
    rw [bind_ok hxp] at h
    obtain ⟨j, g1, g2, g3⟩ := hf a k h2 hxp b p2 h
    simp only [len_drop] at g2
    refine ⟨k + j, by rw [g1, drop_drop], by omega, ?_⟩
    intro t ht
    rw [List.take_add] at ht
    rcases List.mem_append.mp ht with ht | ht
    · exact h3 t ht
    · exact g3 t (by simpa using ht)
  | thrown e p1 =>
    rw [bind_thrown hxp] at h
    cases h
  | outOfFuel =>
    simp only [bind_apply, hxp] at h
    cases h

theorem clean_congr {α : Type} {x y : ParserM α} {p : Parser} (h : Clean x p)
    (hxy : y p = x p) : Clean y p := by
  intro a p1 hy
  rw [hxy] at hy
  exact h a p1 hy

/-- A computation started behind the lookahead, seen from the parser in front of it. -/
theorem clean_after {α : Type} {x : ParserM α} {p : Parser} (h : Clean x (p.drop 1))
    (hn : nextType p.tokens ≠ .ERROR) : Clean (fun _ => x (p.drop 1)) p := by
  intro a p1 hx
  obtain ⟨j, g1, g2, g3⟩ := h a p1 hx
  obtain ⟨i, i1, i2, i3⟩ := clean_drop_one hn
  rw [i1] at g1 g2 g3
  simp only [len_drop] at g2
  refine ⟨i + j, by rw [g1, drop_drop], by omega, ?_⟩
  intro t ht
  rw [List.take_add] at ht
  rcases List.mem_append.mp ht with ht | ht
  · exact i3 t ht
  · exact g3 t (by simpa using ht)

theorem clean_loop_step {α β : Type} {x : ParserM α} {f : α → ParserM β} {y : ParserM β}
    {p : Parser} (hy : y p = (x >>= f) (p.drop 1)) (hn : nextType p.tokens ≠ .ERROR)
    (hx : Clean x (p.drop 1)) (hf : ∀ a (q : Parser), Clean (f a) q) : Clean y p :=
  clean_congr (clean_after (clean_bind hx (fun a _ _ _ => hf a _)) hn) hy

theorem exprClean_zero : ExprClean 0 where
  factor := fun p => clean_outOfFuel (by simp [parseFactor, outOfFuel])
  powerLoop := fun p _ => clean_outOfFuel (by simp [parsePowerLoop, outOfFuel])
  power := fun p => clean_outOfFuel (by simp [parsePower, outOfFuel])
  termLoop := fun p _ => clean_outOfFuel (by simp [parseTermLoop, outOfFuel])
  term := fun p => clean_outOfFuel (by simp [parseTerm, outOfFuel])
  expressionLoop := fun p _ => clean_outOfFuel (by simp [parseExpressionLoop, outOfFuel])
  expression := fun p => clean_outOfFuel (by simp [parseExpression, outOfFuel])

theorem parseFactor_clean {n : Nat} (ih : ExprClean n) (p : Parser) :
    Clean (parseFactor (n + 1)) p := by
  by_cases h1 : nextType p.tokens = .NUMBER
  · have hn : nextType p.tokens ≠ .ERROR := by rw [h1]; decide
    cases hv : p.lexer_.peekToken.valueInt with
    | some v =>
      have hx : Clean (fun _ => (pure (Expression.NumberExpression v) : ParserM Expression)
          (p.drop 1)) p := clean_after (clean_pure _ _) hn
      exact clean_congr hx (by simp [parseFactor, h1, advance_apply, hv])
    | none =>
      have hx : Clean (fun _ => (errorAt (p.lexer_.head.line, p.lexer_.head.column)
          "无效的数字" : ParserM Expression) (p.drop 1)) p := clean_after (clean_errorAt _ _ _) hn
      exact clean_congr hx (by simp [parseFactor, h1, advance_apply, hv])
  · by_cases h2 : nextType p.tokens = .IDENTIFIER
    · have hn : nextType p.tokens ≠ .ERROR := by rw [h2]; decide
      cases hv : p.lexer_.peekToken.valueText with
      | some v =>
        have hx : Clean (fun _ => (pure (Expression.IdentifierExpression v) :
            ParserM Expression) (p.drop 1)) p := clean_after (clean_pure _ _) hn
        exact clean_congr hx (by simp [parseFactor, h2, advance_apply, hv])
      | none =>
        have hx : Clean (fun _ => (errorAt (p.lexer_.head.line, p.lexer_.head.column)
            "无效的标识符" : ParserM Expression) (p.drop 1)) p :=
          clean_after (clean_errorAt _ _ _) hn
        exact clean_congr hx (by simp [parseFactor, h2, advance_apply, hv])
    · by_cases h3 : nextType p.tokens = .LPAREN
      · have hn : nextType p.tokens ≠ .ERROR := by rw [h3]; decide
        have hb : Clean (parseExpression n >>= fun expr =>
            consume .RPAREN "表达式需要右括号')'" >>= fun _ => pure expr) (p.drop 1) := by
          refine clean_bind (ih.expression _) ?_
          intro a k _ _
          refine clean_bind (clean_consume (by decide) _) ?_
          intro _ j _ _
          exact clean_pure _ _
        exact clean_congr (clean_after hb hn) (by simp [parseFactor, h3, advance_apply])
      · exact clean_congr (clean_error "预期表达式" p) (by simp [parseFactor, h1, h2, h3])

theorem parsePowerLoop_clean {n : Nat} (ih : ExprClean n) (p : Parser) (acc : Expression) :
    Clean (parsePowerLoop (n + 1) acc) p := by
  by_cases h1 : nextType p.tokens = .POWER
  · exact clean_loop_step (parsePowerLoop_go n acc h1) (by rw [h1]; decide) (ih.power _)
      (fun a q => ih.powerLoop q _)
  · exact clean_congr (clean_pure acc p) (by simp [parsePowerLoop_stop acc h1])

theorem parseTermLoop_clean {n : Nat} (ih : ExprClean n) (p : Parser) (acc : Expression) :
    Clean (parseTermLoop (n + 1) acc) p := by
  by_cases h1 : nextType p.tokens = .MULTIPLY ∨ nextType p.tokens = .DIVIDE
  · have hn : nextType p.tokens ≠ .ERROR := by rcases h1 with h1 | h1 <;> rw [h1] <;> decide
    obtain ⟨op, hgo⟩ := parseTermLoop_go n acc h1
    exact clean_loop_step hgo hn (ih.power _) (fun a q => ih.termLoop q _)
  · simp only [not_or] at h1
    exact clean_congr (clean_pure acc p) (by simp [parseTermLoop_stop acc h1.1 h1.2])

theorem parseExpressionLoop_clean {n : Nat} (ih : ExprClean n) (p : Parser)
    (acc : Expression) : Clean (parseExpressionLoop (n + 1) acc) p := by
  by_cases h1 : nextType p.tokens = .PLUS ∨ nextType p.tokens = .MINUS
  · have hn : nextType p.tokens ≠ .ERROR := by rcases h1 with h1 | h1 <;> rw [h1] <;> decide
    obtain ⟨op, hgo⟩ := parseExpressionLoop_go n acc h1
    exact clean_loop_step hgo hn (ih.term _) (fun a q => ih.expressionLoop q _)
  · simp only [not_or] at h1
    exact clean_congr (clean_pure acc p) (by simp [parseExpressionLoop_stop acc h1.1 h1.2])

theorem exprClean : ∀ fuel : Nat, ExprClean fuel
  | 0 => exprClean_zero
  | n + 1 =>
    have ih := exprClean n
    { factor := parseFactor_clean ih
      powerLoop := parsePowerLoop_clean ih
      power := fun p => clean_congr
        (clean_bind (ih.factor p) (fun a _ _ _ => ih.powerLoop _ a)) (parsePower_eq n p)
      termLoop := parseTermLoop_clean ih
      term := fun p => clean_congr
        (clean_bind (ih.power p) (fun a _ _ _ => ih.termLoop _ a)) (parseTerm_eq n p)
      expressionLoop := parseExpressionLoop_clean ih
      expression := fun p => clean_congr
        (clean_bind (ih.term p) (fun a _ _ _ => ih.expressionLoop _ a))
        (parseExpression_eq n p) }

theorem parseExpression_clean (fuel : Nat) (p : Parser) : Clean (parseExpression fuel) p :=
  (exprClean fuel).expression p

end Parser
end pl0

namespace pl0
namespace Parser

theorem parseCallStatement_clean {p : Parser} (h : nextType p.tokens = .CALL) :
    Clean parseCallStatement p := by
  unfold parseCallStatement
  refine clean_bind (clean_advance (by rw [h]; decide)) ?_
  intro _ k _ _
  refine clean_bind (clean_consume (by decide) _) ?_
  intro name j _ _
  refine clean_bind (clean_valueText name _) ?_
  intro n i _ _
  exact clean_pure _ _

theorem parseAssignStatement_clean (fuel : Nat) (p : Parser) :
    Clean (parseAssignStatement fuel) p := by
  unfold parseAssignStatement
  refine clean_bind (clean_consume (by decide) _) ?_
  intro name k _ _
  refine clean_bind (clean_valueText name _) ?_
  intro n i _ _
  refine clean_bind (clean_consume (by decide) _) ?_
  intro _ j _ _
  refine clean_bind (parseExpression_clean fuel _) ?_
  intro expr l _ _
  exact clean_pure _ _

theorem isComparison_ne_error {ty : TokenType} (h : isComparison ty = true) : ty ≠ .ERROR := by
  intro he
  rw [he] at h
  exact absurd h (by decide)

theorem parseCondition_clean (fuel : Nat) (p : Parser) : Clean (parseCondition fuel) p := by
  by_cases h1 : nextType p.tokens = .ODD
  · exact clean_congr (clean_after (parseExpression_clean fuel (p.drop 1))
      (by rw [h1]; decide)) (by simp [parseCondition, h1, advance_apply])
  · have hb : Clean (parseExpression fuel >>= fun left =>
        peek >>= fun t =>
          if (!isComparison t.type) = true then error "预期比较运算符"
          else advance >>= fun _ => parseExpression fuel >>= fun right =>
            tokenTypeToBinaryOp t.type >>= fun bop =>
              pure (Expression.BinaryExpression left bop right)) p := by
      refine clean_bind (parseExpression_clean fuel p) ?_
      intro left k _ _
      refine clean_bind (clean_peek _) ?_
      intro t i _ ht
      by_cases hc : isComparison t.type = true
      · simp only [hc, Bool.not_true, Bool.false_eq_true, ↓reduceIte]
        have hty : nextType ((p.drop k).drop i).tokens ≠ .ERROR := by
          rw [peek_apply] at ht
          injection ht with h2 h3
          rw [← h3, ← peekToken_type, h2]
          exact isComparison_ne_error hc
        refine clean_bind (clean_advance hty) ?_
        intro _ j _ _
        refine clean_bind (parseExpression_clean fuel _) ?_
        intro right l _ _
        refine clean_bind (clean_tokenTypeToBinaryOp _ _) ?_
        intro bop _ _ _
        exact clean_pure _ _
      · simp only [hc, Bool.not_false, ↓reduceIte]
        exact clean_error _ _
    exact clean_congr hb (by simp [parseCondition, h1])

theorem parseConstDeclarationsLoop_clean : ∀ (fuel : Nat) (p : Parser)
    (decls : List ConstDeclaration), Clean (parseConstDeclarationsLoop fuel decls) p
  | 0, p, decls => clean_outOfFuel (by simp [parseConstDeclarationsLoop, outOfFuel])
  | n + 1, p, decls => by
    rw [parseConstDeclarationsLoop]
    refine clean_bind (clean_consume (by decide) _) ?_
    intro name k _ _
    refine clean_bind (clean_consume (by decide) _) ?_
    intro _ j _ _
    refine clean_bind (clean_consume (by decide) _) ?_
    intro value i _ _
    refine clean_bind (clean_valueText name _) ?_
    intro nm i1 _ _
    refine clean_bind (clean_valueInt value _) ?_
    intro v i2 _ _
    refine clean_bind (clean_match (by decide)) ?_
    intro b l _ _
    cases b with
    | true => exact parseConstDeclarationsLoop_clean n _ _
    | false => exact clean_pure _ _

theorem parseConstDeclarations_clean (fuel : Nat) (p : Parser) :
    Clean (parseConstDeclarations fuel) p := by
  unfold parseConstDeclarations
  refine clean_bind (clean_match (by decide)) ?_
  intro b k _ _
  cases b with
  | true =>
    simp only [↓reduceIte]
    refine clean_bind (parseConstDeclarationsLoop_clean fuel _ _) ?_
    intro decls j _ _
    refine clean_bind (clean_consume (by decide) _) ?_
    intro _ _ _ _
    exact clean_pure _ _
  | false => exact clean_pure _ _

theorem parseVarDeclarationsLoop_clean : ∀ (fuel : Nat) (p : Parser)
    (decls : List VarDeclaration), Clean (parseVarDeclarationsLoop fuel decls) p
  | 0, p, decls => clean_outOfFuel (by simp [parseVarDeclarationsLoop, outOfFuel])
  | n + 1, p, decls => by
    rw [parseVarDeclarationsLoop]
    refine clean_bind (clean_consume (by decide) _) ?_
    intro name k _ _
    refine clean_bind (clean_valueText name _) ?_
    intro nm i _ _
    refine clean_bind (clean_match (by decide)) ?_
    intro b l _ _
    cases b with
    | true => exact parseVarDeclarationsLoop_clean n _ _
    | false => exact clean_pure _ _

theorem parseVarDeclarations_clean (fuel : Nat) (p : Parser) :
    Clean (parseVarDeclarations fuel) p := by
  unfold parseVarDeclarations
  refine clean_bind (clean_match (by decide)) ?_
  intro b k _ _
  cases b with
  | true =>
    simp only [↓reduceIte]
    refine clean_bind (parseVarDeclarationsLoop_clean fuel _ _) ?_
    intro decls j _ _
    refine clean_bind (clean_consume (by decide) _) ?_
    intro _ _ _ _
    exact clean_pure _ _
  | false => exact clean_pure _ _

theorem stmtClean_zero : StmtClean 0 where
  statement := fun p => clean_outOfFuel (by simp [parseStatement, outOfFuel])
  beginStatement := fun p _ => clean_outOfFuel (by simp [parseBeginStatement, outOfFuel])
  beginLoop := fun p _ => clean_outOfFuel (by simp [parseBeginLoop, outOfFuel])
  ifStatement := fun p _ => clean_outOfFuel (by simp [parseIfStatement, outOfFuel])
  ifLoop := fun p _ => clean_outOfFuel (by simp [parseIfLoop, outOfFuel])
  whileStatement := fun p _ => clean_outOfFuel (by simp [parseWhileStatement, outOfFuel])

theorem parseStatement_clean_step {n : Nat} (ih : StmtClean n) (p : Parser) :
    Clean (parseStatement (n + 1)) p := by
  by_cases h1 : nextType p.tokens = .END ∨ nextType p.tokens = .SEMICOLON
  · exact clean_congr (clean_pure Statement.nullptr p) (by simp [parseStatement_stop n h1])
  · by_cases h2 : nextType p.tokens = .IDENTIFIER
    · exact clean_congr (parseAssignStatement_clean n p) (parseStatement_assign n h2)
    · by_cases h3 : nextType p.tokens = .CALL
      · exact clean_congr (parseCallStatement_clean h3) (parseStatement_call n h3)
      · by_cases h4 : nextType p.tokens = .BEGIN
        · exact clean_congr (ih.beginStatement p h4) (parseStatement_begin n h4)
        · by_cases h5 : nextType p.tokens = .IF
          · exact clean_congr (ih.ifStatement p h5) (parseStatement_if n h5)
          · by_cases h6 : nextType p.tokens = .WHILE
            · exact clean_congr (ih.whileStatement p h6) (parseStatement_while n h6)
            · simp only [not_or] at h1
              by_cases h7 : nextType p.tokens = .ERROR
              · exact clean_congr (clean_error "词法错误" p)
                  (by simp [parseStatement, peek_apply, peekToken_type, h7])
              · have hx : parseStatement (n + 1) p =
                    (error ("预期语句，但得到: " ++ toString (nextType p.tokens).toInt) :
                      ParserM Statement) p := by
                  simp only [parseStatement, bind_apply, peek_apply, peekToken_type]
                  generalize nextType p.tokens = ty at *
                  cases ty <;> simp_all
                exact clean_congr (clean_error _ p) hx

theorem parseBeginStatement_clean {n : Nat} (ih : StmtClean n) (p : Parser)
    (hb : nextType p.tokens = .BEGIN) : Clean (parseBeginStatement (n + 1)) p := by
  have hs : Clean (parseBeginLoop n [] >>= fun statements =>
      consume .END "BEGIN语句需要以END结束" >>= fun _ =>
        pure (Statement.BeginStatement statements)) (p.drop 1) := by
    refine clean_bind (ih.beginLoop _ _) ?_
    intro statements k _ _
    refine clean_bind (clean_consume (by decide) _) ?_
    intro _ _ _ _
    exact clean_pure _ _
  exact clean_congr (clean_after hs (by rw [hb]; decide))
    (by simp [parseBeginStatement, advance_apply])

theorem parseWhileStatement_clean {n : Nat} (ih : StmtClean n) (p : Parser)
    (hw : nextType p.tokens = .WHILE) : Clean (parseWhileStatement (n + 1)) p := by
  have hs : Clean (parseCondition n >>= fun condition =>
      consume .DO "WHILE语句需要DO" >>= fun _ =>
        parseStatement n >>= fun body =>
          pure (Statement.WhileStatement condition body)) (p.drop 1) := by
    refine clean_bind (parseCondition_clean n _) ?_
    intro condition k _ _
    refine clean_bind (clean_consume (by decide) _) ?_
    intro _ j _ _
    refine clean_bind (ih.statement _) ?_
    intro body _ _ _
    exact clean_pure _ _
  exact clean_congr (clean_after hs (by rw [hw]; decide))
    (by simp [parseWhileStatement, advance_apply])

theorem parseBeginLoop_clean {n : Nat} (ih : StmtClean n) (p : Parser)
    (acc : List Statement) : Clean (parseBeginLoop (n + 1) acc) p := by
  by_cases h1 : nextType p.tokens = .END
  · exact clean_congr (clean_pure acc p) (by simp [parseBeginLoop_stop acc h1])
  · have hs : Clean (parseStatement n >>= fun stmt =>
        match_ .SEMICOLON >>= fun a => check .END >>= fun b =>
          if (!a && !b) = true then error "语句之间需要分号"
          else parseBeginLoop n (pushIfPresent acc stmt)) p := by
      refine clean_bind (ih.statement p) ?_
      intro stmt k _ _
      refine clean_bind (clean_match (by decide)) ?_
      intro a j _ _
      refine clean_bind (clean_check _ _) ?_
      intro b i _ _
      split
      · exact clean_error _ _
      · exact ih.beginLoop _ _
    exact clean_congr hs (by simp [parseBeginLoop, h1])

theorem parseIfLoop_clean {n : Nat} (ih : StmtClean n) (p : Parser) (acc : List Statement) :
    Clean (parseIfLoop (n + 1) acc) p := by
  by_cases h1 : nextType p.tokens = .END ∨ nextType p.tokens = .SEMICOLON
  · refine clean_congr (clean_pure acc p) ?_
    rw [parseIfLoop]
    rcases h1 with h1 | h1 <;> simp [h1]
  · have hs : Clean (parseStatement n >>= fun stmt =>
        match_ .SEMICOLON >>= fun _ => parseIfLoop n (pushIfPresent acc stmt)) p := by
      refine clean_bind (ih.statement p) ?_
      intro stmt k _ _
      refine clean_bind (clean_match (by decide)) ?_
      intro _ j _ _
      exact ih.ifLoop _ _
    simp only [not_or] at h1
    refine clean_congr hs ?_
    rw [parseIfLoop]
    simp [h1.1, h1.2]

theorem parseIfStatement_clean {n : Nat} (ih : StmtClean n) (p : Parser)
    (hi : nextType p.tokens = .IF) : Clean (parseIfStatement (n + 1)) p := by
  have hs : Clean (parseCondition n >>= fun condition =>
      consume .THEN "IF语句需要THEN" >>= fun _ =>
        parseStatement n >>= fun then_stmt =>
          check .END >>= fun a => check .SEMICOLON >>= fun b =>
            if (then_stmt.isPresent && !then_stmt.isBegin && !a && !b) = true then
              parseIfLoop n [then_stmt] >>= fun statements =>
                pure (Statement.IfStatement condition (.BeginStatement statements))
            else pure (Statement.IfStatement condition then_stmt)) (p.drop 1) := by
    refine clean_bind (parseCondition_clean n _) ?_
    intro condition k _ _
    refine clean_bind (clean_consume (by decide) _) ?_
    intro _ j _ _
    refine clean_bind (ih.statement _) ?_
    intro then_stmt i _ _
    refine clean_bind (clean_check _ _) ?_
    intro a i3 _ _
    refine clean_bind (clean_check _ _) ?_
    intro b i4 _ _
    split
    · refine clean_bind (ih.ifLoop _ _) ?_
      intro _ _ _ _
      exact clean_pure _ _
    · exact clean_pure _ _
  refine clean_congr (clean_after hs (by rw [hi]; decide)) ?_
  rw [parseIfStatement]
  simp [advance_apply]

theorem stmtClean : ∀ fuel : Nat, StmtClean fuel
  | 0 => stmtClean_zero
  | n + 1 =>
    have ih := stmtClean n
    { statement := parseStatement_clean_step ih
      beginStatement := parseBeginStatement_clean ih
      beginLoop := parseBeginLoop_clean ih
      ifStatement := parseIfStatement_clean ih
      ifLoop := parseIfLoop_clean ih
      whileStatement := parseWhileStatement_clean ih }

theorem parseStatement_clean (fuel : Nat) (p : Parser) : Clean (parseStatement fuel) p :=
  (stmtClean fuel).statement p

theorem parseBlock_clean_step {n : Nat} (ih : BlockClean n) (p : Parser) :
    Clean (parseBlock (n + 1)) p := by
  rw [parseBlock]
  refine clean_bind (parseConstDeclarations_clean n p) ?_
  intro constDecls k _ _
  refine clean_bind (parseVarDeclarations_clean n _) ?_
  intro varDecls j _ _
  refine clean_bind (ih.procedures _ _) ?_
  intro procedures i _ _
  refine clean_bind (parseStatement_clean n _) ?_
  intro statement _ _ _
  exact clean_pure _ _

theorem parseProcedures_clean {n : Nat} (ih : BlockClean n) (p : Parser)
    (procs : List ProcedureDeclaration) : Clean (parseProcedures (n + 1) procs) p := by
  have hs : Clean (match_ .PROCEDURE >>= fun b =>
      if b = true then
        consume .IDENTIFIER "过程声明需要标识符" >>= fun name =>
          consume .SEMICOLON "过程声明头部需要以';'结束" >>= fun _ =>
            parseBlock n >>= fun block =>
              consume .SEMICOLON "过程声明需要以';'结束" >>= fun _ =>
                valueText name >>= fun nm =>
                  parseProcedures n (procs ++ [.mk nm block])
      else pure procs) p := by
    refine clean_bind (clean_match (by decide)) ?_
    intro b k _ _
    cases b with
    | true =>
      simp only [↓reduceIte]
      refine clean_bind (clean_consume (by decide) _) ?_
      intro name k _ _
      refine clean_bind (clean_consume (by decide) _) ?_
      intro _ j _ _
      refine clean_bind (ih.block _) ?_
      intro block i _ _
      refine clean_bind (clean_consume (by decide) _) ?_
      intro _ l _ _
      refine clean_bind (clean_valueText name _) ?_
      intro nm l2 _ _
      exact ih.procedures _ _
    | false => exact clean_pure _ _
  refine clean_congr hs ?_
  rw [parseProcedures]

theorem blockClean : ∀ fuel : Nat, BlockClean fuel
  | 0 => ⟨fun p => clean_outOfFuel (by simp [parseBlock, outOfFuel]),
      fun p _ => clean_outOfFuel (by simp [parseProcedures, outOfFuel])⟩
  | n + 1 =>
    have ih := blockClean n
    ⟨parseBlock_clean_step ih, parseProcedures_clean ih⟩

theorem parseBlock_clean (fuel : Nat) (p : Parser) : Clean (parseBlock fuel) p :=
  (blockClean fuel).block p

/-- A returning `parseProgram` has consumed `k ≥ 1` tokens, none of them an Error token and
the last of them the `'.'`. -/
theorem parseProgram_ok {fuel : Nat} {p p1 : Parser} {program : Program}
    (h : parseProgram fuel p = .ok program p1) :
    ∃ k, 1 ≤ k ∧ k ≤ p.len ∧ p1 = p.drop k ∧ nextType (p.drop (k - 1)).tokens = .PERIOD ∧
      ∀ t ∈ p.tokens.take k, t.type ≠ .ERROR := by
  unfold parseProgram at h
  cases hb : parseBlock fuel p with
  | ok block p2 =>
    obtain ⟨j, j1, j2, j3⟩ := parseBlock_clean fuel p block p2 hb
    subst j1
    rw [bind_ok hb] at h
    cases hc : consume .PERIOD "程序必须以'.'结束" (p.drop j) with
    | ok t p3 =>
      obtain ⟨_, hn⟩ := consume_ok hc
      have hp : 1 ≤ (p.drop j).len := len_pos_of_nextType (by rw [hn]; decide)
      simp only [len_drop] at hp
      have hc2 := hc
      simp only [consume, bind_apply, check_apply, hn, decide_True, Bool.not_true,
        Bool.false_eq_true, ↓reduceIte, advance_apply, drop_drop] at hc2
      injection hc2 with _ hp3
      rw [bind_ok hc] at h
      simp only [pure_apply] at h
      injection h with _ hp1
      refine ⟨j + 1, by omega, by omega, by rw [← hp1, ← hp3], ?_, ?_⟩
      · simpa using hn
      · intro t ht
        rw [List.take_add] at ht
        rcases List.mem_append.mp ht with ht | ht
        · exact j3 t ht
        · have ht2 : t ∈ (p.drop j).tokens.take 1 := by simpa using ht
          rw [take_one_type ht2, hn]
          decide
    | thrown e p3 =>
      rw [bind_thrown hc] at h
      cases h
    | outOfFuel =>
      simp only [bind_apply, hc] at h
      cases h
  | thrown e p2 =>
    rw [bind_thrown hb] at h
    cases h
  | outOfFuel =>
    simp only [bind_apply, hb] at h
    cases h

/-- A `parse` that returns an AST has consumed `k ≥ 1` tokens, none of them an Error token
and the last of them the `'.'`; it has recorded nothing. -/
theorem parse_ok {p p1 : Parser} {program : Program}
    (h : parse p = some (some program, p1)) :
    ∃ k, 1 ≤ k ∧ k ≤ p.len ∧ p1 = p.drop k ∧ nextType (p.drop (k - 1)).tokens = .PERIOD ∧
      ∀ t ∈ p.tokens.take k, t.type ≠ .ERROR := by
  unfold parse at h
  cases hx : parseProgram (fuelFor p.lexer_.items.length) p with
  | ok program2 p2 =>
    rw [hx] at h
    simp only [Option.some.injEq, Prod.mk.injEq] at h
    obtain ⟨_, h2⟩ := h
    rw [← h2]
    exact parseProgram_ok hx
  | thrown e p2 =>
    rw [hx] at h
    simp at h
  | outOfFuel =>
    rw [hx] at h
    simp at h

/-- A `parse` that returns no AST has recorded a diagnostic. -/
theorem parse_none_errors {p p1 : Parser} (h : parse p = some (none, p1)) :
    p1.getErrors ≠ [] := by
  unfold parse at h
  cases hx : parseProgram (fuelFor p.lexer_.items.length) p with
  | ok program2 p2 =>
    rw [hx] at h
    simp at h
  | thrown e p2 =>
    rw [hx] at h
    simp only [Option.some.injEq, Prod.mk.injEq, true_and] at h
    rw [← h]
    simp [getErrors, addError]
  | outOfFuel =>
    rw [hx] at h
    simp at h

/-- On every parser `parse` returns an AST or returns none. -/
theorem parse_some_or_none (p : Parser) :
    (∃ program p1, parse p = some (some program, p1)) ∨ (∃ p1, parse p = some (none, p1)) := by
  have h := parse_isSome p
  cases hp : parse p with
  | none =>
    rw [hp] at h
    cases h
  | some r =>
    obtain ⟨a, p1⟩ := r
    cases a with
    | none => exact Or.inr ⟨p1, rfl⟩
    | some program => exact Or.inl ⟨program, p1, rfl⟩

end Parser
end pl0

namespace pl0
namespace Grammar
open Parser

theorem powerChain_tokens : ∀ (f : Factor) (gs : List Factor),
    (powerChain f gs).tokens = powerChainTokens f gs
  | f, [] => by simp [powerChain, powerChainTokens, Power.tokens]
  | f, g :: gs => by
    have ih := powerChain_tokens g gs
    simp only [powerChainTokens] at ih
    simp [powerChain, powerChainTokens, Power.tokens, ih]

theorem powerChain_toAST : ∀ (f : Factor) (gs : List Factor),
    (powerChain f gs).toAST = rightPow f.toAST (gs.map Factor.toAST)
  | f, [] => by simp [powerChain, rightPow, Power.toAST]
  | f, g :: gs => by
    simp [powerChain, rightPow, Power.toAST, powerChain_toAST g gs]

theorem termRestOf_tokens : ∀ rest : List (MulOp × Power),
    (termRestOf rest).tokens = rest.flatMap fun x => sym x.1.type :: x.2.tokens
  | [] => by simp [termRestOf, TermRest.tokens]
  | (op, p) :: rest => by
    simp [termRestOf, TermRest.tokens, termRestOf_tokens rest]

theorem termRestOf_toAST : ∀ (rest : List (MulOp × Power)) (acc : Expression),
    (termRestOf rest).toAST acc = leftFold acc (rest.map fun x => (x.1.op, x.2.toAST))
  | [], acc => by simp [termRestOf, TermRest.toAST, leftFold]
  | (op, p) :: rest, acc => by
    simp only [termRestOf, TermRest.toAST, termRestOf_toAST rest, leftFold, List.map_cons,
      List.foldl_cons]

theorem exprRestOf_tokens : ∀ rest : List (AddOp × Term),
    (exprRestOf rest).tokens = rest.flatMap fun x => sym x.1.type :: x.2.tokens
  | [] => by simp [exprRestOf, ExprRest.tokens]
  | (op, t) :: rest => by
    simp [exprRestOf, ExprRest.tokens, exprRestOf_tokens rest]

theorem exprRestOf_toAST : ∀ (rest : List (AddOp × Term)) (acc : Expression),
    (exprRestOf rest).toAST acc = leftFold acc (rest.map fun x => (x.1.op, x.2.toAST))
  | [], acc => by simp [exprRestOf, ExprRest.toAST, leftFold]
  | (op, t) :: rest, acc => by
    simp only [exprRestOf, ExprRest.toAST, exprRestOf_toAST rest, leftFold, List.map_cons,
      List.foldl_cons]

theorem parsePower_chain (f : Factor) (gs : List Factor) (fuel : Nat) (p : Parser)
    (rest : List Token) (h : p.tokens = powerChainTokens f gs ++ rest)
    (hn : nextType rest ≠ .POWER) (hf : 8 * (powerChainTokens f gs).length + 2 ≤ fuel) :
    parsePower fuel p =
      .ok (rightPow f.toAST (gs.map Factor.toAST)) (p.drop (powerChainTokens f gs).length) := by
  rw [← powerChain_tokens] at h hf ⊢
  rw [← powerChain_toAST]
  exact parsePower_complete (powerChain f gs) fuel p rest h hn hf

theorem parseTerm_sequence (first : Power) (seq : List (MulOp × Power)) (fuel : Nat)
    (p : Parser) (rest : List Token) (h : p.tokens = termSequenceTokens first seq ++ rest)
    (hn : endsTerm (nextType rest)) (hf : 8 * (termSequenceTokens first seq).length + 3 ≤ fuel) :
    parseTerm fuel p =
      .ok (leftFold first.toAST (seq.map fun x => (x.1.op, x.2.toAST)))
        (p.drop (termSequenceTokens first seq).length) := by
  have ht : (Term.mk first (termRestOf seq)).tokens = termSequenceTokens first seq := by
    simp [Term.tokens, termSequenceTokens, termRestOf_tokens]
  rw [← ht] at h hf ⊢
  have hc := parseTerm_complete (.mk first (termRestOf seq)) fuel p rest h hn hf
  rw [hc, Term.toAST, termRestOf_toAST]

theorem parseExpression_sequence (first : Term) (seq : List (AddOp × Term)) (fuel : Nat)
    (p : Parser) (rest : List Token) (h : p.tokens = exprSequenceTokens first seq ++ rest)
    (hn : endsExpr (nextType rest)) (hf : 8 * (exprSequenceTokens first seq).length + 4 ≤ fuel) :
    parseExpression fuel p =
      .ok (leftFold first.toAST (seq.map fun x => (x.1.op, x.2.toAST)))
        (p.drop (exprSequenceTokens first seq).length) := by
  have ht : (Expr.mk first (exprRestOf seq)).tokens = exprSequenceTokens first seq := by
    simp [Expr.tokens, exprSequenceTokens, exprRestOf_tokens]
  rw [← ht] at h hf ⊢
  have hc := parseExpr_complete (.mk first (exprRestOf seq)) fuel p rest h hn hf
  rw [hc, Expr.toAST, exprRestOf_toAST]

end Grammar

namespace Parser

/-- What a returning absorption loop returns: the statements it was entered with followed by
those it has read, all of them present, with `end` or `;` as the lookahead. -/
theorem parseIfLoop_ok : ∀ (fuel : Nat) (acc : List Statement) (p p1 : Parser)
    (statements : List Statement), parseIfLoop fuel acc p = .ok statements p1 →
    (∃ more, statements = acc ++ more ∧ ∀ s ∈ more, s.isPresent = true) ∧
    (nextType p1.tokens = .END ∨ nextType p1.tokens = .SEMICOLON)
  | 0, acc, p, p1, statements, h => by
    simp [parseIfLoop, outOfFuel] at h
  | n + 1, acc, p, p1, statements, h => by
    by_cases h1 : nextType p.tokens = .END ∨ nextType p.tokens = .SEMICOLON
    · have hx : parseIfLoop (n + 1) acc p = .ok acc p := by
        rw [parseIfLoop]
        rcases h1 with h1 | h1 <;> simp [h1]
      rw [hx] at h
      injection h with ha hp
      subst ha
      subst hp
      exact ⟨⟨[], by simp, by simp⟩, h1⟩
    · have hx : parseIfLoop (n + 1) acc p = (parseStatement n >>= fun stmt =>
          match_ .SEMICOLON >>= fun _ => parseIfLoop n (pushIfPresent acc stmt)) p := by
        simp only [not_or] at h1
        rw [parseIfLoop]
        simp [h1.1, h1.2]
      rw [hx] at h
      cases hs : parseStatement n p with
      | ok stmt p2 =>
        rw [bind_ok hs] at h
        cases hm : match_ .SEMICOLON p2 with
        | ok b p3 =>
          rw [bind_ok hm] at h
          obtain ⟨⟨more, hmore, hpres⟩, hnext⟩ :=
            parseIfLoop_ok n (pushIfPresent acc stmt) p3 p1 statements h
          refine ⟨?_, hnext⟩
          unfold pushIfPresent at hmore
          by_cases hp : stmt.isPresent = true
          · simp only [hp, ↓reduceIte, List.append_assoc] at hmore
            refine ⟨[stmt] ++ more, hmore, ?_⟩
            intro s hsm
            rcases List.mem_append.mp hsm with hsm | hsm
            · simp only [List.mem_singleton] at hsm
              rw [hsm]
              exact hp
            · exact hpres s hsm
          · simp only [hp, Bool.false_eq_true, ↓reduceIte] at hmore
            exact ⟨more, hmore, hpres⟩
        | thrown e p3 =>
          rw [bind_thrown hm] at h
          cases h
        | outOfFuel =>
          simp only [bind_apply, hm] at h
          cases h
      | thrown e p2 =>
        rw [bind_thrown hs] at h
        cases h
      | outOfFuel =>
        simp only [bind_apply, hs] at h
        cases h

/-- The method `parseIfStatement` once its condition, `then` and first statement are read. -/
theorem parseIfStatement_eq {n : Nat} {p p1 p2 p3 : Parser} {condition : Expression}
    {tok : Token} {then_stmt : Statement}
    (hc : parseCondition n (p.drop 1) = .ok condition p1)
    (ht : consume .THEN "IF语句需要THEN" p1 = .ok tok p2)
    (hs : parseStatement n p2 = .ok then_stmt p3) :
    parseIfStatement (n + 1) p =
      if (then_stmt.isPresent && !then_stmt.isBegin && !decide (nextType p3.tokens = .END) &&
          !decide (nextType p3.tokens = .SEMICOLON)) = true then
        (parseIfLoop n [then_stmt] >>= fun statements =>
          pure (Statement.IfStatement condition (.BeginStatement statements))) p3
      else .ok (.IfStatement condition then_stmt) p3 := by
  rw [parseIfStatement]
  simp only [bind_apply, advance_apply, hc, ht, hs, check_apply]
  split <;> rfl

theorem parseStatement_other {p : Parser} (n : Nat)
    (h1 : nextType p.tokens ≠ .IDENTIFIER) (h2 : nextType p.tokens ≠ .CALL)
    (h3 : nextType p.tokens ≠ .BEGIN) (h4 : nextType p.tokens ≠ .IF)
    (h5 : nextType p.tokens ≠ .WHILE) (h6 : nextType p.tokens ≠ .END)
    (h7 : nextType p.tokens ≠ .SEMICOLON) :
    parseStatement (n + 1) p =
      (error (if nextType p.tokens = .ERROR then "词法错误"
        else "预期语句，但得到: " ++ toString (nextType p.tokens).toInt) :
        ParserM Statement) p := by
  simp only [parseStatement, bind_apply, peek_apply, peekToken_type]
  generalize nextType p.tokens = ty at *
  cases ty <;> simp_all

end Parser
end pl0

namespace pl0
namespace SemanticAnalyzer

theorem TopChanged.outer_eq {names : List String} {sa sa1 : SemanticAnalyzer}
    (h : TopChanged names sa sa1) (t : SymbolTable) (outer : List SymbolTable)
    (ht : sa.symbol_tables_ = t :: outer) :
    (∃ t1, sa1.symbol_tables_ = t1 :: outer) ∧ sa1.current_level_ = sa.current_level_ := by
  obtain ⟨a, b, c, h1, h2, h3, _⟩ := h
  rw [h1] at ht
  injection ht with _ hc
  subst hc
  exact ⟨⟨b, h2⟩, h3⟩

theorem sameScopes_visitProgram (node : Program) (sa sa1 : SemanticAnalyzer)
    (h : visitProgram sa node = some sa1) : SameScopes sa sa1 := by
  unfold visitProgram at h
  split at h
  · exact absurd h (by simp)
  · rename_i sa2 hb
    cases h
    obtain ⟨names, hc⟩ := topChanged_visitBlock node.block _ sa2 [] sa.symbol_tables_ rfl hb
    obtain ⟨⟨t1, h1⟩, h2⟩ := hc.outer_eq [] sa.symbol_tables_ rfl
    refine ⟨by simp [leaveScope, h1], ?_⟩
    have hlv : sa2.leaveScope.current_level_ = sa2.current_level_ - 1 := rfl
    rw [hlv, h2]
    simp [enterScope, addInfo]

theorem analyze_scopes (sa : SemanticAnalyzer) (program : Program) (r : Bool × SemanticAnalyzer)
    (h : analyze sa program = some r) : SameScopes sa r.2 := by
  unfold analyze at h
  split at h
  · exact absurd h (by simp)
  · rename_i sa1 hp
    cases h
    exact sameScopes_visitProgram program sa sa1 hp

end SemanticAnalyzer
end pl0

namespace pl0
namespace TokenInterpreter

/-! ## The scanning methods do not read the lookahead cache -/

theorem withPeek_self (t : TokenInterpreter) : withPeek t.peeked_token_ t.has_peeked_ t = t := rfl

theorem peek_withPeek (tok : Token) (b : Bool) (t : TokenInterpreter) :
    (withPeek tok b t).peek = t.peek := rfl

theorem peekNext_withPeek (tok : Token) (b : Bool) (t : TokenInterpreter) :
    (withPeek tok b t).peekNext = t.peekNext := rfl

theorem advance_withPeek (tok : Token) (b : Bool) (t : TokenInterpreter) :
    (withPeek tok b t).advance = withPeek tok b t.advance := by
  simp only [advance, withPeek]
  split <;> rfl

theorem skipWhitespaceLoop_withPeek (tok : Token) (b : Bool) : ∀ (n : Nat) (t : TokenInterpreter),
    skipWhitespaceLoop n (withPeek tok b t) = withPeek tok b (skipWhitespaceLoop n t)
  | 0, t => rfl
  | n + 1, t => by
    rw [skipWhitespaceLoop, skipWhitespaceLoop]
    have hs : (withPeek tok b t).source_ = t.source_ := rfl
    have hc : (withPeek tok b t).current_ = t.current_ := rfl
    rw [hs, hc]
    split
    · simp only []
      split
      · exact skipWhitespaceLoop_withPeek tok b n
          ⟨t.source_, t.current_ + 1, t.line_ + 1, 0, t.peeked_token_, t.has_peeked_⟩
      · exact skipWhitespaceLoop_withPeek tok b n
          ⟨t.source_, t.current_ + 1, t.line_, t.column_ + 1, t.peeked_token_, t.has_peeked_⟩
    · rfl

theorem skipWhitespace_withPeek (tok : Token) (b : Bool) (t : TokenInterpreter) :
    (withPeek tok b t).skipWhitespace = withPeek tok b t.skipWhitespace :=
  skipWhitespaceLoop_withPeek tok b _ t

theorem tryReadNumberLoop_withPeek (tok : Token) (b : Bool) :
    ∀ (n : Nat) (t : TokenInterpreter) (v : Int),
    tryReadNumberLoop n (withPeek tok b t) v =
      ((tryReadNumberLoop n t v).1, withPeek tok b (tryReadNumberLoop n t v).2)
  | 0, t, v => rfl
  | n + 1, t, v => by
    rw [tryReadNumberLoop, tryReadNumberLoop, peek_withPeek]
    split
    · simp only []
      split
      · rfl
      · rw [advance_withPeek]
        exact tryReadNumberLoop_withPeek tok b n _ _
    · rfl

theorem tryReadNumber_withPeek (tok : Token) (b : Bool) (t : TokenInterpreter) :
    (withPeek tok b t).tryReadNumber =
      (t.tryReadNumber.1, withPeek tok b t.tryReadNumber.2) := by
  rw [tryReadNumber, tryReadNumber, peek_withPeek]
  split
  · rfl
  · simp only []
    have hs : (withPeek tok b t).source_ = t.source_ := rfl
    have hc : (withPeek tok b t).current_ = t.current_ := rfl
    rw [hs, hc, tryReadNumberLoop_withPeek]

theorem readAlphaNum_withPeek (tok : Token) (b : Bool) : ∀ (n : Nat) (t : TokenInterpreter),
    readAlphaNum n (withPeek tok b t) = withPeek tok b (readAlphaNum n t)
  | 0, t => rfl
  | n + 1, t => by
    rw [readAlphaNum, readAlphaNum, peek_withPeek]
    split
    · rw [advance_withPeek]
      exact readAlphaNum_withPeek tok b n _
    · rfl

theorem tryReadIdentifier_withPeek (tok : Token) (b : Bool) (t : TokenInterpreter) :
    (withPeek tok b t).tryReadIdentifier =
      (t.tryReadIdentifier.1, withPeek tok b t.tryReadIdentifier.2) := by
  rw [tryReadIdentifier, tryReadIdentifier, peek_withPeek]
  have hs : (withPeek tok b t).source_ = t.source_ := rfl
  have hc : (withPeek tok b t).current_ = t.current_ := rfl
  split
  · rfl
  · simp only []
    rw [hs, hc, readAlphaNum_withPeek]
    have hc1 : (withPeek tok b (readAlphaNum (t.source_.length - t.current_ + 1) t)).current_ =
        (readAlphaNum (t.source_.length - t.current_ + 1) t).current_ := rfl
    rw [hc1]
    split
    · rfl
    · split <;> rfl

theorem framed_ite (tok : Token) (b : Bool) (c : Prop) [Decidable c]
    (x1 y1 x y : Option Token × TokenInterpreter) (hx : Framed tok b x1 x)
    (hy : Framed tok b y1 y) : Framed tok b (if c then x1 else y1) (if c then x else y) := by
  split
  · exact hx
  · exact hy

theorem framed_none (tok : Token) (b : Bool) (t : TokenInterpreter) :
    Framed tok b (none, withPeek tok b t) (none, t) := rfl

theorem framed_some (tok : Token) (b : Bool) (t : TokenInterpreter) (x : Token) :
    Framed tok b (some x, withPeek tok b t) (some x, t) := rfl

theorem tryReadOperator_framed (tok : Token) (b : Bool) (t : TokenInterpreter) :
    Framed tok b (withPeek tok b t).tryReadOperator t.tryReadOperator := by
  unfold tryReadOperator
  simp only [advance_withPeek, peek_withPeek, peekNext_withPeek]
  repeat' first
    | exact framed_none tok b _
    | exact framed_some tok b _ _
    | apply framed_ite

theorem tryReadOperator_withPeek (tok : Token) (b : Bool) (t : TokenInterpreter) :
    (withPeek tok b t).tryReadOperator =
      (t.tryReadOperator.1, withPeek tok b t.tryReadOperator.2) :=
  tryReadOperator_framed tok b t

/-- With an empty lookahead cache, `nextToken` does not depend on the token left in it. -/
theorem nextToken_withPeek (tok : Token) (t : TokenInterpreter) (h : t.has_peeked_ = false) :
    (withPeek tok false t).nextToken = (t.nextToken.1, withPeek tok false t.nextToken.2) := by
  have hb : (withPeek tok false t).has_peeked_ = false := rfl
  unfold nextToken
  simp only [h, hb, Bool.false_eq_true, ↓reduceIte]
  rw [skipWhitespace_withPeek]
  have hs : (withPeek tok false t.skipWhitespace).source_ = t.skipWhitespace.source_ := rfl
  have hc : (withPeek tok false t.skipWhitespace).current_ = t.skipWhitespace.current_ := rfl
  rw [hs, hc]
  split
  · rfl
  · rw [tryReadNumber_withPeek]
    rcases hn : t.skipWhitespace.tryReadNumber with ⟨_ | number, t2⟩
    · simp only []
      rw [tryReadIdentifier_withPeek]
      rcases hi : t2.tryReadIdentifier with ⟨_ | identifier, t3⟩
      · simp only []
        rw [tryReadOperator_withPeek]
        rcases ho : t3.tryReadOperator with ⟨_ | op, t4⟩
        · simp only [advance_withPeek]
        · rfl
      · rfl
    · rfl

theorem peekToken_withPeek (tok : Token) (t : TokenInterpreter) (h : t.has_peeked_ = false) :
    (withPeek tok false t).peekToken = t.peekToken := by
  have hb : (withPeek tok false t).has_peeked_ = false := rfl
  unfold peekToken
  simp only [h, hb, Bool.not_false, ↓reduceIte]
  rw [nextToken_withPeek tok t h]
  rfl

theorem returned_withPeek : ∀ (calls : List Call) (tok : Token) (t : TokenInterpreter),
    t.has_peeked_ = false → returned calls (withPeek tok false t) = returned calls t
  | [], _, _, _ => rfl
  | .next :: calls, tok, t, h => by
    rw [returned, returned, nextToken_withPeek tok t h]
    simp only []
    rw [returned_withPeek calls tok _ (nextToken_spec t h).2]
  | .peek :: calls, tok, t, h => by
    rw [returned, returned, peekToken_withPeek tok t h]

theorem peekToken_of_peeked (t : TokenInterpreter) (h : t.has_peeked_ = true) :
    t.peekToken = (t.peeked_token_, t) := by
  simp [peekToken, h]

theorem peekToken_of_not_peeked (t : TokenInterpreter) (h : t.has_peeked_ = false) :
    t.peekToken = (t.nextToken.1, withPeek t.nextToken.1 true t.nextToken.2) := by
  simp [peekToken, h, withPeek]

theorem peekToken_has_peeked (t : TokenInterpreter) :
    t.peekToken.2.has_peeked_ = true ∧ t.peekToken.2.peeked_token_ = t.peekToken.1 := by
  cases h : t.has_peeked_
  · rw [peekToken_of_not_peeked t h]
    exact ⟨rfl, rfl⟩
  · rw [peekToken_of_peeked t h]
    exact ⟨h, rfl⟩

theorem nextToken_of_peeked (t : TokenInterpreter) (h : t.has_peeked_ = true) :
    t.nextToken = (t.peeked_token_, withPeek t.peeked_token_ false t) := by
  simp [nextToken, h, withPeek]

theorem returned_peekToken : ∀ (calls : List Call) (t : TokenInterpreter),
    returned calls t.peekToken.2 = returned calls t := by
  intro calls t
  cases h : t.has_peeked_
  · rw [peekToken_of_not_peeked t h]
    simp only []
    cases calls with
    | nil => rfl
    | cons c calls =>
      have h2 := (nextToken_spec t h).2
      cases c with
      | next =>
        rw [returned, returned, nextToken_of_peeked _ rfl]
        simp only [withPeek]
        have he : ({ t.nextToken.2 with peeked_token_ := t.nextToken.1, has_peeked_ := false } :
            TokenInterpreter) = withPeek t.nextToken.1 false t.nextToken.2 := rfl
        show t.nextToken.1 :: returned calls
          ({ t.nextToken.2 with peeked_token_ := t.nextToken.1, has_peeked_ := false } :
            TokenInterpreter) = _
        rw [he, returned_withPeek calls _ _ h2]
      | peek =>
        rw [returned, returned, peekToken_of_peeked _ rfl, peekToken_of_not_peeked t h]
        rfl
  · rw [peekToken_of_peeked t h]

end TokenInterpreter
end pl0

namespace pl0
namespace TokenInterpreter

/-! ## The value of a number token -/

theorem isDigit_bounds (c : Char) (h : isDigit c = true) : 48 ≤ c.toNat ∧ c.toNat ≤ 57 := by
  simp only [isDigit, Bool.and_eq_true, decide_eq_true_eq] at h
  obtain ⟨h1, h2⟩ := h
  have h1' : ('0' : Char).val ≤ c.val := h1
  have h2' : c.val ≤ ('9' : Char).val := h2
  rw [UInt32.le_def] at h1' h2'
  exact ⟨h1', h2'⟩

theorem peek_of_lt (t : TokenInterpreter) (h : t.current_ < t.source_.length) :
    t.peek = t.source_[t.current_] := by
  unfold peek
  rw [if_neg (by omega)]
  simp [List.getD_eq_getElem?_getD, List.getElem?_eq_getElem h]

theorem peek_of_ge (t : TokenInterpreter) (h : t.source_.length ≤ t.current_) :
    t.peek = Char.ofNat 0 := by
  unfold peek
  rw [if_pos h]

theorem lt_of_isDigit_peek (t : TokenInterpreter) (h : isDigit t.peek = true) :
    t.current_ < t.source_.length := by
  by_contra hc
  rw [peek_of_ge t (by omega)] at h
  exact absurd h (by decide)

theorem advance_of_lt (t : TokenInterpreter) (h : t.current_ < t.source_.length) :
    t.advance = moved 1 t := by
  unfold advance
  rw [if_pos h]
  rfl

theorem moved_moved (a b : Nat) (t : TokenInterpreter) :
    moved a (moved b t) = moved (b + a) t := by
  simp only [moved, Nat.add_assoc]

theorem moved_zero (t : TokenInterpreter) : moved 0 t = t := rfl

theorem digitsAt_of_isDigit (t : TokenInterpreter) (h : isDigit t.peek = true) :
    digitsAt t = t.peek :: digitsAt t.advance := by
  have hl := lt_of_isDigit_peek t h
  have hp := peek_of_lt t hl
  rw [advance_of_lt t hl]
  unfold digitsAt
  simp only [moved]
  rw [List.drop_eq_getElem_cons hl, List.takeWhile_cons, ← hp, h]
  simp

theorem digitsAt_of_not_isDigit (t : TokenInterpreter) (h : isDigit t.peek = false) :
    digitsAt t = [] := by
  unfold digitsAt
  by_cases hl : t.current_ < t.source_.length
  · rw [List.drop_eq_getElem_cons hl, List.takeWhile_cons, ← peek_of_lt t hl, h]
    simp
  · rw [List.drop_eq_nil_of_le (by omega)]
    rfl

theorem digitsAt_length_le (t : TokenInterpreter) :
    (digitsAt t).length ≤ t.source_.length - t.current_ := by
  unfold digitsAt
  have h := (List.takeWhile_prefix isDigit (l := t.source_.drop t.current_)).length_le
  simpa using h

theorem le_digitsFrom : ∀ (ds : List Char) (v : Nat), v ≤ digitsFrom v ds
  | [], v => Nat.le_refl v
  | c :: ds, v => by
    have h := le_digitsFrom ds (v * 10 + (c.toNat - 48))
    simp only [digitsFrom, List.foldl_cons] at h ⊢
    omega

theorem digitsFrom_cons (v : Nat) (c : Char) (ds : List Char) :
    digitsFrom v (c :: ds) = digitsFrom (v * 10 + (c.toNat - 48)) ds := rfl

theorem tryReadNumberLoop_value : ∀ (n : Nat) (t : TokenInterpreter) (v : Nat),
    (digitsAt t).length < n → (v : Int) ≤ INT64_MAX →
    (digitsFrom v (digitsAt t) ≤ 2 ^ 63 - 1 →
      tryReadNumberLoop n t v =
        (⟨.NUMBER, .int (digitsFrom v (digitsAt t))⟩, moved (digitsAt t).length t)) ∧
    (2 ^ 63 - 1 < digitsFrom v (digitsAt t) →
      (tryReadNumberLoop n t v).1 = Token.ofType .ERROR)
  | 0, t, v, hn, _ => absurd hn (Nat.not_lt_zero _)
  | n + 1, t, v, hn, hv => by
    unfold tryReadNumberLoop
    by_cases hd : isDigit t.peek = true
    · have hds := digitsAt_of_isDigit t hd
      obtain ⟨b1, b2⟩ := isDigit_bounds t.peek hd
      have hl := lt_of_isDigit_peek t hd
      rw [if_pos hd]
      simp only []
      rw [hds, digitsFrom_cons]
      rw [hds] at hn
      simp only [List.length_cons] at hn ⊢
      have hge := le_digitsFrom (digitsAt t.advance) (v * 10 + (t.peek.toNat - 48))
      have hmax : INT64_MAX = 9223372036854775807 := by unfold INT64_MAX; norm_num
      have hcast : (v : Int) * 10 + ((t.peek.toNat : Int) - 48) =
          ((v * 10 + (t.peek.toNat - 48) : Nat) : Int) := by
        push_cast
        omega
      by_cases ho : (v : Int) > (INT64_MAX - ((t.peek.toNat : Int) - 48)) / 10
      · rw [if_pos ho]
        rw [hmax] at ho
        refine ⟨fun hle => ?_, fun _ => rfl⟩
        exfalso
        have h63 : (2 : Nat) ^ 63 - 1 = 9223372036854775807 := by norm_num
        rw [h63] at hle
        omega
      · rw [if_neg ho, hcast]
        rw [hmax] at ho
        have hv1 : ((v * 10 + (t.peek.toNat - 48) : Nat) : Int) ≤ INT64_MAX := by
          rw [hmax]
          omega
        obtain ⟨i1, i2⟩ := tryReadNumberLoop_value n t.advance
          (v * 10 + (t.peek.toNat - 48)) (by omega) hv1
        refine ⟨fun hle => ?_, i2⟩
        rw [i1 hle, advance_of_lt t hl, moved_moved, Nat.add_comm 1]
    · have hd1 : isDigit t.peek = false := by simpa using hd
      rw [if_neg hd, digitsAt_of_not_isDigit t hd1]
      refine ⟨fun _ => rfl, fun hlt => ?_⟩
      exfalso
      have h63 : (2 : Nat) ^ 63 - 1 = 9223372036854775807 := by norm_num
      have hmax : INT64_MAX = 9223372036854775807 := by unfold INT64_MAX; norm_num
      simp only [digitsFrom, List.foldl_nil] at hlt
      rw [h63] at hlt
      rw [hmax] at hv
      omega

theorem isDigit_peek_of_digitsAt (t : TokenInterpreter) (h : digitsAt t ≠ []) :
    isDigit t.peek = true := by
  by_contra hc
  exact h (digitsAt_of_not_isDigit t (by simpa using hc))

theorem tryReadNumber_value (t : TokenInterpreter) (h : digitsAt t ≠ []) :
    (decimalValue (digitsAt t) ≤ 2 ^ 63 - 1 →
      t.tryReadNumber =
        (some ⟨.NUMBER, .int (decimalValue (digitsAt t))⟩, moved (digitsAt t).length t)) ∧
    (2 ^ 63 - 1 < decimalValue (digitsAt t) →
      t.tryReadNumber.1 = some (Token.ofType .ERROR)) := by
  have hd := isDigit_peek_of_digitsAt t h
  have hlen := digitsAt_length_le t
  obtain ⟨h1, h2⟩ := tryReadNumberLoop_value (t.source_.length - t.current_ + 1) t 0
    (by omega) (by unfold INT64_MAX; norm_num)
  unfold tryReadNumber
  simp only [hd, Bool.not_true, Bool.false_eq_true, ↓reduceIte]
  refine ⟨fun hle => ?_, fun hlt => ?_⟩
  · have := h1 hle
    simp only [Nat.cast_zero] at this
    rw [this]
    rfl
  · have := h2 hlt
    simp only [Nat.cast_zero] at this
    rw [this]

theorem tryReadNumber_none (t : TokenInterpreter) (h : t.tryReadNumber.1 = none) :
    t.tryReadNumber.2 = t := by
  unfold tryReadNumber at h ⊢
  split
  · rfl
  · rename_i hd
    rw [if_neg hd] at h
    cases h

theorem nextToken_number (t : TokenInterpreter) (h : t.has_peeked_ = false)
    (hd : digitsAt t.skipWhitespace ≠ []) :
    t.nextToken = ((t.skipWhitespace.tryReadNumber.1).getD (Token.ofType .ERROR),
      t.skipWhitespace.tryReadNumber.2) := by
  have hp := isDigit_peek_of_digitsAt _ hd
  have hl := lt_of_isDigit_peek _ hp
  unfold nextToken
  simp only [h, Bool.false_eq_true, ↓reduceIte]
  rw [if_neg (by omega)]
  rcases hn : t.skipWhitespace.tryReadNumber with ⟨_ | number, t2⟩
  · exfalso
    unfold tryReadNumber at hn
    simp [hp] at hn
  · rfl

end TokenInterpreter
end pl0

namespace pl0
namespace TokenInterpreter

/-! ## Every token but the last takes at least one character -/

theorem Step.step_refl (t : TokenInterpreter) : Step t t := ⟨rfl, Nat.le_refl _⟩

theorem Step.step_trans {a b c : TokenInterpreter} (h1 : Step a b) (h2 : Step b c) : Step a c :=
  ⟨h2.1.trans h1.1, h1.2.trans h2.2⟩

theorem advance_step (t : TokenInterpreter) : Step t t.advance := by
  unfold advance
  split
  · exact ⟨rfl, Nat.le_succ _⟩
  · exact Step.step_refl t

theorem advance_strict (t : TokenInterpreter) (h : t.current_ < t.source_.length) :
    t.current_ < t.advance.current_ := by
  rw [advance_of_lt t h]
  exact Nat.lt_succ_self _

theorem skipWhitespaceLoop_step : ∀ (n : Nat) (t : TokenInterpreter),
    Step t (skipWhitespaceLoop n t)
  | 0, t => Step.step_refl t
  | n + 1, t => by
    unfold skipWhitespaceLoop
    split
    · simp only []
      split
      · have h := skipWhitespaceLoop_step n
          ⟨t.source_, t.current_ + 1, t.line_ + 1, 0, t.peeked_token_, t.has_peeked_⟩
        exact ⟨h.1, Nat.le_of_succ_le h.2⟩
      · have h := skipWhitespaceLoop_step n
          ⟨t.source_, t.current_ + 1, t.line_, t.column_ + 1, t.peeked_token_, t.has_peeked_⟩
        exact ⟨h.1, Nat.le_of_succ_le h.2⟩
    · exact Step.step_refl t

theorem tryReadNumberLoop_step : ∀ (n : Nat) (t : TokenInterpreter) (v : Int),
    Step t (tryReadNumberLoop n t v).2
  | 0, t, _ => Step.step_refl t
  | n + 1, t, v => by
    unfold tryReadNumberLoop
    split
    · simp only []
      split
      · exact Step.step_refl t
      · exact (advance_step t).step_trans (tryReadNumberLoop_step n _ _)
    · exact Step.step_refl t

theorem tryReadNumber_progress (t : TokenInterpreter) :
    t.tryReadNumber.2.source_ = t.source_ ∧
    (∀ tok, t.tryReadNumber.1 = some tok → t.current_ < t.tryReadNumber.2.current_) := by
  unfold tryReadNumber
  split
  · exact ⟨rfl, fun tok h => (by cases h)⟩
  · rename_i hd
    have hd1 : isDigit t.peek = true := by simpa using hd
    obtain ⟨b1, b2⟩ := isDigit_bounds t.peek hd1
    have hl := lt_of_isDigit_peek t hd1
    have hmax : INT64_MAX = 9223372036854775807 := by unfold INT64_MAX; norm_num
    have hno : ¬ ((0 : Int) > (INT64_MAX - ((t.peek.toNat : Int) - 48)) / 10) := by
      rw [hmax]
      omega
    have hs : tryReadNumberLoop (t.source_.length - t.current_ + 1) t 0 =
        tryReadNumberLoop (t.source_.length - t.current_) t.advance
          (0 * 10 + ((t.peek.toNat : Int) - 48)) := by
      rw [tryReadNumberLoop, if_pos hd1]
      simp only []
      rw [if_neg hno]
    simp only []
    rw [hs]
    have h1 := tryReadNumberLoop_step (t.source_.length - t.current_) t.advance
      (0 * 10 + ((t.peek.toNat : Int) - 48))
    have h2 := advance_step t
    have h3 := advance_strict t hl
    exact ⟨h1.1.trans h2.1, fun _ _ => Nat.lt_of_lt_of_le h3 h1.2⟩

theorem readAlphaNum_step : ∀ (n : Nat) (t : TokenInterpreter), Step t (readAlphaNum n t)
  | 0, t => Step.step_refl t
  | n + 1, t => by
    unfold readAlphaNum
    split
    · exact (advance_step t).step_trans (readAlphaNum_step n _)
    · exact Step.step_refl t

theorem lt_of_isAlpha_peek (t : TokenInterpreter) (h : isAlpha t.peek = true) :
    t.current_ < t.source_.length := by
  by_contra hc
  rw [peek_of_ge t (by omega)] at h
  exact absurd h (by decide)

theorem tryReadIdentifier_progress (t : TokenInterpreter) :
    t.tryReadIdentifier.2.source_ = t.source_ ∧
    ((t.tryReadIdentifier.1 = none ∧ t.tryReadIdentifier.2 = t) ∨
      t.current_ < t.tryReadIdentifier.2.current_) := by
  by_cases ha : isAlpha t.peek = true
  · have hl := lt_of_isAlpha_peek t ha
    have hr : readAlphaNum (t.source_.length - t.current_ + 1) t =
        readAlphaNum (t.source_.length - t.current_) t.advance := by
      rw [readAlphaNum, if_pos (by simp [isAlphaNum, ha])]
    have h1 := readAlphaNum_step (t.source_.length - t.current_) t.advance
    have h2 := advance_step t
    have h3 := advance_strict t hl
    have hs : (readAlphaNum (t.source_.length - t.current_ + 1) t).source_ = t.source_ := by
      rw [hr]
      exact h1.1.trans h2.1
    have hc : t.current_ < (readAlphaNum (t.source_.length - t.current_ + 1) t).current_ := by
      rw [hr]
      exact Nat.lt_of_lt_of_le h3 h1.2
    unfold tryReadIdentifier
    simp only [ha, Bool.not_true, Bool.false_eq_true, ↓reduceIte]
    split
    · exact ⟨hs, Or.inr hc⟩
    · split
      · exact ⟨hs, Or.inr hc⟩
      · exact ⟨hs, Or.inr hc⟩
  · have he : t.tryReadIdentifier = (none, t) := by
      rw [tryReadIdentifier, if_pos (by simp [ha])]
    rw [he]
    exact ⟨rfl, Or.inl ⟨rfl, rfl⟩⟩

theorem operatorStep_ite (t : TokenInterpreter) (c : Prop) [Decidable c]
    (a b : Option Token × TokenInterpreter) (ha : OperatorStep t a) (hb : OperatorStep t b) :
    OperatorStep t (if c then a else b) := by
  split
  · exact ha
  · exact hb

theorem operatorStep_none (t : TokenInterpreter) : OperatorStep t (none, t) :=
  Or.inl ⟨rfl, rfl⟩

theorem operatorStep_one (t : TokenInterpreter) (x : Token) :
    OperatorStep t (some x, t.advance) :=
  Or.inr ⟨by simp, Or.inl rfl⟩

theorem operatorStep_two (t : TokenInterpreter) (x : Token) :
    OperatorStep t (some x, t.advance.advance) :=
  Or.inr ⟨by simp, Or.inr rfl⟩

theorem tryReadOperator_operatorStep (t : TokenInterpreter) :
    OperatorStep t t.tryReadOperator := by
  unfold tryReadOperator
  repeat' first
    | exact operatorStep_none t
    | exact operatorStep_one t _
    | exact operatorStep_two t _
    | apply operatorStep_ite

theorem tryReadOperator_progress (t : TokenInterpreter) :
    Step t t.tryReadOperator.2 ∧
    (t.tryReadOperator.1 = none → t.tryReadOperator.2 = t) ∧
    (∀ op, t.tryReadOperator.1 = some op → t.current_ < t.source_.length →
      t.current_ < t.tryReadOperator.2.current_) := by
  rcases tryReadOperator_operatorStep t with ⟨h1, h2⟩ | ⟨h1, h2 | h2⟩
  · rw [h2]
    exact ⟨Step.step_refl t, fun _ => rfl, fun op h => (by rw [h1] at h; cases h)⟩
  · rw [h2]
    exact ⟨advance_step t, fun h => absurd h h1, fun _ _ hl => advance_strict t hl⟩
  · rw [h2]
    exact ⟨(advance_step t).step_trans (advance_step _), fun h => absurd h h1,
      fun _ _ hl => Nat.lt_of_lt_of_le (advance_strict t hl) (advance_step _).2⟩

/-- With an empty lookahead cache, `nextToken` either returns `END_OF_FILE` or moves on by at
least one character of the text. -/
theorem nextToken_progress (t : TokenInterpreter) (h : t.has_peeked_ = false) :
    t.nextToken.2.source_ = t.source_ ∧
    (t.nextToken.1.type = .END_OF_FILE ∨
      (t.current_ < t.nextToken.2.current_ ∧ t.current_ < t.source_.length)) := by
  have hs : Step t t.skipWhitespace := skipWhitespaceLoop_step _ t
  unfold nextToken
  simp only [h, Bool.false_eq_true, ↓reduceIte]
  split
  · exact ⟨hs.1, Or.inl rfl⟩
  · rename_i hge
    have hl : t.skipWhitespace.current_ < t.skipWhitespace.source_.length := by omega
    have hlt : t.current_ < t.source_.length := by
      rw [hs.1] at hl
      exact Nat.lt_of_le_of_lt hs.2 hl
    obtain ⟨n1, n2⟩ := tryReadNumber_progress t.skipWhitespace
    have n3 := tryReadNumber_none t.skipWhitespace
    rcases hn : t.skipWhitespace.tryReadNumber with ⟨_ | number, t2⟩
    · rw [hn] at n1 n3
      simp only [forall_const] at n3
      subst n3
      simp only []
      obtain ⟨i1, i2⟩ := tryReadIdentifier_progress t.skipWhitespace
      rcases hi : t.skipWhitespace.tryReadIdentifier with ⟨_ | identifier, t3⟩
      · rw [hi] at i1 i2
        simp only at i1 i2
        simp only []
        obtain ⟨o1, o2, o3⟩ := tryReadOperator_progress t3
        have hst : Step t.skipWhitespace t3 := by
          refine ⟨i1, ?_⟩
          rcases i2 with ⟨_, i2⟩ | i2
          · rw [i2]
          · exact Nat.le_of_lt i2
        rcases ho : t3.tryReadOperator with ⟨_ | op, t4⟩
        · rw [ho] at o1 o2
          simp only [forall_const] at o2
          subst o2
          simp only []
          refine ⟨(advance_step _).1.trans (hst.1.trans hs.1), Or.inr ⟨?_, hlt⟩⟩
          rcases i2 with ⟨_, i2⟩ | i2
          · rw [i2]
            exact Nat.lt_of_le_of_lt hs.2 (advance_strict _ hl)
          · exact Nat.lt_of_le_of_lt hs.2 (Nat.lt_of_lt_of_le i2 (advance_step _).2)
        · rw [ho] at o1 o3
          simp only []
          refine ⟨o1.1.trans (hst.1.trans hs.1), Or.inr ⟨?_, hlt⟩⟩
          rcases i2 with ⟨_, i2⟩ | i2
          · rw [i2] at o3 o1
            exact Nat.lt_of_le_of_lt hs.2 (o3 op rfl hl)
          · exact Nat.lt_of_le_of_lt hs.2 (Nat.lt_of_lt_of_le i2 o1.2)
      · rw [hi] at i1 i2
        simp only at i1 i2
        simp only []
        refine ⟨i1.trans hs.1, Or.inr ⟨?_, hlt⟩⟩
        rcases i2 with ⟨i2, _⟩ | i2
        · cases i2
        · exact Nat.lt_of_le_of_lt hs.2 i2
    · rw [hn] at n1 n2
      simp only at n1 n2
      exact ⟨n1.trans hs.1, Or.inr ⟨Nat.lt_of_le_of_lt hs.2 (n2 number rfl), hlt⟩⟩

end TokenInterpreter

namespace Compiler
open TokenInterpreter

/-- The lexical pass is not cut short: the rounds given to it suffice. -/
theorem lexLoop_isSome : ∀ (fuel : Nat) (lexer : TokenInterpreter) (tokens : List Token),
    lexer.has_peeked_ = false → lexer.source_.length - lexer.current_ < fuel →
    (lexLoop fuel lexer tokens).isSome = true
  | 0, _, _, _, h => absurd h (Nat.not_lt_zero _)
  | fuel + 1, lexer, tokens, hp, h => by
    obtain ⟨h1, h2⟩ := nextToken_progress lexer hp
    have h3 := (nextToken_spec lexer hp).2
    unfold lexLoop
    simp only []
    split
    · rfl
    · split
      · rfl
      · rename_i _ he
        rcases h2 with h2 | ⟨h2, h4⟩
        · exact absurd h2 he
        · exact lexLoop_isSome fuel _ _ h3 (by rw [h1]; omega)

theorem lexLoop_ofSource (source : String) :
    ∃ outcome, lexLoop (source.length + 1) (TokenInterpreter.ofSource source) [] =
      some outcome :=
  Option.isSome_iff_exists.mp (lexLoop_isSome _ _ _ rfl (by
    show source.data.length - 0 < source.data.length + 1
    omega))

theorem analyze_false_errors (program : Program) (analyzer : SemanticAnalyzer)
    (h : SemanticAnalyzer.analyze SemanticAnalyzer.fresh program = some (false, analyzer)) :
    analyzer.getErrors ≠ [] := by
  unfold SemanticAnalyzer.analyze at h
  split at h
  · cases h
  · rename_i sa1 hp
    simp only [Option.some.injEq, Prod.mk.injEq, Bool.not_eq_false_eq_eq_true] at h
    obtain ⟨hf, he⟩ := h
    subst he
    obtain ⟨extra, h1, h2⟩ := SemanticAnalyzer.extends_visitProgram hp
    intro hn
    unfold SemanticAnalyzer.getErrors at hn
    rw [h1] at hn
    have : extra = [] := by
      simpa [SemanticAnalyzer.fresh] using hn
    subst this
    rw [hf] at h2
    simp [SemanticAnalyzer.fresh] at h2

end Compiler
end pl0

namespace pl0
namespace SemanticAnalyzer

/-! ## Slot indices of variables -/

theorem find_cons (t : SymbolTable) (name n : String) (s : Symbol) :
    SymbolTable.find ((name, s) :: t) n = if name = n then some s else SymbolTable.find t n :=
  rfl

theorem distinctSlots_nil : DistinctSlots [] := by
  intro n1 n2 s1 s2 h1
  simp [SymbolTable.find] at h1

theorem slotsBelow_nil (c : Nat) : SlotsBelow c [] := by
  intro n s h1
  simp [SymbolTable.find] at h1

theorem slotsBelow_mono {c d : Nat} {t : SymbolTable} (h : SlotsBelow c t) (hcd : c ≤ d) :
    SlotsBelow d t := fun n s h1 h2 => Nat.lt_of_lt_of_le (h n s h1 h2) hcd

theorem distinctSlots_cons_other {t : SymbolTable} (h : DistinctSlots t) (name : String)
    (s : Symbol) (hs : s.type ≠ .Variable) : DistinctSlots ((name, s) :: t) := by
  intro n1 n2 s1 s2 h1 h2 v1 v2 hi
  rw [find_cons] at h1 h2
  by_cases e1 : name = n1
  · rw [if_pos e1] at h1
    cases h1
    exact absurd v1 hs
  · rw [if_neg e1] at h1
    by_cases e2 : name = n2
    · rw [if_pos e2] at h2
      cases h2
      exact absurd v2 hs
    · rw [if_neg e2] at h2
      exact h n1 n2 s1 s2 h1 h2 v1 v2 hi

theorem slotsBelow_cons_other {c : Nat} {t : SymbolTable} (h : SlotsBelow c t) (name : String)
    (s : Symbol) (hs : s.type ≠ .Variable) : SlotsBelow c ((name, s) :: t) := by
  intro n s1 h1 v1
  rw [find_cons] at h1
  by_cases e1 : name = n
  · rw [if_pos e1] at h1
    cases h1
    exact absurd v1 hs
  · rw [if_neg e1] at h1
    exact h n s1 h1 v1

theorem distinctSlots_cons_variable {c : Nat} {t : SymbolTable} (h : DistinctSlots t)
    (hb : SlotsBelow c t) (name : String) (s : Symbol) (hi : s.index = c) :
    DistinctSlots ((name, s) :: t) := by
  intro n1 n2 s1 s2 h1 h2 v1 v2 he
  rw [find_cons] at h1 h2
  by_cases e1 : name = n1
  · rw [if_pos e1] at h1
    cases h1
    by_cases e2 : name = n2
    · exact e1.symm.trans e2
    · rw [if_neg e2] at h2
      have := hb n2 s2 h2 v2
      omega
  · rw [if_neg e1] at h1
    by_cases e2 : name = n2
    · rw [if_pos e2] at h2
      cases h2
      have := hb n1 s1 h1 v1
      omega
    · rw [if_neg e2] at h2
      exact h n1 n2 s1 s2 h1 h2 v1 v2 he

theorem slotsBelow_cons_variable {c : Nat} {t : SymbolTable} (hb : SlotsBelow c t)
    (name : String) (s : Symbol) (hi : s.index = c) : SlotsBelow (c + 1) ((name, s) :: t) := by
  intro n s1 h1 v1
  rw [find_cons] at h1
  by_cases e1 : name = n
  · rw [if_pos e1] at h1
    cases h1
    omega
  · rw [if_neg e1] at h1
    have := hb n s1 h1 v1
    omega

theorem slotsOK_enterScope (sa : SemanticAnalyzer) : SlotsOK sa.enterScope :=
  ⟨[], sa.symbol_tables_, rfl, distinctSlots_nil, slotsBelow_nil _⟩

theorem declareSymbol_var_index (sa : SemanticAnalyzer) (name : String) (symbol : Symbol) :
    (sa.declareSymbol name symbol).2.var_index_ = sa.var_index_ := by
  unfold declareSymbol
  cases h : sa.symbol_tables_ with
  | nil => simp [SymbolTable.contains, SymbolTable.find]
  | cons t rest =>
    simp [h]
    split <;> simp

theorem visitConstDeclaration_var_index (sa : SemanticAnalyzer) (d : ConstDeclaration) :
    (sa.visitConstDeclaration d).var_index_ = sa.var_index_ := by
  unfold visitConstDeclaration
  simp only []
  split
  · rw [declareSymbol_var_index]
    rfl
  · show (declareSymbol _ _ _).2.var_index_ = _
    rw [declareSymbol_var_index]
    rfl

theorem slotsOK_visitConstDeclaration (sa : SemanticAnalyzer) (d : ConstDeclaration)
    (h : SlotsOK sa) : SlotsOK (sa.visitConstDeclaration d) := by
  obtain ⟨t, outer, ht, h1, h2⟩ := h
  unfold visitConstDeclaration
  simp only []
  rw [declareSymbol_cons _ _ _ t outer (by simpa [addInfo] using ht)]
  by_cases hc : SymbolTable.contains t d.name = true
  · simp only [hc, ↓reduceIte, Bool.false_eq_true]
    exact ⟨t, outer, ht, h1, h2⟩
  · simp only [hc, ↓reduceIte]
    exact ⟨_, outer, rfl, distinctSlots_cons_other h1 _ _ (by simp),
      slotsBelow_cons_other h2 _ _ (by simp)⟩

theorem visitVarDeclaration_var_index (sa : SemanticAnalyzer) (d : VarDeclaration) :
    (sa.visitVarDeclaration d).var_index_ = sa.var_index_ + 1 := by
  unfold visitVarDeclaration
  simp only []
  split
  · rw [declareSymbol_var_index]
  · show (declareSymbol _ _ _).2.var_index_ = _
    rw [declareSymbol_var_index]

theorem slotsOK_visitVarDeclaration (sa : SemanticAnalyzer) (d : VarDeclaration)
    (h : SlotsOK sa) : SlotsOK (sa.visitVarDeclaration d) := by
  obtain ⟨t, outer, ht, h1, h2⟩ := h
  unfold visitVarDeclaration
  simp only []
  rw [declareSymbol_cons _ _ _ t outer (by simpa [addInfo] using ht)]
  by_cases hc : SymbolTable.contains t d.name = true
  · simp only [hc, ↓reduceIte, Bool.false_eq_true]
    exact ⟨t, outer, ht, h1, slotsBelow_mono h2 (Nat.le_succ _)⟩
  · simp only [hc, ↓reduceIte]
    exact ⟨_, outer, rfl, distinctSlots_cons_variable h1 h2 _ _ rfl,
      slotsBelow_cons_variable h2 _ _ rfl⟩

/-- What a declaration of a variable stores when its name is free in the innermost table. -/
theorem visitVarDeclaration_stores (sa : SemanticAnalyzer) (d : VarDeclaration)
    (t : SymbolTable) (outer : List SymbolTable) (ht : sa.symbol_tables_ = t :: outer)
    (hc : SymbolTable.contains t d.name = false) :
    (sa.visitVarDeclaration d).symbol_tables_ =
      ((d.name, ⟨.Variable, none, sa.current_level_, sa.var_index_⟩) :: t) :: outer ∧
    (sa.visitVarDeclaration d).errors_ = sa.errors_ := by
  unfold visitVarDeclaration
  simp only []
  have hn : ¬ (SymbolTable.contains t d.name = true) := by simp [hc]
  rw [declareSymbol_cons _ _ _ t outer (by simpa [addInfo] using ht), if_neg hn]
  exact ⟨rfl, rfl⟩

theorem foldl_visitVarDeclaration_var_index : ∀ (vars : List VarDeclaration)
    (sa : SemanticAnalyzer),
    (vars.foldl visitVarDeclaration sa).var_index_ = sa.var_index_ + vars.length
  | [], sa => rfl
  | d :: vars, sa => by
    rw [List.foldl_cons, foldl_visitVarDeclaration_var_index vars,
      visitVarDeclaration_var_index, List.length_cons]
    omega

theorem foldl_visitConstDeclaration_var_index : ∀ (consts : List ConstDeclaration)
    (sa : SemanticAnalyzer), (consts.foldl visitConstDeclaration sa).var_index_ = sa.var_index_
  | [], sa => rfl
  | d :: consts, sa => by
    rw [List.foldl_cons, foldl_visitConstDeclaration_var_index consts,
      visitConstDeclaration_var_index]

theorem slotsOK_foldl_const : ∀ (consts : List ConstDeclaration) (sa : SemanticAnalyzer),
    SlotsOK sa → SlotsOK (consts.foldl visitConstDeclaration sa)
  | [], _, h => h
  | d :: consts, sa, h =>
    slotsOK_foldl_const consts _ (slotsOK_visitConstDeclaration sa d h)

theorem slotsOK_foldl_var : ∀ (vars : List VarDeclaration) (sa : SemanticAnalyzer),
    SlotsOK sa → SlotsOK (vars.foldl visitVarDeclaration sa)
  | [], _, h => h
  | d :: vars, sa, h => slotsOK_foldl_var vars _ (slotsOK_visitVarDeclaration sa d h)

/-- The innermost table after a procedure declaration: as before, or with the procedure symbol
added; the tables below are as before. -/
theorem visitProcedureDeclaration_top (d : ProcedureDeclaration) (sa sa1 : SemanticAnalyzer)
    (t : SymbolTable) (outer : List SymbolTable) (ht : sa.symbol_tables_ = t :: outer)
    (h : visitProcedureDeclaration sa d = some sa1) :
    sa1.symbol_tables_ = t :: outer ∨
    sa1.symbol_tables_ =
      ((d.name, ⟨.Procedure, none, sa.current_level_, 0⟩) :: t) :: outer := by
  obtain ⟨name, block⟩ := d
  simp only [visitProcedureDeclaration] at h
  rw [declareSymbol_cons _ _ _ t outer (by simpa [addInfo] using ht)] at h
  by_cases hc : SymbolTable.contains t name = true
  · simp only [hc, ↓reduceIte, Bool.false_eq_true, Option.some.injEq] at h
    subst h
    exact Or.inl ht
  · rw [if_neg hc] at h
    simp only [↓reduceIte] at h
    split at h
    · exact absurd h (by simp)
    · rename_i sa2 hb
      cases h
      obtain ⟨names, hch⟩ := topChanged_visitBlock block _ sa2 []
        (((name, ⟨.Procedure, none, sa.current_level_, 0⟩) :: t) :: outer) rfl hb
      obtain ⟨⟨t1, h1⟩, _⟩ := hch.outer_eq []
        (((name, ⟨.Procedure, none, sa.current_level_, 0⟩) :: t) :: outer) rfl
      exact Or.inr (by simp [leaveScope, h1, ProcedureDeclaration.name])

theorem topDistinct_visitProcedures : ∀ (procs : List ProcedureDeclaration)
    (sa sa1 : SemanticAnalyzer), TopDistinct sa → visitProcedures sa procs = some sa1 →
    TopDistinct sa1
  | [], sa, sa1, h, hv => by
    simp only [visitProcedures, Option.some.injEq] at hv
    subst hv
    exact h
  | d :: procs, sa, sa1, h, hv => by
    simp only [visitProcedures] at hv
    cases hs : visitProcedureDeclaration sa d with
    | none => simp [hs] at hv
    | some sa2 =>
      simp only [hs] at hv
      obtain ⟨t, outer, ht, hd⟩ := h
      refine topDistinct_visitProcedures procs sa2 sa1 ?_ hv
      rcases visitProcedureDeclaration_top d sa sa2 t outer ht hs with h2 | h2
      · exact ⟨t, outer, h2, hd⟩
      · exact ⟨_, outer, h2, distinctSlots_cons_other hd _ _ (by simp)⟩

/-! ## Procedures whose body is a call -/

theorem visitProcedureDeclaration_call_undeclared (sa : SemanticAnalyzer) (t : SymbolTable)
    (outer : List SymbolTable) (name callee : String) (ht : sa.symbol_tables_ = t :: outer)
    (hfree : SymbolTable.contains t name = false) (hne : name ≠ callee)
    (hlook : sa.lookupSymbol callee = none) :
    ∃ sa1, visitProcedureDeclaration sa (.mk name (.mk [] [] [] (.CallStatement callee))) =
        some sa1 ∧
      sa1.symbol_tables_ = ((name, ⟨.Procedure, none, sa.current_level_, 0⟩) :: t) :: outer ∧
      sa1.errors_ = sa.errors_ ++ ["未声明的过程: " ++ callee] := by
  have hfb : SymbolTable.find t callee = none := by
    unfold lookupSymbol at hlook
    rw [ht] at hlook
    simp only [lookupIn] at hlook
    cases hf : SymbolTable.find t callee with
    | none => rfl
    | some s => simp [hf] at hlook
  have hlb : lookupIn outer callee = none := by
    unfold lookupSymbol at hlook
    rw [ht] at hlook
    simpa [lookupIn, hfb] using hlook
  have hna : ¬ (SymbolTable.contains t name = true) := by simp [hfree]
  have h1 : visitProcedureDeclaration sa (.mk name (.mk [] [] [] (.CallStatement callee))) =
      some ((({ sa.addInfo ("Declaring procedure: " ++ name ++ " at level " ++
        toString sa.current_level_) with symbol_tables_ :=
          ((name, ⟨.Procedure, none, sa.current_level_, 0⟩) :: t) :: outer } :
        SemanticAnalyzer).enterScope.addError ("未声明的过程: " ++ callee)).leaveScope) := by
    simp only [visitProcedureDeclaration]
    rw [declareSymbol_cons _ _ _ t outer (by simpa [addInfo] using ht), if_neg hna]
    simp [visitBlock, visitProcedures, visitStatement, visitCallStatement, lookupSymbol,
      enterScope, lookupIn, SymbolTable.find, hne, hfb, hlb, makeError]
  exact ⟨_, h1, by simp [leaveScope, addError, enterScope, addInfo],
    by simp [leaveScope, addError, enterScope, addInfo]⟩

theorem visitProcedureDeclaration_call_sibling (sa : SemanticAnalyzer) (t : SymbolTable)
    (outer : List SymbolTable) (name callee : String) (s : Symbol)
    (ht : sa.symbol_tables_ = t :: outer) (hfree : SymbolTable.contains t name = false)
    (hne : name ≠ callee) (hfind : SymbolTable.find t callee = some s)
    (hs : s.type = .Procedure) :
    ∃ sa1, visitProcedureDeclaration sa (.mk name (.mk [] [] [] (.CallStatement callee))) =
        some sa1 ∧
      sa1.symbol_tables_ = ((name, ⟨.Procedure, none, sa.current_level_, 0⟩) :: t) :: outer ∧
      sa1.errors_ = sa.errors_ := by
  have hna : ¬ (SymbolTable.contains t name = true) := by simp [hfree]
  have h1 : visitProcedureDeclaration sa (.mk name (.mk [] [] [] (.CallStatement callee))) =
      some (({ sa.addInfo ("Declaring procedure: " ++ name ++ " at level " ++
        toString sa.current_level_) with symbol_tables_ :=
          ((name, ⟨.Procedure, none, sa.current_level_, 0⟩) :: t) :: outer } :
        SemanticAnalyzer).enterScope.leaveScope) := by
    simp only [visitProcedureDeclaration]
    rw [declareSymbol_cons _ _ _ t outer (by simpa [addInfo] using ht), if_neg hna]
    simp [visitBlock, visitProcedures, visitStatement, visitCallStatement, lookupSymbol,
      enterScope, lookupIn, SymbolTable.find, hne, hfind, hs]
  exact ⟨_, h1, by simp [leaveScope, enterScope, addInfo],
    by simp [leaveScope, enterScope, addInfo]⟩

end SemanticAnalyzer
end pl0

namespace pl0
namespace Parser

/-! ## Values returned and tokens read by the parsing methods -/

theorem items_drop (p : Parser) (k : Nat) : (p.drop k).lexer_.items = p.lexer_.items.drop k :=
  rfl

theorem take_of_take {α : Type} {xs ys : List α} {n m : Nat} (h : xs.take n = ys.take n)
    (hm : m ≤ n) : xs.take m = ys.take m := by
  have h1 : (xs.take n).take m = (ys.take n).take m := by rw [h]
  rwa [List.take_take, List.take_take, Nat.min_eq_left hm] at h1

theorem take_drop_of_take {α : Type} {xs ys : List α} {n k : Nat}
    (h : xs.take (k + n) = ys.take (k + n)) : (xs.drop k).take n = (ys.drop k).take n := by
  have h1 : (xs.take (k + n)).drop k = (ys.take (k + n)).drop k := by rw [h]
  rw [List.drop_take, List.drop_take] at h1
  simpa using h1

theorem head_of_take {q p : Parser} (h : q.lexer_.items.take 1 = p.lexer_.items.take 1)
    (hp : p.lexer_.items ≠ []) : q.lexer_.head = p.lexer_.head := by
  unfold TokenStream.head
  cases hi : p.lexer_.items with
  | nil => exact absurd hi hp
  | cons x xs =>
    rw [hi] at h
    cases hq : q.lexer_.items with
    | nil =>
      rw [hq] at h
      simp at h
    | cons y ys =>
      rw [hq] at h
      simp only [List.take_succ_cons, List.take_zero, List.cons.injEq, and_true] at h
      rw [h]

theorem peekToken_of_take {q p : Parser} (h : q.lexer_.items.take 1 = p.lexer_.items.take 1) :
    q.lexer_.peekToken = p.lexer_.peekToken := by
  unfold TokenStream.peekToken TokenStream.head
  cases hi : p.lexer_.items with
  | nil =>
    rw [hi] at h
    cases hq : q.lexer_.items with
    | nil => rfl
    | cons y ys =>
      rw [hq] at h
      simp at h
  | cons x xs =>
    rw [hi] at h
    cases hq : q.lexer_.items with
    | nil =>
      rw [hq] at h
      simp at h
    | cons y ys =>
      rw [hq] at h
      simp only [List.take_succ_cons, List.take_zero, List.cons.injEq, and_true] at h
      rw [h]

theorem nextType_of_take {q p : Parser} (h : q.lexer_.items.take 1 = p.lexer_.items.take 1) :
    nextType q.tokens = nextType p.tokens := by
  rw [← peekToken_type, ← peekToken_type, peekToken_of_take h]

theorem good_of_not_ok {α : Type} {P : α → Prop} {x y : ParserM α} {p : Parser}
    (h : ∀ a p1, x p ≠ .ok a p1) : Good P x y p :=
  fun a p1 hx => absurd hx (h a p1)

theorem good_outOfFuel {α : Type} {P : α → Prop} {x y : ParserM α} {p : Parser}
    (h : x p = .outOfFuel) : Good P x y p :=
  good_of_not_ok (fun a p1 hx => by rw [h] at hx; cases hx)

theorem good_of_thrown {α : Type} {P : α → Prop} {x y : ParserM α} {p : Parser}
    (h : ∃ e p1, x p = .thrown e p1) : Good P x y p := by
  obtain ⟨e, p2, he⟩ := h
  exact good_of_not_ok (fun a p1 hx => by rw [he] at hx; cases hx)

theorem good_error {α : Type} {P : α → Prop} (message : String) (y : ParserM α) (p : Parser) :
    Good P (error message : ParserM α) y p :=
  good_of_thrown (error_thrown message p)

theorem good_errorAt {α : Type} {P : α → Prop} (pos : Nat × Nat) (message : String)
    (y : ParserM α) (p : Parser) : Good P (errorAt pos message : ParserM α) y p :=
  good_of_thrown (errorAt_thrown pos message p)

theorem good_pure {α : Type} {P : α → Prop} {a : α} (h : P a) (p : Parser) :
    Good P (pure a : ParserM α) (pure a) p := by
  intro b p1 hx
  simp only [pure_apply] at hx
  injection hx with h1 h2
  subst h1 h2
  exact ⟨h, 0, by simp, fun q _ => by simp⟩

theorem good_check (ty : TokenType) (p : Parser) :
    Good (fun b => b = decide (nextType p.tokens = ty)) (check ty) (check ty) p := by
  intro b p1 hx
  rw [check_apply] at hx
  injection hx with h1 h2
  subst h1 h2
  refine ⟨rfl, 0, by simp, fun q hq => ?_⟩
  rw [check_apply, nextType_of_take hq]
  simp

theorem good_peek (p : Parser) :
    Good (fun t => t.type = nextType p.tokens) peek peek p := by
  intro b p1 hx
  rw [peek_apply] at hx
  injection hx with h1 h2
  subst h1 h2
  refine ⟨peekToken_type p, 0, by simp, fun q hq => ?_⟩
  rw [peek_apply, peekToken_of_take hq]
  simp

theorem good_position {p : Parser} (hp : p.lexer_.items ≠ []) :
    Good (fun _ => True) position position p := by
  intro b p1 hx
  rw [position_apply] at hx
  injection hx with h1 h2
  subst h1 h2
  refine ⟨trivial, 0, by simp, fun q hq => ?_⟩
  rw [position_apply, head_of_take hq hp]
  simp

theorem good_advance (p : Parser) :
    Good (fun t => t = p.lexer_.peekToken) advance advance p := by
  intro b p1 hx
  rw [advance_apply] at hx
  injection hx with h1 h2
  subst h1 h2
  refine ⟨rfl, 1, rfl, fun q hq => ?_⟩
  rw [advance_apply, peekToken_of_take (take_of_take hq (by omega))]

theorem good_consume (ty : TokenType) (message : String) (p : Parser) :
    Good (fun t => t = p.lexer_.peekToken ∧ nextType p.tokens = ty) (consume ty message)
      (consume ty message) p := by
  intro b p1 hx
  obtain ⟨hb, hn⟩ := consume_ok hx
  have hc : consume ty message p = advance p := by
    simp [consume, hn]
  rw [hc, advance_apply] at hx
  injection hx with _ h2
  subst h2
  refine ⟨⟨hb, hn⟩, 1, rfl, fun q hq => ?_⟩
  have h1 := take_of_take hq (show 1 ≤ 1 + 1 by omega)
  have hc2 : consume ty message q = advance q := by
    simp [consume, nextType_of_take h1, hn]
  rw [hc2, advance_apply, peekToken_of_take h1, hb]

theorem good_match (ty : TokenType) (p : Parser) :
    Good (fun _ => True) (match_ ty) (match_ ty) p := by
  intro b p1 hx
  rcases match_cases ty p with ⟨hn, hm⟩ | ⟨hn, hm⟩
  · rw [hm] at hx
    injection hx with h1 h2
    subst h1 h2
    refine ⟨trivial, 1, rfl, fun q hq => ?_⟩
    exact match_same (by rw [nextType_of_take (take_of_take hq (by omega)), hn])
  · rw [hm] at hx
    injection hx with h1 h2
    subst h1 h2
    refine ⟨trivial, 0, by simp, fun q hq => ?_⟩
    rw [match_other (by rw [nextType_of_take hq]; exact hn)]
    simp

theorem good_valueText (t : Token) (p : Parser) :
    Good (fun _ => True) (valueText t) (valueText t) p := by
  intro b p1 hx
  unfold valueText at hx ⊢
  cases hv : t.valueText with
  | none =>
    rw [hv] at hx
    cases hx
  | some v =>
    rw [hv] at hx
    simp only [pure_apply] at hx
    injection hx with h1 h2
    subst h1 h2
    exact ⟨trivial, 0, by simp, fun q _ => by simp⟩

theorem good_valueInt (t : Token) (p : Parser) :
    Good (fun _ => True) (valueInt t) (valueInt t) p := by
  intro b p1 hx
  unfold valueInt at hx ⊢
  cases hv : t.valueInt with
  | none =>
    rw [hv] at hx
    cases hx
  | some v =>
    rw [hv] at hx
    simp only [pure_apply] at hx
    injection hx with h1 h2
    subst h1 h2
    exact ⟨trivial, 0, by simp, fun q _ => by simp⟩

theorem good_tokenTypeToBinaryOp (ty : TokenType) (p : Parser) :
    Good (fun _ => True) (tokenTypeToBinaryOp ty) (tokenTypeToBinaryOp ty) p := by
  intro b p1 hx
  cases ty <;> simp only [tokenTypeToBinaryOp, pure_apply, throw_] at hx ⊢ <;>
    first
    | (injection hx with h1 h2
       subst h1 h2
       exact ⟨trivial, 0, by simp, fun q _ => by simp⟩)
    | cases hx

theorem good_mono {α : Type} {P Q : α → Prop} {x y : ParserM α} {p : Parser}
    (h : Good Q x y p) (hpq : ∀ a, Q a → P a) : Good P x y p := by
  intro a p1 hx
  obtain ⟨h1, h2⟩ := h a p1 hx
  exact ⟨hpq a h1, h2⟩

theorem good_bind {α β : Type} {Q : α → Prop} {P : β → Prop} {x y : ParserM α}
    {f g : α → ParserM β} {p : Parser} (hx : Good Q x y p)
    (hf : ∀ a p1, Q a → x p = .ok a p1 → Good P (f a) (g a) p1) :
    Good P (x >>= f) (y >>= g) p := by
  intro b p2 h
  cases hxp : x p with
  | ok a p1 =>
    obtain ⟨hq, k, h1, h2⟩ := hx a p1 hxp
    rw [bind_ok hxp] at h
    obtain ⟨hp, j, g1, g2⟩ := hf a p1 hq hxp b p2 h
    subst h1
    refine ⟨hp, k + j, by rw [g1, drop_drop], fun q hq2 => ?_⟩
    have e1 : y q = .ok a (q.drop k) :=
      h2 q (take_of_take hq2 (by omega))
    rw [bind_ok e1]
    have e2 := g2 (q.drop k) (by
      rw [items_drop, items_drop]
      exact take_drop_of_take (by rw [← Nat.add_assoc]; exact hq2))
    rw [e2, drop_drop]
  | thrown e p1 =>
    rw [bind_thrown hxp] at h
    cases h
  | outOfFuel =>
    simp only [bind_apply, hxp] at h
    cases h

theorem good_congr {α : Type} {P : α → Prop} {x y x1 y1 : ParserM α} {p : Parser}
    (h : Good P x y p) (hx : x1 p = x p) (hy : ∀ q, y1 q = y q) : Good P x1 y1 p := by
  intro a p1 h1
  rw [hx] at h1
  obtain ⟨hp, k, e1, e2⟩ := h a p1 h1
  exact ⟨hp, k, e1, fun q hq => by rw [hy q]; exact e2 q hq⟩

end Parser
end pl0

namespace pl0
namespace Parser

theorem check_same {ty : TokenType} {p p1 : Parser} {a : Bool} (h : check ty p = .ok a p1) :
    p1 = p := by
  rw [check_apply] at h
  injection h with _ h2
  exact h2.symm

theorem items_ne_nil {p : Parser} (h : nextType p.tokens ≠ .END_OF_FILE) :
    p.lexer_.items ≠ [] := by
  intro hn
  apply h
  unfold tokens
  rw [hn]
  rfl

theorem exprGood_zero (m : Nat) : ExprGood 0 m where
  factor := fun p => good_outOfFuel (by simp [parseFactor, outOfFuel])
  powerLoop := fun p _ _ => good_outOfFuel (by simp [parsePowerLoop, outOfFuel])
  power := fun p => good_outOfFuel (by simp [parsePower, outOfFuel])
  termLoop := fun p _ _ => good_outOfFuel (by simp [parseTermLoop, outOfFuel])
  term := fun p => good_outOfFuel (by simp [parseTerm, outOfFuel])
  expressionLoop := fun p _ _ => good_outOfFuel (by simp [parseExpressionLoop, outOfFuel])
  expression := fun p => good_outOfFuel (by simp [parseExpression, outOfFuel])

theorem parseFactor_good {n m : Nat} (ih : ExprGood n m) (p : Parser) :
    Good (fun e => e.noUnary = true) (parseFactor (n + 1)) (parseFactor (m + 1)) p := by
  rw [parseFactor, parseFactor]
  refine good_bind (good_check _ _) ?_
  intro a p1 ha hx
  have e1 := check_same hx
  subst e1
  by_cases h1 : nextType p1.tokens = .NUMBER
  · simp only [ha, h1, decide_True, ↓reduceIte]
    refine good_bind (good_position (items_ne_nil (by rw [h1]; decide))) ?_
    intro pos p2 _ _
    refine good_bind (good_advance _) ?_
    intro token p3 _ _
    cases hv : token.valueInt with
    | none => exact good_errorAt _ _ _ _
    | some v => exact good_pure (by exact rfl) _
  · simp only [ha, h1, decide_False, Bool.false_eq_true, ↓reduceIte]
    refine good_bind (good_check _ _) ?_
    intro b p2 hb hx2
    have e2 := check_same hx2
    subst e2
    by_cases h2 : nextType p2.tokens = .IDENTIFIER
    · simp only [hb, h2, decide_True, ↓reduceIte]
      refine good_bind (good_position (items_ne_nil (by rw [h2]; decide))) ?_
      intro pos p3 _ _
      refine good_bind (good_advance _) ?_
      intro token p4 _ _
      cases hv : token.valueText with
      | none => exact good_errorAt _ _ _ _
      | some v => exact good_pure (by exact rfl) _
    · simp only [hb, h2, decide_False, Bool.false_eq_true, ↓reduceIte]
      refine good_bind (good_check _ _) ?_
      intro c p3 hc hx3
      cases c with
      | true =>
        simp only [↓reduceIte]
        refine good_bind (good_advance _) ?_
        intro _ p4 _ _
        refine good_bind (ih.expression _) ?_
        intro expr p5 he _
        refine good_bind (good_consume _ _ _) ?_
        intro _ p6 _ _
        exact good_pure (by exact he) _
      | false =>
        simp only [Bool.false_eq_true, ↓reduceIte]
        exact good_error _ _ _

theorem parsePowerLoop_good {n m : Nat} (ih : ExprGood n m) (p : Parser) (acc : Expression)
    (hacc : acc.noUnary = true) :
    Good (fun e => e.noUnary = true) (parsePowerLoop (n + 1) acc)
      (parsePowerLoop (m + 1) acc) p := by
  rw [parsePowerLoop, parsePowerLoop]
  refine good_bind (good_check _ _) ?_
  intro a p1 _ _
  cases a with
  | true =>
    simp only [↓reduceIte]
    refine good_bind (good_advance _) ?_
    intro _ p2 _ _
    refine good_bind (ih.power _) ?_
    intro right p3 hr _
    exact ih.powerLoop _ _ (by simp [Expression.noUnary, hacc, hr])
  | false =>
    simp only [Bool.false_eq_true, ↓reduceIte]
    exact good_pure (by exact hacc) _

theorem parseTermLoop_good {n m : Nat} (ih : ExprGood n m) (p : Parser) (acc : Expression)
    (hacc : acc.noUnary = true) :
    Good (fun e => e.noUnary = true) (parseTermLoop (n + 1) acc)
      (parseTermLoop (m + 1) acc) p := by
  have body : ∀ q : Parser, Good (fun e => e.noUnary = true)
      (peek >>= fun t => tokenTypeToBinaryOp t.type >>= fun op => advance >>= fun _ =>
        parsePower n >>= fun right => parseTermLoop n (.BinaryExpression acc op right))
      (peek >>= fun t => tokenTypeToBinaryOp t.type >>= fun op => advance >>= fun _ =>
        parsePower m >>= fun right => parseTermLoop m (.BinaryExpression acc op right)) q := by
    intro q
    refine good_bind (good_peek _) ?_
    intro t q1 _ _
    refine good_bind (good_tokenTypeToBinaryOp _ _) ?_
    intro op q2 _ _
    refine good_bind (good_advance _) ?_
    intro _ q3 _ _
    refine good_bind (ih.power _) ?_
    intro right q4 hr _
    exact ih.termLoop _ _ (by simp [Expression.noUnary, hacc, hr])
  rw [parseTermLoop, parseTermLoop]
  refine good_bind (good_check _ _) ?_
  intro a p1 _ _
  refine good_bind (good_check _ _) ?_
  intro b p2 _ _
  cases a <;> cases b <;>
    simp only [Bool.or_true, Bool.or_false, Bool.or_self, Bool.false_eq_true, ↓reduceIte] <;>
    first
    | exact good_pure (by exact hacc) _
    | exact body _

theorem parseExpressionLoop_good {n m : Nat} (ih : ExprGood n m) (p : Parser)
    (acc : Expression) (hacc : acc.noUnary = true) :
    Good (fun e => e.noUnary = true) (parseExpressionLoop (n + 1) acc)
      (parseExpressionLoop (m + 1) acc) p := by
  have body : ∀ q : Parser, Good (fun e => e.noUnary = true)
      (peek >>= fun t => tokenTypeToBinaryOp t.type >>= fun op => advance >>= fun _ =>
        parseTerm n >>= fun right => parseExpressionLoop n (.BinaryExpression acc op right))
      (peek >>= fun t => tokenTypeToBinaryOp t.type >>= fun op => advance >>= fun _ =>
        parseTerm m >>= fun right =>
          parseExpressionLoop m (.BinaryExpression acc op right)) q := by
    intro q
    refine good_bind (good_peek _) ?_
    intro t q1 _ _
    refine good_bind (good_tokenTypeToBinaryOp _ _) ?_
    intro op q2 _ _
    refine good_bind (good_advance _) ?_
    intro _ q3 _ _
    refine good_bind (ih.term _) ?_
    intro right q4 hr _
    exact ih.expressionLoop _ _ (by simp [Expression.noUnary, hacc, hr])
  rw [parseExpressionLoop, parseExpressionLoop]
  refine good_bind (good_check _ _) ?_
  intro a p1 _ _
  refine good_bind (good_check _ _) ?_
  intro b p2 _ _
  cases a <;> cases b <;>
    simp only [Bool.or_true, Bool.or_false, Bool.or_self, Bool.false_eq_true, ↓reduceIte] <;>
    first
    | exact good_pure (by exact hacc) _
    | exact body _

theorem exprGood : ∀ n m : Nat, n ≤ m → ExprGood n m
  | 0, m, _ => exprGood_zero m
  | n + 1, 0, h => absurd h (by omega)
  | n + 1, m + 1, h =>
    have ih := exprGood n m (by omega)
    { factor := parseFactor_good ih
      powerLoop := parsePowerLoop_good ih
      power := fun p => by
        rw [parsePower, parsePower]
        exact good_bind (ih.factor p) (fun a p1 ha _ => ih.powerLoop p1 a ha)
      termLoop := parseTermLoop_good ih
      term := fun p => by
        rw [parseTerm, parseTerm]
        exact good_bind (ih.power p) (fun a p1 ha _ => ih.termLoop p1 a ha)
      expressionLoop := parseExpressionLoop_good ih
      expression := fun p => by
        rw [parseExpression, parseExpression]
        exact good_bind (ih.term p) (fun a p1 ha _ => ih.expressionLoop p1 a ha) }

theorem parseExpression_good {n m : Nat} (h : n ≤ m) (p : Parser) :
    Good (fun e => e.noUnary = true) (parseExpression n) (parseExpression m) p :=
  (exprGood n m h).expression p

theorem parseCondition_good {n m : Nat} (h : n ≤ m) (p : Parser) :
    Good (fun e => e.noUnary = true) (parseCondition n) (parseCondition m) p := by
  unfold parseCondition
  refine good_bind (good_check _ _) ?_
  intro a p1 _ _
  cases a with
  | true =>
    simp only [↓reduceIte]
    refine good_bind (good_advance _) ?_
    intro _ p2 _ _
    exact parseExpression_good h _
  | false =>
    simp only [Bool.false_eq_true, ↓reduceIte]
    refine good_bind (parseExpression_good h _) ?_
    intro left p2 hl _
    refine good_bind (good_peek _) ?_
    intro t p3 _ _
    cases hc : isComparison t.type with
    | false =>
      simp only [Bool.not_false, ↓reduceIte]
      exact good_error _ _ _
    | true =>
      simp only [Bool.not_true, Bool.false_eq_true, ↓reduceIte]
      refine good_bind (good_advance _) ?_
      intro _ p4 _ _
      refine good_bind (parseExpression_good h _) ?_
      intro right p5 hr _
      refine good_bind (good_tokenTypeToBinaryOp _ _) ?_
      intro bop p6 _ _
      exact good_pure (by simp [Expression.noUnary, hl, hr]) _

theorem parseAssignStatement_good {n m : Nat} (h : n ≤ m) (p : Parser) :
    Good Tidy (parseAssignStatement n) (parseAssignStatement m) p := by
  unfold parseAssignStatement
  refine good_bind (good_consume _ _ _) ?_
  intro name p1 _ _
  refine good_bind (good_valueText _ _) ?_
  intro nm p2 _ _
  refine good_bind (good_consume _ _ _) ?_
  intro _ p3 _ _
  refine good_bind (parseExpression_good h _) ?_
  intro expr p4 he _
  exact good_pure (by exact ⟨by simp [Statement.noUnary, he], by simp [Statement.beginsPresent]⟩) _

theorem parseCallStatement_good (p : Parser) :
    Good Tidy parseCallStatement parseCallStatement p := by
  unfold parseCallStatement
  refine good_bind (good_advance _) ?_
  intro _ p1 _ _
  refine good_bind (good_consume _ _ _) ?_
  intro name p2 _ _
  refine good_bind (good_valueText _ _) ?_
  intro nm p3 _ _
  exact good_pure (by exact ⟨by simp [Statement.noUnary], by simp [Statement.beginsPresent]⟩) _

theorem parseConstDeclarationsLoop_good : ∀ (n m : Nat), n ≤ m → ∀ (p : Parser)
    (decls : List ConstDeclaration), Good (fun _ => True) (parseConstDeclarationsLoop n decls)
      (parseConstDeclarationsLoop m decls) p
  | 0, m, _, p, decls => good_outOfFuel (by simp [parseConstDeclarationsLoop, outOfFuel])
  | n + 1, 0, h, _, _ => absurd h (by omega)
  | n + 1, m + 1, h, p, decls => by
    rw [parseConstDeclarationsLoop, parseConstDeclarationsLoop]
    refine good_bind (good_consume _ _ _) ?_
    intro name p1 _ _
    refine good_bind (good_consume _ _ _) ?_
    intro _ p2 _ _
    refine good_bind (good_consume _ _ _) ?_
    intro value p3 _ _
    refine good_bind (good_valueText _ _) ?_
    intro nm p4 _ _
    refine good_bind (good_valueInt _ _) ?_
    intro v p5 _ _
    refine good_bind (good_match _ _) ?_
    intro b p6 _ _
    cases b with
    | true =>
      simp only [↓reduceIte]
      exact parseConstDeclarationsLoop_good n m (by omega) _ _
    | false =>
      simp only [Bool.false_eq_true, ↓reduceIte]
      exact good_pure (by exact trivial) _

theorem parseConstDeclarations_good {n m : Nat} (h : n ≤ m) (p : Parser) :
    Good (fun _ => True) (parseConstDeclarations n) (parseConstDeclarations m) p := by
  unfold parseConstDeclarations
  refine good_bind (good_match _ _) ?_
  intro b p1 _ _
  cases b with
  | true =>
    simp only [↓reduceIte]
    refine good_bind (parseConstDeclarationsLoop_good n m h _ _) ?_
    intro decls p2 _ _
    refine good_bind (good_consume _ _ _) ?_
    intro _ p3 _ _
    exact good_pure (by exact trivial) _
  | false =>
    simp only [Bool.false_eq_true, ↓reduceIte]
    exact good_pure (by exact trivial) _

theorem parseVarDeclarationsLoop_good : ∀ (n m : Nat), n ≤ m → ∀ (p : Parser)
    (decls : List VarDeclaration), Good (fun _ => True) (parseVarDeclarationsLoop n decls)
      (parseVarDeclarationsLoop m decls) p
  | 0, m, _, p, decls => good_outOfFuel (by simp [parseVarDeclarationsLoop, outOfFuel])
  | n + 1, 0, h, _, _ => absurd h (by omega)
  | n + 1, m + 1, h, p, decls => by
    rw [parseVarDeclarationsLoop, parseVarDeclarationsLoop]
    refine good_bind (good_consume _ _ _) ?_
    intro name p1 _ _
    refine good_bind (good_valueText _ _) ?_
    intro nm p4 _ _
    refine good_bind (good_match _ _) ?_
    intro b p6 _ _
    cases b with
    | true =>
      simp only [↓reduceIte]
      exact parseVarDeclarationsLoop_good n m (by omega) _ _
    | false =>
      simp only [Bool.false_eq_true, ↓reduceIte]
      exact good_pure (by exact trivial) _

theorem parseVarDeclarations_good {n m : Nat} (h : n ≤ m) (p : Parser) :
    Good (fun _ => True) (parseVarDeclarations n) (parseVarDeclarations m) p := by
  unfold parseVarDeclarations
  refine good_bind (good_match _ _) ?_
  intro b p1 _ _
  cases b with
  | true =>
    simp only [↓reduceIte]
    refine good_bind (parseVarDeclarationsLoop_good n m h _ _) ?_
    intro decls p2 _ _
    refine good_bind (good_consume _ _ _) ?_
    intro _ p3 _ _
    exact good_pure (by exact trivial) _
  | false =>
    simp only [Bool.false_eq_true, ↓reduceIte]
    exact good_pure (by exact trivial) _

end Parser
end pl0

namespace pl0
namespace Parser

theorem noUnaryList_append (xs : List Statement) (s : Statement) :
    Statement.noUnaryList (xs ++ [s]) = (Statement.noUnaryList xs && s.noUnary) := by
  induction xs with
  | nil => simp [Statement.noUnaryList]
  | cons x xs ih => simp [Statement.noUnaryList, ih, Bool.and_assoc]

theorem beginsPresentList_append (xs : List Statement) (s : Statement) :
    Statement.beginsPresentList (xs ++ [s]) =
      (Statement.beginsPresentList xs && (s.isPresent && s.beginsPresent)) := by
  induction xs with
  | nil => simp [Statement.beginsPresentList]
  | cons x xs ih => simp [Statement.beginsPresentList, ih, Bool.and_assoc]

theorem tidyList_nil : TidyList [] := ⟨rfl, rfl⟩

theorem tidyList_push {acc : List Statement} {stmt : Statement} (ha : TidyList acc)
    (hs : Tidy stmt) : TidyList (pushIfPresent acc stmt) := by
  unfold pushIfPresent
  by_cases hp : stmt.isPresent = true
  · rw [if_pos hp]
    exact ⟨by rw [noUnaryList_append, ha.1, hs.1]; rfl,
      by rw [beginsPresentList_append, ha.2, hs.2, hp]; rfl⟩
  · rw [if_neg hp]
    exact ha

theorem tidyList_singleton {s : Statement} (hp : s.isPresent = true) (hs : Tidy s) :
    TidyList [s] :=
  ⟨by simp [Statement.noUnaryList, hs.1], by simp [Statement.beginsPresentList, hs.2, hp]⟩

theorem tidy_begin {ss : List Statement} (h : TidyList ss) : Tidy (.BeginStatement ss) :=
  ⟨by simp [Statement.noUnary, h.1], by simp [Statement.beginsPresent, h.2]⟩

theorem tidy_nullptr : Tidy .nullptr := ⟨rfl, rfl⟩

theorem tidy_if {c : Expression} {t : Statement} (hc : c.noUnary = true) (ht : Tidy t) :
    Tidy (.IfStatement c t) :=
  ⟨by simp [Statement.noUnary, hc, ht.1], by simp [Statement.beginsPresent, ht.2]⟩

theorem tidy_while {c : Expression} {t : Statement} (hc : c.noUnary = true) (ht : Tidy t) :
    Tidy (.WhileStatement c t) :=
  ⟨by simp [Statement.noUnary, hc, ht.1], by simp [Statement.beginsPresent, ht.2]⟩

theorem stmtGood_zero (m : Nat) : StmtGood 0 m where
  statement := fun p => good_outOfFuel (by simp [parseStatement, outOfFuel])
  beginStatement := fun p => good_outOfFuel (by simp [parseBeginStatement, outOfFuel])
  beginLoop := fun p _ _ => good_outOfFuel (by simp [parseBeginLoop, outOfFuel])
  ifStatement := fun p => good_outOfFuel (by simp [parseIfStatement, outOfFuel])
  ifLoop := fun p _ _ => good_outOfFuel (by simp [parseIfLoop, outOfFuel])
  whileStatement := fun p => good_outOfFuel (by simp [parseWhileStatement, outOfFuel])

theorem parseStatement_good {n m : Nat} (h : n ≤ m) (ih : StmtGood n m) (p : Parser) :
    Good Tidy (parseStatement (n + 1)) (parseStatement (m + 1)) p := by
  rw [parseStatement, parseStatement]
  refine good_bind (good_peek _) ?_
  intro token p1 _ _
  cases hty : token.type <;> simp only [] <;>
    first
    | exact parseAssignStatement_good h _
    | exact parseCallStatement_good _
    | exact ih.beginStatement _
    | exact ih.ifStatement _
    | exact ih.whileStatement _
    | exact good_pure (by exact tidy_nullptr) _
    | exact good_error _ _ _

theorem parseBeginStatement_good {n m : Nat} (ih : StmtGood n m) (p : Parser) :
    Good Tidy (parseBeginStatement (n + 1)) (parseBeginStatement (m + 1)) p := by
  rw [parseBeginStatement, parseBeginStatement]
  refine good_bind (good_advance _) ?_
  intro _ p1 _ _
  refine good_bind (ih.beginLoop _ _ tidyList_nil) ?_
  intro statements p2 hs _
  refine good_bind (good_consume _ _ _) ?_
  intro _ p3 _ _
  exact good_pure (by exact tidy_begin hs) _

theorem parseBeginLoop_good {n m : Nat} (ih : StmtGood n m) (p : Parser)
    (acc : List Statement) (hacc : TidyList acc) :
    Good TidyList (parseBeginLoop (n + 1) acc) (parseBeginLoop (m + 1) acc) p := by
  rw [parseBeginLoop, parseBeginLoop]
  refine good_bind (good_check _ _) ?_
  intro a p1 _ _
  cases a with
  | true =>
    simp only [Bool.not_true, Bool.false_eq_true, ↓reduceIte]
    exact good_pure (by exact hacc) _
  | false =>
    simp only [Bool.not_false, ↓reduceIte]
    refine good_bind (ih.statement _) ?_
    intro stmt p2 hs _
    refine good_bind (good_match _ _) ?_
    intro b p3 _ _
    refine good_bind (good_check _ _) ?_
    intro c p4 _ _
    cases b <;> cases c <;>
      simp only [Bool.not_true, Bool.not_false, Bool.and_true, Bool.and_false, Bool.and_self,
        Bool.false_eq_true, ↓reduceIte] <;>
      first
      | exact good_error _ _ _
      | exact ih.beginLoop _ _ (tidyList_push hacc hs)

theorem parseIfLoop_good {n m : Nat} (ih : StmtGood n m) (p : Parser)
    (acc : List Statement) (hacc : TidyList acc) :
    Good TidyList (parseIfLoop (n + 1) acc) (parseIfLoop (m + 1) acc) p := by
  rw [parseIfLoop, parseIfLoop]
  refine good_bind (good_check _ _) ?_
  intro a p1 _ _
  refine good_bind (good_check _ _) ?_
  intro b p2 _ _
  have body : ∀ q : Parser, Good TidyList
      (parseStatement n >>= fun stmt => match_ .SEMICOLON >>= fun _ =>
        parseIfLoop n (pushIfPresent acc stmt))
      (parseStatement m >>= fun stmt => match_ .SEMICOLON >>= fun _ =>
        parseIfLoop m (pushIfPresent acc stmt)) q := by
    intro q
    refine good_bind (ih.statement _) ?_
    intro stmt q1 hs _
    refine good_bind (good_match _ _) ?_
    intro _ q2 _ _
    exact ih.ifLoop _ _ (tidyList_push hacc hs)
  cases a <;> cases b <;>
    simp only [Bool.not_true, Bool.not_false, Bool.and_true, Bool.and_false, Bool.and_self,
      Bool.false_eq_true, ↓reduceIte] <;>
    first
    | exact good_pure (by exact hacc) _
    | exact body _

theorem parseIfStatement_good {n m : Nat} (h : n ≤ m) (ih : StmtGood n m) (p : Parser) :
    Good Tidy (parseIfStatement (n + 1)) (parseIfStatement (m + 1)) p := by
  rw [parseIfStatement, parseIfStatement]
  refine good_bind (good_advance _) ?_
  intro _ p1 _ _
  refine good_bind (parseCondition_good h _) ?_
  intro condition p2 hc _
  refine good_bind (good_consume _ _ _) ?_
  intro _ p3 _ _
  refine good_bind (ih.statement _) ?_
  intro then_stmt p4 hs _
  refine good_bind (good_check _ _) ?_
  intro a p5 _ _
  refine good_bind (good_check _ _) ?_
  intro b p6 _ _
  by_cases hcond : (then_stmt.isPresent && !then_stmt.isBegin && !a && !b) = true
  · rw [if_pos hcond, if_pos hcond]
    have hp : then_stmt.isPresent = true := by
      simp only [Bool.and_eq_true] at hcond
      exact hcond.1.1.1
    refine good_bind (ih.ifLoop _ _ (tidyList_singleton hp hs)) ?_
    intro statements p7 hss _
    exact good_pure (by exact tidy_if hc (tidy_begin hss)) _
  · rw [if_neg hcond, if_neg hcond]
    exact good_pure (by exact tidy_if hc hs) _

theorem parseWhileStatement_good {n m : Nat} (h : n ≤ m) (ih : StmtGood n m) (p : Parser) :
    Good Tidy (parseWhileStatement (n + 1)) (parseWhileStatement (m + 1)) p := by
  rw [parseWhileStatement, parseWhileStatement]
  refine good_bind (good_advance _) ?_
  intro _ p1 _ _
  refine good_bind (parseCondition_good h _) ?_
  intro condition p2 hc _
  refine good_bind (good_consume _ _ _) ?_
  intro _ p3 _ _
  refine good_bind (ih.statement _) ?_
  intro body p4 hs _
  exact good_pure (by exact tidy_while hc hs) _

theorem stmtGood : ∀ n m : Nat, n ≤ m → StmtGood n m
  | 0, m, _ => stmtGood_zero m
  | n + 1, 0, h => absurd h (by omega)
  | n + 1, m + 1, h =>
    have h1 : n ≤ m := by omega
    have ih := stmtGood n m h1
    { statement := parseStatement_good h1 ih
      beginStatement := parseBeginStatement_good ih
      beginLoop := parseBeginLoop_good ih
      ifStatement := parseIfStatement_good h1 ih
      ifLoop := parseIfLoop_good ih
      whileStatement := parseWhileStatement_good h1 ih }

theorem tidyProcedures_append {procs : List ProcedureDeclaration} {name : String}
    {block : Block} (hp : TidyProcedures procs) (hb : TidyBlock block) :
    TidyProcedures (procs ++ [.mk name block]) := by
  induction procs with
  | nil =>
    exact ⟨by simp [ProcedureDeclaration.noUnaryList, ProcedureDeclaration.noUnary, hb.1],
      by simp [ProcedureDeclaration.beginsPresentList, ProcedureDeclaration.beginsPresent,
        hb.2]⟩
  | cons d ds ih =>
    have h1 := hp.1
    have h2 := hp.2
    simp only [ProcedureDeclaration.noUnaryList, Bool.and_eq_true] at h1
    simp only [ProcedureDeclaration.beginsPresentList, Bool.and_eq_true] at h2
    obtain ⟨i1, i2⟩ := ih ⟨h1.2, h2.2⟩
    exact ⟨by simp [ProcedureDeclaration.noUnaryList, h1.1, i1],
      by simp [ProcedureDeclaration.beginsPresentList, h2.1, i2]⟩

theorem blockGood_zero (m : Nat) : BlockGood 0 m where
  block := fun p => good_outOfFuel (by simp [parseBlock, outOfFuel])
  procedures := fun p _ _ => good_outOfFuel (by simp [parseProcedures, outOfFuel])

theorem parseBlock_good_step {n m : Nat} (h : n ≤ m) (ih : BlockGood n m) (p : Parser) :
    Good TidyBlock (parseBlock (n + 1)) (parseBlock (m + 1)) p := by
  rw [parseBlock, parseBlock]
  refine good_bind (parseConstDeclarations_good h _) ?_
  intro constDecls p1 _ _
  refine good_bind (parseVarDeclarations_good h _) ?_
  intro varDecls p2 _ _
  refine good_bind (ih.procedures _ _ ⟨rfl, rfl⟩) ?_
  intro procedures p3 hp _
  refine good_bind ((stmtGood n m h).statement _) ?_
  intro statement p4 hs _
  exact good_pure (by exact ⟨by simp [Block.noUnary, hp.1, hs.1],
    by simp [Block.beginsPresent, hp.2, hs.2]⟩) _

theorem parseProcedures_good {n m : Nat} (ih : BlockGood n m) (p : Parser)
    (procs : List ProcedureDeclaration) (hprocs : TidyProcedures procs) :
    Good TidyProcedures (parseProcedures (n + 1) procs) (parseProcedures (m + 1) procs) p := by
  rw [parseProcedures, parseProcedures]
  refine good_bind (good_match _ _) ?_
  intro b p1 _ _
  cases b with
  | true =>
    simp only [↓reduceIte]
    refine good_bind (good_consume _ _ _) ?_
    intro name p2 _ _
    refine good_bind (good_consume _ _ _) ?_
    intro _ p3 _ _
    refine good_bind (ih.block _) ?_
    intro block p4 hb _
    refine good_bind (good_consume _ _ _) ?_
    intro _ p5 _ _
    refine good_bind (good_valueText _ _) ?_
    intro nm p6 _ _
    exact ih.procedures _ _ (tidyProcedures_append hprocs hb)
  | false =>
    simp only [Bool.false_eq_true, ↓reduceIte]
    exact good_pure (by exact hprocs) _

theorem blockGood : ∀ n m : Nat, n ≤ m → BlockGood n m
  | 0, m, _ => blockGood_zero m
  | n + 1, 0, h => absurd h (by omega)
  | n + 1, m + 1, h =>
    have h1 : n ≤ m := by omega
    have ih := blockGood n m h1
    { block := parseBlock_good_step h1 ih
      procedures := parseProcedures_good ih }

theorem consume_next {ty : TokenType} {p : Parser} (message : String)
    (h : nextType p.tokens = ty) :
    consume ty message p = .ok p.lexer_.peekToken (p.drop 1) := by
  simp only [consume, bind_apply, check_apply, h, decide_True, Bool.not_true,
    Bool.false_eq_true, ↓reduceIte, advance_apply]

/-- What a returning `parseProgram` has returned and read: a tidy tree, after `k` tokens the
last of which is the `'.'`; on every source that begins with these `k` tokens, with at least
as much fuel, it returns the same tree. -/
theorem parseProgram_good {n m : Nat} (h : n ≤ m) {p p1 : Parser} {program : Program}
    (hx : parseProgram n p = .ok program p1) :
    TidyBlock program.block ∧ ∃ k, 1 ≤ k ∧ k ≤ p.len ∧ p1 = p.drop k ∧
      nextType (p.drop (k - 1)).tokens = .PERIOD ∧
      ∀ q : Parser, q.lexer_.items.take k = p.lexer_.items.take k →
        parseProgram m q = .ok program (q.drop k) := by
  unfold parseProgram at hx ⊢
  cases hb : parseBlock n p with
  | ok block p2 =>
    rw [bind_ok hb] at hx
    obtain ⟨ht, j, j1, j2⟩ := (blockGood n m h).block p block p2 hb
    subst j1
    cases hc : consume .PERIOD "程序必须以'.'结束" (p.drop j) with
    | ok t p3 =>
      obtain ⟨_, hn⟩ := consume_ok hc
      have hp : 1 ≤ (p.drop j).len := len_pos_of_nextType (by rw [hn]; decide)
      simp only [len_drop] at hp
      rw [bind_ok hc] at hx
      simp only [pure_apply] at hx
      injection hx with hx1 hx2
      rw [consume_next _ hn] at hc
      injection hc with _ hc2
      subst hx1
      refine ⟨ht, j + 1, by omega, by omega, by rw [← hx2, ← hc2, drop_drop], hn, ?_⟩
      intro q hq
      have e1 := j2 q hq
      rw [bind_ok e1]
      have hn2 : nextType (q.drop j).tokens = .PERIOD := by
        rw [← hn]
        apply nextType_of_take
        rw [items_drop, items_drop]
        exact take_drop_of_take hq
      rw [bind_ok (consume_next _ hn2)]
      simp
    | thrown e p3 =>
      rw [bind_thrown hc] at hx
      cases hx
    | outOfFuel =>
      simp only [bind_apply, hc] at hx
      cases hx
  | thrown e p2 =>
    rw [bind_thrown hb] at hx
    cases hx
  | outOfFuel =>
    simp only [bind_apply, hb] at hx
    cases hx

theorem beginsPresentList_mem : ∀ (ss : List Statement),
    Statement.beginsPresentList ss = true →
    ∀ x ∈ ss, x.isPresent = true ∧ x.beginsPresent = true
  | [], _, x, hx => by simp at hx
  | s :: ss, h, x, hx => by
    simp only [Statement.beginsPresentList, Bool.and_eq_true] at h
    rcases List.mem_cons.mp hx with e | e
    · rw [e]
      exact h.1
    · exact beginsPresentList_mem ss h.2 x e

/-- What a returning `parseBeginStatement` returns: a Begin node. -/
theorem parseBeginStatement_shape {n : Nat} {p p1 : Parser} {s : Statement}
    (h : parseBeginStatement n p = .ok s p1) : ∃ ss, s = .BeginStatement ss := by
  cases n with
  | zero => simp [parseBeginStatement, outOfFuel] at h
  | succ n =>
    rw [parseBeginStatement] at h
    simp only [bind_apply, advance_apply] at h
    cases hl : parseBeginLoop n [] (p.drop 1) with
    | ok ss p2 =>
      rw [hl] at h
      simp only at h
      cases hc : consume .END "BEGIN语句需要以END结束" p2 with
      | ok t p3 =>
        rw [hc] at h
        simp only [pure_apply] at h
        injection h with h1 _
        exact ⟨ss, h1.symm⟩
      | thrown e p3 =>
        rw [hc] at h
        cases h
      | outOfFuel =>
        rw [hc] at h
        cases h
    | thrown e p2 =>
      rw [hl] at h
      cases h
    | outOfFuel =>
      rw [hl] at h
      cases h

theorem parseStatement_tidy {n : Nat} {p p1 : Parser} {s : Statement}
    (h : parseStatement n p = .ok s p1) : Tidy s :=
  ((stmtGood n n (Nat.le_refl n)).statement p s p1 h).1

theorem parseBeginStatement_tidy {n : Nat} {p p1 : Parser} {s : Statement}
    (h : parseBeginStatement n p = .ok s p1) : Tidy s :=
  ((stmtGood n n (Nat.le_refl n)).beginStatement p s p1 h).1

theorem parseIfStatement_tidy {n : Nat} {p p1 : Parser} {s : Statement}
    (h : parseIfStatement n p = .ok s p1) : Tidy s :=
  ((stmtGood n n (Nat.le_refl n)).ifStatement p s p1 h).1

theorem parseExpression_noUnary {n : Nat} {p p1 : Parser} {e : Expression}
    (h : parseExpression n p = .ok e p1) : e.noUnary = true :=
  (parseExpression_good (Nat.le_refl n) p e p1 h).1

theorem parseCondition_noUnary {n : Nat} {p p1 : Parser} {e : Expression}
    (h : parseCondition n p = .ok e p1) : e.noUnary = true :=
  (parseCondition_good (Nat.le_refl n) p e p1 h).1

theorem fuelFor_mono {a b : Nat} (h : a ≤ b) : fuelFor a ≤ fuelFor b := by
  unfold fuelFor
  omega

/-- What a successful `parse` has returned and read, and what `parse` returns on the sources
with at least as many tokens that begin with the tokens read. -/
theorem parse_good {p p1 : Parser} {program : Program}
    (h : parse p = some (some program, p1)) :
    TidyBlock program.block ∧ ∃ k, 1 ≤ k ∧ k ≤ p.len ∧ p1 = p.drop k ∧
      nextType (p.drop (k - 1)).tokens = .PERIOD ∧
      ∀ q : Parser, q.lexer_.items.take k = p.lexer_.items.take k → p.len ≤ q.len →
        parse q = some (some program, q.drop k) := by
  unfold parse at h
  cases hx : parseProgram (fuelFor p.lexer_.items.length) p with
  | ok program2 p2 =>
    rw [hx] at h
    simp only [Option.some.injEq, Prod.mk.injEq] at h
    obtain ⟨h1, h2⟩ := h
    subst h1 h2
    have key : ∀ q : Parser, p.len ≤ q.len →
        TidyBlock program2.block ∧ ∃ k, 1 ≤ k ∧ k ≤ p.len ∧ p2 = p.drop k ∧
          nextType (p.drop (k - 1)).tokens = .PERIOD ∧
          ∀ q1 : Parser, q1.lexer_.items.take k = p.lexer_.items.take k →
            parseProgram (fuelFor q.lexer_.items.length) q1 = .ok program2 (q1.drop k) :=
      fun q hlen => parseProgram_good (fuelFor_mono hlen) hx
    obtain ⟨ht, k, k1, k2, k3, k4, _⟩ := key p (Nat.le_refl _)
    refine ⟨ht, k, k1, k2, k3, k4, ?_⟩
    intro q hq hlen
    obtain ⟨_, k', _, j2, j3, _, j5⟩ := key q hlen
    have hk : k' = k := by
      have e : (p.drop k').lexer_.items.length = (p.drop k).lexer_.items.length := by
        rw [← j3, ← k3]
      simp only [items_drop, List.length_drop] at e
      unfold len at j2 k2
      omega
    subst hk
    unfold parse
    rw [j5 q hq]
  | thrown e p2 =>
    rw [hx] at h
    simp at h
  | outOfFuel =>
    rw [hx] at h
    simp at h

end Parser
end pl0

namespace pl0
namespace Parser

/-! ## Every round of a loop takes a token or throws -/

theorem round_of_thrown {α : Type} {m : Nat} {y : ParserM α} {next : α → ParserM α}
    {p : Parser} (h : ∃ e p1, y p = .thrown e p1) : Round m y next p := Or.inl h

theorem round_next {α : Type} (next : α → ParserM α) (a : α) (p : Parser) :
    Round 0 (next a) next p :=
  Or.inr ⟨a, 0, Nat.le_refl 0, Nat.zero_le _, Or.inl (by rw [drop_zero])⟩

theorem round_pure {α : Type} (next : α → ParserM α) (a : α) (p : Parser) :
    Round 0 (pure a : ParserM α) next p :=
  Or.inr ⟨a, 0, Nat.le_refl 0, Nat.zero_le _, Or.inr (by rw [drop_zero]; rfl)⟩

theorem round_mono {α : Type} {m n : Nat} {y : ParserM α} {next : α → ParserM α} {p : Parser}
    (h : Round n y next p) (hmn : m ≤ n) : Round m y next p := by
  rcases h with h | ⟨a, k, h1, h2, h3⟩
  · exact Or.inl h
  · exact Or.inr ⟨a, k, by omega, h2, h3⟩

theorem round_congr {α : Type} {m : Nat} {y y1 : ParserM α} {next : α → ParserM α}
    {p : Parser} (h : Round m y next p) (hy : y1 p = y p) : Round m y1 next p := by
  unfold Round at h ⊢
  rw [hy]
  exact h

theorem round_bind {W : Prop} {α γ : Type} {m1 m2 : Nat} {x : ParserM γ}
    {f : γ → ParserM α} {next : α → ParserM α} {p : Parser} (hx : Sound W m1 x p)
    (hf : ∀ c k, k ≤ p.len → m1 ≤ k → x p = .ok c (p.drop k) →
      Round m2 (f c) next (p.drop k)) :
    Round (m1 + m2) (x >>= f) next p := by
  cases hxp : x p with
  | ok c p1 =>
    obtain ⟨k, h1, h2, h3⟩ := hx.ok hxp
    subst h1
    rcases hf c k h2 h3 hxp with ⟨e, p2, he⟩ | ⟨a, j, j1, j2, j3⟩
    · exact Or.inl ⟨e, p2, by rw [bind_ok hxp, he]⟩
    · simp only [len_drop] at j2
      refine Or.inr ⟨a, k + j, by omega, by omega, ?_⟩
      rw [bind_ok hxp, ← drop_drop]
      exact j3
  | thrown e p1 => exact Or.inl ⟨e, p1, bind_thrown hxp⟩
  | outOfFuel => exact absurd hxp hx.not_outOfFuel

theorem round_bind_le {W : Prop} {α γ : Type} {m : Nat} (m1 m2 : Nat) {x : ParserM γ}
    {f : γ → ParserM α} {next : α → ParserM α} {p : Parser} (hx : Sound W m1 x p)
    (hf : ∀ c k, k ≤ p.len → m1 ≤ k → x p = .ok c (p.drop k) →
      Round m2 (f c) next (p.drop k)) (hm : m ≤ m1 + m2) :
    Round m (x >>= f) next p :=
  round_mono (round_bind hx hf) hm

/-- A round that starts behind the lookahead, seen from the parser in front of it. -/
theorem round_after {α : Type} {m : Nat} {y : ParserM α} {next : α → ParserM α} {p : Parser}
    (h : Round m y next (p.drop 1)) (hp : 1 ≤ p.len) :
    Round (1 + m) (fun _ => y (p.drop 1)) next p := by
  rcases h with h | ⟨a, k, h1, h2, h3⟩
  · exact Or.inl h
  · simp only [len_drop] at h2
    refine Or.inr ⟨a, 1 + k, by omega, by omega, ?_⟩
    rw [← drop_drop]
    exact h3

theorem wv_false (p : Parser) : False → p.wellValued = true := fun h => h.elim

theorem parseExpressionLoop_round (n : Nat) (acc : Expression) (p : Parser)
    (hf : 8 * p.len + 4 ≤ n)
    (h : nextType p.tokens = .PLUS ∨ nextType p.tokens = .MINUS) :
    Round 1 (parseExpressionLoop (n + 1) acc) (parseExpressionLoop n) p := by
  have hp : 1 ≤ p.len := len_pos_of_nextType (by rcases h with h | h <;> rw [h] <;> decide)
  obtain ⟨op, hgo⟩ := parseExpressionLoop_go n acc h
  have hs : Sound False 1 (parseTerm n) (p.drop 1) :=
    (exprSound n).term _ (wv_false _) (by simp only [len_drop]; omega)
  have hr : Round (1 + 0) (parseTerm n >>= fun right =>
      parseExpressionLoop n (.BinaryExpression acc op right)) (parseExpressionLoop n)
      (p.drop 1) :=
    round_bind hs (fun c k _ _ _ => round_next _ _ _)
  exact round_mono (round_congr (round_after hr hp) hgo) (by omega)

theorem parseTermLoop_round (n : Nat) (acc : Expression) (p : Parser)
    (hf : 8 * p.len + 4 ≤ n)
    (h : nextType p.tokens = .MULTIPLY ∨ nextType p.tokens = .DIVIDE) :
    Round 1 (parseTermLoop (n + 1) acc) (parseTermLoop n) p := by
  have hp : 1 ≤ p.len := len_pos_of_nextType (by rcases h with h | h <;> rw [h] <;> decide)
  obtain ⟨op, hgo⟩ := parseTermLoop_go n acc h
  have hs : Sound False 1 (parsePower n) (p.drop 1) :=
    (exprSound n).power _ (wv_false _) (by simp only [len_drop]; omega)
  have hr : Round (1 + 0) (parsePower n >>= fun right =>
      parseTermLoop n (.BinaryExpression acc op right)) (parseTermLoop n) (p.drop 1) :=
    round_bind hs (fun c k _ _ _ => round_next _ _ _)
  exact round_mono (round_congr (round_after hr hp) hgo) (by omega)

theorem parsePowerLoop_round (n : Nat) (acc : Expression) (p : Parser)
    (hf : 8 * p.len + 4 ≤ n) (h : nextType p.tokens = .POWER) :
    Round 1 (parsePowerLoop (n + 1) acc) (parsePowerLoop n) p := by
  have hp : 1 ≤ p.len := len_pos_of_nextType (by rw [h]; decide)
  have hgo := parsePowerLoop_go n acc h
  have hs : Sound False 1 (parsePower n) (p.drop 1) :=
    (exprSound n).power _ (wv_false _) (by simp only [len_drop]; omega)
  have hr : Round (1 + 0) (parsePower n >>= fun right =>
      parsePowerLoop n (.BinaryExpression acc .Pow right)) (parsePowerLoop n) (p.drop 1) :=
    round_bind hs (fun c k _ _ _ => round_next _ _ _)
  exact round_mono (round_congr (round_after hr hp) hgo) (by omega)

theorem parseConstDeclarationsLoop_round (n : Nat) (decls : List ConstDeclaration)
    (p : Parser) :
    Round 1 (parseConstDeclarationsLoop (n + 1) decls) (parseConstDeclarationsLoop n) p := by
  rw [parseConstDeclarationsLoop]
  refine round_bind_le 1 0 (sound_consume (wv_false p) (by decide) _) ?_ (Nat.le_refl 1)
  intro name k _ _ _
  refine round_bind_le 1 0 (sound_consume (wv_false _) (by decide) _) ?_ (Nat.zero_le _)
  intro _ j _ _ _
  refine round_bind_le 1 0 (sound_consume (wv_false _) (by decide) _) ?_ (Nat.zero_le _)
  intro value i _ _ _
  refine round_bind_le 0 0 (sound_valueText (fun h => False.elim h) _) ?_ (Nat.le_refl 0)
  intro nm i1 _ _ _
  refine round_bind_le 0 0 (sound_valueInt (fun h => False.elim h) _) ?_ (Nat.le_refl 0)
  intro v i2 _ _ _
  refine round_bind_le 0 0 (sound_match .COMMA _ : Sound False 0 _ _) ?_ (Nat.le_refl 0)
  intro b l _ _ _
  cases b with
  | true => exact round_next _ _ _
  | false => exact round_pure _ _ _

theorem parseVarDeclarationsLoop_round (n : Nat) (decls : List VarDeclaration) (p : Parser) :
    Round 1 (parseVarDeclarationsLoop (n + 1) decls) (parseVarDeclarationsLoop n) p := by
  rw [parseVarDeclarationsLoop]
  refine round_bind_le 1 0 (sound_consume (wv_false p) (by decide) _) ?_ (Nat.le_refl 1)
  intro name k _ _ _
  refine round_bind_le 0 0 (sound_valueText (fun h => False.elim h) _) ?_ (Nat.le_refl 0)
  intro nm i1 _ _ _
  refine round_bind_le 0 0 (sound_match .COMMA _ : Sound False 0 _ _) ?_ (Nat.le_refl 0)
  intro b l _ _ _
  cases b with
  | true => exact round_next _ _ _
  | false => exact round_pure _ _ _

theorem parseProcedures_round (n : Nat) (procs : List ProcedureDeclaration) (p : Parser)
    (hf : 8 * p.len + 4 ≤ n) (h : nextType p.tokens = .PROCEDURE) :
    Round 1 (parseProcedures (n + 1) procs) (parseProcedures n) p := by
  have hp : 1 ≤ p.len := len_pos_of_nextType (by rw [h]; decide)
  have hr : Round (1 + 0) (consume .IDENTIFIER "过程声明需要标识符" >>= fun name =>
      consume .SEMICOLON "过程声明头部需要以';'结束" >>= fun _ =>
        parseBlock n >>= fun block =>
          consume .SEMICOLON "过程声明需要以';'结束" >>= fun _ =>
            valueText name >>= fun nm => parseProcedures n (procs ++ [.mk nm block]))
      (parseProcedures n) (p.drop 1) := by
    refine round_bind_le 1 0 (sound_consume (wv_false _) (by decide) _) ?_ (Nat.le_refl _)
    intro name k hk _ _
    refine round_bind_le 1 0 (sound_consume (wv_false _) (by decide) _) ?_ (Nat.zero_le _)
    intro _ j hj _ _
    simp only [len_drop] at hk hj
    refine round_bind_le 0 0 (parseBlock_sound n _ (wv_false _)
      (by simp only [len_drop]; omega)) ?_ (Nat.le_refl 0)
    intro block i _ _ _
    refine round_bind_le 1 0 (sound_consume (wv_false _) (by decide) _) ?_ (Nat.zero_le _)
    intro _ i1 _ _ _
    refine round_bind_le 0 0 (sound_valueText (fun h => False.elim h) _) ?_ (Nat.le_refl 0)
    intro nm i2 _ _ _
    exact round_next _ _ _
  refine round_mono (round_congr (round_after hr hp) ?_) (by omega)
  rw [parseProcedures]
  simp only [bind_apply, match_same h, ↓reduceIte]

theorem parseBeginLoop_round (n : Nat) (acc : List Statement) (p : Parser)
    (hf : 8 * p.len + 4 ≤ n) (h : nextType p.tokens ≠ .END) :
    Round 1 (parseBeginLoop (n + 1) acc) (parseBeginLoop n) p := by
  have tail : ∀ (stmt : Statement) (q : Parser), Round 0 (match_ .SEMICOLON >>= fun a =>
      check .END >>= fun b =>
        if (!a && !b) = true then error "语句之间需要分号"
        else parseBeginLoop n (pushIfPresent acc stmt)) (parseBeginLoop n) q := by
    intro stmt q
    refine round_bind_le 0 0 (sound_match .SEMICOLON q : Sound False 0 _ _) ?_ (Nat.le_refl 0)
    intro a k _ _ _
    refine round_bind_le 0 0 (sound_check .END _ : Sound False 0 _ _) ?_ (Nat.le_refl 0)
    intro b j _ _ _
    by_cases hc : (!a && !b) = true
    · rw [if_pos hc]
      exact round_of_thrown (error_thrown _ _)
    · rw [if_neg hc]
      exact round_next _ _ _
  have hx : parseBeginLoop (n + 1) acc p = (parseStatement n >>= fun stmt =>
      match_ .SEMICOLON >>= fun a => check .END >>= fun b =>
        if (!a && !b) = true then error "语句之间需要分号"
        else parseBeginLoop n (pushIfPresent acc stmt)) p := by
    rw [parseBeginLoop]
    simp [h]
  by_cases h2 : nextType p.tokens = .SEMICOLON
  · obtain ⟨n1, rfl⟩ : ∃ n1, n = n1 + 1 := ⟨n - 1, by omega⟩
    have hp : 1 ≤ p.len := len_pos_of_nextType (by rw [h2]; decide)
    have hs := parseStatement_stop n1 (Or.inr h2 :
      nextType p.tokens = .END ∨ nextType p.tokens = .SEMICOLON)
    refine Or.inr ⟨pushIfPresent acc .nullptr, 1, Nat.le_refl 1, hp, Or.inl ?_⟩
    rw [hx, bind_ok hs, bind_ok (match_same h2)]
    simp
  · have hmin : stmtMin p = 1 := by simp [stmtMin, h, h2]
    have hs : Sound False 1 (parseStatement n) p :=
      hmin ▸ parseStatement_sound n p (wv_false p) (by omega)
    exact round_congr (round_bind_le 1 0 hs (fun stmt k _ _ _ => tail stmt _)
      (Nat.le_refl 1)) hx

theorem parseIfLoop_round (n : Nat) (acc : List Statement) (p : Parser)
    (hf : 8 * p.len + 4 ≤ n) (h1 : nextType p.tokens ≠ .END)
    (h2 : nextType p.tokens ≠ .SEMICOLON) :
    Round 1 (parseIfLoop (n + 1) acc) (parseIfLoop n) p := by
  have hx : parseIfLoop (n + 1) acc p = (parseStatement n >>= fun stmt =>
      match_ .SEMICOLON >>= fun _ => parseIfLoop n (pushIfPresent acc stmt)) p := by
    rw [parseIfLoop]
    simp [h1, h2]
  have hmin : stmtMin p = 1 := by simp [stmtMin, h1, h2]
  have hs : Sound False 1 (parseStatement n) p :=
    hmin ▸ parseStatement_sound n p (wv_false p) (by omega)
  refine round_congr (round_bind_le 1 0 hs ?_ (Nat.le_refl 1)) hx
  intro stmt k _ _ _
  refine round_bind_le 0 0 (sound_match .SEMICOLON _ : Sound False 0 _ _) ?_ (Nat.le_refl 0)
  intro _ j _ _ _
  exact round_next _ _ _

end Parser
end pl0

/-! # The claims -/

namespace pl0
namespace Parser
open Grammar

/-- C1 (as the code behaves): for every source text, `parse` either returns an AST and leaves
`getErrors()` empty, or returns no AST and leaves the same message in `getErrors()` twice, once
pushed by `error` before it throws and once more by the `catch` in `parse`; the list never
holds exactly one entry. On `const a=1 var b; begin b:=a end.`, where the `;` after the
constant is missing, the two entries are the message of that failure site. -/
theorem parse_failure_records_message_twice :
    (∀ source : String,
      (∃ program p1, parse (Parser.ofSource source) = some (some program, p1) ∧
        p1.getErrors = []) ∨
      (∃ m p1, parse (Parser.ofSource source) = some (none, p1) ∧ p1.getErrors = [m, m])) ∧
    parseErrors "const a=1 var b; begin b:=a end." =
      some (false, ["行1列14: 常量声明需要以';'结束\n当前token: 1\n上下文: ",
        "行1列14: 常量声明需要以';'结束\n当前token: 1\n上下文: "]) := by
  refine ⟨fun source => ?_, by decide!⟩
  rcases parse_cases (Parser.ofSource source) (ofSource_wellValued source) with
    ⟨program, k, _, _, h⟩ | ⟨m, p1, h, he⟩
  · exact Or.inl ⟨program, _, h, rfl⟩
  · exact Or.inr ⟨m, p1, h, by simpa [getErrors, Parser.ofSource, fresh] using he⟩

/-- C2, refuted as stated: the programs `.` (empty statement before the closing `'.'`) and
`var x; if x = 1 then x := 2.` (an `if` directly before the closing `'.'`) are derived by the
grammar, and on both `parse` returns no AST and records diagnostics. -/
theorem grammar_program_rejected :
    ((Parser.ofSource ".").tokens = emptyBodyProgram.tokens ∧
      parseErrors "." = some (false,
        ["行1列2: 预期语句，但得到: 26\n当前token: 26\n上下文: ",
         "行1列2: 预期语句，但得到: 26\n当前token: 26\n上下文: "])) ∧
    ((Parser.ofSource "var x; if x = 1 then x := 2.").tokens = ifBeforePeriodProgram.tokens ∧
      parseErrors "var x; if x = 1 then x := 2." = some (false,
        ["行1列29: 预期语句，但得到: 26\n当前token: 26\n上下文: ",
         "行1列29: 预期语句，但得到: 26\n当前token: 26\n上下文: "])) := by
  decide!

/-- C2, amended: for every program derived by the grammar, on every token source that delivers
its tokens, `parse` returns the AST of the derivation and leaves the diagnostic list empty when
the body statement of the program's block is closed (an assignment, a call, a `begin ... end`,
an `if` whose then-part is a `begin ... end`, or a `while` whose body is closed), and returns
no AST when it is not. -/
theorem parse_grammar_program_iff_closed (g : Prog) (s : TokenStream)
    (hs : s.items.map Lexeme.token = g.tokens) :
    (g.closed = true → ∃ p, parse (fresh s) = some (some g.toAST, p) ∧ p.getErrors = []) ∧
    (g.closed = false → ∃ p, parse (fresh s) = some (none, p)) :=
  ⟨fun hc => ⟨(fresh s).drop g.tokens.length,
      parse_complete g s [] (by rw [hs, List.append_nil]) hc, rfl⟩,
   fun hc => parse_open g s [] (by rw [hs, List.append_nil]) hc⟩

theorem parse_grammar_program_iff_closed_witness :
    ∃ p, parse (Parser.ofSource "const a = 5; var b; begin b := a + 1 end.") =
      some (some constVarProgram.toAST, p) ∧ p.getErrors = [] :=
  (parse_grammar_program_iff_closed constVarProgram
    (TokenInterpreter.ofSource "const a = 5; var b; begin b := a + 1 end.").stream
    (by decide!)).1 (by decide)

end Parser

namespace SemanticAnalyzer

/-- C3: on a freshly constructed analyzer, whenever `analyze` returns, it returns false exactly
when `getErrors()` is non-empty afterwards; and it does return on every program whose statement
pointers are all non-null and whose divisors fold without faulting. -/
theorem analyze_false_iff_errors (program : Program) :
    (∀ r, analyze fresh program = some r → (r.1 = false ↔ r.2.getErrors ≠ [])) ∧
    (program.block.wellFormed = true → (analyze fresh program).isSome = true) := by
  refine ⟨?_, analyze_isSome fresh program⟩
  intro r h
  unfold analyze at h
  split at h
  · exact absurd h (by simp)
  · rename_i sa1 hv
    cases h
    obtain ⟨extra, he, hf⟩ := extends_visitProgram hv
    simp only [fresh, List.nil_append, Bool.false_or] at he hf
    simp only [getErrors, he, hf]
    cases extra <;> simp

theorem analyze_false_iff_errors_witness :
    (false = false ↔ afterUndeclaredUse.getErrors ≠ []) ∧
    (analyze fresh programUndeclaredUse).isSome = true :=
  ⟨(analyze_false_iff_errors programUndeclaredUse).1 (false, afterUndeclaredUse) (by decide),
   (analyze_false_iff_errors programUndeclaredUse).2 (by decide)⟩

/-- C4: an Identifier expression records exactly one error when the name is undeclared, exactly
one when it resolves to a Procedure, and none when it resolves to a Constant or a Variable;
`var x; begin x := y end.` analyses to false with the single error for `y`. -/
theorem identifier_expression_errors (sa : SemanticAnalyzer) (name : String) :
    (sa.lookupSymbol name = none →
      visitExpression sa (.IdentifierExpression name) =
        some (sa.addError ("未声明的标识符: " ++ name))) ∧
    (∀ symbol, sa.lookupSymbol name = some symbol → symbol.type = .Procedure →
      visitExpression sa (.IdentifierExpression name) =
        some (sa.addError ("过程不能用作表达式: " ++ name))) ∧
    (∀ symbol, sa.lookupSymbol name = some symbol →
      symbol.type = .Constant ∨ symbol.type = .Variable →
      ∃ sa1, visitExpression sa (.IdentifierExpression name) = some sa1 ∧
        sa1.errors_ = sa.errors_ ∧ sa1.had_error_ = sa.had_error_) ∧
    analyzeSource "var x; begin x := y end." = some (false, ["未声明的标识符: y"]) := by
  refine ⟨?_, ?_, ?_, by decide!⟩
  · intro h
    simp [visitExpression, visitIdentifierExpression, h, makeError, String.append_assoc]
  · intro symbol h ht
    simp [visitExpression, visitIdentifierExpression, h, ht, makeError, String.append_assoc]
  · intro symbol h ht
    simp only [visitExpression, visitIdentifierExpression, h]
    rcases ht with ht | ht
    · exact ⟨{ sa with last_expression_value_ := symbol.value }, by simp [ht], rfl, rfl⟩
    · exact ⟨sa, by simp [ht], rfl, rfl⟩

theorem identifier_expression_errors_witness :
    visitExpression fresh (.IdentifierExpression "y") =
      some (fresh.addError ("未声明的标识符: " ++ "y")) :=
  (identifier_expression_errors fresh "y").1 (by decide)

/-- C5 (as the code behaves): when the target of an assignment is undeclared or is not a
Variable, the visit records the error for the target and returns without visiting the
right-hand side; on `begin y := z end.` only the error for `y` is recorded, none for the
undeclared `z`, and likewise on `const c = 1; begin c := z end.` -/
theorem assign_bad_target_skips_rhs :
    (∀ (sa : SemanticAnalyzer) (name : String) (expr : Expression),
      sa.lookupSymbol name = none →
      visitStatement sa (.AssignStatement name expr) =
        some (sa.addError ("未声明的标识符: " ++ name))) ∧
    (∀ (sa : SemanticAnalyzer) (name : String) (expr : Expression) (symbol : Symbol),
      sa.lookupSymbol name = some symbol → symbol.type ≠ .Variable →
      visitStatement sa (.AssignStatement name expr) =
        some (sa.addError ("只能给变量赋值: " ++ name))) ∧
    analyzeSource "begin y := z end." = some (false, ["未声明的标识符: y"]) ∧
    analyzeSource "const c = 1; begin c := z end." = some (false, ["只能给变量赋值: c"]) := by
  refine ⟨?_, ?_, by decide!, by decide!⟩
  · intro sa name expr h
    simp [visitStatement, visitAssignStatement, h, makeError, String.append_assoc]
  · intro sa name expr symbol h ht
    simp [visitStatement, visitAssignStatement, h, ht, makeError, String.append_assoc]

theorem assign_bad_target_skips_rhs_witness :
    visitStatement fresh (.AssignStatement "y" (.IdentifierExpression "z")) =
      some (fresh.addError ("未声明的标识符: " ++ "y")) :=
  assign_bad_target_skips_rhs.1 fresh "y" (.IdentifierExpression "z") (by decide)

/-- C6: a Call whose name resolves to a Procedure leaves the analyzer exactly as it was; an
undeclared name, or one that resolves to a Constant or Variable, appends exactly one error and
changes nothing else; no body is traversed in either case. -/
theorem call_statement_errors (sa : SemanticAnalyzer) (name : String) :
    (∀ symbol, sa.lookupSymbol name = some symbol → symbol.type = .Procedure →
      visitStatement sa (.CallStatement name) = some sa) ∧
    (sa.lookupSymbol name = none →
      visitStatement sa (.CallStatement name) = some (sa.addError ("未声明的过程: " ++ name))) ∧
    (∀ symbol, sa.lookupSymbol name = some symbol →
      symbol.type = .Constant ∨ symbol.type = .Variable →
      visitStatement sa (.CallStatement name) = some (sa.addError ("只能调用过程: " ++ name))) := by
  refine ⟨?_, ?_, ?_⟩
  · intro symbol h ht
    simp [visitStatement, visitCallStatement, h, ht]
  · intro h
    simp [visitStatement, visitCallStatement, h, makeError, String.append_assoc]
  · intro symbol h ht
    have hne : symbol.type ≠ .Procedure := by rcases ht with ht | ht <;> simp [ht]
    simp [visitStatement, visitCallStatement, h, hne, makeError, String.append_assoc]

theorem call_statement_errors_witness :
    visitStatement fresh (.CallStatement "p") = some (fresh.addError ("未声明的过程: " ++ "p")) :=
  (call_statement_errors fresh "p").2.1 (by decide)

/-- C7: `declareSymbol` fails exactly when the name is already in the innermost table, and then
changes nothing; otherwise it adds the entry to the innermost table and leaves the outer tables
alone. Declaring `x` twice in one block gives the one error `Duplicate variable declaration: x`;
declaring it again in a nested procedure gives none. -/
theorem declareSymbol_innermost_only (sa : SemanticAnalyzer) (name : String) (symbol : Symbol) :
    (∀ t outer, sa.symbol_tables_ = t :: outer →
      ((sa.declareSymbol name symbol).1 = false ↔ SymbolTable.contains t name = true) ∧
      (SymbolTable.contains t name = true → (sa.declareSymbol name symbol).2 = sa) ∧
      (SymbolTable.contains t name = false →
        (sa.declareSymbol name symbol).2 =
          { sa with symbol_tables_ := ((name, symbol) :: t) :: outer })) ∧
    (sa.symbol_tables_ = [] →
      sa.declareSymbol name symbol = (true, { sa with symbol_tables_ := [[(name, symbol)]] })) ∧
    analyzeSource "var x, x; begin end." =
      some (false, ["Duplicate variable declaration: x"]) ∧
    analyzeSource "var x; procedure p; var x; begin end; begin end." = some (true, []) := by
  refine ⟨?_, declareSymbol_nil sa name symbol, by decide!, by decide!⟩
  intro t outer h
  rw [declareSymbol_cons sa name symbol t outer h]
  cases hc : SymbolTable.contains t name <;> simp

theorem declareSymbol_innermost_only_witness :
    (fresh.enterScope.declareSymbol "x" ⟨.Variable, none, 1, 0⟩).2 =
      { fresh.enterScope with symbol_tables_ := [[("x", ⟨.Variable, none, 1, 0⟩)]] } :=
  ((declareSymbol_innermost_only fresh.enterScope "x" ⟨.Variable, none, 1, 0⟩).1 [] []
    (by decide)).2.2 (by decide)

/-- C8: `lookupSymbol` returns the entry of the innermost table that contains the name and
nothing when no table contains it; a symbol declared in a newly entered scope is what the name
resolves to inside that scope, and once the scope is left the name resolves as before. In
`const x = 1; procedure p; var x; begin x := 2 end; begin x := 3 end.` the assignment inside
`p` is accepted and the one outside is the only error. -/
theorem lookupSymbol_innermost_first (sa : SemanticAnalyzer) (name : String) :
    (∀ inner t outer, sa.symbol_tables_ = inner ++ t :: outer →
      (∀ u ∈ inner, SymbolTable.contains u name = false) → SymbolTable.contains t name = true →
      sa.lookupSymbol name = SymbolTable.find t name) ∧
    ((∀ u ∈ sa.symbol_tables_, SymbolTable.contains u name = false) →
      sa.lookupSymbol name = none) ∧
    (∀ symbol, (sa.enterScope.declareSymbol name symbol).2.lookupSymbol name = some symbol ∧
      (sa.enterScope.declareSymbol name symbol).2.leaveScope.lookupSymbol name =
        sa.lookupSymbol name) ∧
    analyzeSource "const x = 1; procedure p; var x; begin x := 2 end; begin x := 3 end." =
      some (false, ["只能给变量赋值: x"]) := by
  refine ⟨?_, ?_, ?_, by decide!⟩
  · intro inner t outer h hin ht
    unfold lookupSymbol
    rw [h, lookupIn_append_of_absent inner _ name hin, lookupIn_cons_of_present t outer name ht]
  · intro h
    exact lookupIn_none_of_absent _ name h
  · intro symbol
    rw [declareSymbol_cons sa.enterScope name symbol [] sa.symbol_tables_ rfl]
    simp [SymbolTable.contains, SymbolTable.find, lookupSymbol, lookupIn, leaveScope, enterScope]

theorem lookupSymbol_innermost_first_witness :
    (⟨[[], [("x", ⟨.Constant, some 1, 1, 0⟩)]], 2, [], [], none, false, 0, false⟩ :
      SemanticAnalyzer).lookupSymbol "x" =
      SymbolTable.find [("x", ⟨.Constant, some 1, 1, 0⟩)] "x" :=
  (lookupSymbol_innermost_first _ "x").1 [[]] [("x", ⟨.Constant, some 1, 1, 0⟩)] [] rfl
    (by decide) (by decide)

/-- C9: when the name of a procedure is free in the enclosing scope, its symbol is declared
before the body is visited: in the analyzer that reaches the body statement, after the body's own
declarations, none of which has that name, the name resolves to the Procedure symbol, a `call`
of it there records nothing, and a body that is just `call name` leaves the errors of the
declarations unchanged. `procedure p; begin call p end; begin call p end.` analyses to true. -/
theorem procedure_visible_in_own_body (sa saBody : SemanticAnalyzer) (name : String)
    (consts : List ConstDeclaration) (vars : List VarDeclaration)
    (procs : List ProcedureDeclaration)
    (hfree : topFree sa name = true)
    (hc : ∀ c ∈ consts, c.name ≠ name) (hv : ∀ v ∈ vars, v.name ≠ name)
    (hp : ∀ d ∈ procs, d.name ≠ name)
    (hdecls : visitProcedures (vars.foldl visitVarDeclaration
      (consts.foldl visitConstDeclaration (bodyEntry sa name))) procs = some saBody) :
    saBody.lookupSymbol name = some ⟨.Procedure, none, sa.current_level_, 0⟩ ∧
    visitStatement saBody (.CallStatement name) = some saBody ∧
    visitProcedureDeclaration sa (.mk name (.mk consts vars procs (.CallStatement name))) =
      some saBody.leaveScope ∧
    analyzeSource "procedure p; begin call p end; begin call p end." = some (true, []) := by
  obtain ⟨hdecl, t, outer, hentry, hfind⟩ := bodyEntry_spec sa name hfree
  have h1 := topChanged_foldl visitConstDeclaration ConstDeclaration.name
    topChanged_visitConstDeclaration consts _ [] (t :: outer) hentry
  obtain ⟨t1, o1, ht1⟩ := h1.nonempty
  have h2 := topChanged_foldl visitVarDeclaration VarDeclaration.name
    topChanged_visitVarDeclaration vars _ t1 o1 ht1
  obtain ⟨t2, o2, ht2⟩ := h2.nonempty
  have h3 := topChanged_visitProcedures procs _ saBody t2 o2 ht2 hdecls
  obtain ⟨u, u1, o, hu, hu1, _, hf⟩ := (h1.top_trans h2).top_trans h3
  rw [hentry] at hu
  cases hu
  have hnot : name ∉ (consts.map ConstDeclaration.name ++ vars.map VarDeclaration.name) ++
      procs.map ProcedureDeclaration.name := by
    simp only [List.mem_append, List.mem_map, not_or, not_exists, not_and]
    exact ⟨⟨fun c hcm => hc c hcm, fun v hvm => hv v hvm⟩, fun d hdm => hp d hdm⟩
  have htop : SymbolTable.find u1 name = none := by
    rw [hf name hnot]; rfl
  have hlook : saBody.lookupSymbol name = some ⟨.Procedure, none, sa.current_level_, 0⟩ := by
    simp [lookupSymbol, hu1, lookupIn, htop, hfind]
  have hcall : visitStatement saBody (.CallStatement name) = some saBody := by
    simp [visitStatement, visitCallStatement, hlook]
  refine ⟨hlook, hcall, ?_, by decide!⟩
  simp only [visitProcedureDeclaration, hdecl, ↓reduceIte, visitBlock]
  unfold bodyEntry at hdecls
  simp only [hdecls, hcall]

theorem procedure_visible_in_own_body_witness :
    visitStatement (bodyEntry fresh "p") (.CallStatement "p") = some (bodyEntry fresh "p") :=
  (procedure_visible_in_own_body fresh (bodyEntry fresh "p") "p" [] [] [] (by decide)
    (by simp) (by simp) (by simp) (by decide)).2.1

/-- C10: on a Binary node with operator Div, once both operands have been visited, exactly one
error `除数不能为零` is appended when the right operand folds to 0 and none when it folds to
another value or does not fold (when folding it faults, the visit has no result); an Identifier
divisor never triggers it. `var x; begin x := 1/0
end.` analyses to false with that single error, and dividing by a constant named `z` equal to 0
records nothing. -/
theorem division_by_zero_check (sa sa1 sa2 : SemanticAnalyzer) (left right : Expression)
    (hl : visitExpression sa left = some sa1) (hr : visitExpression sa1 right = some sa2) :
    (right.evaluateConstant = .value 0 →
      visitExpression sa (.BinaryExpression left .Div right) =
        some (sa2.addError "除数不能为零")) ∧
    (∀ v, right.evaluateConstant = .value v → v ≠ 0 →
      visitExpression sa (.BinaryExpression left .Div right) = some sa2) ∧
    (right.evaluateConstant = .nullopt →
      visitExpression sa (.BinaryExpression left .Div right) = some sa2) ∧
    (right.evaluateConstant = .trap →
      visitExpression sa (.BinaryExpression left .Div right) = none) ∧
    (∀ name, right = .IdentifierExpression name →
      visitExpression sa (.BinaryExpression left .Div right) = some sa2) ∧
    analyzeSource "var x; begin x := 1/0 end." = some (false, ["除数不能为零"]) ∧
    analyzeSource "const z = 0; var x; begin x := 1/z end." = some (true, []) := by
  refine ⟨?_, ?_, ?_, ?_, ?_, by decide!, by decide!⟩
  · intro h
    simp [visitExpression, hl, hr, checkDivision, h]
  · intro v h hv
    simp [visitExpression, hl, hr, checkDivision, h, hv]
  · intro h
    simp [visitExpression, hl, hr, checkDivision, h]
  · intro h
    simp [visitExpression, hl, hr, checkDivision, h]
  · intro name h
    subst h
    simp [visitExpression, hl, hr, checkDivision, Expression.evaluateConstant]
    simpa [visitExpression] using hr

theorem division_by_zero_check_witness :
    visitExpression fresh (.BinaryExpression (.NumberExpression 1) .Div (.NumberExpression 0)) =
      some ((fresh.visitNumberExpression 0).addError "除数不能为零") :=
  (division_by_zero_check fresh (fresh.visitNumberExpression 1) (fresh.visitNumberExpression 0)
    (.NumberExpression 1) (.NumberExpression 0) (by decide) (by decide)).1 (by decide)

end SemanticAnalyzer
end pl0

namespace pl0
namespace SemanticAnalyzer

/-- C11 (as the code behaves): when the name of a procedure declaration is already in the
innermost table, the visit records the one duplicate error and returns without entering the
procedure's block, whatever that block contains; on
`var p; procedure p; begin q := 1 end; begin p := 1 end.` only the duplicate is reported, the
undeclared `q` inside the body is not. -/
theorem duplicate_procedure_skips_body :
    (∀ (sa : SemanticAnalyzer) (name : String) (block : Block) (t : SymbolTable)
      (outer : List SymbolTable), sa.symbol_tables_ = t :: outer →
      SymbolTable.contains t name = true →
      visitProcedureDeclaration sa (.mk name block) =
        some ((sa.addInfo ("Declaring procedure: " ++ name ++ " at level " ++
          toString sa.current_level_)).addError ("Duplicate procedure declaration: " ++ name))) ∧
    parseSource "var p; procedure p; begin q := 1 end; begin p := 1 end." =
      some (some programDuplicateProcedure, []) ∧
    (analyze fresh programDuplicateProcedure).map (fun r => (r.1, r.2.getErrors)) =
      some (false, ["Duplicate procedure declaration: p"]) := by
  refine ⟨?_, by decide!, by decide!⟩
  intro sa name block t outer h hc
  have hd := declareSymbol_cons
    (sa.addInfo ("Declaring procedure: " ++ name ++ " at level " ++ toString sa.current_level_))
    name ⟨.Procedure, none, sa.current_level_, 0⟩ t outer h
  rw [hc] at hd
  simp only [↓reduceIte] at hd
  simp only [visitProcedureDeclaration, hd, Bool.false_eq_true, ↓reduceIte]

theorem duplicate_procedure_skips_body_witness :
    visitProcedureDeclaration
      { fresh with symbol_tables_ := [[("p", ⟨.Variable, none, 1, 0⟩)]] }
      (.mk "p" (.mk [] [] [] (.AssignStatement "q" (.NumberExpression 1)))) =
    some (({ fresh with symbol_tables_ := [[("p", ⟨.Variable, none, 1, 0⟩)]] }.addInfo
      ("Declaring procedure: " ++ "p" ++ " at level " ++ toString (0 : Nat))).addError
        ("Duplicate procedure declaration: " ++ "p")) :=
  duplicate_procedure_skips_body.1
    { fresh with symbol_tables_ := [[("p", ⟨.Variable, none, 1, 0⟩)]] } "p"
    (.mk [] [] [] (.AssignStatement "q" (.NumberExpression 1)))
    [("p", ⟨.Variable, none, 1, 0⟩)] [] rfl (by decide)

end SemanticAnalyzer

/-- C12, refuted as stated: the divisor of `x / 5` folds to 5, which is not 0, and yet the
division is "not constant", because its left operand is. -/
theorem division_of_identifier_not_constant :
    identifierByFive.evaluateConstant = .nullopt ∧
    (Expression.NumberExpression 5).evaluateConstant = .value 5 ∧ (5 : Int) ≠ 0 := by
  decide

/-- C12, amended: when both operands of `a / b` fold, to values `a` and `b` other than
`INT64_MIN` and `-1`, the division is "not constant" exactly when `b = 0`, and otherwise folds
to the quotient truncated toward zero; when an operand is "not constant" (and the other one
folds without faulting) the division is "not constant" whatever the divisor is. -/
theorem division_fold (left right : Expression) :
    (∀ a b : Int, left.evaluateConstant = .value a → right.evaluateConstant = .value b →
      ¬ (a = INT64_MIN ∧ b = -1) →
      ((Expression.BinaryExpression left .Div right).evaluateConstant = .nullopt ↔ b = 0) ∧
      (b ≠ 0 → (Expression.BinaryExpression left .Div right).evaluateConstant =
        .value (Int.tdiv a b))) ∧
    (left.evaluateConstant = .nullopt → right.evaluateConstant ≠ .trap →
      (Expression.BinaryExpression left .Div right).evaluateConstant = .nullopt) ∧
    (right.evaluateConstant = .nullopt → left.evaluateConstant ≠ .trap →
      (Expression.BinaryExpression left .Div right).evaluateConstant = .nullopt) := by
  refine ⟨?_, evaluateConstant_binary_nullopt_left .Div,
    fun hr hl => evaluateConstant_binary_nullopt_right .Div hl hr⟩
  intro a b hl hr hab
  rw [evaluateConstant_binary .Div hl hr]
  by_cases hb : b = 0
  · subst hb
    simp [evalBinaryOp_div_zero]
  · rw [evalBinaryOp_div hb hab]
    simp [hb]

theorem division_fold_witness :
    (Expression.BinaryExpression (.NumberExpression (-7)) .Div
      (.NumberExpression 2)).evaluateConstant = .value (-3) :=
  ((division_fold (.NumberExpression (-7)) (.NumberExpression 2)).1 (-7) 2 rfl rfl
    (by decide)).2 (by decide)

/-- C13 (as the code behaves): the quotient of `INT64_MIN` by `-1` has no result, the division
faults; every other quotient of `int64_t` values with a divisor other than 0 is the value
truncated toward zero and is an `int64_t`, and a divisor 0 gives "not constant". The fault is
reached from the source text
`var x; begin x := 1 / ((0 - 9223372036854775807 - 1) / (0 - 1)) end.`, which parses without
diagnostics and on which the analysis has no result. -/
theorem division_fold_faults_at_min_by_minus_one :
    evalBinaryOp .Div INT64_MIN (-1) = .trap ∧
    (∀ a b : Int, inInt64 a → inInt64 b → b ≠ 0 → ¬ (a = INT64_MIN ∧ b = -1) →
      evalBinaryOp .Div a b = .value (Int.tdiv a b) ∧ inInt64 (Int.tdiv a b)) ∧
    (∀ a : Int, evalBinaryOp .Div a 0 = .nullopt) ∧
    minByMinusOne.evaluateConstant = .trap ∧
    parseSource "var x; begin x := 1 / ((0 - 9223372036854775807 - 1) / (0 - 1)) end." =
      some (some ⟨.mk [] [⟨"x"⟩] [] (.BeginStatement [.AssignStatement "x"
        (.BinaryExpression (.NumberExpression 1) .Div minByMinusOne)])⟩, []) ∧
    analyzeSource "var x; begin x := 1 / ((0 - 9223372036854775807 - 1) / (0 - 1)) end." =
      none := by
  refine ⟨evalBinaryOp_div_trap, ?_, evalBinaryOp_div_zero, by decide, by decide!, by decide!⟩
  intro a b ha _ hb hab
  exact ⟨evalBinaryOp_div hb hab, tdiv_inInt64 ha hb hab⟩

theorem division_fold_faults_at_min_by_minus_one_witness :
    evalBinaryOp .Div (-7) 2 = .value (Int.tdiv (-7) 2) ∧ inInt64 (Int.tdiv (-7) 2) :=
  division_fold_faults_at_min_by_minus_one.2.1 (-7) 2 (by decide) (by decide) (by decide)
    (by decide)

/-- C14: when the operands of `a ^ n` fold to `a` and `n`, the power is "not constant" for
`n < 0` and for `n ≥ 0` folds to `pow64 a n`, the product of `n` copies of `a` by repeated
64-bit multiplication: `pow64 a 0 = 1` for every `a`, `pow64 a (k + 1) = pow64 a k * a` in
64-bit arithmetic, and `pow64 a k` is `a ^ k` reduced to 64 bits. -/
theorem power_fold (left right : Expression) (a n : Int)
    (hl : left.evaluateConstant = .value a) (hr : right.evaluateConstant = .value n) :
    (n < 0 → (Expression.BinaryExpression left .Pow right).evaluateConstant = .nullopt) ∧
    (0 ≤ n → (Expression.BinaryExpression left .Pow right).evaluateConstant =
      .value (pow64 a n.toNat)) ∧
    pow64 a 0 = 1 ∧
    (∀ k : Nat, pow64 a (k + 1) = wrap64 (pow64 a k * a)) ∧
    (∀ k : Nat, pow64 a k = wrap64 (a ^ k)) := by
  rw [evaluateConstant_binary .Pow hl hr]
  refine ⟨?_, ?_, rfl, fun _ => rfl, pow64_eq a⟩
  · intro h
    simp [evalBinaryOp, h]
  · intro h
    have hn : ¬ n < 0 := by omega
    simp only [evalBinaryOp, hn, ↓reduceIte, powLoop_eq_pow64]

theorem power_fold_witness :
    (Expression.BinaryExpression (.NumberExpression 0) .Pow
      (.NumberExpression 0)).evaluateConstant = .value 1 ∧
    (Expression.BinaryExpression (.NumberExpression 2) .Pow
      (.NumberExpression (-1))).evaluateConstant = .nullopt :=
  ⟨(power_fold (.NumberExpression 0) (.NumberExpression 0) 0 0 rfl rfl).2.1 (by decide),
   (power_fold (.NumberExpression 2) (.NumberExpression (-1)) 2 (-1) rfl rfl).1 (by decide)⟩

/-- C15: a tree built only from Number, Unary and Binary nodes whose binary operators are Add,
Sub or Mul folds to a value: `evaluateConstant` is neither "not constant" nor faulting. -/
theorem arithmetic_tree_folds (e : Expression) (h : e.arith = true) :
    ∃ v, e.evaluateConstant = .value v :=
  arith_evaluateConstant e h

theorem arithmetic_tree_folds_witness :
    ∃ v, (Expression.BinaryExpression
      (.UnaryExpression .Neg (.NumberExpression 3)) .Mul
      (.BinaryExpression (.NumberExpression 4) .Sub (.NumberExpression 9))).evaluateConstant =
        .value v :=
  arithmetic_tree_folds _ (by decide)

/-- C16, the value without a negation: an operand that folds to `INT64_MIN`, the literal or the
tree of `0 - 9223372036854775807 - 1`, has a Neg node that folds to `INT64_MIN` again, which is
not the arithmetic negation `2^63` of the operand's value. -/
theorem negation_fold_wraps_at_min :
    (Expression.UnaryExpression .Neg (.NumberExpression INT64_MIN)).evaluateConstant =
      .value INT64_MIN ∧
    (Expression.BinaryExpression (.BinaryExpression (.NumberExpression 0) .Sub
      (.NumberExpression 9223372036854775807)) .Sub (.NumberExpression 1)).evaluateConstant =
      .value INT64_MIN ∧
    (Expression.UnaryExpression .Neg (.BinaryExpression (.BinaryExpression (.NumberExpression 0)
      .Sub (.NumberExpression 9223372036854775807)) .Sub
      (.NumberExpression 1))).evaluateConstant = .value INT64_MIN ∧
    -INT64_MIN = 2 ^ 63 ∧ INT64_MIN ≠ -INT64_MIN ∧ ¬ inInt64 (-INT64_MIN) := by
  decide

/-- C16, amended: when the operands fold to `a` and `b`, each of the six comparisons folds to 1
when the relation holds between `a` and `b` and to 0 otherwise; Not folds to 1 when its operand
folds to 0 and to 0 otherwise; Neg of an operand that folds to an `int64_t` value `v` other than
`INT64_MIN` folds to the arithmetic negation `-v`, which is an `int64_t`, and Neg of an operand
that folds to `INT64_MIN` folds to `INT64_MIN`. -/
theorem comparison_and_unary_fold :
    (∀ (left right : Expression) (a b : Int), left.evaluateConstant = .value a →
      right.evaluateConstant = .value b →
      (Expression.BinaryExpression left .Eq right).evaluateConstant =
        .value (if a = b then 1 else 0) ∧
      (Expression.BinaryExpression left .Neq right).evaluateConstant =
        .value (if a ≠ b then 1 else 0) ∧
      (Expression.BinaryExpression left .Lt right).evaluateConstant =
        .value (if a < b then 1 else 0) ∧
      (Expression.BinaryExpression left .Lte right).evaluateConstant =
        .value (if a ≤ b then 1 else 0) ∧
      (Expression.BinaryExpression left .Gt right).evaluateConstant =
        .value (if a > b then 1 else 0) ∧
      (Expression.BinaryExpression left .Gte right).evaluateConstant =
        .value (if a ≥ b then 1 else 0)) ∧
    (∀ (operand : Expression) (v : Int), operand.evaluateConstant = .value v →
      (Expression.UnaryExpression .Not operand).evaluateConstant =
        .value (if v = 0 then 1 else 0) ∧
      (inInt64 v → v ≠ INT64_MIN →
        (Expression.UnaryExpression .Neg operand).evaluateConstant = .value (-v) ∧
        inInt64 (-v)) ∧
      (v = INT64_MIN →
        (Expression.UnaryExpression .Neg operand).evaluateConstant = .value INT64_MIN)) := by
  refine ⟨?_, ?_⟩
  · intro left right a b hl hr
    simp only [evaluateConstant_binary _ hl hr, evalBinaryOp, boolToInt, decide_eq_true_eq,
      and_self]
  · intro operand v h
    refine ⟨?_, ?_, ?_⟩
    · simp only [evaluateConstant_unary _ h, evalUnaryOp, boolToInt, decide_eq_true_eq]
    · intro hv hne
      have hin : inInt64 (-v) := by
        unfold inInt64 INT64_MIN INT64_MAX at *
        omega
      refine ⟨?_, hin⟩
      simp only [evaluateConstant_unary _ h, evalUnaryOp]
      rw [wrap64_of_inInt64 hin]
    · intro hv
      subst hv
      simp only [evaluateConstant_unary _ h, evalUnaryOp]
      decide

theorem comparison_and_unary_fold_witness :
    (Expression.BinaryExpression (.NumberExpression (-2)) .Lt
      (.NumberExpression 1)).evaluateConstant = .value 1 ∧
    (Expression.UnaryExpression .Not (.NumberExpression 7)).evaluateConstant = .value 0 ∧
    (Expression.UnaryExpression .Neg (.NumberExpression 5)).evaluateConstant = .value (-5) ∧
    (Expression.UnaryExpression .Neg
      (.NumberExpression (-9223372036854775807))).evaluateConstant =
      .value 9223372036854775807 ∧
    (Expression.UnaryExpression .Neg (.NumberExpression INT64_MIN)).evaluateConstant =
      .value INT64_MIN :=
  ⟨(comparison_and_unary_fold.1 (.NumberExpression (-2)) (.NumberExpression 1) (-2) 1
      rfl rfl).2.2.1,
   (comparison_and_unary_fold.2 (.NumberExpression 7) 7 rfl).1,
   ((comparison_and_unary_fold.2 (.NumberExpression 5) 5 rfl).2.1 (by decide) (by decide)).1,
   ((comparison_and_unary_fold.2 (.NumberExpression (-9223372036854775807))
      (-9223372036854775807) rfl).2.1 (by decide) (by decide)).1,
   (comparison_and_unary_fold.2 (.NumberExpression INT64_MIN) INT64_MIN rfl).2.2 rfl⟩

/-- C17: `isConstant` is structural: true on a Number, false on an Identifier, on a Binary node
the conjunction of its operands' and on a Unary node its operand's; for every expression it is
true exactly when the tree contains no Identifier leaf. -/
theorem isConstant_structural :
    (∀ value : Int, (Expression.NumberExpression value).isConstant = true) ∧
    (∀ name : String, (Expression.IdentifierExpression name).isConstant = false) ∧
    (∀ (left right : Expression) (op : BinaryOp),
      (Expression.BinaryExpression left op right).isConstant = true ↔
        left.isConstant = true ∧ right.isConstant = true) ∧
    (∀ (operand : Expression) (op : UnaryOp),
      (Expression.UnaryExpression op operand).isConstant = true ↔ operand.isConstant = true) ∧
    (∀ e : Expression, e.isConstant = true ↔ e.hasIdentifier = false) := by
  refine ⟨fun _ => rfl, fun _ => rfl, ?_, ?_, ?_⟩
  · intro left right op
    simp [Expression.isConstant]
  · intro operand op
    simp [Expression.isConstant]
  · intro e
    rw [isConstant_iff_no_identifier]
    cases e.hasIdentifier <;> simp

/-- C18: the source `const a = 5; var b; begin b := a + 1 end.` tokenizes to sixteen tokens,
none of them an Error token, and parses without diagnostics to the Program whose block has the
one ConstDeclaration (a, 5), the one VarDeclaration b, no procedure and the body
Begin [Assign (b, Add (Identifier a, Number 1))]; `analyze` on that Program returns true and
records no error. -/
theorem example_const_var_program :
    (Parser.ofSource "const a = 5; var b; begin b := a + 1 end.").lexer_.items.map
        Lexeme.token =
      [Token.ofType .CONST, ⟨.IDENTIFIER, .text "a"⟩, Token.ofType .EQ, ⟨.NUMBER, .int 5⟩,
       Token.ofType .SEMICOLON, Token.ofType .VAR, ⟨.IDENTIFIER, .text "b"⟩,
       Token.ofType .SEMICOLON, Token.ofType .BEGIN, ⟨.IDENTIFIER, .text "b"⟩,
       Token.ofType .ASSIGN, ⟨.IDENTIFIER, .text "a"⟩, Token.ofType .PLUS, ⟨.NUMBER, .int 1⟩,
       Token.ofType .END, Token.ofType .PERIOD] ∧
    parseSource "const a = 5; var b; begin b := a + 1 end." = some (some programConstVar, []) ∧
    programConstVar =
      ⟨.mk [⟨"a", 5⟩] [⟨"b"⟩] []
        (.BeginStatement [.AssignStatement "b"
          (.BinaryExpression (.IdentifierExpression "a") .Add (.NumberExpression 1))])⟩ ∧
    (SemanticAnalyzer.analyze SemanticAnalyzer.fresh programConstVar).map
      (fun r => (r.1, r.2.getErrors)) = some (true, []) := by
  decide!

/-- C19, refuted as stated: the token stream of `begin end. @` ends in an Error token, for the
`@`, and `parse` returns the AST of `begin end.` and records nothing: the token behind the
closing `'.'` is never read. -/
theorem error_token_after_period_ignored :
    (Parser.ofSource "begin end. @").lexer_.items.map Lexeme.token =
      [Token.ofType .BEGIN, Token.ofType .END, Token.ofType .PERIOD, Token.ofType .ERROR] ∧
    parseSource "begin end. @" = some (some ⟨.mk [] [] [] (.BeginStatement [])⟩, []) := by
  decide!

/-- C19, amended: an Error token makes the parse fail unless a complete program ends in front
of it. For every token stream with an Error token at index `i`, either `parse` returns no AST
and records a diagnostic, or it returns an AST after consuming `k ≤ i` tokens, the last of
them the closing `'.'`, and records nothing. -/
theorem error_token_fatal_unless_after_period (s : TokenStream) (i : Nat) (t : Lexeme)
    (hi : s.items[i]? = some t) (ht : t.token.type = .ERROR) :
    (∃ p, Parser.parse (Parser.fresh s) = some (none, p) ∧ p.getErrors ≠ []) ∨
    (∃ program k, 1 ≤ k ∧ k ≤ i ∧
      Parser.parse (Parser.fresh s) = some (some program, (Parser.fresh s).drop k) ∧
      ((Parser.fresh s).drop k).getErrors = [] ∧
      Parser.nextType ((Parser.fresh s).drop (k - 1)).tokens = .PERIOD) := by
  rcases Parser.parse_some_or_none (Parser.fresh s) with ⟨program, p1, h⟩ | ⟨p1, h⟩
  · obtain ⟨k, k1, _, k3, k4, k5⟩ := Parser.parse_ok h
    refine Or.inr ⟨program, k, k1, ?_, by rw [h, k3], rfl, k4⟩
    by_contra hlt
    have hti : ((Parser.fresh s).tokens.take k)[i]? = some t.token := by
      rw [List.getElem?_take_of_lt (by omega)]
      simp only [Parser.tokens, Parser.fresh, List.getElem?_map, hi, Option.map_some']
    exact k5 t.token (List.getElem?_mem hti) ht
  · exact Or.inl ⟨p1, h, Parser.parse_none_errors h⟩

theorem error_token_fatal_unless_after_period_witness :
    (∃ p, Parser.parse (Parser.ofSource "begin @ end.") = some (none, p) ∧
      p.getErrors ≠ []) ∨
    (∃ program k, 1 ≤ k ∧ k ≤ 1 ∧
      Parser.parse (Parser.ofSource "begin @ end.") =
        some (some program, (Parser.ofSource "begin @ end.").drop k) ∧
      ((Parser.ofSource "begin @ end.").drop k).getErrors = [] ∧
      Parser.nextType ((Parser.ofSource "begin @ end.").drop (k - 1)).tokens = .PERIOD) :=
  error_token_fatal_unless_after_period (TokenInterpreter.ofSource "begin @ end.").stream 1
    ⟨Token.ofType .ERROR, 1, 8⟩ (by decide!) (by decide)

/-- C20 (as the code behaves): `parse` returns ASTs in which a statement is absent. On
`procedure p; ; begin end.` the block of `p` has the null pointer as its body, on
`var x; begin if x = 1 then ; x := 2 end.` the If has it as its then-part, on
`var x; begin while x = 1 do ; x := 2 end.` the While has it as its body; all three parse
without diagnostics, and on each the analyzer's traversal has no defined result, since it
dereferences the null pointer. -/
theorem parse_returns_absent_statements :
    (parseSource "procedure p; ; begin end." = some (some programNullBody, []) ∧
      SemanticAnalyzer.analyze SemanticAnalyzer.fresh programNullBody = none) ∧
    (parseSource "var x; begin if x = 1 then ; x := 2 end." =
        some (some programNullThen, []) ∧
      SemanticAnalyzer.analyze SemanticAnalyzer.fresh programNullThen = none) ∧
    (parseSource "var x; begin while x = 1 do ; x := 2 end." =
        some (some programNullWhileBody, []) ∧
      SemanticAnalyzer.analyze SemanticAnalyzer.fresh programNullWhileBody = none) := by
  decide!

end pl0

namespace pl0

/-- C21: on `const a=1 var b; begin b:=a end.` the token `var` begins at line 1, column 11:
there the tokenizer stands once `const`, `a`, `=`, `1` and the blank after them are read; the
diagnostic for the missing `;` cites line 1, column 14, the position of the tokenizer after
the lookahead `var` has been scanned, and it is recorded twice. -/
theorem diagnostic_cites_position_after_lookahead :
    (((TokenInterpreter.ofSource "const a=1 var b; begin b:=a end.").skip 4).skipWhitespace.line_
      = 1 ∧
    ((TokenInterpreter.ofSource "const a=1 var b; begin b:=a end.").skip 4).skipWhitespace.column_
      = 11 ∧
    ((TokenInterpreter.ofSource "const a=1 var b; begin b:=a end.").skip 4).nextToken.1 =
      Token.ofType .VAR ∧
    ((TokenInterpreter.ofSource "const a=1 var b; begin b:=a end.").skip 4).nextToken.2.line_
      = 1 ∧
    ((TokenInterpreter.ofSource "const a=1 var b; begin b:=a end.").skip 4).nextToken.2.column_
      = 14) ∧
    parseErrors "const a=1 var b; begin b:=a end." =
      some (false, ["行1列14: 常量声明需要以';'结束\n当前token: 1\n上下文: ",
        "行1列14: 常量声明需要以';'结束\n当前token: 1\n上下文: "]) := by
  decide!

namespace Compiler

/-- C22: the lexical pass of `compileString` always ends; when it meets no `ERROR` token and
`parse` returns the null pointer, the Result has success = false, the parser's diagnostics as
its errors, no AST and no semantic information; when `parse` returns an AST and `analyze`
returns false, the Result has success = false, that AST, the analyzer's errors, which are not
empty, and the analyzer's information. -/
theorem compileString_failures (source : String) :
    (∃ outcome, lexLoop (source.length + 1) (TokenInterpreter.ofSource source) [] =
      some outcome) ∧
    (∀ (tokens : List Token) (parser : Parser),
      lexLoop (source.length + 1) (TokenInterpreter.ofSource source) [] = some (some tokens) →
      Parser.parse (Parser.ofSource source) = some (none, parser) →
      compileString source = some ⟨false, parser.getErrors, tokens, none, []⟩) ∧
    (∀ (tokens : List Token) (parser : Parser) (ast : Program) (analyzer : SemanticAnalyzer),
      lexLoop (source.length + 1) (TokenInterpreter.ofSource source) [] = some (some tokens) →
      Parser.parse (Parser.ofSource source) = some (some ast, parser) →
      SemanticAnalyzer.analyze SemanticAnalyzer.fresh ast = some (false, analyzer) →
      compileString source =
        some ⟨false, analyzer.getErrors, tokens, some ast, analyzer.getInfo⟩ ∧
      analyzer.getErrors ≠ []) := by
  refine ⟨lexLoop_ofSource source, ?_, ?_⟩
  · intro tokens parser hl hp
    simp only [compileString, hl, hp]
  · intro tokens parser ast analyzer hl hp ha
    refine ⟨?_, analyze_false_errors ast analyzer ha⟩
    simp only [compileString, hl, hp, ha]

theorem compileString_failures_witness :
    compileString "x" =
      some ⟨false, ["行1列2: 赋值语句需要':='\n当前token: 30\n上下文: ",
        "行1列2: 赋值语句需要':='\n当前token: 30\n上下文: "],
        [⟨.IDENTIFIER, .text "x"⟩, Token.ofType .END_OF_FILE], none, []⟩ ∧
    compileString "begin x := 1 end." =
      some ⟨false, ["未声明的标识符: x"],
        [Token.ofType .BEGIN, ⟨.IDENTIFIER, .text "x"⟩, Token.ofType .ASSIGN,
          ⟨.NUMBER, .int 1⟩, Token.ofType .END, Token.ofType .PERIOD,
          Token.ofType .END_OF_FILE],
        some ⟨.mk [] [] [] (.BeginStatement [.AssignStatement "x" (.NumberExpression 1)])⟩,
        ["Analyzing program..."]⟩ :=
  ⟨(compileString_failures "x").2.1
      [⟨.IDENTIFIER, .text "x"⟩, Token.ofType .END_OF_FILE]
      ((((Parser.ofSource "x").drop 1).addError
        "行1列2: 赋值语句需要':='\n当前token: 30\n上下文: ").addError
        "行1列2: 赋值语句需要':='\n当前token: 30\n上下文: ")
      (by decide!) (by decide!),
   ((compileString_failures "begin x := 1 end.").2.2
      [Token.ofType .BEGIN, ⟨.IDENTIFIER, .text "x"⟩, Token.ofType .ASSIGN,
        ⟨.NUMBER, .int 1⟩, Token.ofType .END, Token.ofType .PERIOD,
        Token.ofType .END_OF_FILE]
      ((Parser.ofSource "begin x := 1 end.").drop 6)
      ⟨.mk [] [] [] (.BeginStatement [.AssignStatement "x" (.NumberExpression 1)])⟩
      ⟨[], 0, ["未声明的标识符: x"], ["Analyzing program..."], none, false, 0, true⟩
      (by decide!) (by decide!) (by decide!)).1⟩

end Compiler

namespace TokenInterpreter

/-- C23: for every tokenizer state, a second `peekToken` returns the token of the first and
leaves the tokenizer as the first left it; a `nextToken` right after `peekToken` returns that
token; and every sequence of calls of `nextToken` and `peekToken` returns the same tokens
after a `peekToken` as without it. -/
theorem peekToken_idempotent (t : TokenInterpreter) :
    t.peekToken.2.peekToken = (t.peekToken.1, t.peekToken.2) ∧
    t.peekToken.2.nextToken.1 = t.peekToken.1 ∧
    (∀ calls : List Call, returned calls t.peekToken.2 = returned calls t) := by
  obtain ⟨h1, h2⟩ := peekToken_has_peeked t
  refine ⟨?_, ?_, fun calls => returned_peekToken calls t⟩
  · rw [peekToken_of_peeked _ h1, h2]
  · rw [nextToken_of_peeked _ h1, h2]

/-- C24: when a run of decimal digits starts at the current position, `tryReadNumber` returns
a Number token with the value of the maximal run and stands right after the run when that
value is at most 2^63 - 1, and returns an Error token when it is larger; with an empty
lookahead cache, `nextToken` returns that token when the run starts after the white space. -/
theorem number_token_or_error (t : TokenInterpreter) :
    (digitsAt t ≠ [] →
      (decimalValue (digitsAt t) ≤ 2 ^ 63 - 1 →
        t.tryReadNumber =
          (some ⟨.NUMBER, .int (decimalValue (digitsAt t))⟩, moved (digitsAt t).length t)) ∧
      (2 ^ 63 - 1 < decimalValue (digitsAt t) →
        t.tryReadNumber.1 = some (Token.ofType .ERROR))) ∧
    (t.has_peeked_ = false → digitsAt t.skipWhitespace ≠ [] →
      (decimalValue (digitsAt t.skipWhitespace) ≤ 2 ^ 63 - 1 →
        t.nextToken.1 = ⟨.NUMBER, .int (decimalValue (digitsAt t.skipWhitespace))⟩) ∧
      (2 ^ 63 - 1 < decimalValue (digitsAt t.skipWhitespace) →
        t.nextToken.1 = Token.ofType .ERROR)) := by
  refine ⟨tryReadNumber_value t, ?_⟩
  intro hp hd
  obtain ⟨h1, h2⟩ := tryReadNumber_value t.skipWhitespace hd
  rw [nextToken_number t hp hd]
  refine ⟨fun hle => ?_, fun hlt => ?_⟩
  · rw [h1 hle]
    rfl
  · simp only [h2 hlt, Option.getD_some]

theorem number_token_or_error_witness :
    (ofSource "9223372036854775807;").tryReadNumber =
      (some ⟨.NUMBER, .int 9223372036854775807⟩,
        moved 19 (ofSource "9223372036854775807;")) ∧
    (ofSource "9223372036854775808;").tryReadNumber.1 = some (Token.ofType .ERROR) ∧
    (ofSource "  007").nextToken.1 = ⟨.NUMBER, .int 7⟩ ∧
    (ofSource " 99999999999999999999").nextToken.1 = Token.ofType .ERROR :=
  ⟨((number_token_or_error (ofSource "9223372036854775807;")).1 (by decide)).1 (by decide),
   ((number_token_or_error (ofSource "9223372036854775808;")).1 (by decide)).2 (by decide),
   ((number_token_or_error (ofSource "  007")).2 rfl (by decide)).1 (by decide),
   ((number_token_or_error (ofSource " 99999999999999999999")).2 rfl (by decide)).2
     (by decide)⟩

end TokenInterpreter
end pl0

namespace pl0
namespace Parser
open Grammar

/-- C25: for every chain of factors `f ^ g1 ^ ... ^ gn`, on every token source that delivers
its tokens followed by something other than `^`, `parsePower` returns
`Pow(f, Pow(g1, ... Pow(g(n-1), gn)))`; `a ^ b ^ c` parses as `Pow(a, Pow(b, c))`. -/
theorem power_right_associative :
    (∀ (f : Factor) (gs : List Factor) (fuel : Nat) (p : Parser) (rest : List Token),
      p.tokens = powerChainTokens f gs ++ rest → nextType rest ≠ .POWER →
      8 * (powerChainTokens f gs).length + 2 ≤ fuel →
      parsePower fuel p =
        .ok (rightPow f.toAST (gs.map Factor.toAST))
          (p.drop (powerChainTokens f gs).length)) ∧
    parseSource "begin x := a ^ b ^ c end." =
      some (some ⟨.mk [] [] [] (.BeginStatement [.AssignStatement "x"
        (.BinaryExpression (.IdentifierExpression "a") .Pow
          (.BinaryExpression (.IdentifierExpression "b") .Pow
            (.IdentifierExpression "c")))])⟩, []) :=
  ⟨parsePower_chain, by decide!⟩

theorem power_right_associative_witness :
    parsePower 100 (Parser.ofSource "a ^ b ^ c") =
      .ok (.BinaryExpression (.IdentifierExpression "a") .Pow
          (.BinaryExpression (.IdentifierExpression "b") .Pow (.IdentifierExpression "c")))
        ((Parser.ofSource "a ^ b ^ c").drop 5) :=
  power_right_associative.1 (.ident "a") [.ident "b", .ident "c"] 100
    (Parser.ofSource "a ^ b ^ c") [] (by decide!) (by decide) (by decide)

/-- C26: for every sequence `t0 op1 t1 ... opn tn` with operators `+` and `-`, on every token
source that delivers its tokens followed by something that cannot continue an expression,
`parseExpression` returns the left fold `((t0 op1 t1) op2 t2) ... opn tn`, and `parseTerm` does
the same for powers joined by `*` and `/`; `a - b - c` parses as `Sub(Sub(a, b), c)`. -/
theorem additive_multiplicative_left_associative :
    (∀ (first : Term) (seq : List (AddOp × Term)) (fuel : Nat) (p : Parser)
      (rest : List Token), p.tokens = exprSequenceTokens first seq ++ rest →
      endsExpr (nextType rest) → 8 * (exprSequenceTokens first seq).length + 4 ≤ fuel →
      parseExpression fuel p =
        .ok (leftFold first.toAST (seq.map fun x => (x.1.op, x.2.toAST)))
          (p.drop (exprSequenceTokens first seq).length)) ∧
    (∀ (first : Power) (seq : List (MulOp × Power)) (fuel : Nat) (p : Parser)
      (rest : List Token), p.tokens = termSequenceTokens first seq ++ rest →
      endsTerm (nextType rest) → 8 * (termSequenceTokens first seq).length + 3 ≤ fuel →
      parseTerm fuel p =
        .ok (leftFold first.toAST (seq.map fun x => (x.1.op, x.2.toAST)))
          (p.drop (termSequenceTokens first seq).length)) ∧
    parseSource "begin x := a - b - c end." =
      some (some ⟨.mk [] [] [] (.BeginStatement [.AssignStatement "x"
        (.BinaryExpression
          (.BinaryExpression (.IdentifierExpression "a") .Sub (.IdentifierExpression "b"))
          .Sub (.IdentifierExpression "c"))])⟩, []) :=
  ⟨parseExpression_sequence, parseTerm_sequence, by decide!⟩

theorem additive_multiplicative_left_associative_witness :
    parseExpression 100 (Parser.ofSource "a - b + c") =
      .ok (.BinaryExpression
          (.BinaryExpression (.IdentifierExpression "a") .Sub (.IdentifierExpression "b"))
          .Add (.IdentifierExpression "c"))
        ((Parser.ofSource "a - b + c").drop 5) ∧
    parseTerm 100 (Parser.ofSource "a / b * c") =
      .ok (.BinaryExpression
          (.BinaryExpression (.IdentifierExpression "a") .Div (.IdentifierExpression "b"))
          .Mul (.IdentifierExpression "c"))
        ((Parser.ofSource "a / b * c").drop 5) :=
  ⟨additive_multiplicative_left_associative.1 (.mk (.single (.ident "a")) .nil)
      [(.minus, .mk (.single (.ident "b")) .nil), (.plus, .mk (.single (.ident "c")) .nil)]
      100 (Parser.ofSource "a - b + c") [] (by decide!)
      (by unfold endsExpr endsTerm; decide) (by decide),
   additive_multiplicative_left_associative.2.1 (.single (.ident "a"))
      [(.divide, .single (.ident "b")), (.times, .single (.ident "c"))]
      100 (Parser.ofSource "a / b * c") [] (by decide!)
      (by unfold endsTerm; decide) (by decide)⟩

/-- C27: `a + b * c ^ d` parses as `Add(a, Mul(b, Pow(c, d)))`, the condition `a + b < c * d`
parses as `Lt(Add(a, b), Mul(c, d))`, and `(a + b) * c` parses as `Mul(Add(a, b), c)`. -/
theorem operator_precedence_examples :
    parseSource "begin x := a + b * c ^ d end." =
      some (some ⟨.mk [] [] [] (.BeginStatement [.AssignStatement "x"
        (.BinaryExpression (.IdentifierExpression "a") .Add
          (.BinaryExpression (.IdentifierExpression "b") .Mul
            (.BinaryExpression (.IdentifierExpression "c") .Pow
              (.IdentifierExpression "d"))))])⟩, []) ∧
    parseSource "begin if a + b < c * d then x := 1 end." =
      some (some ⟨.mk [] [] [] (.BeginStatement [.IfStatement
        (.BinaryExpression
          (.BinaryExpression (.IdentifierExpression "a") .Add (.IdentifierExpression "b"))
          .Lt
          (.BinaryExpression (.IdentifierExpression "c") .Mul (.IdentifierExpression "d")))
        (.AssignStatement "x" (.NumberExpression 1))])⟩, []) ∧
    parseSource "begin x := (a + b) * c end." =
      some (some ⟨.mk [] [] [] (.BeginStatement [.AssignStatement "x"
        (.BinaryExpression
          (.BinaryExpression (.IdentifierExpression "a") .Add (.IdentifierExpression "b"))
          .Mul (.IdentifierExpression "c"))])⟩, []) := by
  decide!

/-- C28: in `parseIfStatement`, once the condition, `then` and the statement after it are read:
when that statement is present, is not a Begin and the lookahead is neither `end` nor `;`, the
method goes on with the absorption loop entered with that statement, and what it returns is an
If whose then-branch is a Begin that starts with that statement and goes on with the present
statements read by the loop, with `end` or `;` as the lookahead; when the lookahead is `end` or
`;`, it returns the If with that statement itself as its then-branch. With `if` as the lookahead
and fuel for the tokens left, the model of the method is not cut short. -/
theorem if_then_branch (n : Nat) (p p1 p2 p3 : Parser) (condition : Expression) (tok : Token)
    (then_stmt : Statement) (hc : parseCondition n (p.drop 1) = .ok condition p1)
    (ht : consume .THEN "IF语句需要THEN" p1 = .ok tok p2)
    (hs : parseStatement n p2 = .ok then_stmt p3) :
    (then_stmt.isPresent = true → then_stmt.isBegin = false →
      nextType p3.tokens ≠ .END → nextType p3.tokens ≠ .SEMICOLON →
      parseIfStatement (n + 1) p =
        (parseIfLoop n [then_stmt] >>= fun statements =>
          pure (Statement.IfStatement condition (.BeginStatement statements))) p3 ∧
      ∀ r p4, parseIfStatement (n + 1) p = .ok r p4 →
        (∃ more, r = .IfStatement condition (.BeginStatement (then_stmt :: more)) ∧
          ∀ s ∈ more, s.isPresent = true) ∧
        (nextType p4.tokens = .END ∨ nextType p4.tokens = .SEMICOLON)) ∧
    (nextType p3.tokens = .END ∨ nextType p3.tokens = .SEMICOLON →
      parseIfStatement (n + 1) p = .ok (.IfStatement condition then_stmt) p3) ∧
    (nextType p.tokens = .IF → 8 * p.len + 1 ≤ n + 1 →
      parseIfStatement (n + 1) p ≠ .outOfFuel) := by
  have he := parseIfStatement_eq hc ht hs
  refine ⟨?_, ?_, ?_⟩
  rotate_left 2
  · intro hi hf hx
    have hsound : Sound False 1 (parseIfStatement (n + 1)) p :=
      (stmtSound (n + 1)).ifStatement p (fun h => h.elim) hi hf
    unfold Sound at hsound
    rw [hx] at hsound
    exact hsound
  · intro h1 h2 h3 h4
    have hx : parseIfStatement (n + 1) p =
        (parseIfLoop n [then_stmt] >>= fun statements =>
          pure (Statement.IfStatement condition (.BeginStatement statements))) p3 := by
      rw [he]
      simp [h1, h2, h3, h4]
    refine ⟨hx, ?_⟩
    intro r p4 hr
    rw [hx] at hr
    cases hl : parseIfLoop n [then_stmt] p3 with
    | ok statements p5 =>
      rw [bind_ok hl] at hr
      simp only [pure_apply] at hr
      injection hr with hr1 hr2
      obtain ⟨⟨more, hm, hpres⟩, hnext⟩ := parseIfLoop_ok n [then_stmt] p3 p5 statements hl
      subst hr2
      exact ⟨⟨more, by rw [← hr1, hm]; rfl, hpres⟩, hnext⟩
    | thrown e p5 =>
      rw [bind_thrown hl] at hr
      cases hr
    | outOfFuel =>
      simp only [bind_apply, hl] at hr
      cases hr
  · intro h
    rw [he]
    rcases h with h | h <;> simp [h]

theorem if_then_branch_witness :
    parseIfStatement 51 (Parser.ofSource "if a = b then x := 1 y := 2; z := 3 end") =
      .ok (.IfStatement
          (.BinaryExpression (.IdentifierExpression "a") .Eq (.IdentifierExpression "b"))
          (.BeginStatement [.AssignStatement "x" (.NumberExpression 1),
            .AssignStatement "y" (.NumberExpression 2),
            .AssignStatement "z" (.NumberExpression 3)]))
        ((Parser.ofSource "if a = b then x := 1 y := 2; z := 3 end").drop 15) ∧
    parseIfStatement 51 (Parser.ofSource "if a = b then x := 1; z := 3 end") =
      .ok (.IfStatement
          (.BinaryExpression (.IdentifierExpression "a") .Eq (.IdentifierExpression "b"))
          (.AssignStatement "x" (.NumberExpression 1)))
        ((Parser.ofSource "if a = b then x := 1; z := 3 end").drop 8) :=
  ⟨((if_then_branch 50 (Parser.ofSource "if a = b then x := 1 y := 2; z := 3 end")
      ((Parser.ofSource "if a = b then x := 1 y := 2; z := 3 end").drop 4)
      ((Parser.ofSource "if a = b then x := 1 y := 2; z := 3 end").drop 5)
      ((Parser.ofSource "if a = b then x := 1 y := 2; z := 3 end").drop 8)
      (.BinaryExpression (.IdentifierExpression "a") .Eq (.IdentifierExpression "b"))
      (Token.ofType .THEN) (.AssignStatement "x" (.NumberExpression 1))
      (by decide!) (by decide!) (by decide!)).1 (by decide) (by decide) (by decide!)
      (by decide!)).1.trans (by decide!),
   (if_then_branch 50 (Parser.ofSource "if a = b then x := 1; z := 3 end")
      ((Parser.ofSource "if a = b then x := 1; z := 3 end").drop 4)
      ((Parser.ofSource "if a = b then x := 1; z := 3 end").drop 5)
      ((Parser.ofSource "if a = b then x := 1; z := 3 end").drop 8)
      (.BinaryExpression (.IdentifierExpression "a") .Eq (.IdentifierExpression "b"))
      (Token.ofType .THEN) (.AssignStatement "x" (.NumberExpression 1))
      (by decide!) (by decide!) (by decide!)).2.1 (by decide!)⟩

/-- C29: when the lookahead is `end` or `;`, `parseStatement` returns the null pointer and
leaves the parser as it is, diagnostics and token source included; when the lookahead is none
of identifier, `call`, `begin`, `if`, `while`, `end` and `;`, it throws, the thrown message
having been appended to the diagnostics; so it does on `'.'` and at the end of file. -/
theorem parseStatement_by_lookahead (n : Nat) (p : Parser) :
    (nextType p.tokens = .END ∨ nextType p.tokens = .SEMICOLON →
      parseStatement (n + 1) p = .ok .nullptr p) ∧
    (nextType p.tokens ≠ .IDENTIFIER → nextType p.tokens ≠ .CALL →
      nextType p.tokens ≠ .BEGIN → nextType p.tokens ≠ .IF → nextType p.tokens ≠ .WHILE →
      nextType p.tokens ≠ .END → nextType p.tokens ≠ .SEMICOLON →
      ∃ e p1, parseStatement (n + 1) p = .thrown e p1 ∧
        Threw (p.wellValued = true) p e p1) := by
  refine ⟨parseStatement_stop n, ?_⟩
  intro h1 h2 h3 h4 h5 h6 h7
  have hx := parseStatement_other n h1 h2 h3 h4 h5 h6 h7
  obtain ⟨e, p1, ht⟩ : ∃ e p1, (error (if nextType p.tokens = .ERROR then "词法错误"
      else "预期语句，但得到: " ++ toString (nextType p.tokens).toInt) :
      ParserM Statement) p = .thrown e p1 := error_thrown _ p
  have hs : Sound (p.wellValued = true) 0 (parseStatement (n + 1)) p :=
    Sound.congr (sound_error id 0 _) hx
  exact ⟨e, p1, hx.trans ht, hs.thrown (hx.trans ht)⟩

theorem parseStatement_by_lookahead_witness :
    parseStatement 1 (Parser.ofSource "; x := 1") =
      .ok .nullptr (Parser.ofSource "; x := 1") ∧
    (∃ e p1, parseStatement 1 (Parser.ofSource ".") = .thrown e p1 ∧
      Threw ((Parser.ofSource ".").wellValued = true) (Parser.ofSource ".") e p1) ∧
    (∃ e p1, parseStatement 1 (Parser.ofSource "") = .thrown e p1 ∧
      Threw ((Parser.ofSource "").wellValued = true) (Parser.ofSource "") e p1) :=
  ⟨(parseStatement_by_lookahead 0 (Parser.ofSource "; x := 1")).1 (by decide!),
   (parseStatement_by_lookahead 0 (Parser.ofSource ".")).2 (by decide!) (by decide!)
     (by decide!) (by decide!) (by decide!) (by decide!) (by decide!),
   (parseStatement_by_lookahead 0 (Parser.ofSource "")).2 (by decide!) (by decide!)
     (by decide!) (by decide!) (by decide!) (by decide!) (by decide!)⟩

end Parser
end pl0

namespace pl0
namespace SemanticAnalyzer

/-- C30, refuted as stated: visiting a declaration, or a Block that holds one, on the fresh
analyzer pushes a table onto the empty scope stack, so the depth of the stack goes from 0 to 1
and the declared symbol stays in it. -/
theorem declaration_on_fresh_analyzer_pushes_scope :
    fresh.symbol_tables_ = [] ∧
    (visitConstDeclaration fresh ⟨"x", 1⟩).symbol_tables_ =
      [[("x", ⟨.Constant, some 1, 0, 0⟩)]] ∧
    (visitVarDeclaration fresh ⟨"x"⟩).symbol_tables_.length = 1 ∧
    (visitProcedureDeclaration fresh (.mk "p" (.mk [] [] [] (.BeginStatement [])))).map
      (fun sa => sa.symbol_tables_.length) = some 1 ∧
    (visitBlock fresh (.mk [⟨"x", 1⟩] [] [] (.BeginStatement []))).map
      (fun sa => sa.symbol_tables_.length) = some 1 := by
  decide

/-- C30, amended: a visit of an expression, a statement or a Program that returns leaves the
scope stack and the nesting level as they were, on every analyzer; on an analyzer whose scope
stack is not empty, a visit of a constant or variable declaration, and a visit of a Block or of
a procedure declaration that returns, leave the depth of the stack, the tables below the top
and the nesting level as they were, and after a procedure declaration the entries of the top
table under all other names are as before; `analyze` on the fresh analyzer, which returns on
every well-formed program, ends with the empty stack at level 0. -/
theorem scope_brackets_balanced :
    (∀ (e : Expression) (sa sa1 : SemanticAnalyzer),
      visitExpression sa e = some sa1 → SameScopes sa sa1) ∧
    (∀ (s : Statement) (sa sa1 : SemanticAnalyzer),
      visitStatement sa s = some sa1 → SameScopes sa sa1) ∧
    (∀ (node : Program) (sa sa1 : SemanticAnalyzer),
      visitProgram sa node = some sa1 → SameScopes sa sa1) ∧
    (∀ (d : ConstDeclaration) (sa : SemanticAnalyzer) (t : SymbolTable)
      (outer : List SymbolTable), sa.symbol_tables_ = t :: outer →
      (∃ t1, (visitConstDeclaration sa d).symbol_tables_ = t1 :: outer) ∧
      (visitConstDeclaration sa d).current_level_ = sa.current_level_) ∧
    (∀ (d : VarDeclaration) (sa : SemanticAnalyzer) (t : SymbolTable)
      (outer : List SymbolTable), sa.symbol_tables_ = t :: outer →
      (∃ t1, (visitVarDeclaration sa d).symbol_tables_ = t1 :: outer) ∧
      (visitVarDeclaration sa d).current_level_ = sa.current_level_) ∧
    (∀ (b : Block) (sa sa1 : SemanticAnalyzer) (t : SymbolTable) (outer : List SymbolTable),
      sa.symbol_tables_ = t :: outer → visitBlock sa b = some sa1 →
      (∃ t1, sa1.symbol_tables_ = t1 :: outer) ∧ sa1.current_level_ = sa.current_level_) ∧
    (∀ (d : ProcedureDeclaration) (sa sa1 : SemanticAnalyzer) (t : SymbolTable)
      (outer : List SymbolTable), sa.symbol_tables_ = t :: outer →
      visitProcedureDeclaration sa d = some sa1 →
      ∃ t1, sa1.symbol_tables_ = t1 :: outer ∧ sa1.current_level_ = sa.current_level_ ∧
        ∀ n, n ≠ d.name → SymbolTable.find t1 n = SymbolTable.find t n) ∧
    (∀ program : Program, program.block.wellFormed = true →
      ∃ r, analyze fresh program = some r ∧ r.2.symbol_tables_ = [] ∧
        r.2.current_level_ = 0) ∧
    (∀ (program : Program) (r : Bool × SemanticAnalyzer), analyze fresh program = some r →
      r.2.symbol_tables_ = [] ∧ r.2.current_level_ = 0) := by
  refine ⟨fun e sa sa1 h => sameScopes_visitExpression e sa sa1 h,
    fun s sa sa1 h => sameScopes_visitStatement s sa sa1 h,
    sameScopes_visitProgram, ?_, ?_, ?_, ?_, ?_, ?_⟩
  · intro d sa t outer ht
    exact (topChanged_visitConstDeclaration sa d t outer ht).outer_eq t outer ht
  · intro d sa t outer ht
    exact (topChanged_visitVarDeclaration sa d t outer ht).outer_eq t outer ht
  · intro b sa sa1 t outer ht h
    obtain ⟨names, hc⟩ := topChanged_visitBlock b sa sa1 t outer ht h
    exact hc.outer_eq t outer ht
  · intro d sa sa1 t outer ht h
    obtain ⟨a, b, c, h1, h2, h3, h4⟩ := topChanged_visitProcedureDeclaration d sa sa1 t outer ht h
    rw [h1] at ht
    injection ht with ha hc
    subst ha hc
    exact ⟨b, h2, h3, fun n hn => h4 n (by simpa using hn)⟩
  · intro program hw
    obtain ⟨r, hr⟩ := Option.isSome_iff_exists.mp (analyze_isSome fresh program hw)
    exact ⟨r, hr, analyze_scopes fresh program r hr⟩
  · intro program r hr
    exact analyze_scopes fresh program r hr

theorem scope_brackets_balanced_witness :
    (∃ t1, (visitConstDeclaration fresh.enterScope ⟨"x", 1⟩).symbol_tables_ = t1 :: []) ∧
    (∃ r, analyze fresh programConstVar = some r ∧ r.2.symbol_tables_ = [] ∧
      r.2.current_level_ = 0) :=
  ⟨(scope_brackets_balanced.2.2.2.1 ⟨"x", 1⟩ fresh.enterScope [] [] (by decide)).1,
   scope_brackets_balanced.2.2.2.2.2.2.2.1 programConstVar (by decide)⟩

end SemanticAnalyzer
end pl0

namespace pl0
namespace SemanticAnalyzer

/-- C31: in a block visited on entry of a scope (as `visit(Program)` and
`visit(ProcedureDeclaration)` do), the counter is 0 after the constant declarations, the
declaration of the `k`-th variable finds the counter at `k`, and a variable declaration whose
name is free in the innermost table stores a Variable symbol with the counter as its slot index
and increments the counter; so the Variable symbols of the innermost table have pairwise
distinct slot indices after the variable declarations and when the statement of the block is
reached. For `var x, y, x, z` the table holds `z` at slot 3, `y` at slot 1 and `x` at slot 0. -/
theorem variable_slot_indices (sa : SemanticAnalyzer) (consts : List ConstDeclaration)
    (vars : List VarDeclaration) :
    (consts.foldl visitConstDeclaration sa.enterScope).var_index_ = 0 ∧
    (∀ k, k < vars.length →
      ((vars.take k).foldl visitVarDeclaration
        (consts.foldl visitConstDeclaration sa.enterScope)).var_index_ = k) ∧
    (∀ (s : SemanticAnalyzer) (d : VarDeclaration) (t : SymbolTable)
      (outer : List SymbolTable), s.symbol_tables_ = t :: outer →
      SymbolTable.contains t d.name = false →
      (s.visitVarDeclaration d).symbol_tables_ =
        ((d.name, ⟨.Variable, none, s.current_level_, s.var_index_⟩) :: t) :: outer ∧
      (s.visitVarDeclaration d).var_index_ = s.var_index_ + 1) ∧
    (∃ t outer, (vars.foldl visitVarDeclaration
        (consts.foldl visitConstDeclaration sa.enterScope)).symbol_tables_ = t :: outer ∧
      DistinctSlots t) ∧
    (∀ (procs : List ProcedureDeclaration) (sa3 : SemanticAnalyzer),
      visitProcedures (vars.foldl visitVarDeclaration
        (consts.foldl visitConstDeclaration sa.enterScope)) procs = some sa3 →
      ∃ t outer, sa3.symbol_tables_ = t :: outer ∧ DistinctSlots t) ∧
    ([⟨"x"⟩, ⟨"y"⟩, ⟨"x"⟩, ⟨"z"⟩].foldl visitVarDeclaration fresh.enterScope).symbol_tables_ =
      [[("z", ⟨.Variable, none, 1, 3⟩), ("y", ⟨.Variable, none, 1, 1⟩),
        ("x", ⟨.Variable, none, 1, 0⟩)]] := by
  have h0 : (consts.foldl visitConstDeclaration sa.enterScope).var_index_ = 0 := by
    rw [foldl_visitConstDeclaration_var_index]
    rfl
  have hok : SlotsOK (vars.foldl visitVarDeclaration
      (consts.foldl visitConstDeclaration sa.enterScope)) :=
    slotsOK_foldl_var vars _ (slotsOK_foldl_const consts _ (slotsOK_enterScope sa))
  refine ⟨h0, ?_, ?_, ?_, ?_, by decide⟩
  · intro k hk
    rw [foldl_visitVarDeclaration_var_index, h0, List.length_take]
    omega
  · intro s d t outer ht hc
    exact ⟨(visitVarDeclaration_stores s d t outer ht hc).1, visitVarDeclaration_var_index s d⟩
  · obtain ⟨t, outer, ht, hd, _⟩ := hok
    exact ⟨t, outer, ht, hd⟩
  · intro procs sa3 hv
    obtain ⟨t, outer, ht, hd, _⟩ := hok
    exact topDistinct_visitProcedures procs _ sa3 ⟨t, outer, ht, hd⟩ hv

theorem variable_slot_indices_witness :
    (([⟨"x"⟩, ⟨"y"⟩, ⟨"z"⟩].take 2).foldl visitVarDeclaration
      (([⟨"c", 7⟩] : List ConstDeclaration).foldl visitConstDeclaration
        fresh.enterScope)).var_index_ = 2 ∧
    ((fresh.enterScope).visitVarDeclaration ⟨"x"⟩).symbol_tables_ =
      [[("x", ⟨.Variable, none, 1, 0⟩)]] :=
  ⟨(variable_slot_indices fresh [⟨"c", 7⟩] [⟨"x"⟩, ⟨"y"⟩, ⟨"z"⟩]).2.1 2 (by decide),
   ((variable_slot_indices fresh [] []).2.2.1 fresh.enterScope ⟨"x"⟩ [] [] rfl rfl).1⟩

/-- C36: on an analyzer with an open scope in which neither `a` nor `b` is declared, `b` not
being declared in an enclosing scope either: the declaration of a procedure `a` whose body is
`call b` records the undeclared-procedure error for `b`, and the declaration of a procedure `b`
whose body is `call a`, visited next, records nothing. So do the source texts with these two
procedures; with `b` declared first, `call b` in the body of `a` records nothing. -/
theorem sibling_procedure_visibility :
    (∀ (sa : SemanticAnalyzer) (t : SymbolTable) (outer : List SymbolTable) (a b : String),
      sa.symbol_tables_ = t :: outer → a ≠ b → SymbolTable.contains t a = false →
      sa.lookupSymbol b = none →
      ∃ sa1 sa2,
        visitProcedureDeclaration sa (.mk a (.mk [] [] [] (.CallStatement b))) = some sa1 ∧
        sa1.errors_ = sa.errors_ ++ ["未声明的过程: " ++ b] ∧
        visitProcedureDeclaration sa1 (.mk b (.mk [] [] [] (.CallStatement a))) = some sa2 ∧
        sa2.errors_ = sa1.errors_) ∧
    analyzeSource "procedure a; call b; procedure b; call a; begin end." =
      some (false, ["未声明的过程: b"]) ∧
    analyzeSource "procedure a; begin call b end; procedure b; begin call a end; begin end." =
      some (false, ["未声明的过程: b"]) ∧
    analyzeSource "procedure b; begin end; procedure a; begin call b end; begin end." =
      some (true, []) := by
  refine ⟨?_, by decide!, by decide!, by decide!⟩
  intro sa t outer a b ht hab ha hb
  have hfb : SymbolTable.find t b = none := by
    unfold lookupSymbol at hb
    rw [ht] at hb
    simp only [lookupIn] at hb
    cases hf : SymbolTable.find t b with
    | none => rfl
    | some s => simp [hf] at hb
  obtain ⟨sa1, h1, t1, e1⟩ :=
    visitProcedureDeclaration_call_undeclared sa t outer a b ht ha hab hb
  obtain ⟨sa2, h2, _, e2⟩ := visitProcedureDeclaration_call_sibling sa1
    ((a, ⟨.Procedure, none, sa.current_level_, 0⟩) :: t) outer b a
    ⟨.Procedure, none, sa.current_level_, 0⟩ t1
    (by simp [SymbolTable.contains, SymbolTable.find, hab, hfb]) (fun e => hab e.symm)
    (by simp [SymbolTable.find]) rfl
  exact ⟨sa1, sa2, h1, e1, h2, e2⟩

theorem sibling_procedure_visibility_witness :
    ∃ sa1 sa2,
      visitProcedureDeclaration fresh.enterScope
        (.mk "a" (.mk [] [] [] (.CallStatement "b"))) = some sa1 ∧
      sa1.errors_ = fresh.enterScope.errors_ ++ ["未声明的过程: " ++ "b"] ∧
      visitProcedureDeclaration sa1 (.mk "b" (.mk [] [] [] (.CallStatement "a"))) = some sa2 ∧
      sa2.errors_ = sa1.errors_ :=
  sibling_procedure_visibility.1 fresh.enterScope [] [] "a" "b" rfl (by decide) rfl rfl

end SemanticAnalyzer
end pl0

namespace pl0
namespace Parser

/-- C32: `parse` returns on every parser, whatever its token source, and so on every source
text; and with fuel for the tokens left, every round of the loops of `parseBeginStatement`, of
the absorption of `parseIfStatement`, of the declaration lists and of the operator chains
either throws or takes at least one token before the loop is entered again or left. -/
theorem parse_terminates :
    (∀ p : Parser, ∃ r, parse p = some r) ∧
    (∀ source : String, ∃ r, parseSource source = some r) ∧
    (∀ (n : Nat) (acc : List Statement) (p : Parser), 8 * p.len + 4 ≤ n →
      nextType p.tokens ≠ .END →
      Round 1 (parseBeginLoop (n + 1) acc) (parseBeginLoop n) p) ∧
    (∀ (n : Nat) (acc : List Statement) (p : Parser), 8 * p.len + 4 ≤ n →
      nextType p.tokens ≠ .END → nextType p.tokens ≠ .SEMICOLON →
      Round 1 (parseIfLoop (n + 1) acc) (parseIfLoop n) p) ∧
    (∀ (n : Nat) (decls : List ConstDeclaration) (p : Parser),
      Round 1 (parseConstDeclarationsLoop (n + 1) decls) (parseConstDeclarationsLoop n) p) ∧
    (∀ (n : Nat) (decls : List VarDeclaration) (p : Parser),
      Round 1 (parseVarDeclarationsLoop (n + 1) decls) (parseVarDeclarationsLoop n) p) ∧
    (∀ (n : Nat) (procs : List ProcedureDeclaration) (p : Parser), 8 * p.len + 4 ≤ n →
      nextType p.tokens = .PROCEDURE →
      Round 1 (parseProcedures (n + 1) procs) (parseProcedures n) p) ∧
    (∀ (n : Nat) (acc : Expression) (p : Parser), 8 * p.len + 4 ≤ n →
      nextType p.tokens = .PLUS ∨ nextType p.tokens = .MINUS →
      Round 1 (parseExpressionLoop (n + 1) acc) (parseExpressionLoop n) p) ∧
    (∀ (n : Nat) (acc : Expression) (p : Parser), 8 * p.len + 4 ≤ n →
      nextType p.tokens = .MULTIPLY ∨ nextType p.tokens = .DIVIDE →
      Round 1 (parseTermLoop (n + 1) acc) (parseTermLoop n) p) ∧
    (∀ (n : Nat) (acc : Expression) (p : Parser), 8 * p.len + 4 ≤ n →
      nextType p.tokens = .POWER →
      Round 1 (parsePowerLoop (n + 1) acc) (parsePowerLoop n) p) := by
  refine ⟨fun p => Option.isSome_iff_exists.mp (parse_isSome p), ?_, parseBeginLoop_round,
    parseIfLoop_round, parseConstDeclarationsLoop_round, parseVarDeclarationsLoop_round,
    parseProcedures_round, parseExpressionLoop_round, parseTermLoop_round,
    parsePowerLoop_round⟩
  intro source
  obtain ⟨r, hr⟩ := Option.isSome_iff_exists.mp (parse_isSome (Parser.ofSource source))
  exact ⟨(r.1, r.2.getErrors), by simp [parseSource, hr]⟩

theorem parse_terminates_witness :
    Round 1 (parseBeginLoop 201 []) (parseBeginLoop 200)
      (Parser.ofSource "x := 1; y := 2 end") ∧
    Round 1 (parseIfLoop 201 []) (parseIfLoop 200) (Parser.ofSource "y := 2; z := 3 end") ∧
    Round 1 (parseExpressionLoop 201 (.NumberExpression 1)) (parseExpressionLoop 200)
      (Parser.ofSource "+ 2 + 3") :=
  ⟨parse_terminates.2.2.1 200 [] (Parser.ofSource "x := 1; y := 2 end") (by decide!)
      (by decide!),
   parse_terminates.2.2.2.1 200 [] (Parser.ofSource "y := 2; z := 3 end") (by decide!)
      (by decide!) (by decide!),
   parse_terminates.2.2.2.2.2.2.2.1 200 (.NumberExpression 1) (Parser.ofSource "+ 2 + 3")
      (by decide!) (Or.inl (by decide!))⟩

end Parser
end pl0

namespace pl0

/-- C39: for every expression, when `evaluateConstant` returns a value, `isConstant` is true;
for `1 / 0`, `isConstant` is true and `evaluateConstant` returns nothing. -/
theorem evaluateConstant_value_isConstant :
    (∀ (e : Expression) (v : Int), e.evaluateConstant = .value v → e.isConstant = true) ∧
    (Expression.BinaryExpression (.NumberExpression 1) .Div (.NumberExpression 0)).isConstant
      = true ∧
    (Expression.BinaryExpression (.NumberExpression 1) .Div
      (.NumberExpression 0)).evaluateConstant = .nullopt := by
  refine ⟨?_, by decide, by decide⟩
  intro e
  induction e with
  | BinaryExpression left op right ihl ihr =>
    intro v h
    simp only [Expression.isConstant, Bool.and_eq_true]
    cases hl : left.evaluateConstant with
    | trap => simp [Expression.evaluateConstant, hl] at h
    | nullopt =>
      cases hr : right.evaluateConstant <;> simp [Expression.evaluateConstant, hl, hr] at h
    | value a =>
      cases hr : right.evaluateConstant with
      | trap => simp [Expression.evaluateConstant, hl, hr] at h
      | nullopt => simp [Expression.evaluateConstant, hl, hr] at h
      | value b => exact ⟨ihl a hl, ihr b hr⟩
  | UnaryExpression op operand ih =>
    intro v h
    simp only [Expression.isConstant]
    cases ho : operand.evaluateConstant with
    | trap => simp [Expression.evaluateConstant, ho] at h
    | nullopt => simp [Expression.evaluateConstant, ho] at h
    | value a => exact ih a ho
  | NumberExpression value => intro _ _; rfl
  | IdentifierExpression name =>
    intro v h
    simp [Expression.evaluateConstant] at h

theorem evaluateConstant_value_isConstant_witness :
    (Expression.BinaryExpression (.NumberExpression 2) .Pow
      (.UnaryExpression .Neg (.NumberExpression (-3)))).isConstant = true :=
  evaluateConstant_value_isConstant.1 _ 8 (by decide)

namespace Parser

/-- C33: on a freshly constructed parser, whatever the token source, `parse` returns, and it
returns an AST exactly when the error list is empty afterwards. -/
theorem parse_ast_iff_no_errors (lexer : TokenStream) :
    ∃ r, parse (fresh lexer) = some r ∧ (r.1.isSome = true ↔ r.2.getErrors = []) := by
  rcases parse_some_or_none (fresh lexer) with ⟨program, p1, h⟩ | ⟨p1, h⟩
  · refine ⟨_, h, ?_⟩
    obtain ⟨k, _, _, hk, _, _⟩ := parse_ok h
    simp only [Option.isSome_some, true_iff]
    rw [hk]
    rfl
  · refine ⟨_, h, ?_⟩
    have he := parse_none_errors h
    simp only [Option.isSome_none, Bool.false_eq_true, false_iff]
    exact he

/-- C35: in the absorption loop of `parseIfStatement`, with a lookahead other than `end` and
`;` a statement is read, and a `;` right after it is consumed before the loop goes on; the loop
returns, with what it has collected, exactly at a lookahead `end` or `;`; with `'.'` or the end
of file as lookahead it throws. The text
`begin if a = b then x := 1 y := 2; z := 3 end.` parses to a Begin holding one If whose
then-branch is Begin [x := 1, y := 2, z := 3], and the same absorption cut by `'.'` or by the
end of the text gives no AST. -/
theorem if_absorption_loop :
    (∀ (n : Nat) (acc : List Statement) (p p1 : Parser) (stmt : Statement),
      nextType p.tokens ≠ .END → nextType p.tokens ≠ .SEMICOLON →
      parseStatement n p = .ok stmt p1 →
      (nextType p1.tokens = .SEMICOLON →
        parseIfLoop (n + 1) acc p = parseIfLoop n (pushIfPresent acc stmt) (p1.drop 1)) ∧
      (nextType p1.tokens ≠ .SEMICOLON →
        parseIfLoop (n + 1) acc p = parseIfLoop n (pushIfPresent acc stmt) p1)) ∧
    (∀ (n : Nat) (acc : List Statement) (p : Parser),
      nextType p.tokens = .END ∨ nextType p.tokens = .SEMICOLON →
      parseIfLoop (n + 1) acc p = .ok acc p) ∧
    (∀ (n : Nat) (acc statements : List Statement) (p p1 : Parser),
      parseIfLoop n acc p = .ok statements p1 →
      nextType p1.tokens = .END ∨ nextType p1.tokens = .SEMICOLON) ∧
    (∀ (n : Nat) (acc : List Statement) (p : Parser),
      nextType p.tokens = .PERIOD ∨ nextType p.tokens = .END_OF_FILE →
      ∃ e p1, parseIfLoop (n + 2) acc p = .thrown e p1 ∧
        Threw (p.wellValued = true) p e p1) ∧
    parseSource "begin if a = b then x := 1 y := 2; z := 3 end." =
      some (some ⟨.mk [] [] [] (.BeginStatement [.IfStatement
        (.BinaryExpression (.IdentifierExpression "a") .Eq (.IdentifierExpression "b"))
        (.BeginStatement [.AssignStatement "x" (.NumberExpression 1),
          .AssignStatement "y" (.NumberExpression 2),
          .AssignStatement "z" (.NumberExpression 3)])])⟩, []) ∧
    (parseSource "begin if a = b then x := 1 y := 2 .").map (fun r => r.1) = some none ∧
    (parseSource "begin if a = b then x := 1 y := 2").map (fun r => r.1) = some none := by
  refine ⟨?_, ?_, ?_, ?_, by decide!, by decide!, by decide!⟩
  · intro n acc p p1 stmt h1 h2 hs
    refine ⟨fun h3 => ?_, fun h3 => ?_⟩
    · rw [parseIfLoop]
      simp [h1, h2, hs, match_same h3]
    · rw [parseIfLoop]
      simp [h1, h2, hs, match_other h3]
  · intro n acc p h
    rw [parseIfLoop]
    rcases h with h | h <;> simp [h]
  · intro n acc statements p p1 h
    exact (parseIfLoop_ok n acc p p1 statements h).2
  · intro n acc p h
    have h1 : nextType p.tokens ≠ .END := by rcases h with h | h <;> rw [h] <;> decide
    have h2 : nextType p.tokens ≠ .SEMICOLON := by rcases h with h | h <;> rw [h] <;> decide
    have hx := parseStatement_other n (by rcases h with h | h <;> rw [h] <;> decide)
      (by rcases h with h | h <;> rw [h] <;> decide)
      (by rcases h with h | h <;> rw [h] <;> decide)
      (by rcases h with h | h <;> rw [h] <;> decide)
      (by rcases h with h | h <;> rw [h] <;> decide) h1 h2
    obtain ⟨e, p1, ht⟩ : ∃ e p1, (error (if nextType p.tokens = .ERROR then "词法错误"
        else "预期语句，但得到: " ++ toString (nextType p.tokens).toInt) :
        ParserM Statement) p = .thrown e p1 := error_thrown _ p
    have hs : Sound (p.wellValued = true) 0 (parseStatement (n + 1)) p :=
      Sound.congr (sound_error id 0 _) hx
    refine ⟨e, p1, ?_, hs.thrown (hx.trans ht)⟩
    rw [parseIfLoop]
    simp [h1, h2, hx.trans ht]

theorem if_absorption_loop_witness :
    parseIfLoop 51 [] (Parser.ofSource "y := 2; z := 3 end") =
      parseIfLoop 50 [.AssignStatement "y" (.NumberExpression 2)]
        ((Parser.ofSource "y := 2; z := 3 end").drop 4) ∧
    parseIfLoop 51 [] (Parser.ofSource "end") = .ok [] (Parser.ofSource "end") ∧
    (∃ e p1, parseIfLoop 2 [] (Parser.ofSource ".") = .thrown e p1 ∧
      Threw ((Parser.ofSource ".").wellValued = true) (Parser.ofSource ".") e p1) :=
  ⟨((if_absorption_loop.1 50 [] (Parser.ofSource "y := 2; z := 3 end")
      ((Parser.ofSource "y := 2; z := 3 end").drop 3)
      (.AssignStatement "y" (.NumberExpression 2)) (by decide!) (by decide!)
      (by decide!)).1 (by decide!)).trans (by decide!),
   if_absorption_loop.2.1 50 [] (Parser.ofSource "end") (by decide!),
   if_absorption_loop.2.2.2.1 0 [] (Parser.ofSource ".") (by decide!)⟩

end Parser
end pl0

namespace pl0
namespace SemanticAnalyzer

/-- C37: when the innermost table already holds a symbol under `x`, of whatever kind, a
declaration of a constant, of a variable or of a procedure `x` records the duplicate-declaration
error of its kind and leaves the scope tables as they are, so the first symbol stays in
effect; a constant declared under a free name is found under that name; and an assignment to a
name that resolves to a symbol other than a Variable records the assignment error. The texts
`const x = 1; var x; begin x := 1 end.` and
`const x = 1; procedure x; begin end; begin x := 1 end.` record both errors. -/
theorem one_namespace_per_scope :
    (∀ (sa : SemanticAnalyzer) (t : SymbolTable) (outer : List SymbolTable) (x : String),
      sa.symbol_tables_ = t :: outer → SymbolTable.contains t x = true →
      (∀ v : Int, (sa.visitConstDeclaration ⟨x, v⟩).symbol_tables_ = t :: outer ∧
        (sa.visitConstDeclaration ⟨x, v⟩).errors_ =
          sa.errors_ ++ ["Duplicate constant declaration: " ++ x]) ∧
      ((sa.visitVarDeclaration ⟨x⟩).symbol_tables_ = t :: outer ∧
        (sa.visitVarDeclaration ⟨x⟩).errors_ =
          sa.errors_ ++ ["Duplicate variable declaration: " ++ x]) ∧
      (∀ block : Block, ∃ sa1, visitProcedureDeclaration sa (.mk x block) = some sa1 ∧
        sa1.symbol_tables_ = t :: outer ∧
        sa1.errors_ = sa.errors_ ++ ["Duplicate procedure declaration: " ++ x])) ∧
    (∀ (sa : SemanticAnalyzer) (t : SymbolTable) (outer : List SymbolTable) (x : String)
      (v : Int), sa.symbol_tables_ = t :: outer → SymbolTable.contains t x = false →
      (sa.visitConstDeclaration ⟨x, v⟩).lookupSymbol x =
        some ⟨.Constant, some v, sa.current_level_, 0⟩) ∧
    (∀ (sa : SemanticAnalyzer) (x : String) (s : Symbol) (e : Expression),
      sa.lookupSymbol x = some s → s.type ≠ .Variable →
      visitAssignStatement sa x e = some (sa.addError ("只能给变量赋值: " ++ x))) ∧
    analyzeSource "const x = 1; var x; begin x := 1 end." =
      some (false, ["Duplicate variable declaration: x", "只能给变量赋值: x"]) ∧
    analyzeSource "const x = 1; procedure x; begin end; begin x := 1 end." =
      some (false, ["Duplicate procedure declaration: x", "只能给变量赋值: x"]) := by
  refine ⟨?_, ?_, ?_, by decide!, by decide!⟩
  · intro sa t outer x ht hc
    refine ⟨fun v => ?_, ?_, fun block => ?_⟩
    · unfold visitConstDeclaration
      simp only []
      rw [declareSymbol_cons _ _ _ t outer (by simpa [addInfo] using ht), if_pos hc]
      simp [addError, addInfo, ht]
    · unfold visitVarDeclaration
      simp only []
      rw [declareSymbol_cons _ _ _ t outer (by simpa [addInfo] using ht), if_pos hc]
      simp [addError, addInfo, ht]
    · simp only [visitProcedureDeclaration]
      rw [declareSymbol_cons _ _ _ t outer (by simpa [addInfo] using ht), if_pos hc]
      simp [addError, addInfo, ht]
  · intro sa t outer x v ht hc
    have hn : ¬ (SymbolTable.contains t x = true) := by simp [hc]
    unfold visitConstDeclaration
    simp only []
    rw [declareSymbol_cons _ _ _ t outer (by simpa [addInfo] using ht), if_neg hn]
    simp [lookupSymbol, lookupIn, SymbolTable.find]
  · intro sa x s e hl hs
    simp [visitAssignStatement, hl, hs, makeError]

theorem one_namespace_per_scope_witness :
    ((fresh.enterScope.visitConstDeclaration ⟨"x", 1⟩).visitVarDeclaration ⟨"x"⟩).errors_ =
      (fresh.enterScope.visitConstDeclaration ⟨"x", 1⟩).errors_ ++
        ["Duplicate variable declaration: " ++ "x"] ∧
    (fresh.enterScope.visitConstDeclaration ⟨"x", 1⟩).lookupSymbol "x" =
      some ⟨.Constant, some 1, 1, 0⟩ ∧
    visitAssignStatement (fresh.enterScope.visitConstDeclaration ⟨"x", 1⟩) "x"
        (.NumberExpression 1) =
      some ((fresh.enterScope.visitConstDeclaration ⟨"x", 1⟩).addError
        ("只能给变量赋值: " ++ "x")) :=
  ⟨((one_namespace_per_scope.1 (fresh.enterScope.visitConstDeclaration ⟨"x", 1⟩)
      [("x", ⟨.Constant, some 1, 1, 0⟩)] [] "x" (by decide) (by decide)).2.1).2,
   one_namespace_per_scope.2.1 fresh.enterScope [] [] "x" 1 rfl rfl,
   one_namespace_per_scope.2.2.1 (fresh.enterScope.visitConstDeclaration ⟨"x", 1⟩) "x"
     ⟨.Constant, some 1, 1, 0⟩ (.NumberExpression 1) (by decide) (by decide)⟩

end SemanticAnalyzer
end pl0

namespace pl0
namespace Parser

/-- C34: with `odd` as the lookahead, `parseCondition` is `parseExpression` run behind that
token, so it returns the tree of the expression itself; the trees that `parseExpression` and
`parseCondition` return hold no Unary node, and neither does any AST that `parse` returns. The
text `begin if odd x + 1 then y := 1 end.` parses to an If whose condition is `Add(x, 1)`. -/
theorem odd_leaves_no_trace :
    (∀ (n : Nat) (p : Parser), nextType p.tokens = .ODD →
      parseCondition n p = parseExpression n (p.drop 1)) ∧
    (∀ (n : Nat) (p p1 : Parser) (e : Expression),
      parseExpression n p = .ok e p1 → e.noUnary = true) ∧
    (∀ (n : Nat) (p p1 : Parser) (e : Expression),
      parseCondition n p = .ok e p1 → e.noUnary = true) ∧
    (∀ (p p1 : Parser) (program : Program),
      parse p = some (some program, p1) → program.block.noUnary = true) ∧
    parseSource "begin if odd x + 1 then y := 1 end." =
      some (some ⟨.mk [] [] [] (.BeginStatement [.IfStatement
        (.BinaryExpression (.IdentifierExpression "x") .Add (.NumberExpression 1))
        (.AssignStatement "y" (.NumberExpression 1))])⟩, []) := by
  refine ⟨?_, fun n p p1 e h => parseExpression_noUnary h,
    fun n p p1 e h => parseCondition_noUnary h, fun p p1 program h => (parse_good h).1.1,
    by decide!⟩
  intro n p h
  simp [parseCondition, h, advance_apply]

theorem odd_leaves_no_trace_witness :
    parseCondition 50 (Parser.ofSource "odd x + 1 then") =
      parseExpression 50 ((Parser.ofSource "odd x + 1 then").drop 1) ∧
    (Expression.BinaryExpression (.IdentifierExpression "x") .Add
      (.NumberExpression 1)).noUnary = true :=
  ⟨odd_leaves_no_trace.1 50 (Parser.ofSource "odd x + 1 then") (by decide!),
   odd_leaves_no_trace.2.1 50 ((Parser.ofSource "odd x + 1 then").drop 1)
     ((Parser.ofSource "odd x + 1 then").drop 4) _ (by decide!)⟩

/-- C38: when `parse` returns an AST it has read `k` tokens, the last of them the `'.'`, and on
every parser with at least as many tokens whose source begins with the same `k` tokens it
returns the same AST after the same `k` tokens; so it does on the source followed by any
further tokens, and the error list stays as it was. -/
theorem parse_stops_at_period (p p1 : Parser) (program : Program)
    (h : parse p = some (some program, p1)) :
    ∃ k, 1 ≤ k ∧ k ≤ p.len ∧ p1 = p.drop k ∧ nextType (p.drop (k - 1)).tokens = .PERIOD ∧
      (∀ q : Parser, q.lexer_.items.take k = p.lexer_.items.take k → p.len ≤ q.len →
        parse q = some (some program, q.drop k)) ∧
      (∀ (q : Parser) (t : List Lexeme), q.lexer_.items = p.lexer_.items ++ t →
        parse q = some (some program, q.drop k) ∧ (q.drop k).getErrors = q.getErrors) := by
  obtain ⟨_, k, k1, k2, k3, k4, k5⟩ := parse_good h
  refine ⟨k, k1, k2, k3, k4, k5, ?_⟩
  intro q t hq
  refine ⟨k5 q ?_ ?_, rfl⟩
  · rw [hq, List.take_append_of_le_length (by unfold len at k2; exact k2)]
  · unfold len
    rw [hq, List.length_append]
    omega

theorem parse_stops_at_period_witness :
    ∃ k, 1 ≤ k ∧ k ≤ (Parser.ofSource "begin end.").len ∧
      (Parser.ofSource "begin end.").drop 3 = (Parser.ofSource "begin end.").drop k ∧
      nextType ((Parser.ofSource "begin end.").drop (k - 1)).tokens = .PERIOD ∧
      (∀ q : Parser, q.lexer_.items.take k = (Parser.ofSource "begin end.").lexer_.items.take k →
        (Parser.ofSource "begin end.").len ≤ q.len →
        parse q = some (some ⟨.mk [] [] [] (.BeginStatement [])⟩, q.drop k)) ∧
      (∀ (q : Parser) (t : List Lexeme),
        q.lexer_.items = (Parser.ofSource "begin end.").lexer_.items ++ t →
        parse q = some (some ⟨.mk [] [] [] (.BeginStatement [])⟩, q.drop k) ∧
          (q.drop k).getErrors = q.getErrors) :=
  parse_stops_at_period (Parser.ofSource "begin end.") ((Parser.ofSource "begin end.").drop 3)
    ⟨.mk [] [] [] (.BeginStatement [])⟩ (by decide!)

/-- C40: a statement that `parseBeginStatement` returns is a Begin node whose elements are all
present; the list that the absorption loop of `parseIfStatement` returns holds only present
statements when it was entered with such a list; in every statement that `parseStatement`
returns and in every AST that `parse` returns, every element of every Begin node is present.
The text `begin ; ; end.` parses to a Begin with the empty list. -/
theorem begin_holds_present_statements :
    (∀ (n : Nat) (p p1 : Parser) (s : Statement), parseBeginStatement n p = .ok s p1 →
      ∃ ss, s = .BeginStatement ss ∧ ∀ x ∈ ss, x.isPresent = true) ∧
    (∀ (n : Nat) (acc ss : List Statement) (p p1 : Parser),
      parseIfLoop n acc p = .ok ss p1 → (∀ x ∈ acc, x.isPresent = true) →
      ∀ x ∈ ss, x.isPresent = true) ∧
    (∀ (n : Nat) (p p1 : Parser) (s : Statement), parseStatement n p = .ok s p1 →
      s.beginsPresent = true) ∧
    (∀ (p p1 : Parser) (program : Program),
      parse p = some (some program, p1) → program.block.beginsPresent = true) ∧
    (∀ ss : List Statement, (Statement.BeginStatement ss).beginsPresent = true →
      ∀ x ∈ ss, x.isPresent = true ∧ x.beginsPresent = true) ∧
    parseSource "begin ; ; end." = some (some ⟨.mk [] [] [] (.BeginStatement [])⟩, []) ∧
    parseSource "begin ; x := 1; ; call p; end." =
      some (some ⟨.mk [] [] [] (.BeginStatement [.AssignStatement "x" (.NumberExpression 1),
        .CallStatement "p"])⟩, []) := by
  refine ⟨?_, ?_, fun n p p1 s h => (parseStatement_tidy h).2,
    fun p p1 program h => (parse_good h).1.2, ?_, by decide!, by decide!⟩
  · intro n p p1 s h
    obtain ⟨ss, hs⟩ := parseBeginStatement_shape h
    have ht := (parseBeginStatement_tidy h).2
    rw [hs] at ht
    simp only [Statement.beginsPresent] at ht
    exact ⟨ss, hs, fun x hx => (beginsPresentList_mem ss ht x hx).1⟩
  · intro n acc ss p p1 h hacc x hx
    obtain ⟨⟨more, hm, hpres⟩, _⟩ := parseIfLoop_ok n acc p p1 ss h
    rw [hm] at hx
    rcases List.mem_append.mp hx with e | e
    · exact hacc x e
    · exact hpres x e
  · intro ss h
    simp only [Statement.beginsPresent] at h
    exact beginsPresentList_mem ss h

theorem begin_holds_present_statements_witness :
    (∃ ss, Statement.BeginStatement [.AssignStatement "x" (.NumberExpression 1)] =
        .BeginStatement ss ∧ ∀ x ∈ ss, x.isPresent = true) ∧
    (Statement.BeginStatement []).beginsPresent = true :=
  ⟨begin_holds_present_statements.1 50 (Parser.ofSource "begin ; x := 1; ; end")
      ((Parser.ofSource "begin ; x := 1; ; end").drop 8) _ (by decide!),
   begin_holds_present_statements.2.2.1 50 (Parser.ofSource "begin ; ; end")
      ((Parser.ofSource "begin ; ; end").drop 4) _ (by decide!)⟩

end Parser
end pl0
